import Mathlib

/-! Lambertian colour model (Horprasert et al.): training and classification pipeline.

Shallow embedding of `src/lambertain/LCM.cpp`, `SingleLCM.cpp` and
`MultipleLCM.cpp`.

Number model.  The C++ code computes with `float`/`double`.  Here a floating
value is a `Flt`: a finite value carried exactly as a rational, or one of the
IEEE special values `+inf`, `-inf`, `NaN`.  Finite arithmetic is exact (no
rounding, no overflow); the special values follow IEEE-754, so that a division
by a zero variation produces `±inf` or `NaN` as in the program and every
ordered comparison with `NaN` is false.  The sign of a zero is not tracked:
the only divisors that can be zero in the program are results of `sqrt`, which
are `+0`.

Rounding.  Where the result of the program depends on the rounding of `float`
and `double`, the functions of the source are given a second time in the
namespace `ieee`, with every operation rounded to binary32 or binary64 as its
C++ type requires (`roundBinary`, round to nearest, ties to even, each `float`
expression evaluated in `float`): the ranks of `selectThresholdMatrix`, the
distortions, the variations and the normalized distortions of the spatial
mode.  A theorem stated "in exact arithmetic" is about the functions without
rounding; the statements about the functions of `ieee` bound what the program
returns.
-/

namespace had

/-! ## Floating values -/

/-- Floating value: exact finite rational or IEEE special value. -/
inductive Flt where
  | nan : Flt
  | ninf : Flt
  | fin (q : ℚ) : Flt
  | pinf : Flt
  deriving DecidableEq

namespace Flt

/-- Unary minus. -/
def neg : Flt → Flt
  | nan => nan
  | ninf => pinf
  | fin q => fin (-q)
  | pinf => ninf

/-- IEEE addition, exact on finite operands. -/
def add : Flt → Flt → Flt
  | nan, _ => nan
  | _, nan => nan
  | pinf, ninf => nan
  | ninf, pinf => nan
  | pinf, _ => pinf
  | _, pinf => pinf
  | ninf, _ => ninf
  | _, ninf => ninf
  | fin a, fin b => fin (a + b)

/-- IEEE subtraction. -/
def sub (a b : Flt) : Flt := add a (neg b)

/-- Product of an infinity (positive when the flag is true) with a finite value. -/
def infTimes (positive : Bool) (q : ℚ) : Flt :=
  if q = 0 then nan
  else if (0 < q) = positive then pinf else ninf

/-- IEEE multiplication, exact on finite operands. -/
def mul : Flt → Flt → Flt
  | nan, _ => nan
  | _, nan => nan
  | pinf, pinf => pinf
  | ninf, ninf => pinf
  | pinf, ninf => ninf
  | ninf, pinf => ninf
  | pinf, fin q => infTimes true q
  | fin q, pinf => infTimes true q
  | ninf, fin q => infTimes false q
  | fin q, ninf => infTimes false q
  | fin a, fin b => fin (a * b)

/-- IEEE division, exact on finite operands with a non-zero divisor.  A finite
non-zero value divided by zero is an infinity of the sign of the dividend and
`0 / 0` is `NaN`. -/
def div : Flt → Flt → Flt
  | nan, _ => nan
  | _, nan => nan
  | pinf, fin q => if 0 ≤ q then pinf else ninf
  | ninf, fin q => if 0 ≤ q then ninf else pinf
  | pinf, _ => nan
  | ninf, _ => nan
  | fin _, pinf => fin 0
  | fin _, ninf => fin 0
  | fin a, fin b =>
      if b = 0 then (if a = 0 then nan else if 0 < a then pinf else ninf)
      else fin (a / b)

/-- The comparison `a < b` of IEEE values: false as soon as one side is `NaN`. -/
def lt : Flt → Flt → Bool
  | nan, _ => false
  | _, nan => false
  | ninf, ninf => false
  | ninf, _ => true
  | _, ninf => false
  | pinf, _ => false
  | fin _, pinf => true
  | fin a, fin b => decide (a < b)

/-- The comparison `a > b`. -/
def gt (a b : Flt) : Bool := lt b a

/-- The comparison `a == b` of IEEE values: `NaN` is equal to nothing. -/
def eq : Flt → Flt → Bool
  | nan, _ => false
  | _, nan => false
  | a, b => decide (a = b)

/-- The comparison `a >= b`. -/
def ge (a b : Flt) : Bool := gt a b || eq a b

/-- The comparison `a <= b`. -/
def le (a b : Flt) : Bool := lt a b || eq a b

end Flt

instance : Neg Flt := ⟨Flt.neg⟩
instance : Add Flt := ⟨Flt.add⟩
instance : Sub Flt := ⟨Flt.sub⟩
instance : Mul Flt := ⟨Flt.mul⟩
instance : Div Flt := ⟨Flt.div⟩
instance : OfNat Flt n := ⟨Flt.fin (n : ℚ)⟩
instance : NatCast Flt := ⟨fun n => Flt.fin (n : ℚ)⟩

/-- The square-root function of the C library on finite non-negative values.
Only what the development relies on is fixed: the root of zero is zero and the
root of a positive value is positive. -/
structure Sqrtf where
  f : ℚ → ℚ
  zero : f 0 = 0
  pos : ∀ x, 0 < x → 0 < f x

/-- The call `sqrt( v )`: `NaN` on negative values, exact on the specials. -/
def Flt.sqrt (sq : Sqrtf) : Flt → Flt
  | .nan => .nan
  | .ninf => .nan
  | .pinf => .pinf
  | .fin q => if q < 0 then .nan else .fin (sq.f q)

/-! ## Matrices (`cv::Mat`) -/

/-- A `cv::Mat` as the list of its rows. -/
abbrev Mat (α : Type) := List (List α)

/-- The lengths of the rows: two rectangular matrices have the same `size()`
exactly when they have the same shape. -/
def Mat.shape {α : Type} (m : Mat α) : List Nat := m.map List.length

/-- The constructor `cv::Mat( size, type, cv::Scalar( v ) )` with the size of `like`. -/
def Mat.filled {α β : Type} (like : Mat α) (v : β) : Mat β :=
  like.map (fun row => row.map (fun _ => v))

/-- Pixel of a `CV_8UC3` image (`cv::Vec3b`). -/
structure Vec3b where
  c0 : Fin 256
  c1 : Fin 256
  c2 : Fin 256
  deriving DecidableEq

/-- A `cv::Scalar`, of which the code uses the first three components. -/
structure Scalar where
  v0 : Flt
  v1 : Flt
  v2 : Flt
  deriving DecidableEq

/-- The call `cv::threshold( src, dst, thresh, maxval, cv::THRESH_BINARY )`:
`maxval` where `src > thresh`, zero elsewhere. -/
def threshold (src : Mat Flt) (thresh maxval : Flt) : Mat Flt :=
  src.map (fun row => row.map (fun v => if Flt.gt v thresh then maxval else 0))

/-- The matrix expression `- m`. -/
def Mat.neg (m : Mat Flt) : Mat Flt := m.map (fun row => row.map (fun v => -v))

/-- Bitwise conjunction of two `float` bit patterns, on the operands that
`classify` produces: both come out of `cv::threshold` with the same `maxval`,
so each is either the all-zero pattern `0.0f` or `maxval`.  The conjunction
with the zero pattern is zero and the conjunction of a pattern with itself is
that pattern. -/
def bitwiseAndF (a b : Flt) : Flt := if a = b then a else 0

/-- The matrix expression `a & b`. -/
def Mat.bitwiseAnd (a b : Mat Flt) : Mat Flt :=
  List.zipWith (fun ra rb => List.zipWith bitwiseAndF ra rb) a b

/-- The function `cvRound`: round to the nearest integer, ties to even. -/
def cvRound (q : ℚ) : Int :=
  let f := Rat.floor q
  let d := q - (f : ℚ)
  if d < 1 / 2 then f
  else if 1 / 2 < d then f + 1
  else if f % 2 = 0 then f else f + 1

/-- The conversion `cv::saturate_cast<uchar>` of a `float`. -/
def saturate_cast_uchar : Flt → Nat
  | .fin q =>
      let r := cvRound q
      if r < 0 then 0 else if 255 < r then 255 else r.toNat
  | _ => 0

/-- The call `m.convertTo( out, CV_8UC1 )`. -/
def convertTo8U (m : Mat Flt) : Mat Nat :=
  m.map (fun row => row.map saturate_cast_uchar)

/-- One row of `src.copyTo( dst, mask )`. -/
def copyRow : List Nat → List Nat → List Nat → List Nat
  | s :: ss, d :: ds, m :: ms => (if m ≠ 0 then s else d) :: copyRow ss ds ms
  | _, _, _ => []

/-- All rows of `src.copyTo( dst, mask )` once `dst` has the size of `src`. -/
def copyRows : Mat Nat → Mat Nat → Mat Nat → Mat Nat
  | s :: ss, d :: ds, m :: ms => copyRow s d m :: copyRows ss ds ms
  | _, _, _ => []

/-- The call `src.copyTo( dst, mask )`: the elements of `src` selected by the
non-zero elements of `mask` are written into `dst`.  A `dst` of another size is
reallocated and zero-filled first. -/
def copyTo (src dst mask : Mat Nat) : Mat Nat :=
  copyRows src (if dst.shape = src.shape then dst else Mat.filled src 0) mask

/-! ## `had::LCM` -/

/-- The data members of `had::LCM` (the debugging flag `_trace`, which only
switches diagnostic output, is left out). -/
structure LCM where
  _detection_rate : Flt
  _threshold_cdist : Flt
  _threshold_bdist_left : Flt
  _threshold_bdist_right : Flt
  deriving DecidableEq

namespace LCM

/-- Background pixel. -/
def BACKGROUND : Nat := 1
/-- Background shadow pixel. -/
def SHADOW : Nat := 2
/-- Background highlight pixel. -/
def HIGHLIGHT : Nat := 3
/-- Foreground pixel. -/
def FOREGROUND : Nat := 4

/-- The conversion `(float) pixel[ 0 ]`. -/
def px0 (pixel : Vec3b) : Flt := ((pixel.c0 : Nat) : Flt)
/-- The conversion `(float) pixel[ 1 ]`. -/
def px1 (pixel : Vec3b) : Flt := ((pixel.c1 : Nat) : Flt)
/-- The conversion `(float) pixel[ 2 ]`. -/
def px2 (pixel : Vec3b) : Flt := ((pixel.c2 : Nat) : Flt)

/-- `had::LCM::computeBrightnessDenominator`. -/
def computeBrightnessDenominator (mean stddev : Scalar) : Flt :=
  let b := mean.v0 / stddev.v0
  let g := mean.v1 / stddev.v1
  let r := mean.v2 / stddev.v2
  let denom := b * b + g * g + r * r
  if Flt.eq denom 0 then 1 else denom

/-- `had::LCM::computeBrightnessDistortion( pixel, brightness )`. -/
def computeBrightnessDistortion (pixel : Vec3b) (brightness : Scalar) : Flt :=
  px0 pixel * brightness.v0 + px1 pixel * brightness.v1 + px2 pixel * brightness.v2

/-- `had::LCM::computeChromacityDistortion( pixel, mean, stddev, bdist )`. -/
def computeChromacityDistortion (sq : Sqrtf) (pixel : Vec3b) (mean stddev : Scalar)
    (bdist : Flt) : Flt :=
  let b := (px0 pixel - bdist * mean.v0) / stddev.v0
  let g := (px1 pixel - bdist * mean.v1) / stddev.v1
  let r := (px2 pixel - bdist * mean.v2) / stddev.v2
  Flt.sqrt sq (r * r + g * g + b * b)

/-- The conversion `(int) v` of a `float`: truncation toward zero.  It is
undefined on the special values. -/
def toInt : Flt → Option Int
  | .fin q => some (if 0 ≤ q then Rat.floor q else -Rat.floor (-q))
  | _ => none

/-- The call `std::sort( first, last )` on floats: an insertion sort with the
comparison `<`.  On a range without `NaN` this is the ascending arrangement
that every sorting algorithm returns.  An element moves only past elements
that compare less than it: a `NaN` stays where it is and nothing moves past
one. -/
def stdSort (l : List Flt) : List Flt :=
  List.insertionSort (fun a b => Flt.lt b a = false) l

/-- The read `array[ index ]` in `selectThresholdMatrix` after the sort.  The
sorted range has one element more than the array (see `selectThresholdMatrix`),
an index outside that range reads unrelated memory and has no result. -/
def readSorted (sorted : List Flt) (index : Int) : Option Flt :=
  if index < 0 then none else sorted[index.toNat]?

/-- `had::LCM::selectThresholdMatrix`, returning `(left, right)`.  The array is
the row-major copy of `mat`, of `size = rows * cols` elements.  The source
sorts `array, array + size + 1`, one element more than the array holds: `oob`
is the float found in memory right behind the array, which takes part in the
sort. -/
def selectThresholdMatrix (oob : Flt) (mat : Mat Flt) (detection_rate : Flt) :
    Option (Flt × Flt) :=
  let array := mat.flatten
  let size := array.length
  match toInt ((1 - detection_rate) * (size : Flt)), toInt (detection_rate * (size : Flt)) with
  | some index_left, some index_right =>
      let sorted := stdSort (array ++ [oob])
      match readSorted sorted index_left, readSorted sorted index_right with
      | some left, some right => some (left, right)
      | _, _ => none
  | _, _ => none

/-- `had::LCM::selectThresholds`, returning `(threshold_cdist,
threshold_bdist_left, threshold_bdist_right)`.  `oob_c` and `oob_b` are the
floats behind the arrays of the first and of the second call of
`selectThresholdMatrix`. -/
def selectThresholds (oob_c oob_b : Flt) (detection_rate : Flt)
    (bdist_norm cdist_norm : Mat Flt) : Option (Flt × Flt × Flt) :=
  match selectThresholdMatrix oob_c cdist_norm detection_rate with
  | none => none
  | some (_dummy, threshold_cdist) =>
      match selectThresholdMatrix oob_b bdist_norm detection_rate with
      | none => none
      | some (threshold_bdist_left, threshold_bdist_right) =>
          some (threshold_cdist, threshold_bdist_left, threshold_bdist_right)

/-- The body of `had::LCM::classify` after the call of the virtual
`computeNormalizedDistortions`, whose two results are `bdist_norm` and
`cdist_norm`. -/
def classifyNormalized (t : LCM) (image : Mat Vec3b)
    (bdist_norm cdist_norm : Mat Flt) : Mat Nat :=
  -- CD_i > T_cd
  let mask_foreground := threshold cdist_norm t._threshold_cdist (FOREGROUND : Flt)
  -- alpha_i > T_alpha2
  let mask_background_left :=
    threshold bdist_norm t._threshold_bdist_left (BACKGROUND : Flt)
  -- alpha_i < T_alpha1
  let mask_background_right :=
    threshold (Mat.neg bdist_norm) (-t._threshold_bdist_right) (BACKGROUND : Flt)
  -- Combine the two background masks
  let mask_background := Mat.bitwiseAnd mask_background_left mask_background_right
  -- alpha_i < 0
  let mask_shadow := threshold (Mat.neg bdist_norm) 0 (SHADOW : Flt)
  let mask_foreground_8u := convertTo8U mask_foreground
  let mask_background_8u := convertTo8U mask_background
  let mask_shadow_8u := convertTo8U mask_shadow
  -- Now use the different masks to create the classification
  let out0 : Mat Nat := Mat.filled image HIGHLIGHT
  let out1 := copyTo mask_shadow_8u out0 mask_shadow_8u
  let out2 := copyTo mask_background_8u out1 mask_background_8u
  copyTo mask_foreground_8u out2 mask_foreground_8u

end LCM

/-! ## `cv::meanStdDev` -/

/-- The pixels of `image` at which `mask` is non-zero, in row-major order. -/
def selectedPixels (image : Mat Vec3b) (mask : Mat Nat) : List Vec3b :=
  ((image.flatten.zip mask.flatten).filter (fun pm => pm.2 ≠ 0)).map Prod.fst

/-- Mean and standard deviation of one channel over `n = vals.length` samples,
as `cv::meanStdDev` computes them: `mean = sum / n` and
`stddev = sqrt( max( sumsq / n - mean * mean, 0 ) )`, both zero when there is
no sample. -/
def channelMeanStdDev (sq : Sqrtf) (vals : List ℚ) : Flt × Flt :=
  if vals.length = 0 then (0, 0)
  else
    let n : ℚ := vals.length
    let mean := vals.sum / n
    let sqsum := (vals.map (fun v => v * v)).sum
    (.fin mean, Flt.sqrt sq (.fin (max (sqsum / n - mean * mean) 0)))

/-- The call `cv::meanStdDev` over a list of three-channel pixels. -/
def meanStdDev (sq : Sqrtf) (pixels : List Vec3b) : Scalar × Scalar :=
  let r0 := channelMeanStdDev sq (pixels.map (fun p => ((p.c0 : Nat) : ℚ)))
  let r1 := channelMeanStdDev sq (pixels.map (fun p => ((p.c1 : Nat) : ℚ)))
  let r2 := channelMeanStdDev sq (pixels.map (fun p => ((p.c2 : Nat) : ℚ)))
  (⟨r0.1, r1.1, r2.1⟩, ⟨r0.2, r1.2, r2.2⟩)

/-- The statement `if( stddev[ id ] == 0 ) stddev[ id ] = 1;`. -/
def clampStdDev (v : Flt) : Flt := if Flt.eq v 0 then 1 else v

/-- The statistics of one site: the stddev clamped channel by channel, then
the brightness weights `mean[ id ] / ( denom * stddev[ id ] * stddev[ id ] )`.
Returns `(mean, stddev, brightness)`. -/
def siteStatistics (ms : Scalar × Scalar) : Scalar × Scalar × Scalar :=
  let mean := ms.1
  let stddev : Scalar := ⟨clampStdDev ms.2.v0, clampStdDev ms.2.v1, clampStdDev ms.2.v2⟩
  let denom := LCM.computeBrightnessDenominator mean stddev
  let brightness : Scalar :=
    ⟨mean.v0 / (denom * stddev.v0 * stddev.v0),
     mean.v1 / (denom * stddev.v1 * stddev.v1),
     mean.v2 / (denom * stddev.v2 * stddev.v2)⟩
  (mean, stddev, brightness)

/-! ## `had::SingleLCM` -/

/-- The data members of `had::SingleLCM`. -/
structure SingleLCM extends LCM where
  _mean : Scalar
  _stddev : Scalar
  _brightness : Scalar
  _bdist_variation : Flt
  _cdist_variation : Flt
  deriving DecidableEq

namespace SingleLCM

/-- `had::SingleLCM::computeModelMeanStdDev`: returns `(_mean, _stddev, _brightness)`. -/
def computeModelMeanStdDev (sq : Sqrtf) (image : Mat Vec3b) (mask : Mat Nat) :
    Scalar × Scalar × Scalar :=
  siteStatistics (meanStdDev sq (selectedPixels image mask))

/-- The virtual `computeBrightnessDistortion( image, y, x )` on the pixel read
at `( y, x )`. -/
def computeBrightnessDistortion (_brightness : Scalar) (pixel : Vec3b) : Flt :=
  LCM.computeBrightnessDistortion pixel _brightness

/-- The virtual `computeChromacityDistortion( image, y, x, bdist )` on the pixel
read at `( y, x )`. -/
def computeChromacityDistortion (sq : Sqrtf) (_mean _stddev : Scalar) (pixel : Vec3b)
    (bdist : Flt) : Flt :=
  LCM.computeChromacityDistortion sq pixel _mean _stddev bdist

/-- One pass through the loop body of `had::SingleLCM::computeVariations` on a
selected pixel: the running sums `bdist_variation`, `cdist_variation` and the
counter `nb_pixels`. -/
def variationStep (sq : Sqrtf) (_mean _stddev _brightness : Scalar)
    (acc : Flt × Flt × Nat) (pixel : Vec3b) : Flt × Flt × Nat :=
  let bdist_current := computeBrightnessDistortion _brightness pixel
  let cdist_current := computeChromacityDistortion sq _mean _stddev pixel bdist_current
  (acc.1 + (bdist_current - 1) * (bdist_current - 1),
   acc.2.1 + cdist_current * cdist_current,
   acc.2.2 + 1)

/-- The loop of `had::SingleLCM::computeVariations`: the two running sums and
the number of selected pixels. -/
def accumulateVariations (sq : Sqrtf) (_mean _stddev _brightness : Scalar)
    (pixels : List Vec3b) : Flt × Flt × Nat :=
  pixels.foldl (variationStep sq _mean _stddev _brightness) (0, 0, 0)

/-- `had::SingleLCM::computeVariations`: returns `(_bdist_variation,
_cdist_variation)`, or nothing when the `CV_Assert` on the sizes fails. -/
def computeVariations (sq : Sqrtf) (_mean _stddev _brightness : Scalar)
    (image : Mat Vec3b) (mask : Mat Nat) : Option (Flt × Flt) :=
  if image.shape = mask.shape then
    let acc := accumulateVariations sq _mean _stddev _brightness (selectedPixels image mask)
    let nb_pixels := acc.2.2
    if nb_pixels > 0 then
      some (Flt.sqrt sq (acc.1 / (nb_pixels : Flt)), Flt.sqrt sq (acc.2.1 / (nb_pixels : Flt)))
    else
      -- Set to 1 to avoid error when dividing by these variations
      some (1, 1)
  else none

/-- The normalized distortions `(bn, cn)` of one pixel, as the loop body of
`had::SingleLCM::computeNormalizedDistortions` writes them. -/
def normalizedPixel (sq : Sqrtf) (m : SingleLCM) (pixel : Vec3b) : Flt × Flt :=
  let bdist_current := computeBrightnessDistortion m._brightness pixel
  let cdist_current := computeChromacityDistortion sq m._mean m._stddev pixel bdist_current
  ((bdist_current - 1) / m._bdist_variation, cdist_current / m._cdist_variation)

/-- `had::SingleLCM::computeNormalizedDistortions( image, ... )`: returns
`(out_bdist_norm, out_cdist_norm)`. -/
def computeNormalizedDistortions (sq : Sqrtf) (m : SingleLCM) (image : Mat Vec3b) :
    Mat Flt × Mat Flt :=
  (image.map (fun row => row.map (fun p => (normalizedPixel sq m p).1)),
   image.map (fun row => row.map (fun p => (normalizedPixel sq m p).2)))

/-- `had::SingleLCM::computeModel`, run by both constructors: the trained
model, or nothing when an assertion fails or a threshold is read outside the
sorted range. -/
def computeModel (sq : Sqrtf) (oob_c oob_b : Flt) (detection_rate : Flt)
    (image : Mat Vec3b) (mask : Mat Nat) : Option SingleLCM :=
  let stats := computeModelMeanStdDev sq image mask
  match computeVariations sq stats.1 stats.2.1 stats.2.2 image mask with
  | none => none
  | some (bvar, cvar) =>
      let m0 : SingleLCM :=
        { _detection_rate := detection_rate
          _threshold_cdist := 0
          _threshold_bdist_left := 0
          _threshold_bdist_right := 0
          _mean := stats.1
          _stddev := stats.2.1
          _brightness := stats.2.2
          _bdist_variation := bvar
          _cdist_variation := cvar }
      let norm := computeNormalizedDistortions sq m0 image
      match LCM.selectThresholds oob_c oob_b detection_rate norm.1 norm.2 with
      | none => none
      | some (t_cd, t_bl, t_bu) =>
          some { m0 with
                 _threshold_cdist := t_cd
                 _threshold_bdist_left := t_bl
                 _threshold_bdist_right := t_bu }

end SingleLCM

/-! ## `had::MultipleLCM` -/

/-- Ways in which a run ends without a result. -/
inductive Fault where
  /-- The call `exit( 0 )` of the constructor, after "ERROR: no input images!". -/
  | exited : Fault
  /-- A read outside a vector or a matrix, which C++ leaves undefined. -/
  | outOfBounds : Fault
  deriving DecidableEq

/-- The read `m.at<T>( y, x )`. -/
def Mat.at? {α : Type} (m : Mat α) (y x : Nat) : Except Fault α :=
  match m[y]? with
  | none => .error .outOfBounds
  | some row =>
      match row[x]? with
      | none => .error .outOfBounds
      | some v => .ok v

/-- Runs `f index element` over a list, counting the index from `i`. -/
def mapFromM {α β : Type} (f : Nat → α → Except Fault β) : Nat → List α → Except Fault (List β)
  | _, [] => .ok []
  | i, a :: l =>
      match f i a with
      | .error e => .error e
      | .ok b =>
          match mapFromM f (i + 1) l with
          | .error e => .error e
          | .ok bs => .ok (b :: bs)

/-- The double loop `for y < like.rows, for x < like.cols` that fills a matrix
of the size of `like` with `f y x`. -/
def mapSitesM {α β : Type} (like : Mat α) (f : Nat → Nat → Except Fault β) :
    Except Fault (Mat β) :=
  mapFromM (fun y row => mapFromM (fun x _ => f y x) 0 row) 0 like

/-- The pixels `images[ id_image ].at<cv::Vec3b>( y, x )` of all images. -/
def pixelsAt : List (Mat Vec3b) → Nat → Nat → Except Fault (List Vec3b)
  | [], _, _ => .ok []
  | image :: images, y, x =>
      match image.at? y x with
      | .error e => .error e
      | .ok p =>
          match pixelsAt images y x with
          | .error e => .error e
          | .ok ps => .ok (p :: ps)

/-- Matrices side by side: the column ranges `colRange( id * cols, ( id + 1 ) * cols )`. -/
def hcat {α : Type} : List (Mat α) → Mat α
  | [] => []
  | [b] => b
  | b :: bs => List.zipWith (fun r1 r2 => r1 ++ r2) b (hcat bs)

/-- The data members of `had::MultipleLCM`; the three-channel matrices hold one
`Scalar` per site. -/
structure MultipleLCM extends LCM where
  _mean : Mat Scalar
  _stddev : Mat Scalar
  _brightness : Mat Scalar
  _bdist_variation : Mat Flt
  _cdist_variation : Mat Flt
  deriving DecidableEq

namespace MultipleLCM

/-- `had::MultipleLCM::computeModelMeanStdDev`: for every site of `images[ 0 ]`
the triple `(mean, stddev, brightness)` stored in `_mean`, `_stddev` and
`_brightness`. -/
def computeModelMeanStdDev (sq : Sqrtf) (images : List (Mat Vec3b)) :
    Except Fault (Mat (Scalar × Scalar × Scalar)) :=
  match images with
  | [] => .error .outOfBounds
  | first :: _ =>
      mapSitesM first (fun y x =>
        match pixelsAt images y x with
        | .error e => .error e
        | .ok pixels => .ok (siteStatistics (meanStdDev sq pixels)))

/-- The virtual `computeBrightnessDistortion( image, y, x )`. -/
def computeBrightnessDistortion (_brightness : Mat Scalar) (image : Mat Vec3b) (y x : Nat) :
    Except Fault Flt :=
  match _brightness.at? y x, image.at? y x with
  | .ok brightness, .ok pixel => .ok (LCM.computeBrightnessDistortion pixel brightness)
  | .error e, _ => .error e
  | _, .error e => .error e

/-- The virtual `computeChromacityDistortion( image, y, x, bdist )`. -/
def computeChromacityDistortion (sq : Sqrtf) (_mean _stddev : Mat Scalar) (image : Mat Vec3b)
    (y x : Nat) (bdist : Flt) : Except Fault Flt :=
  match _mean.at? y x, _stddev.at? y x, image.at? y x with
  | .ok mean, .ok stddev, .ok pixel =>
      .ok (LCM.computeChromacityDistortion sq pixel mean stddev bdist)
  | .error e, _, _ => .error e
  | _, .error e, _ => .error e
  | _, _, .error e => .error e

/-- The inner loop of `had::MultipleLCM::computeVariations` at the site
`( y, x )`: the sums `(bdist_sum, cdist_sum)` over the images, started at `acc`. -/
def siteSums (sq : Sqrtf) (_mean _stddev _brightness : Mat Scalar) (y x : Nat) :
    List (Mat Vec3b) → Flt × Flt → Except Fault (Flt × Flt)
  | [], acc => .ok acc
  | image :: images, acc =>
      match computeBrightnessDistortion _brightness image y x with
      | .error e => .error e
      | .ok bdist_current =>
          match computeChromacityDistortion sq _mean _stddev image y x bdist_current with
          | .error e => .error e
          | .ok cdist_current =>
              siteSums sq _mean _stddev _brightness y x images
                (acc.1 + (bdist_current - 1) * (bdist_current - 1),
                 acc.2 + cdist_current * cdist_current)

/-- `had::MultipleLCM::computeVariations`: for every site of `images[ 0 ]` the
pair stored in `_bdist_variation` and `_cdist_variation`. -/
def computeVariations (sq : Sqrtf) (_mean _stddev _brightness : Mat Scalar)
    (images : List (Mat Vec3b)) : Except Fault (Mat (Flt × Flt)) :=
  match images with
  | [] => .error .outOfBounds
  | first :: _ =>
      let nb_pixels := images.length
      mapSitesM first (fun y x =>
        match siteSums sq _mean _stddev _brightness y x images (0, 0) with
        | .error e => .error e
        | .ok sums =>
            .ok (Flt.sqrt sq (sums.1 / (nb_pixels : Flt)),
                 Flt.sqrt sq (sums.2 / (nb_pixels : Flt))))

/-- The normalized distortions `(bn, cn)` that the loop body of
`had::MultipleLCM::computeNormalizedDistortions` writes for the site `( y, x )`
of `image`. -/
def normalizedSite (sq : Sqrtf) (m : MultipleLCM) (image : Mat Vec3b) (y x : Nat) :
    Except Fault (Flt × Flt) :=
  match computeBrightnessDistortion m._brightness image y x with
  | .error e => .error e
  | .ok bdist_current =>
      match computeChromacityDistortion sq m._mean m._stddev image y x bdist_current with
      | .error e => .error e
      | .ok cdist_current =>
          match m._bdist_variation.at? y x, m._cdist_variation.at? y x with
          | .ok bvar, .ok cvar => .ok ((bdist_current - 1) / bvar, cdist_current / cvar)
          | .error e, _ => .error e
          | _, .error e => .error e

/-- The blocks of `computeNormalizedDistortions`, one per image, each of the
size of `first = images[ 0 ]`. -/
def normalizedBlocks (sq : Sqrtf) (m : MultipleLCM) (first : Mat Vec3b) :
    List (Mat Vec3b) → Except Fault (List (Mat (Flt × Flt)))
  | [] => .ok []
  | image :: images =>
      match mapSitesM first (fun y x => normalizedSite sq m image y x) with
      | .error e => .error e
      | .ok block =>
          match normalizedBlocks sq m first images with
          | .error e => .error e
          | .ok blocks => .ok (block :: blocks)

/-- `had::MultipleLCM::computeNormalizedDistortions( images, ... )`: returns
`(out_bdist_norm, out_cdist_norm)`, both of `rows` by `cols * images.size()`. -/
def computeNormalizedDistortions (sq : Sqrtf) (m : MultipleLCM) (images : List (Mat Vec3b)) :
    Except Fault (Mat Flt × Mat Flt) :=
  match images with
  | [] => .error .outOfBounds
  | first :: _ =>
      match normalizedBlocks sq m first images with
      | .error e => .error e
      | .ok blocks =>
          let all := hcat blocks
          .ok (all.map (fun row => row.map Prod.fst), all.map (fun row => row.map Prod.snd))

/-- `had::MultipleLCM::computeModel`. -/
def computeModel (sq : Sqrtf) (oob_c oob_b : Flt) (detection_rate : Flt)
    (images : List (Mat Vec3b)) : Except Fault MultipleLCM :=
  match computeModelMeanStdDev sq images with
  | .error e => .error e
  | .ok stats =>
      let _mean : Mat Scalar := stats.map (fun row => row.map (fun s => s.1))
      let _stddev : Mat Scalar := stats.map (fun row => row.map (fun s => s.2.1))
      let _brightness : Mat Scalar := stats.map (fun row => row.map (fun s => s.2.2))
      match computeVariations sq _mean _stddev _brightness images with
      | .error e => .error e
      | .ok vars =>
          let m0 : MultipleLCM :=
            { _detection_rate := detection_rate
              _threshold_cdist := 0
              _threshold_bdist_left := 0
              _threshold_bdist_right := 0
              _mean := _mean
              _stddev := _stddev
              _brightness := _brightness
              _bdist_variation := vars.map (fun row => row.map Prod.fst)
              _cdist_variation := vars.map (fun row => row.map Prod.snd) }
          match computeNormalizedDistortions sq m0 images with
          | .error e => .error e
          | .ok norm =>
              match LCM.selectThresholds oob_c oob_b detection_rate norm.1 norm.2 with
              | none => .error .outOfBounds
              | some (t_cd, t_bl, t_bu) =>
                  .ok { m0 with
                        _threshold_cdist := t_cd
                        _threshold_bdist_left := t_bl
                        _threshold_bdist_right := t_bu }

/-- The constructor `MultipleLCM( images, detection_rate )`. -/
def construct (sq : Sqrtf) (oob_c oob_b : Flt) (detection_rate : Flt)
    (images : List (Mat Vec3b)) : Except Fault MultipleLCM :=
  if images.isEmpty then
    -- ERROR: no input images!
    .error .exited
  else computeModel sq oob_c oob_b detection_rate images

end MultipleLCM

/-! ## The two model variants behind `had::LCM` -/

/-- The element of a matrix at row `y` and column `x`, when there is one. -/
def Mat.get? {α : Type} (m : Mat α) (y x : Nat) : Option α :=
  match m[y]? with
  | none => none
  | some row => row[x]?

/-- A model: one of the two classes derived from `had::LCM`. -/
inductive Model where
  | single (m : SingleLCM) : Model
  | multiple (m : MultipleLCM) : Model

namespace Model

/-- The base-class members of a model. -/
def toLCM : Model → LCM
  | single m => m.toLCM
  | multiple m => m.toLCM

/-- The virtual `computeNormalizedDistortions( image, out_bdist_norm, out_cdist_norm )`. -/
def computeNormalizedDistortions (sq : Sqrtf) : Model → Mat Vec3b → Except Fault (Mat Flt × Mat Flt)
  | single m, image => .ok (SingleLCM.computeNormalizedDistortions sq m image)
  | multiple m, image => MultipleLCM.computeNormalizedDistortions sq m [image]

/-- `had::LCM::classify( image, out_classification )`. -/
def classify (sq : Sqrtf) (model : Model) (image : Mat Vec3b) : Except Fault (Mat Nat) :=
  match computeNormalizedDistortions sq model image with
  | .error e => .error e
  | .ok norm => .ok (LCM.classifyNormalized model.toLCM image norm.1 norm.2)

end Model

/-- The label that the layering of `classify` leaves on a pixel whose
normalized distortions are `bn` and `cn`: the foreground mask is written last,
the background mask before it, the shadow mask first. -/
def LCM.labelOf (t : LCM) (bn cn : Flt) : Nat :=
  if Flt.gt cn t._threshold_cdist then LCM.FOREGROUND
  else if Flt.gt bn t._threshold_bdist_left && Flt.lt bn t._threshold_bdist_right then
    LCM.BACKGROUND
  else if Flt.lt bn 0 then LCM.SHADOW
  else LCM.HIGHLIGHT

/-- Newton iteration for the integer square root of `n`, started at `x`. -/
def isqrtIter (n : Nat) : Nat → Nat → Nat
  | 0, x => x
  | fuel + 1, x =>
      let y := (x + n / x) / 2
      if y < x then isqrtIter n fuel y else x

/-- Integer square root. -/
def isqrt (n : Nat) : Nat := if n ≤ 1 then n else isqrtIter n n n

/-- A square root on the rationals: the quotient of the integer square roots
of numerator and denominator, which is exact on the squares of rationals. -/
def sqrtQfun (q : ℚ) : ℚ :=
  if q ≤ 0 then 0 else (isqrt q.num.toNat : ℚ) / (isqrt q.den : ℚ)

/-- The square root `sqrtQfun` with the two facts the development relies on. -/
def sqrtQ : Sqrtf where
  f := sqrtQfun
  zero := by simp [sqrtQfun]
  pos := by
    intro x hx
    have iter_pos : ∀ (n fuel y : Nat), 0 < n → 0 < y → 0 < isqrtIter n fuel y := by
      intro n fuel
      induction fuel with
      | zero => intro y _ hy; simpa [isqrtIter] using hy
      | succ k ih =>
          intro y hn hy
          simp only [isqrtIter]
          split
          · apply ih _ hn
            rcases Nat.lt_or_ge y 2 with h | h
            · have hy1 : y = 1 := by omega
              subst hy1
              simp only [Nat.div_one]
              omega
            · generalize n / y = d
              omega
          · exact hy
    have isqrt_pos : ∀ n : Nat, 0 < n → 0 < isqrt n := by
      intro n hn
      unfold isqrt
      split
      · exact hn
      · exact iter_pos n _ n hn hn
    have hn : 0 < x.num := Rat.num_pos.mpr hx
    have h1 : 0 < isqrt x.num.toNat := isqrt_pos _ (by omega)
    have h2 : 0 < isqrt x.den := isqrt_pos _ x.den_pos
    simp only [sqrtQfun, if_neg (not_le.mpr hx)]
    positivity

/-- A square root on the rationals that is exact on the squares of rationals
and lies above the root elsewhere: one Newton step from `sqrtQfun`. -/
def sqrtUpFun (q : ℚ) : ℚ :=
  if q ≤ 0 then 0
  else if sqrtQfun q * sqrtQfun q = q then sqrtQfun q
  else (sqrtQfun q + q / sqrtQfun q) / 2

/-- The square root `sqrtUpFun` with the two facts the development relies on. -/
def sqrtUp : Sqrtf where
  f := sqrtUpFun
  zero := by simp [sqrtUpFun]
  pos := by
    intro x hx
    have hs : 0 < sqrtQfun x := sqrtQ.pos x hx
    simp only [sqrtUpFun, if_neg (not_le.mpr hx)]
    split
    · exact hs
    · positivity

/-! ## A worked training run -/

/-- A training image of one row: four pixels of the training region, two of
each of two colours, followed by a darker pixel outside the region. -/
def demoImage : Mat Vec3b :=
  [[⟨30, 30, 90⟩, ⟨10, 10, 70⟩, ⟨30, 30, 90⟩, ⟨10, 10, 70⟩, ⟨18, 18, 72⟩]]

/-- The mask of the training region of `demoImage`. -/
def demoMask : Mat Nat := [[1, 1, 1, 1, 0]]

/-- The model that `computeModel` builds from `demoImage` and `demoMask` at the
detection rate 0.9 (see `demoModel_trained`). -/
def demoModel : SingleLCM :=
  { _detection_rate := .fin (9 / 10)
    _threshold_cdist := .fin 1
    _threshold_bdist_left := .fin (-1)
    _threshold_bdist_right := .fin 1
    _mean := ⟨.fin 20, .fin 20, .fin 80⟩
    _stddev := ⟨.fin 10, .fin 10, .fin 10⟩
    _brightness := ⟨.fin (1 / 360), .fin (1 / 360), .fin (1 / 90)⟩
    _bdist_variation := .fin (1 / 6)
    _cdist_variation := .fin 1 }

/-- The normalized brightness distortions of the pixels of `demoImage` under `demoModel`. -/
def demoBn : Mat Flt := [[.fin 1, .fin (-1), .fin 1, .fin (-1), .fin (-3 / 5)]]

/-- The normalized chromaticity distortions of the pixels of `demoImage` under `demoModel`. -/
def demoCn : Mat Flt := [[.fin 1, .fin 1, .fin 1, .fin 1, .fin 0]]

/-- A test image of two pixels that have the brightness of the mean of
`demoModel` and a chromaticity away from it. -/
def demoTest : Mat Vec3b := [[⟨40, 40, 70⟩, ⟨60, 60, 60⟩]]

/-! ## The uniform gray scenario -/

/-- The colour of the uniform training image. -/
def gray : Vec3b := ⟨128, 128, 128⟩

/-- The colour of the all-(0,0,0) test image. -/
def black : Vec3b := ⟨0, 0, 0⟩

/-- The colour of the all-(255,255,255) test image. -/
def white : Vec3b := ⟨255, 255, 255⟩

/-- The colour of the all-(0,255,0) test image. -/
def green : Vec3b := ⟨0, 255, 0⟩

/-- The statistics that training on uniform gray produces: the mean is the
colour, each stddev is 0 clamped to 1, each brightness weight is
`128 / ( 49152 * 1 * 1 )`, and both variations are `sqrt( 0 / nb_pixels ) = 0`. -/
def grayModel (t_cd t_bl t_bu : Flt) : SingleLCM :=
  { _detection_rate := .fin (9 / 10)
    _threshold_cdist := t_cd
    _threshold_bdist_left := t_bl
    _threshold_bdist_right := t_bu
    _mean := ⟨.fin 128, .fin 128, .fin 128⟩
    _stddev := ⟨.fin 1, .fin 1, .fin 1⟩
    _brightness := ⟨.fin (1 / 384), .fin (1 / 384), .fin (1 / 384)⟩
    _bdist_variation := .fin 0
    _cdist_variation := .fin 0 }

/-! ## Channels and positions -/

/-- The channel `id` of a pixel, `pixel[ id ]`. -/
def Vec3b.chan (p : Vec3b) : Fin 3 → Nat
  | 0 => p.c0
  | 1 => p.c1
  | 2 => p.c2

/-- The component `id` of a scalar, `scalar[ id ]`. -/
def Scalar.chan (s : Scalar) : Fin 3 → Flt
  | 0 => s.v0
  | 1 => s.v1
  | 2 => s.v2

/-- Every position `( y, x )` of `a` is a position of `b`: for rectangular
matrices, `a` has at most the height and at most the width of `b` (or no
element at all). -/
def Mat.fitsIn {α β : Type} (a : Mat α) (b : Mat β) : Prop :=
  ∀ y x : Nat, (Mat.get? a y x).isSome → (Mat.get? b y x).isSome

/-! ## Temporal training runs -/

/-- Two training frames of different sizes: one pixel, and one row of two pixels. -/
def mixedCorpus : List (Mat Vec3b) := [[[gray]], [[gray, gray]]]

/-- The model that the constructor builds from `mixedCorpus` at the detection
rate 0.9 (see `mixedCorpus_trained`): one site, the size of the first frame. -/
def mixedModel : MultipleLCM :=
  { _detection_rate := .fin (9 / 10)
    _threshold_cdist := .nan
    _threshold_bdist_left := .nan
    _threshold_bdist_right := .nan
    _mean := [[⟨.fin 128, .fin 128, .fin 128⟩]]
    _stddev := [[⟨.fin 1, .fin 1, .fin 1⟩]]
    _brightness := [[⟨.fin (1 / 384), .fin (1 / 384), .fin (1 / 384)⟩]]
    _bdist_variation := [[.fin 0]]
    _cdist_variation := [[.fin 0]] }

/-- The model that the constructor builds from the single frame of one row of
two gray pixels at the detection rate 0.9 (see `wideModel_trained`). -/
def wideModel : MultipleLCM :=
  { _detection_rate := .fin (9 / 10)
    _threshold_cdist := .nan
    _threshold_bdist_left := .nan
    _threshold_bdist_right := .nan
    _mean := [[⟨.fin 128, .fin 128, .fin 128⟩, ⟨.fin 128, .fin 128, .fin 128⟩]]
    _stddev := [[⟨.fin 1, .fin 1, .fin 1⟩, ⟨.fin 1, .fin 1, .fin 1⟩]]
    _brightness := [[⟨.fin (1 / 384), .fin (1 / 384), .fin (1 / 384)⟩,
      ⟨.fin (1 / 384), .fin (1 / 384), .fin (1 / 384)⟩]]
    _bdist_variation := [[.fin 0, .fin 0]]
    _cdist_variation := [[.fin 0, .fin 0]] }

/-- Three training frames of one row of two pixels that are identical except
at the first site, where channel 0 takes the values 100, 150 and 100. -/
def threeFrames : List (Mat Vec3b) :=
  [[[⟨100, 7, 7⟩, gray]], [[⟨150, 7, 7⟩, gray]], [[⟨100, 7, 7⟩, gray]]]

/-! ## Training regions -/

/-- A `cv::Rect`: the top-left corner and the extent. -/
structure Rect where
  x : Int
  y : Int
  width : Int
  height : Int
  deriving DecidableEq

/-- The test `cv::Rect::contains` of OpenCV: the rectangle covers the columns
`x <= px < x + width` and the rows `y <= py < y + height`. -/
def Rect.contains (rect : Rect) (px py : Int) : Bool :=
  decide (rect.x ≤ px ∧ px < rect.x + rect.width ∧ rect.y ≤ py ∧ py < rect.y + rect.height)

/-- Runs `f index element` over a list, counting the index from `i`. -/
def mapFrom {α β : Type} (f : Nat → α → β) : Nat → List α → List β
  | _, [] => []
  | i, a :: l => f i a :: mapFrom f (i + 1) l

/-- The call `cv::rectangle( img, pt1, pt2, value, CV_FILLED )` on a matrix of
one channel.  `pt1` and `pt2` are two opposite vertices, given as `(x, y)`; the
filled polygon includes its border, so every pixel of the matrix whose column
lies between the two `x` and whose row lies between the two `y`, both ends
included, takes `value`. -/
def cvRectangleFilled (img : Mat Nat) (pt1 pt2 : Int × Int) (value : Nat) : Mat Nat :=
  mapFrom (fun y row => mapFrom (fun x old =>
    if min pt1.1 pt2.1 ≤ (x : Int) ∧ (x : Int) ≤ max pt1.1 pt2.1 ∧
        min pt1.2 pt2.2 ≤ (y : Int) ∧ (y : Int) ≤ max pt1.2 pt2.2
    then value else old) 0 row) 0 img

/-- `had::LCM::fillRectangle`. -/
def LCM.fillRectangle (io_image : Mat Nat) (rect : Rect) (value : Nat) : Mat Nat :=
  cvRectangleFilled io_image (rect.x, rect.y)
    (rect.x + rect.width, rect.y + rect.height) value

/-- `had::LCM::fillRectangles`. -/
def LCM.fillRectangles (io_image : Mat Nat) (rectangles : List Rect) (value : Nat) : Mat Nat :=
  rectangles.foldl (fun img rect => LCM.fillRectangle img rect value) io_image

/-- The constructor `SingleLCM( image, detection_rate, regions )`: a mask of the
size of the image, zero except on the filled rectangles, then `computeModel`. -/
def SingleLCM.fromRegions (sq : Sqrtf) (oob_c oob_b : Flt) (image : Mat Vec3b)
    (detection_rate : Flt) (regions : List Rect) : Option SingleLCM :=
  let mask : Mat Nat := Mat.filled image 0
  let mask := LCM.fillRectangles mask regions 1
  SingleLCM.computeModel sq oob_c oob_b detection_rate image mask

/-- A training image of one row: a gray pixel, then a black pixel. -/
def grayBlack : Mat Vec3b := [[gray, black]]

/-! ## The ranks of `selectThresholdMatrix` -/

/-- The rank `int index_left = ( 1 - detection_rate ) * (float) size`. -/
def LCM.index_left (detection_rate : Flt) (size : Nat) : Option Int :=
  LCM.toInt ((1 - detection_rate) * (size : Flt))

/-- The rank `int index_right = detection_rate * (float) size`. -/
def LCM.index_right (detection_rate : Flt) (size : Nat) : Option Int :=
  LCM.toInt (detection_rate * (size : Flt))

/-- The value `v` is a largest element of `l`. -/
def Flt.IsMaxOf (v : Flt) (l : List Flt) : Prop :=
  v ∈ l ∧ ∀ w ∈ l, Flt.le w v = true

/-- The value `v` is a smallest element of `l`. -/
def Flt.IsMinOf (v : Flt) (l : List Flt) : Prop :=
  v ∈ l ∧ ∀ w ∈ l, Flt.le v w = true

instance (v : Flt) (l : List Flt) : Decidable (Flt.IsMaxOf v l) := by
  unfold Flt.IsMaxOf
  infer_instance

instance (v : Flt) (l : List Flt) : Decidable (Flt.IsMinOf v l) := by
  unfold Flt.IsMinOf
  infer_instance

/-- Two training images of one row that differ only in the third pixel. -/
def trainNear : Mat Vec3b := [[⟨30, 30, 90⟩, ⟨10, 10, 70⟩, ⟨18, 18, 72⟩]]

/-- See `trainNear`. -/
def trainFar : Mat Vec3b := [[⟨30, 30, 90⟩, ⟨10, 10, 70⟩, ⟨0, 0, 180⟩]]

/-- The mask that selects the first two pixels of a row of three. -/
def trainMask : Mat Nat := [[1, 1, 0]]

/-! ## The weighted residual -/

/-- The sum over the three channels of `((P_c - a * mean_c) / stddev_c)^2`:
the squared stddev-weighted distance from the pixel `P` to the copy of the mean
scaled by `a`. -/
def weightedResidual {K : Type} [Field K] (p0 p1 p2 m0 m1 m2 s0 s1 s2 a : K) : K :=
  ((p0 - a * m0) / s0) ^ 2 + ((p1 - a * m1) / s1) ^ 2 + ((p2 - a * m2) / s2) ^ 2

/-! ## Root-mean-square variations -/

/-- The sum of a list of floats, accumulated from 0 in the order of the list. -/
def Flt.sum (l : List Flt) : Flt := l.foldl (fun acc v => acc + v) 0

/-- The mean of the squares of a list of floats: the sum of the squares
divided by the number of values. -/
def meanSquare (vals : List Flt) : Flt :=
  Flt.sum (vals.map (fun v => v * v)) / (vals.length : Flt)

/-- The brightness distortion of a sample against the statistics
`(mean, stddev, brightness)` of its site. -/
def sampleAlpha (stats : Scalar × Scalar × Scalar) (p : Vec3b) : Flt :=
  LCM.computeBrightnessDistortion p stats.2.2

/-- The chromaticity distortion of a sample against the statistics of its
site, computed with the brightness distortion of the sample. -/
def sampleCD (sq : Sqrtf) (stats : Scalar × Scalar × Scalar) (p : Vec3b) : Flt :=
  LCM.computeChromacityDistortion sq p stats.1 stats.2.1 (sampleAlpha stats p)

/-- The variations as the spec words them: `sqrt( sum / sampleCount )` of
`(alpha - 1)^2` and of `CD^2` over the training samples of a site. -/
def rmsVariations (sq : Sqrtf) (stats : Scalar × Scalar × Scalar) (samples : List Vec3b) :
    Flt × Flt :=
  (Flt.sqrt sq (meanSquare (samples.map (fun p => sampleAlpha stats p - 1))),
   Flt.sqrt sq (meanSquare (samples.map (fun p => sampleCD sq stats p))))

/-- The normalized distortions `(bn, cn)` of a sample: `(alpha - 1)` over the
brightness variation and `CD` over the chromaticity variation of its site. -/
def normalizedSample (sq : Sqrtf) (stats : Scalar × Scalar × Scalar) (bvar cvar : Flt)
    (p : Vec3b) : Flt × Flt :=
  ((sampleAlpha stats p - 1) / bvar, sampleCD sq stats p / cvar)

/-- The number of values of `l` that are strictly greater than `t`. -/
def countAbove (t : Flt) (l : List Flt) : Nat :=
  (l.filter (fun v => Flt.gt v t)).length

/-- Two training frames of one pixel. -/
def twoFrames : List (Mat Vec3b) := [[[⟨30, 30, 90⟩]], [[⟨10, 10, 70⟩]]]

/-- The model that the constructor builds from `twoFrames` at the detection
rate 0.9 (see `twoFrames_trained`). -/
def twoFramesModel : MultipleLCM :=
  { _detection_rate := .fin (9 / 10)
    _threshold_cdist := .fin 1
    _threshold_bdist_left := .fin (-1)
    _threshold_bdist_right := .fin 0
    _mean := [[⟨.fin 20, .fin 20, .fin 80⟩]]
    _stddev := [[⟨.fin 10, .fin 10, .fin 10⟩]]
    _brightness := [[⟨.fin (1 / 360), .fin (1 / 360), .fin (1 / 90)⟩]]
    _bdist_variation := [[.fin (1 / 6)]]
    _cdist_variation := [[.fin 1]] }

/-! ## Binary floating-point formats -/

/-- The number of binary digits of `n`; `fuel` bounds the recursion. -/
def bitLength : Nat → Nat → Nat
  | 0, _ => 0
  | fuel + 1, n => if n = 0 then 0 else bitLength fuel (n / 2) + 1

/-- The power `2^e` for an integer exponent. -/
def pow2 (e : Int) : ℚ :=
  if 0 ≤ e then ((2 ^ e.toNat : Nat) : ℚ) else 1 / ((2 ^ (-e).toNat : Nat) : ℚ)

/-- The exponent `e` with `2^e <= a < 2^(e+1)` of a positive rational `a`. -/
def ilog2 (a : ℚ) : Int :=
  let e : Int := (bitLength a.num.natAbs a.num.natAbs : Int) - (bitLength a.den a.den : Int)
  if pow2 e ≤ a then e else e - 1

/-- Rounding to the nearest integer, a tie going to the even neighbour. -/
def roundHalfEven (q : ℚ) : Int :=
  let f := Rat.floor q
  let d := q - (f : ℚ)
  if d < 1 / 2 then f else if 1 / 2 < d then f + 1 else if f % 2 = 0 then f else f + 1

/-- Rounding of a rational to the nearest value of the binary format with `p`
significant digits and exponents from `emin` to `emax`, ties to even
(IEEE 754 `roundTiesToEven`): below `2^emin` the values are spaced as at
`2^emin` (subnormal range), and a result of `2^(emax+1)` or more is an
infinity.  The sign of a zero is not tracked. -/
def roundBinary (p : Nat) (emin emax : Int) (q : ℚ) : Flt :=
  if q = 0 then .fin 0
  else
    let a : ℚ := if 0 < q then q else -q
    let e : Int := if emin ≤ ilog2 a then ilog2 a else emin
    let quantum := pow2 (e - (p : Int) + 1)
    let r : ℚ := (roundHalfEven (a / quantum) : ℚ) * quantum
    if pow2 (emax + 1) ≤ r then (if 0 < q then .pinf else .ninf)
    else .fin (if 0 < q then r else -r)

/-- The correctly rounded square root of a non-negative rational in the binary
format of `roundBinary`.  The root is located between two neighbours of a grid
finer than the midpoints of the format, so the rounding of any point strictly
between them is the rounding of the root. -/
def sqrtBinary (p : Nat) (emin emax : Int) (q : ℚ) : Flt :=
  if q = 0 then .fin 0
  else
    let k : Nat := p + 2 + (-(ilog2 q)).toNat
    let scaled : ℚ := q * ((4 ^ k : Nat) : ℚ)
    let s : Nat := isqrt (Rat.floor scaled).toNat
    if ((s * s : Nat) : ℚ) = scaled then
      roundBinary p emin emax ((s : ℚ) / ((2 ^ k : Nat) : ℚ))
    else roundBinary p emin emax (((2 * s + 1 : Nat) : ℚ) / ((2 ^ (k + 1) : Nat) : ℚ))

/-- The conversion of a value to `float` (binary32). -/
def Flt.f32 : Flt → Flt
  | .fin q => roundBinary 24 (-126) 127 q
  | v => v

/-- The conversion of a value to `double` (binary64). -/
def Flt.f64 : Flt → Flt
  | .fin q => roundBinary 53 (-1022) 1023 q
  | v => v

/-- The call `sqrt( v )` on a `float`, with a `float` result. -/
def Flt.sqrtf : Flt → Flt
  | .nan => .nan
  | .ninf => .nan
  | .pinf => .pinf
  | .fin q => if q < 0 then .nan else sqrtBinary 24 (-126) 127 q

/-! ## The arithmetic of the source in binary32 and binary64 -/

namespace ieee

/-- `had::LCM::computeBrightnessDenominator` with the roundings of its types:
each quotient of two `double` is a `double` stored in a `float`, and the sum of
squares is evaluated in `float`, from left to right. -/
def computeBrightnessDenominator (mean stddev : Scalar) : Flt :=
  let b := Flt.f32 (Flt.f64 (mean.v0 / stddev.v0))
  let g := Flt.f32 (Flt.f64 (mean.v1 / stddev.v1))
  let r := Flt.f32 (Flt.f64 (mean.v2 / stddev.v2))
  let denom := Flt.f32 (Flt.f32 (Flt.f32 (b * b) + Flt.f32 (g * g)) + Flt.f32 (r * r))
  if Flt.eq denom 0 then 1 else denom

/-- The statistics of one site as `computeModelMeanStdDev` stores them in
`cv::Scalar` (four `double`): the clamp of the stddev, then the weights
`mean[ id ] / ( denom * stddev[ id ] * stddev[ id ] )` evaluated in `double`,
the `float` denominator being promoted.  The argument is the pair of `double`
triples that `cv::meanStdDev` returned. -/
def siteStatistics (ms : Scalar × Scalar) : Scalar × Scalar × Scalar :=
  let mean := ms.1
  let stddev : Scalar := ⟨clampStdDev ms.2.v0, clampStdDev ms.2.v1, clampStdDev ms.2.v2⟩
  let denom := computeBrightnessDenominator mean stddev
  let brightness : Scalar :=
    ⟨Flt.f64 (mean.v0 / Flt.f64 (Flt.f64 (denom * stddev.v0) * stddev.v0)),
     Flt.f64 (mean.v1 / Flt.f64 (Flt.f64 (denom * stddev.v1) * stddev.v1)),
     Flt.f64 (mean.v2 / Flt.f64 (Flt.f64 (denom * stddev.v2) * stddev.v2))⟩
  (mean, stddev, brightness)

/-- `had::LCM::computeBrightnessDistortion( pixel, brightness )`: the products
of a `float` and a `double` and their sum are evaluated in `double`, and the
result is returned as a `float`. -/
def computeBrightnessDistortion (pixel : Vec3b) (brightness : Scalar) : Flt :=
  Flt.f32 (Flt.f64 (Flt.f64 (Flt.f64 (LCM.px0 pixel * brightness.v0)
      + Flt.f64 (LCM.px1 pixel * brightness.v1))
    + Flt.f64 (LCM.px2 pixel * brightness.v2)))

/-- `had::LCM::computeChromacityDistortion( pixel, mean, stddev, bdist )`: each
residual is evaluated in `double` and stored in a `float`, the sum of squares
is evaluated in `float`, and the root is a `float`. -/
def computeChromacityDistortion (pixel : Vec3b) (mean stddev : Scalar) (bdist : Flt) : Flt :=
  let b := Flt.f32 (Flt.f64 (Flt.f64 (LCM.px0 pixel - Flt.f64 (bdist * mean.v0)) / stddev.v0))
  let g := Flt.f32 (Flt.f64 (Flt.f64 (LCM.px1 pixel - Flt.f64 (bdist * mean.v1)) / stddev.v1))
  let r := Flt.f32 (Flt.f64 (Flt.f64 (LCM.px2 pixel - Flt.f64 (bdist * mean.v2)) / stddev.v2))
  Flt.sqrtf (Flt.f32 (Flt.f32 (Flt.f32 (r * r) + Flt.f32 (g * g)) + Flt.f32 (b * b)))

/-- One pass through the loop body of `had::SingleLCM::computeVariations` on a
selected pixel, in `float`. -/
def variationStep (_mean _stddev _brightness : Scalar) (acc : Flt × Flt × Nat)
    (pixel : Vec3b) : Flt × Flt × Nat :=
  let bdist_current := computeBrightnessDistortion pixel _brightness
  let cdist_current := computeChromacityDistortion pixel _mean _stddev bdist_current
  (Flt.f32 (acc.1 + Flt.f32 (Flt.f32 (bdist_current - 1) * Flt.f32 (bdist_current - 1))),
   Flt.f32 (acc.2.1 + Flt.f32 (cdist_current * cdist_current)),
   acc.2.2 + 1)

/-- `had::SingleLCM::computeVariations` in `float`: returns `(_bdist_variation,
_cdist_variation)`, or nothing when the `CV_Assert` on the sizes fails. -/
def computeVariations (_mean _stddev _brightness : Scalar) (image : Mat Vec3b)
    (mask : Mat Nat) : Option (Flt × Flt) :=
  if image.shape = mask.shape then
    let acc := (selectedPixels image mask).foldl (variationStep _mean _stddev _brightness)
      (0, 0, 0)
    let nb_pixels := acc.2.2
    if nb_pixels > 0 then
      some (Flt.sqrtf (Flt.f32 (acc.1 / Flt.f32 (nb_pixels : Flt))),
            Flt.sqrtf (Flt.f32 (acc.2.1 / Flt.f32 (nb_pixels : Flt))))
    else
      some (1, 1)
  else none

/-- The normalized distortions `(bn, cn)` of one pixel, as the loop body of
`had::SingleLCM::computeNormalizedDistortions` writes them, in `float`. -/
def normalizedPixel (_mean _stddev _brightness : Scalar) (_bdist_variation _cdist_variation : Flt)
    (pixel : Vec3b) : Flt × Flt :=
  let bdist_current := computeBrightnessDistortion pixel _brightness
  let cdist_current := computeChromacityDistortion pixel _mean _stddev bdist_current
  (Flt.f32 (Flt.f32 (bdist_current - 1) / _bdist_variation),
   Flt.f32 (cdist_current / _cdist_variation))

/-- The rank `int index_left = ( 1 - detection_rate ) * (float) size` in
`float`; the parameter `detection_rate` is a `float`. -/
def index_left (detection_rate : Flt) (size : Nat) : Option Int :=
  LCM.toInt (Flt.f32 (Flt.f32 (1 - Flt.f32 detection_rate) * Flt.f32 (size : Flt)))

/-- The rank `int index_right = detection_rate * (float) size` in `float`. -/
def index_right (detection_rate : Flt) (size : Nat) : Option Int :=
  LCM.toInt (Flt.f32 (Flt.f32 detection_rate * Flt.f32 (size : Flt)))

/-- `had::LCM::selectThresholdMatrix` with the ranks evaluated in `float`,
returning `(left, right)`; `oob` is the float behind the array, which the sort
takes in (see `LCM.selectThresholdMatrix`). -/
def selectThresholdMatrix (oob : Flt) (mat : Mat Flt) (detection_rate : Flt) :
    Option (Flt × Flt) :=
  let array := mat.flatten
  let size := array.length
  match index_left detection_rate size, index_right detection_rate size with
  | some i_left, some i_right =>
      let sorted := LCM.stdSort (array ++ [oob])
      match LCM.readSorted sorted i_left, LCM.readSorted sorted i_right with
      | some left, some right => some (left, right)
      | _, _ => none
  | _, _ => none

/-- `had::LCM::selectThresholds` with the ranks evaluated in `float`, returning
`(threshold_cdist, threshold_bdist_left, threshold_bdist_right)`. -/
def selectThresholds (oob_c oob_b : Flt) (detection_rate : Flt)
    (bdist_norm cdist_norm : Mat Flt) : Option (Flt × Flt × Flt) :=
  match selectThresholdMatrix oob_c cdist_norm detection_rate with
  | none => none
  | some (_dummy, threshold_cdist) =>
      match selectThresholdMatrix oob_b bdist_norm detection_rate with
      | none => none
      | some (threshold_bdist_left, threshold_bdist_right) =>
          some (threshold_cdist, threshold_bdist_left, threshold_bdist_right)

end ieee

/-- A training image of one row whose two pixels have the mean (1,1,4) and the
standard deviation (1,1,3). -/
def twoPixels : Mat Vec3b := [[⟨0, 0, 1⟩, ⟨2, 2, 7⟩]]

/-- The statistics `(mean, stddev, brightness)` of `twoPixels` under the mask
that selects both pixels, with the roundings of the source. -/
def twoPixelsStats : Scalar × Scalar × Scalar :=
  ieee.siteStatistics (meanStdDev sqrtQ (selectedPixels twoPixels [[1, 1]]))

/-- The value `v` approximates the non-negative `x` with the relative error
`e`, where `x` is zero (and then `v` is zero as well) or lies in `[lo, hi]`. -/
def Approx (e lo hi x v : ℚ) : Prop :=
  (x = 0 ∧ v = 0) ∨ (lo ≤ x ∧ x ≤ hi ∧ x * (1 - e) ≤ v ∧ v ≤ x * (1 + e))

/-! # Theorems -/

/-! ## Comparisons of floating values -/

theorem Flt.ofNat_eq (n : Nat) : (OfNat.ofNat n : Flt) = Flt.fin (n : ℚ) := rfl

theorem Flt.natCast_eq (n : Nat) : ((n : Nat) : Flt) = Flt.fin (n : ℚ) := rfl

theorem Flt.neg_eq (a : Flt) : -a = Flt.neg a := rfl

theorem Flt.gt_neg_neg (a b : Flt) : Flt.gt (-a) (-b) = Flt.lt a b := by
  cases a <;> cases b <;> simp [Flt.gt, Flt.lt, Flt.neg, Flt.neg_eq]

theorem Flt.gt_neg_zero (a : Flt) : Flt.gt (-a) 0 = Flt.lt a 0 := by
  cases a <;> simp [Flt.gt, Flt.lt, Flt.neg, Flt.neg_eq, Flt.ofNat_eq]

/-! ## The layering of `classify`, pixel by pixel -/

theorem Mat.shape_map {α β : Type} (m : Mat α) (f : α → β) :
    Mat.shape (m.map (fun row => row.map f)) = Mat.shape m := by
  simp [Mat.shape]

theorem zipWith_map_same {α β γ δ : Type} (f : β → γ → δ) (g : α → β) (h : α → γ)
    (l : List α) : List.zipWith f (l.map g) (l.map h) = l.map (fun a => f (g a) (h a)) := by
  induction l with
  | nil => rfl
  | cons a l ih => simp [ih]

theorem copyRow_map {α : Type} (s d m : α → Nat) (l : List α) :
    copyRow (l.map s) (l.map d) (l.map m) = l.map (fun a => if m a ≠ 0 then s a else d a) := by
  induction l with
  | nil => rfl
  | cons a l ih => simp [copyRow, ih]

theorem copyRows_map {α : Type} (s d m : α → Nat) (l : Mat α) :
    copyRows (l.map (fun row => row.map s)) (l.map (fun row => row.map d))
        (l.map (fun row => row.map m))
      = l.map (fun row => row.map (fun a => if m a ≠ 0 then s a else d a)) := by
  induction l with
  | nil => rfl
  | cons a l ih => simp [copyRows, copyRow_map, ih]

theorem copyTo_map {α : Type} (s d m : α → Nat) (l : Mat α) :
    copyTo (l.map (fun row => row.map s)) (l.map (fun row => row.map d))
        (l.map (fun row => row.map m))
      = l.map (fun row => row.map (fun a => if m a ≠ 0 then s a else d a)) := by
  unfold copyTo
  rw [if_pos (by rw [Mat.shape_map, Mat.shape_map]), copyRows_map]

theorem Mat.filled_eq_map {α β γ : Type} (like : Mat α) (l : Mat β) (v : γ)
    (h : Mat.shape l = Mat.shape like) :
    Mat.filled like v = l.map (fun row => row.map (fun _ => v)) := by
  induction like generalizing l with
  | nil =>
      cases l with
      | nil => rfl
      | cons b l => simp [Mat.shape] at h
  | cons a like ih =>
      cases l with
      | nil => simp [Mat.shape] at h
      | cons b l =>
          simp only [Mat.shape, List.map_cons, List.cons.injEq] at h
          have := ih l h.2
          simp only [Mat.filled] at this
          simp only [Mat.filled, List.map_cons, this, List.cons.injEq, and_true]
          rw [List.map_const', List.map_const', h.1]

theorem saturate_background : saturate_cast_uchar (Flt.fin 1) = 1 := by decide!
theorem saturate_shadow : saturate_cast_uchar (Flt.fin 2) = 2 := by decide!
theorem saturate_foreground : saturate_cast_uchar (Flt.fin 4) = 4 := by decide!
theorem saturate_zero : saturate_cast_uchar (Flt.fin 0) = 0 := by decide!

/-- The masks of `classify` leave on each pixel the label `labelOf`. -/
theorem label_layers (t : LCM) (b c : Flt) :
    (if saturate_cast_uchar (if Flt.gt c t._threshold_cdist then (LCM.FOREGROUND : Flt) else 0) ≠ 0
      then saturate_cast_uchar (if Flt.gt c t._threshold_cdist then (LCM.FOREGROUND : Flt) else 0)
      else
        if saturate_cast_uchar
            (bitwiseAndF (if Flt.gt b t._threshold_bdist_left then (LCM.BACKGROUND : Flt) else 0)
              (if Flt.gt (-b) (-t._threshold_bdist_right) then (LCM.BACKGROUND : Flt) else 0)) ≠ 0
        then saturate_cast_uchar
            (bitwiseAndF (if Flt.gt b t._threshold_bdist_left then (LCM.BACKGROUND : Flt) else 0)
              (if Flt.gt (-b) (-t._threshold_bdist_right) then (LCM.BACKGROUND : Flt) else 0))
        else
          if saturate_cast_uchar (if Flt.gt (-b) 0 then (LCM.SHADOW : Flt) else 0) ≠ 0
          then saturate_cast_uchar (if Flt.gt (-b) 0 then (LCM.SHADOW : Flt) else 0)
          else LCM.HIGHLIGHT)
      = LCM.labelOf t b c := by
  have h10 : (Flt.fin 1 = Flt.fin 0) = False := by simp
  rw [Flt.gt_neg_neg, Flt.gt_neg_zero]
  unfold LCM.labelOf
  simp only [LCM.FOREGROUND, LCM.BACKGROUND, LCM.SHADOW, LCM.HIGHLIGHT, Flt.natCast_eq,
    Flt.ofNat_eq, Nat.cast_ofNat, Nat.cast_one, Nat.cast_zero, bitwiseAndF]
  cases Flt.gt c t._threshold_cdist <;> cases Flt.gt b t._threshold_bdist_left <;>
    cases Flt.lt b t._threshold_bdist_right <;> cases Flt.lt b (Flt.fin 0) <;>
    simp [saturate_background, saturate_shadow, saturate_foreground, saturate_zero]

/-- The body of `classify` on normalized distortions given pixel-wise over a
matrix `l` of the size of the image. -/
theorem LCM.classifyNormalized_map {α : Type} (t : LCM) (image : Mat Vec3b) (l : Mat α)
    (hb hc : α → Flt) (hs : Mat.shape l = Mat.shape image) :
    LCM.classifyNormalized t image (l.map (fun row => row.map hb)) (l.map (fun row => row.map hc))
      = l.map (fun row => row.map (fun a => LCM.labelOf t (hb a) (hc a))) := by
  unfold LCM.classifyNormalized
  simp only [threshold, Mat.neg, convertTo8U, Mat.bitwiseAnd, List.map_map, Function.comp_def]
  rw [Mat.filled_eq_map image l LCM.HIGHLIGHT hs]
  rw [zipWith_map_same]
  simp only [zipWith_map_same]
  simp only [List.map_map, Function.comp_def, copyTo_map, label_layers]

/-! ## Shape of the normalized distortions -/

theorem mapFromM_length {α β : Type} (f : Nat → α → Except Fault β) (l : List α) :
    ∀ (i : Nat) (r : List β), mapFromM f i l = .ok r → r.length = l.length := by
  induction l with
  | nil =>
      intro i r h
      simp only [mapFromM, Except.ok.injEq] at h
      simp [← h]
  | cons a l ih =>
      intro i r h
      simp only [mapFromM] at h
      split at h
      · cases h
      · split at h
        · cases h
        · rename_i bs hbs
          simp only [Except.ok.injEq] at h
          simp [← h, ih _ _ hbs]

theorem mapFromM_shape {α β : Type} (g : Nat → List α → Except Fault (List β))
    (hg : ∀ y row r, g y row = .ok r → r.length = row.length) (l : Mat α) :
    ∀ (i : Nat) (r : Mat β), mapFromM g i l = .ok r → Mat.shape r = Mat.shape l := by
  induction l with
  | nil =>
      intro i r h
      simp only [mapFromM, Except.ok.injEq] at h
      subst h
      rfl
  | cons a l ih =>
      intro i r h
      simp only [mapFromM] at h
      split at h
      · cases h
      · rename_i b hb
        split at h
        · cases h
        · rename_i bs hbs
          simp only [Except.ok.injEq] at h
          have h1 := hg _ _ _ hb
          have h2 := ih _ _ hbs
          simp only [Mat.shape] at h2
          simp [← h, Mat.shape, h1, h2]

theorem mapSitesM_shape {α β : Type} (like : Mat α) (f : Nat → Nat → Except Fault β)
    (r : Mat β) (h : mapSitesM like f = .ok r) : Mat.shape r = Mat.shape like :=
  mapFromM_shape _ (fun _ row r hr => mapFromM_length _ row 0 r hr) like 0 r h

/-- In both variants the two normalized matrices are the two components of one
matrix of pairs that has the size of the image. -/
theorem Model.normalized_repr (sq : Sqrtf) (model : Model) (image : Mat Vec3b)
    (bn cn : Mat Flt) (h : Model.computeNormalizedDistortions sq model image = .ok (bn, cn)) :
    ∃ l : Mat (Flt × Flt), Mat.shape l = Mat.shape image ∧
      bn = l.map (fun row => row.map Prod.fst) ∧ cn = l.map (fun row => row.map Prod.snd) := by
  cases model with
  | single m =>
      refine ⟨image.map (fun row => row.map (fun p => SingleLCM.normalizedPixel sq m p)),
        Mat.shape_map _ _, ?_, ?_⟩
      · simp only [Model.computeNormalizedDistortions, SingleLCM.computeNormalizedDistortions,
          Except.ok.injEq, Prod.mk.injEq] at h
        simp [← h.1, Function.comp_def]
      · simp only [Model.computeNormalizedDistortions, SingleLCM.computeNormalizedDistortions,
          Except.ok.injEq, Prod.mk.injEq] at h
        simp [← h.2, Function.comp_def]
  | multiple m =>
      simp only [Model.computeNormalizedDistortions, MultipleLCM.computeNormalizedDistortions,
        MultipleLCM.normalizedBlocks] at h
      split at h
      · cases h
      · rename_i blocks hblocks
        split at hblocks
        · cases hblocks
        · rename_i block hblock
          simp only [Except.ok.injEq] at hblocks
          subst hblocks
          simp only [hcat, Except.ok.injEq, Prod.mk.injEq] at h
          exact ⟨block, mapSitesM_shape _ _ _ hblock, h.1.symm, h.2.symm⟩

theorem Mat.get?_map {α β : Type} (m : Mat α) (f : α → β) (y x : Nat) :
    Mat.get? (m.map (fun row => row.map f)) y x = (Mat.get? m y x).map f := by
  unfold Mat.get?
  rw [List.getElem?_map]
  cases m[y]? with
  | none => rfl
  | some row => simp

/-- The label of every pixel: `classify` returns a map that holds, at each
position, the label `labelOf` of the normalized distortions at that position. -/
theorem Model.classify_pixel (sq : Sqrtf) (model : Model) (image : Mat Vec3b)
    (bn cn : Mat Flt) (h : Model.computeNormalizedDistortions sq model image = .ok (bn, cn)) :
    ∃ out, Model.classify sq model image = .ok out ∧ Mat.shape out = Mat.shape image ∧
      (∀ row ∈ out, ∀ v ∈ row, ∃ b c, v = LCM.labelOf model.toLCM b c) ∧
      ∀ y x b c, Mat.get? bn y x = some b → Mat.get? cn y x = some c →
        Mat.get? out y x = some (LCM.labelOf model.toLCM b c) := by
  obtain ⟨l, hl, hb, hc⟩ := Model.normalized_repr sq model image bn cn h
  refine ⟨l.map (fun row => row.map (fun a => LCM.labelOf model.toLCM a.1 a.2)), ?_,
    (Mat.shape_map _ _).trans hl, ?_, ?_⟩
  · simp only [Model.classify, h]
    rw [hb, hc, LCM.classifyNormalized_map _ _ _ _ _ hl]
  · intro row hrow v hv
    simp only [List.mem_map] at hrow
    obtain ⟨r, _, rfl⟩ := hrow
    simp only [List.mem_map] at hv
    obtain ⟨a, _, rfl⟩ := hv
    exact ⟨a.1, a.2, rfl⟩
  · intro y x b c hby hcy
    rw [hb, Mat.get?_map] at hby
    rw [hc, Mat.get?_map] at hcy
    rw [Mat.get?_map]
    cases hg : Mat.get? l y x with
    | none => simp [hg] at hby
    | some a =>
        simp only [hg, Option.map_some', Option.some.injEq] at hby hcy
        simp [hby, hcy]

/-! ## The decision of one pixel -/

theorem LCM.labelOf_foreground_iff (t : LCM) (b c : Flt) :
    LCM.labelOf t b c = LCM.FOREGROUND ↔ Flt.gt c t._threshold_cdist = true := by
  unfold LCM.labelOf
  simp only [LCM.FOREGROUND, LCM.BACKGROUND, LCM.SHADOW, LCM.HIGHLIGHT]
  cases Flt.gt c t._threshold_cdist <;>
    cases (Flt.gt b t._threshold_bdist_left && Flt.lt b t._threshold_bdist_right) <;>
    cases Flt.lt b 0 <;> simp

theorem LCM.labelOf_highlight_iff (t : LCM) (b c : Flt) :
    LCM.labelOf t b c = LCM.HIGHLIGHT ↔
      (Flt.gt c t._threshold_cdist = false ∧ Flt.lt b 0 = false ∧
        ¬ (Flt.gt b t._threshold_bdist_left = true ∧ Flt.lt b t._threshold_bdist_right = true)) := by
  unfold LCM.labelOf
  simp only [LCM.FOREGROUND, LCM.BACKGROUND, LCM.SHADOW, LCM.HIGHLIGHT]
  cases Flt.gt c t._threshold_cdist <;> cases Flt.gt b t._threshold_bdist_left <;>
    cases Flt.lt b t._threshold_bdist_right <;> cases Flt.lt b 0 <;> simp

theorem LCM.labelOf_background (t : LCM) (b c : Flt)
    (hc : Flt.gt c t._threshold_cdist = false)
    (hl : Flt.gt b t._threshold_bdist_left = true)
    (hr : Flt.lt b t._threshold_bdist_right = true) :
    LCM.labelOf t b c = LCM.BACKGROUND := by
  simp [LCM.labelOf, hc, hl, hr]

theorem LCM.labelOf_code (t : LCM) (b c : Flt) :
    LCM.labelOf t b c = LCM.BACKGROUND ∨ LCM.labelOf t b c = LCM.SHADOW ∨
      LCM.labelOf t b c = LCM.HIGHLIGHT ∨ LCM.labelOf t b c = LCM.FOREGROUND := by
  unfold LCM.labelOf
  cases Flt.gt c t._threshold_cdist <;>
    cases (Flt.gt b t._threshold_bdist_left && Flt.lt b t._threshold_bdist_right) <;>
    cases Flt.lt b 0 <;> simp

/-- On ordered values `a <= b` is the negation of `a > b`. -/
theorem Flt.le_eq_not_gt (a b : Flt) (ha : a ≠ Flt.nan) (hb : b ≠ Flt.nan) :
    Flt.le a b = !Flt.gt a b := by
  cases a <;> cases b <;> simp_all [Flt.le, Flt.gt, Flt.lt, Flt.eq]
  rename_i p q
  rcases lt_trichotomy p q with h | h | h
  · simp [h, not_lt.mpr h.le]
  · simp [h]
  · simp [h, not_lt.mpr h.le, h.ne']

/-- On ordered values `a >= b` is the negation of `a < b`. -/
theorem Flt.ge_eq_not_lt (a b : Flt) (ha : a ≠ Flt.nan) (hb : b ≠ Flt.nan) :
    Flt.ge a b = !Flt.lt a b := by
  cases a <;> cases b <;> simp_all [Flt.ge, Flt.gt, Flt.lt, Flt.eq]
  rename_i p q
  rcases lt_trichotomy p q with h | h | h
  · simp [h, not_lt.mpr h.le, h.ne]
  · simp [h]
  · simp [h, not_lt.mpr h.le]

/-- A value that is at least a value above the threshold is above the threshold. -/
theorem Flt.gt_of_ge_of_gt (t c1 c2 : Flt) (h1 : Flt.gt c1 t = true) (h2 : Flt.ge c2 c1 = true) :
    Flt.gt c2 t = true := by
  cases t <;> cases c1 <;> cases c2 <;> simp_all [Flt.ge, Flt.gt, Flt.lt, Flt.eq]
  rename_i p q r
  rcases h2 with h | h
  · exact lt_trans h1 h
  · rw [h]; exact h1

theorem demoModel_trained :
    SingleLCM.computeModel sqrtQ 0 0 (.fin (9 / 10)) demoImage demoMask = some demoModel := by
  decide!

theorem demo_normalized :
    Model.computeNormalizedDistortions sqrtQ (.single demoModel) demoImage
      = .ok (demoBn, demoCn) := by
  simp only [Model.computeNormalizedDistortions, Except.ok.injEq]
  decide!

theorem Flt.not_gt_of_le (a b : Flt) (h : Flt.le a b = true) : Flt.gt a b = false := by
  cases a <;> cases b <;> simp_all [Flt.le, Flt.gt, Flt.lt, Flt.eq]
  rename_i p q
  rcases h with h | h
  · exact h.le
  · exact h.le

theorem demo_classified :
    Model.classify sqrtQ (.single demoModel) demoImage = .ok [[3, 2, 3, 2, 1]] := by
  simp only [Model.classify, demo_normalized, Except.ok.injEq]
  decide!

/-! ## Claims on the decision logic of `classify` -/

/-- C1: for every model and every pixel of a classified image, `classify`
labels the pixel FOREGROUND if and only if its normalized chromaticity
distortion `cn` is strictly greater than the threshold `T_cd` of the model,
whatever its normalized brightness distortion `bn` is. -/
theorem C1_foreground_iff_cn_above_threshold (sq : Sqrtf) (model : Model) (image : Mat Vec3b)
    (bn cn : Mat Flt) (h : Model.computeNormalizedDistortions sq model image = .ok (bn, cn))
    (y x : Nat) (b c : Flt) (hb : Mat.get? bn y x = some b) (hc : Mat.get? cn y x = some c) :
    ∃ out, Model.classify sq model image = .ok out ∧
      (Mat.get? out y x = some LCM.FOREGROUND ↔
        Flt.gt c model.toLCM._threshold_cdist = true) := by
  obtain ⟨out, hout, _, _, hpix⟩ := Model.classify_pixel sq model image bn cn h
  refine ⟨out, hout, ?_⟩
  rw [hpix y x b c hb hc, Option.some.injEq]
  exact LCM.labelOf_foreground_iff _ b c

theorem C1_foreground_iff_cn_above_threshold_witness :
    ∃ out, Model.classify sqrtQ (.single demoModel) demoImage = .ok out ∧
      (Mat.get? out 0 4 = some LCM.FOREGROUND ↔
        Flt.gt (.fin 0) (Model.single demoModel).toLCM._threshold_cdist = true) :=
  C1_foreground_iff_cn_above_threshold sqrtQ (.single demoModel) demoImage demoBn demoCn
    demo_normalized 0 4 (.fin (-3 / 5)) (.fin 0) (by decide!) (by decide!)

/-- C2, as stated, fails: in the model trained on `demoImage`, the pixel at
column 4 of `demoImage` has `cn <= T_cd`, `bn < 0` and `T_bl < bn < T_bu`, and
`classify` labels it BACKGROUND, not SHADOW. -/
theorem C2_shadow_over_background_counterexample :
    SingleLCM.computeModel sqrtQ 0 0 (.fin (9 / 10)) demoImage demoMask = some demoModel ∧
    Model.computeNormalizedDistortions sqrtQ (.single demoModel) demoImage
      = .ok (demoBn, demoCn) ∧
    Mat.get? demoBn 0 4 = some (.fin (-3 / 5)) ∧ Mat.get? demoCn 0 4 = some (.fin 0) ∧
    Flt.le (.fin 0) demoModel._threshold_cdist = true ∧
    Flt.lt (.fin (-3 / 5)) 0 = true ∧
    Flt.gt (.fin (-3 / 5)) demoModel._threshold_bdist_left = true ∧
    Flt.lt (.fin (-3 / 5)) demoModel._threshold_bdist_right = true ∧
    ∃ out, Model.classify sqrtQ (.single demoModel) demoImage = .ok out ∧
      Mat.get? out 0 4 = some LCM.BACKGROUND ∧ Mat.get? out 0 4 ≠ some LCM.SHADOW := by
  refine ⟨demoModel_trained, demo_normalized, by decide!, by decide!, by decide!, by decide!,
    by decide!, by decide!, [[3, 2, 3, 2, 1]], demo_classified, by decide!, by decide!⟩

/-- C2, amended: for every model and every pixel with `cn <= T_cd` whose
normalized brightness distortion satisfies both `bn < 0` and
`T_bl < bn < T_bu`, `classify` labels the pixel BACKGROUND: the BACKGROUND
layer is written after the SHADOW layer and has priority over it. -/
theorem C2_background_over_shadow (sq : Sqrtf) (model : Model) (image : Mat Vec3b)
    (bn cn : Mat Flt) (h : Model.computeNormalizedDistortions sq model image = .ok (bn, cn))
    (y x : Nat) (b c : Flt) (hb : Mat.get? bn y x = some b) (hc : Mat.get? cn y x = some c)
    (hcd : Flt.le c model.toLCM._threshold_cdist = true)
    (_hshadow : Flt.lt b 0 = true)
    (hleft : Flt.gt b model.toLCM._threshold_bdist_left = true)
    (hright : Flt.lt b model.toLCM._threshold_bdist_right = true) :
    ∃ out, Model.classify sq model image = .ok out ∧
      Mat.get? out y x = some LCM.BACKGROUND := by
  obtain ⟨out, hout, _, _, hpix⟩ := Model.classify_pixel sq model image bn cn h
  refine ⟨out, hout, ?_⟩
  rw [hpix y x b c hb hc, LCM.labelOf_background _ b c (Flt.not_gt_of_le _ _ hcd) hleft hright]

theorem C2_background_over_shadow_witness :
    ∃ out, Model.classify sqrtQ (.single demoModel) demoImage = .ok out ∧
      Mat.get? out 0 4 = some LCM.BACKGROUND :=
  C2_background_over_shadow sqrtQ (.single demoModel) demoImage demoBn demoCn
    demo_normalized 0 4 (.fin (-3 / 5)) (.fin 0) (by decide!) (by decide!) (by decide!)
    (by decide!) (by decide!) (by decide!)

/-- C3: for every model and every pixel, `classify` labels the pixel HIGHLIGHT
if and only if none of the three predicates holds: not `cn > T_cd`, not
`bn < 0`, and not `T_bl < bn < T_bu`.  When the two distortions and the
threshold `T_cd` are ordered values (not `NaN`) this reads `cn <= T_cd`,
`bn >= 0` and not `T_bl < bn < T_bu`. -/
theorem C3_highlight_iff_no_predicate (sq : Sqrtf) (model : Model) (image : Mat Vec3b)
    (bn cn : Mat Flt) (h : Model.computeNormalizedDistortions sq model image = .ok (bn, cn))
    (y x : Nat) (b c : Flt) (hb : Mat.get? bn y x = some b) (hc : Mat.get? cn y x = some c) :
    ∃ out, Model.classify sq model image = .ok out ∧
      (Mat.get? out y x = some LCM.HIGHLIGHT ↔
        (Flt.gt c model.toLCM._threshold_cdist = false ∧ Flt.lt b 0 = false ∧
          ¬ (Flt.gt b model.toLCM._threshold_bdist_left = true ∧
              Flt.lt b model.toLCM._threshold_bdist_right = true))) ∧
      (b ≠ Flt.nan → c ≠ Flt.nan → model.toLCM._threshold_cdist ≠ Flt.nan →
        (Mat.get? out y x = some LCM.HIGHLIGHT ↔
          (Flt.le c model.toLCM._threshold_cdist = true ∧ Flt.ge b 0 = true ∧
            ¬ (Flt.gt b model.toLCM._threshold_bdist_left = true ∧
                Flt.lt b model.toLCM._threshold_bdist_right = true)))) := by
  obtain ⟨out, hout, _, _, hpix⟩ := Model.classify_pixel sq model image bn cn h
  have key : Mat.get? out y x = some LCM.HIGHLIGHT ↔
      (Flt.gt c model.toLCM._threshold_cdist = false ∧ Flt.lt b 0 = false ∧
        ¬ (Flt.gt b model.toLCM._threshold_bdist_left = true ∧
            Flt.lt b model.toLCM._threshold_bdist_right = true)) := by
    rw [hpix y x b c hb hc, Option.some.injEq]
    exact LCM.labelOf_highlight_iff _ b c
  refine ⟨out, hout, key, ?_⟩
  intro hbn hcn ht
  rw [key, Flt.le_eq_not_gt c _ hcn ht, Flt.ge_eq_not_lt b 0 hbn (by simp [Flt.ofNat_eq])]
  simp

theorem C3_highlight_iff_no_predicate_witness :
    ∃ out, Model.classify sqrtQ (.single demoModel) demoImage = .ok out ∧
      (Mat.get? out 0 0 = some LCM.HIGHLIGHT ↔
        (Flt.gt (.fin 1) (Model.single demoModel).toLCM._threshold_cdist = false ∧
          Flt.lt (.fin 1) 0 = false ∧
          ¬ (Flt.gt (.fin 1) (Model.single demoModel).toLCM._threshold_bdist_left = true ∧
              Flt.lt (.fin 1) (Model.single demoModel).toLCM._threshold_bdist_right = true))) ∧
      (Flt.fin 1 ≠ Flt.nan → Flt.fin 1 ≠ Flt.nan →
        (Model.single demoModel).toLCM._threshold_cdist ≠ Flt.nan →
        (Mat.get? out 0 0 = some LCM.HIGHLIGHT ↔
          (Flt.le (.fin 1) (Model.single demoModel).toLCM._threshold_cdist = true ∧
            Flt.ge (.fin 1) 0 = true ∧
            ¬ (Flt.gt (.fin 1) (Model.single demoModel).toLCM._threshold_bdist_left = true ∧
                Flt.lt (.fin 1) (Model.single demoModel).toLCM._threshold_bdist_right = true)))) :=
  C3_highlight_iff_no_predicate sqrtQ (.single demoModel) demoImage demoBn demoCn
    demo_normalized 0 0 (.fin 1) (.fin 1) (by decide!) (by decide!)

/-- C4: for every model and every input image, the map that `classify`
returns has the size of the image and every entry of it is one of the four
codes 1 (BACKGROUND), 2 (SHADOW), 3 (HIGHLIGHT), 4 (FOREGROUND); a `SingleLCM`
returns such a map on every image. -/
theorem C4_labels_are_the_four_codes (sq : Sqrtf) :
    (∀ (model : Model) (image : Mat Vec3b) (out : Mat Nat),
      Model.classify sq model image = .ok out →
        Mat.shape out = Mat.shape image ∧
        ∀ row ∈ out, ∀ v ∈ row, v = 1 ∨ v = 2 ∨ v = 3 ∨ v = 4) ∧
    (∀ (m : SingleLCM) (image : Mat Vec3b),
      ∃ out, Model.classify sq (.single m) image = .ok out) := by
  constructor
  · intro model image out hout
    cases hn : Model.computeNormalizedDistortions sq model image with
    | error e => simp [Model.classify, hn] at hout
    | ok norm =>
        obtain ⟨out2, hout2, hshape, hmem, _⟩ :=
          Model.classify_pixel sq model image norm.1 norm.2 hn
        rw [hout, Except.ok.injEq] at hout2
        subst hout2
        refine ⟨hshape, ?_⟩
        intro row hrow v hv
        obtain ⟨b, c, rfl⟩ := hmem row hrow v hv
        simpa [LCM.BACKGROUND, LCM.SHADOW, LCM.HIGHLIGHT, LCM.FOREGROUND]
          using LCM.labelOf_code model.toLCM b c
  · intro m image
    exact ⟨_, rfl⟩

theorem C4_labels_are_the_four_codes_witness :
    Mat.shape [[3, 2, 3, 2, 1]] = Mat.shape demoImage ∧
      ∀ row ∈ ([[3, 2, 3, 2, 1]] : Mat Nat), ∀ v ∈ row, v = 1 ∨ v = 2 ∨ v = 3 ∨ v = 4 :=
  (C4_labels_are_the_four_codes sqrtQ).1 (.single demoModel) demoImage [[3, 2, 3, 2, 1]]
    demo_classified

/-- C10: monotonicity in chromaticity.  For a fixed model and a fixed
normalized brightness distortion `bn`, if a pixel has `cn1 > T_cd` and another
pixel has `cn2 >= cn1`, then both pixels are labelled FOREGROUND. -/
theorem C10_foreground_monotone_in_cn (sq : Sqrtf) (model : Model)
    (image1 image2 : Mat Vec3b) (bn1 cn1 bn2 cn2 : Mat Flt)
    (h1 : Model.computeNormalizedDistortions sq model image1 = .ok (bn1, cn1))
    (h2 : Model.computeNormalizedDistortions sq model image2 = .ok (bn2, cn2))
    (y1 x1 y2 x2 : Nat) (b c1 c2 : Flt)
    (hb1 : Mat.get? bn1 y1 x1 = some b) (hc1 : Mat.get? cn1 y1 x1 = some c1)
    (hb2 : Mat.get? bn2 y2 x2 = some b) (hc2 : Mat.get? cn2 y2 x2 = some c2)
    (habove : Flt.gt c1 model.toLCM._threshold_cdist = true)
    (hge : Flt.ge c2 c1 = true) :
    ∃ out1 out2, Model.classify sq model image1 = .ok out1 ∧
      Model.classify sq model image2 = .ok out2 ∧
      Mat.get? out1 y1 x1 = some LCM.FOREGROUND ∧
      Mat.get? out2 y2 x2 = some LCM.FOREGROUND := by
  obtain ⟨out1, hout1, _, _, hpix1⟩ := Model.classify_pixel sq model image1 bn1 cn1 h1
  obtain ⟨out2, hout2, _, _, hpix2⟩ := Model.classify_pixel sq model image2 bn2 cn2 h2
  refine ⟨out1, out2, hout1, hout2, ?_, ?_⟩
  · rw [hpix1 y1 x1 b c1 hb1 hc1, (LCM.labelOf_foreground_iff _ b c1).mpr habove]
  · rw [hpix2 y2 x2 b c2 hb2 hc2,
      (LCM.labelOf_foreground_iff _ b c2).mpr (Flt.gt_of_ge_of_gt _ c1 c2 habove hge)]

theorem demoTest_normalized :
    Model.computeNormalizedDistortions sqrtQ (.single demoModel) demoTest
      = .ok ([[.fin 0, .fin 0]], [[.fin 3, .fin 6]]) := by
  simp only [Model.computeNormalizedDistortions, Except.ok.injEq]
  decide!

theorem C10_foreground_monotone_in_cn_witness :
    ∃ out1 out2, Model.classify sqrtQ (.single demoModel) demoTest = .ok out1 ∧
      Model.classify sqrtQ (.single demoModel) demoTest = .ok out2 ∧
      Mat.get? out1 0 0 = some LCM.FOREGROUND ∧
      Mat.get? out2 0 1 = some LCM.FOREGROUND :=
  C10_foreground_monotone_in_cn sqrtQ (.single demoModel) demoTest demoTest
    [[.fin 0, .fin 0]] [[.fin 3, .fin 6]] [[.fin 0, .fin 0]] [[.fin 3, .fin 6]]
    demoTest_normalized demoTest_normalized 0 0 0 1 (.fin 0) (.fin 3) (.fin 6)
    (by decide!) (by decide!) (by decide!) (by decide!) (by decide!) (by decide!)

/-! ## Training on a uniform gray image -/

theorem Flt.fin_add (a b : ℚ) : Flt.fin a + Flt.fin b = Flt.fin (a + b) := rfl

theorem Flt.fin_mul (a b : ℚ) : Flt.fin a * Flt.fin b = Flt.fin (a * b) := rfl

theorem Flt.fin_sub (a b : ℚ) : Flt.fin a - Flt.fin b = Flt.fin (a - b) := by
  show Flt.add (Flt.fin a) (Flt.neg (Flt.fin b)) = _
  simp [Flt.add, Flt.neg, sub_eq_add_neg]

theorem Flt.fin_div (a b : ℚ) (hb : b ≠ 0) : Flt.fin a / Flt.fin b = Flt.fin (a / b) := by
  show Flt.div (Flt.fin a) (Flt.fin b) = _
  simp [Flt.div, hb]

theorem Flt.zero_div_zero : Flt.fin 0 / Flt.fin 0 = Flt.nan := by
  show Flt.div (Flt.fin 0) (Flt.fin 0) = _
  simp [Flt.div]

theorem Flt.pos_div_zero (a : ℚ) (ha : 0 < a) : Flt.fin a / Flt.fin 0 = Flt.pinf := by
  show Flt.div (Flt.fin a) (Flt.fin 0) = _
  simp [Flt.div, ha, ha.ne']

theorem Flt.neg_div_zero (a : ℚ) (ha : a < 0) : Flt.fin a / Flt.fin 0 = Flt.ninf := by
  show Flt.div (Flt.fin a) (Flt.fin 0) = _
  simp [Flt.div, ha.ne, not_lt.mpr ha.le]

theorem Flt.sqrt_zero (sq : Sqrtf) : Flt.sqrt sq (Flt.fin 0) = Flt.fin 0 := by
  simp [Flt.sqrt, sq.zero]

theorem Flt.sqrt_pos (sq : Sqrtf) (a : ℚ) (ha : 0 < a) :
    Flt.sqrt sq (Flt.fin a) = Flt.fin (sq.f a) ∧ 0 < sq.f a := by
  simp [Flt.sqrt, not_lt.mpr ha.le, sq.pos a ha]

/-- Mean and deviation of a channel that is 128 on every sample. -/
theorem channelMeanStdDev_gray (sq : Sqrtf) (k : Nat) (hk : 0 < k) :
    channelMeanStdDev sq (List.replicate k 128) = (Flt.fin 128, Flt.fin 0) := by
  have hk0 : (k : ℚ) ≠ 0 := by exact_mod_cast hk.ne'
  unfold channelMeanStdDev
  rw [if_neg (by simp; omega)]
  simp only [List.length_replicate, List.map_replicate, List.sum_replicate, nsmul_eq_mul]
  have h1 : (k : ℚ) * 128 / k = 128 := by field_simp
  have h2 : (k : ℚ) * (128 * 128) / k - 128 * 128 = 0 := by field_simp
  rw [h1, h2, max_self, Flt.sqrt_zero]

theorem meanStdDev_gray (sq : Sqrtf) (k : Nat) (hk : 0 < k) :
    meanStdDev sq (List.replicate k gray)
      = (⟨.fin 128, .fin 128, .fin 128⟩, ⟨.fin 0, .fin 0, .fin 0⟩) := by
  have h : ((((128 : Fin 256) : Nat) : ℚ)) = 128 := by
    have : ((128 : Fin 256) : Nat) = 128 := rfl
    rw [this]; norm_num
  simp only [meanStdDev, List.map_replicate, gray, h, channelMeanStdDev_gray sq k hk]

theorem siteStatistics_gray :
    siteStatistics (⟨.fin 128, .fin 128, .fin 128⟩, ⟨.fin 0, .fin 0, .fin 0⟩)
      = (⟨.fin 128, .fin 128, .fin 128⟩, ⟨.fin 1, .fin 1, .fin 1⟩,
          ⟨.fin (1 / 384), .fin (1 / 384), .fin (1 / 384)⟩) := by
  decide!

/-- A mask of the size of a uniform image that selects a pixel selects only
pixels of the colour of the image, and at least one. -/
theorem selectedPixels_uniform (colour : Vec3b) (image : Mat Vec3b) (mask : Mat Nat)
    (huni : ∀ row ∈ image, ∀ p ∈ row, p = colour)
    (hshape : Mat.shape mask = Mat.shape image)
    (hsel : ∃ row ∈ mask, ∃ v ∈ row, v ≠ 0) :
    ∃ k, 0 < k ∧ selectedPixels image mask = List.replicate k colour := by
  refine ⟨(selectedPixels image mask).length, ?_, List.eq_replicate_iff.mpr ⟨rfl, ?_⟩⟩
  · obtain ⟨row, hrow, v, hv, hv0⟩ := hsel
    have hmem : v ∈ mask.flatten := List.mem_flatten.mpr ⟨row, hrow, hv⟩
    obtain ⟨i, hi, hiv⟩ := List.getElem_of_mem hmem
    have hlen : image.flatten.length = mask.flatten.length := by
      rw [List.length_flatten, List.length_flatten]
      have := congrArg List.sum hshape
      simpa [Mat.shape] using this.symm
    have hi2 : i < (image.flatten.zip mask.flatten).length := by
      simp only [List.length_zip, hlen, min_self]
      exact hi
    have hz : (image.flatten.zip mask.flatten)[i] ∈ image.flatten.zip mask.flatten :=
      List.getElem_mem hi2
    apply List.length_pos_of_mem (a := (image.flatten.zip mask.flatten)[i].1)
    unfold selectedPixels
    refine List.mem_map.mpr ⟨_, List.mem_filter.mpr ⟨hz, ?_⟩, rfl⟩
    rw [List.getElem_zip]
    simpa [hiv] using hv0
  · intro p hp
    unfold selectedPixels at hp
    obtain ⟨pm, hpm, rfl⟩ := List.mem_map.mp hp
    have hz := (List.mem_filter.mp hpm).1
    have h1 : pm.1 ∈ image.flatten := (List.of_mem_zip (a := pm.1) (b := pm.2) hz).1
    obtain ⟨row, hrow, hprow⟩ := List.mem_flatten.mp h1
    exact huni row hrow _ hprow

theorem grayBrightness :
    SingleLCM.computeBrightnessDistortion ⟨.fin (1 / 384), .fin (1 / 384), .fin (1 / 384)⟩ gray
      = Flt.fin 1 := by
  decide!

/-- The chromaticity distortion is the root of a sum of squares. -/
theorem LCM.computeChromacityDistortion_eq (sq : Sqrtf) (pixel : Vec3b) (mean stddev : Scalar)
    (bdist : Flt) :
    LCM.computeChromacityDistortion sq pixel mean stddev bdist
      = Flt.sqrt sq
          ((LCM.px2 pixel - bdist * mean.v2) / stddev.v2
              * ((LCM.px2 pixel - bdist * mean.v2) / stddev.v2)
            + (LCM.px1 pixel - bdist * mean.v1) / stddev.v1
              * ((LCM.px1 pixel - bdist * mean.v1) / stddev.v1)
            + (LCM.px0 pixel - bdist * mean.v0) / stddev.v0
              * ((LCM.px0 pixel - bdist * mean.v0) / stddev.v0)) := rfl

theorem grayChromacity (sq : Sqrtf) :
    SingleLCM.computeChromacityDistortion sq ⟨.fin 128, .fin 128, .fin 128⟩
      ⟨.fin 1, .fin 1, .fin 1⟩ gray (.fin 1) = Flt.fin 0 := by
  unfold SingleLCM.computeChromacityDistortion
  rw [LCM.computeChromacityDistortion_eq]
  have h : ((LCM.px2 gray - Flt.fin 1 * Flt.fin 128) / Flt.fin 1
              * ((LCM.px2 gray - Flt.fin 1 * Flt.fin 128) / Flt.fin 1)
            + (LCM.px1 gray - Flt.fin 1 * Flt.fin 128) / Flt.fin 1
              * ((LCM.px1 gray - Flt.fin 1 * Flt.fin 128) / Flt.fin 1)
            + (LCM.px0 gray - Flt.fin 1 * Flt.fin 128) / Flt.fin 1
              * ((LCM.px0 gray - Flt.fin 1 * Flt.fin 128) / Flt.fin 1)) = Flt.fin 0 := by
    decide!
  rw [h, Flt.sqrt_zero]

theorem variationStep_gray (sq : Sqrtf) (n : Nat) :
    SingleLCM.variationStep sq ⟨.fin 128, .fin 128, .fin 128⟩ ⟨.fin 1, .fin 1, .fin 1⟩
      ⟨.fin (1 / 384), .fin (1 / 384), .fin (1 / 384)⟩ (Flt.fin 0, Flt.fin 0, n) gray
      = (Flt.fin 0, Flt.fin 0, n + 1) := by
  simp only [SingleLCM.variationStep, grayBrightness, grayChromacity, Flt.ofNat_eq,
    Nat.cast_one, Flt.fin_sub, Flt.fin_mul, Flt.fin_add, sub_self, mul_zero, add_zero]

theorem foldl_variationStep_gray (sq : Sqrtf) (k : Nat) :
    ∀ n : Nat,
      List.foldl
        (SingleLCM.variationStep sq ⟨.fin 128, .fin 128, .fin 128⟩ ⟨.fin 1, .fin 1, .fin 1⟩
          ⟨.fin (1 / 384), .fin (1 / 384), .fin (1 / 384)⟩)
        (Flt.fin 0, Flt.fin 0, n) (List.replicate k gray) = (Flt.fin 0, Flt.fin 0, n + k) := by
  induction k with
  | zero => intro n; rfl
  | succ k ih =>
      intro n
      rw [List.replicate_succ, List.foldl_cons, variationStep_gray, ih (n + 1)]
      simp only [Prod.mk.injEq, true_and]
      omega

theorem accumulateVariations_gray (sq : Sqrtf) (k : Nat) :
    SingleLCM.accumulateVariations sq ⟨.fin 128, .fin 128, .fin 128⟩ ⟨.fin 1, .fin 1, .fin 1⟩
      ⟨.fin (1 / 384), .fin (1 / 384), .fin (1 / 384)⟩ (List.replicate k gray)
      = (Flt.fin 0, Flt.fin 0, k) := by
  have := foldl_variationStep_gray sq k 0
  simpa [SingleLCM.accumulateVariations, Flt.ofNat_eq] using this

theorem computeVariations_gray (sq : Sqrtf) (image : Mat Vec3b) (mask : Mat Nat)
    (hshape : Mat.shape mask = Mat.shape image) (k : Nat) (hk : 0 < k)
    (hsel : selectedPixels image mask = List.replicate k gray) :
    SingleLCM.computeVariations sq ⟨.fin 128, .fin 128, .fin 128⟩ ⟨.fin 1, .fin 1, .fin 1⟩
      ⟨.fin (1 / 384), .fin (1 / 384), .fin (1 / 384)⟩ image mask
      = some (Flt.fin 0, Flt.fin 0) := by
  have hk0 : (k : ℚ) ≠ 0 := by exact_mod_cast hk.ne'
  unfold SingleLCM.computeVariations
  rw [if_pos hshape.symm, hsel, accumulateVariations_gray]
  simp only [gt_iff_lt, hk, if_true, Flt.natCast_eq, Flt.fin_div 0 (k : ℚ) hk0, zero_div,
    Flt.sqrt_zero]

/-! ## Threshold selection on a distribution of `NaN` -/

theorem Flt.lt_nan (a : Flt) : Flt.lt a Flt.nan = false := by
  cases a <;> rfl

/-- The sort leaves a range of `NaN` followed by one more element as it is. -/
theorem stdSort_allNaN (oob : Flt) (l : List Flt) (hall : ∀ v ∈ l, v = Flt.nan) :
    LCM.stdSort (l ++ [oob]) = l ++ [oob] := by
  induction l with
  | nil => rfl
  | cons a l ih =>
      have ha : a = Flt.nan := hall a (List.mem_cons_self a l)
      have hl : ∀ v ∈ l, v = Flt.nan := fun v hv => hall v (List.mem_cons_of_mem a hv)
      have ih2 := ih hl
      unfold LCM.stdSort at ih2 ⊢
      rw [List.cons_append, List.insertionSort, ih2, ha]
      cases l with
      | nil => simp [List.orderedInsert, Flt.lt_nan]
      | cons b l => simp [List.orderedInsert, Flt.lt_nan]

theorem LCM.toInt_fin_nonneg (q : ℚ) (hq : 0 ≤ q) : LCM.toInt (Flt.fin q) = some ⌊q⌋ := by
  simp only [LCM.toInt, if_pos hq]
  rfl

theorem LCM.readSorted_append_left (l : List Flt) (oob : Flt) (q : ℚ) (hq0 : 0 ≤ q)
    (hq : q < (l.length : ℚ)) :
    ∃ v ∈ l, LCM.readSorted (l ++ [oob]) ⌊q⌋ = some v := by
  have h0 : 0 ≤ ⌊q⌋ := Int.floor_nonneg.mpr hq0
  have h1 : ⌊q⌋ < (l.length : ℤ) := by
    apply Int.floor_lt.mpr
    exact_mod_cast hq
  have h2 : ⌊q⌋.toNat < l.length := by omega
  refine ⟨l[⌊q⌋.toNat], List.getElem_mem h2, ?_⟩
  unfold LCM.readSorted
  rw [if_neg (by omega), List.getElem?_append_left h2, List.getElem?_eq_getElem h2]

/-- On a non-empty distribution of `NaN` both selected values are `NaN`,
whatever lies behind the array. -/
theorem selectThresholdMatrix_allNaN (oob : Flt) (mat : Mat Flt)
    (hall : ∀ v ∈ mat.flatten, v = Flt.nan) (hne : 0 < mat.flatten.length) :
    LCM.selectThresholdMatrix oob mat (Flt.fin (9 / 10)) = some (Flt.nan, Flt.nan) := by
  have hM : (0 : ℚ) < (mat.flatten.length : ℚ) := by exact_mod_cast hne
  have hl0 : (0 : ℚ) ≤ (1 - 9 / 10) * (mat.flatten.length : ℚ) := by nlinarith
  have hl1 : (1 - 9 / 10) * (mat.flatten.length : ℚ) < (mat.flatten.length : ℚ) := by nlinarith
  have hr0 : (0 : ℚ) ≤ 9 / 10 * (mat.flatten.length : ℚ) := by nlinarith
  have hr1 : 9 / 10 * (mat.flatten.length : ℚ) < (mat.flatten.length : ℚ) := by nlinarith
  obtain ⟨vl, hvl, hreadl⟩ := LCM.readSorted_append_left mat.flatten oob _ hl0 hl1
  obtain ⟨vr, hvr, hreadr⟩ := LCM.readSorted_append_left mat.flatten oob _ hr0 hr1
  unfold LCM.selectThresholdMatrix
  simp only [Flt.ofNat_eq, Nat.cast_one, Flt.natCast_eq, Flt.fin_sub, Flt.fin_mul,
    LCM.toInt_fin_nonneg _ hl0, LCM.toInt_fin_nonneg _ hr0, stdSort_allNaN oob _ hall,
    hreadl, hreadr, hall vl hvl, hall vr hvr]

theorem normalizedPixel_gray_gray (sq : Sqrtf) (t_cd t_bl t_bu : Flt) :
    SingleLCM.normalizedPixel sq (grayModel t_cd t_bl t_bu) gray = (Flt.nan, Flt.nan) := by
  have hb : SingleLCM.computeBrightnessDistortion
      ⟨.fin (1 / 384), .fin (1 / 384), .fin (1 / 384)⟩ gray = Flt.fin (1) := by
    decide!
  have hs : ((LCM.px2 gray - Flt.fin (1) * Flt.fin 128) / Flt.fin 1
              * ((LCM.px2 gray - Flt.fin (1) * Flt.fin 128) / Flt.fin 1)
            + (LCM.px1 gray - Flt.fin (1) * Flt.fin 128) / Flt.fin 1
              * ((LCM.px1 gray - Flt.fin (1) * Flt.fin 128) / Flt.fin 1)
            + (LCM.px0 gray - Flt.fin (1) * Flt.fin 128) / Flt.fin 1
              * ((LCM.px0 gray - Flt.fin (1) * Flt.fin 128) / Flt.fin 1)) = Flt.fin 0 := by
    decide!
  have hbn : (Flt.fin (1) - 1) / Flt.fin 0 = Flt.nan := by decide!
  simp only [SingleLCM.normalizedPixel, grayModel, hb, hbn,
    SingleLCM.computeChromacityDistortion, LCM.computeChromacityDistortion_eq, hs]
  rw [Flt.sqrt_zero, Flt.zero_div_zero]

theorem normalizedPixel_gray_black (sq : Sqrtf) (t_cd t_bl t_bu : Flt) :
    SingleLCM.normalizedPixel sq (grayModel t_cd t_bl t_bu) black = (Flt.ninf, Flt.nan) := by
  have hb : SingleLCM.computeBrightnessDistortion
      ⟨.fin (1 / 384), .fin (1 / 384), .fin (1 / 384)⟩ black = Flt.fin (0) := by
    decide!
  have hs : ((LCM.px2 black - Flt.fin (0) * Flt.fin 128) / Flt.fin 1
              * ((LCM.px2 black - Flt.fin (0) * Flt.fin 128) / Flt.fin 1)
            + (LCM.px1 black - Flt.fin (0) * Flt.fin 128) / Flt.fin 1
              * ((LCM.px1 black - Flt.fin (0) * Flt.fin 128) / Flt.fin 1)
            + (LCM.px0 black - Flt.fin (0) * Flt.fin 128) / Flt.fin 1
              * ((LCM.px0 black - Flt.fin (0) * Flt.fin 128) / Flt.fin 1)) = Flt.fin 0 := by
    decide!
  have hbn : (Flt.fin (0) - 1) / Flt.fin 0 = Flt.ninf := by decide!
  simp only [SingleLCM.normalizedPixel, grayModel, hb, hbn,
    SingleLCM.computeChromacityDistortion, LCM.computeChromacityDistortion_eq, hs]
  rw [Flt.sqrt_zero, Flt.zero_div_zero]

theorem normalizedPixel_gray_white (sq : Sqrtf) (t_cd t_bl t_bu : Flt) :
    SingleLCM.normalizedPixel sq (grayModel t_cd t_bl t_bu) white = (Flt.pinf, Flt.nan) := by
  have hb : SingleLCM.computeBrightnessDistortion
      ⟨.fin (1 / 384), .fin (1 / 384), .fin (1 / 384)⟩ white = Flt.fin (255 / 128) := by
    decide!
  have hs : ((LCM.px2 white - Flt.fin (255 / 128) * Flt.fin 128) / Flt.fin 1
              * ((LCM.px2 white - Flt.fin (255 / 128) * Flt.fin 128) / Flt.fin 1)
            + (LCM.px1 white - Flt.fin (255 / 128) * Flt.fin 128) / Flt.fin 1
              * ((LCM.px1 white - Flt.fin (255 / 128) * Flt.fin 128) / Flt.fin 1)
            + (LCM.px0 white - Flt.fin (255 / 128) * Flt.fin 128) / Flt.fin 1
              * ((LCM.px0 white - Flt.fin (255 / 128) * Flt.fin 128) / Flt.fin 1)) = Flt.fin 0 := by
    decide!
  have hbn : (Flt.fin (255 / 128) - 1) / Flt.fin 0 = Flt.pinf := by decide!
  simp only [SingleLCM.normalizedPixel, grayModel, hb, hbn,
    SingleLCM.computeChromacityDistortion, LCM.computeChromacityDistortion_eq, hs]
  rw [Flt.sqrt_zero, Flt.zero_div_zero]

theorem normalizedPixel_gray_green (sq : Sqrtf) (t_cd t_bl t_bu : Flt) :
    SingleLCM.normalizedPixel sq (grayModel t_cd t_bl t_bu) green = (Flt.ninf, Flt.pinf) := by
  have hb : SingleLCM.computeBrightnessDistortion
      ⟨.fin (1 / 384), .fin (1 / 384), .fin (1 / 384)⟩ green = Flt.fin (85 / 128) := by
    decide!
  have hs : ((LCM.px2 green - Flt.fin (85 / 128) * Flt.fin 128) / Flt.fin 1
              * ((LCM.px2 green - Flt.fin (85 / 128) * Flt.fin 128) / Flt.fin 1)
            + (LCM.px1 green - Flt.fin (85 / 128) * Flt.fin 128) / Flt.fin 1
              * ((LCM.px1 green - Flt.fin (85 / 128) * Flt.fin 128) / Flt.fin 1)
            + (LCM.px0 green - Flt.fin (85 / 128) * Flt.fin 128) / Flt.fin 1
              * ((LCM.px0 green - Flt.fin (85 / 128) * Flt.fin 128) / Flt.fin 1)) = Flt.fin 43350 := by
    decide!
  have hbn : (Flt.fin (85 / 128) - 1) / Flt.fin 0 = Flt.ninf := by decide!
  simp only [SingleLCM.normalizedPixel, grayModel, hb, hbn,
    SingleLCM.computeChromacityDistortion, LCM.computeChromacityDistortion_eq, hs]
  obtain ⟨h1, h2⟩ := Flt.sqrt_pos sq 43350 (by norm_num)
  rw [h1, Flt.pos_div_zero _ h2]

/-! ## The model trained on uniform gray -/

theorem mem_flatten_map_uniform {β : Type} (colour : Vec3b) (image : Mat Vec3b) (f : Vec3b → β)
    (huni : ∀ row ∈ image, ∀ p ∈ row, p = colour) :
    ∀ v ∈ (image.map (fun row => row.map f)).flatten, v = f colour := by
  intro v hv
  obtain ⟨row2, hrow2, hv2⟩ := List.mem_flatten.mp hv
  obtain ⟨row, hrow, rfl⟩ := List.mem_map.mp hrow2
  obtain ⟨p, hp, rfl⟩ := List.mem_map.mp hv2
  rw [huni row hrow p hp]

theorem length_flatten_map {α β : Type} (m : Mat α) (f : α → β) :
    (m.map (fun row => row.map f)).flatten.length = m.flatten.length := by
  rw [List.length_flatten, List.length_flatten]
  simp [Function.comp_def]

theorem flatten_pos_of_selected (image : Mat Vec3b) (mask : Mat Nat) (k : Nat) (hk : 0 < k)
    (colour : Vec3b) (hsel : selectedPixels image mask = List.replicate k colour) :
    0 < image.flatten.length := by
  have h1 : colour ∈ selectedPixels image mask := by
    rw [hsel]
    exact List.mem_replicate.mpr ⟨hk.ne', rfl⟩
  unfold selectedPixels at h1
  obtain ⟨pm, hpm, _⟩ := List.mem_map.mp h1
  have hz := (List.mem_filter.mp hpm).1
  exact List.length_pos_of_mem (List.of_mem_zip (a := pm.1) (b := pm.2) hz).1

/-- Training on a uniform gray image with a mask that selects a pixel succeeds
and yields the gray statistics, zero variations and three `NaN` thresholds. -/
theorem computeModel_gray (sq : Sqrtf) (oob_c oob_b : Flt) (image : Mat Vec3b) (mask : Mat Nat)
    (hgray : ∀ row ∈ image, ∀ p ∈ row, p = gray)
    (hshape : Mat.shape mask = Mat.shape image)
    (hsel : ∃ row ∈ mask, ∃ v ∈ row, v ≠ 0) :
    SingleLCM.computeModel sq oob_c oob_b (.fin (9 / 10)) image mask
      = some (grayModel .nan .nan .nan) := by
  obtain ⟨k, hk, hselk⟩ := selectedPixels_uniform gray image mask hgray hshape hsel
  have hstats : SingleLCM.computeModelMeanStdDev sq image mask
      = (⟨.fin 128, .fin 128, .fin 128⟩, ⟨.fin 1, .fin 1, .fin 1⟩,
          ⟨.fin (1 / 384), .fin (1 / 384), .fin (1 / 384)⟩) := by
    unfold SingleLCM.computeModelMeanStdDev
    rw [hselk, meanStdDev_gray sq k hk, siteStatistics_gray]
  have hpos := flatten_pos_of_selected image mask k hk gray hselk
  have hb : LCM.selectThresholdMatrix oob_b
      (image.map (fun row => row.map
        (fun p => (SingleLCM.normalizedPixel sq (grayModel 0 0 0) p).1))) (Flt.fin (9 / 10))
      = some (Flt.nan, Flt.nan) := by
    apply selectThresholdMatrix_allNaN
    · intro v hv
      rw [mem_flatten_map_uniform gray image _ hgray v hv, normalizedPixel_gray_gray]
    · rw [length_flatten_map]; exact hpos
  have hc : LCM.selectThresholdMatrix oob_c
      (image.map (fun row => row.map
        (fun p => (SingleLCM.normalizedPixel sq (grayModel 0 0 0) p).2))) (Flt.fin (9 / 10))
      = some (Flt.nan, Flt.nan) := by
    apply selectThresholdMatrix_allNaN
    · intro v hv
      rw [mem_flatten_map_uniform gray image _ hgray v hv, normalizedPixel_gray_gray]
    · rw [length_flatten_map]; exact hpos
  unfold SingleLCM.computeModel
  simp only [hstats, computeVariations_gray sq image mask hshape k hk hselk]
  have hm0 : (⟨⟨Flt.fin (9 / 10), 0, 0, 0⟩, ⟨.fin 128, .fin 128, .fin 128⟩,
      ⟨.fin 1, .fin 1, .fin 1⟩, ⟨.fin (1 / 384), .fin (1 / 384), .fin (1 / 384)⟩,
      Flt.fin 0, Flt.fin 0⟩ : SingleLCM) = grayModel 0 0 0 := rfl
  simp only [hm0, SingleLCM.computeNormalizedDistortions, LCM.selectThresholds, hb, hc]
  rfl

/-- The classification of a uniform image by a `SingleLCM`. -/
theorem classify_uniform (sq : Sqrtf) (m : SingleLCM) (colour : Vec3b) (test : Mat Vec3b)
    (huni : ∀ row ∈ test, ∀ p ∈ row, p = colour) :
    Model.classify sq (.single m) test
      = .ok (Mat.filled test
          (LCM.labelOf m.toLCM (SingleLCM.normalizedPixel sq m colour).1
            (SingleLCM.normalizedPixel sq m colour).2)) := by
  simp only [Model.classify, Model.computeNormalizedDistortions,
    SingleLCM.computeNormalizedDistortions, Model.toLCM]
  rw [LCM.classifyNormalized_map m.toLCM test test _ _ rfl]
  simp only [Mat.filled, Except.ok.injEq]
  apply List.map_congr_left
  intro row hrow
  apply List.map_congr_left
  intro p hp
  rw [huni row hrow p hp]

theorem labelOf_gray_gray (sq : Sqrtf) (t_cd t_bl t_bu : Flt) :
    LCM.labelOf (grayModel t_cd t_bl t_bu).toLCM
      (SingleLCM.normalizedPixel sq (grayModel t_cd t_bl t_bu) gray).1
      (SingleLCM.normalizedPixel sq (grayModel t_cd t_bl t_bu) gray).2 = LCM.HIGHLIGHT := by
  rw [normalizedPixel_gray_gray]
  cases t_cd <;> cases t_bl <;> cases t_bu <;>
    simp [LCM.labelOf, grayModel, Flt.gt, Flt.lt, Flt.ofNat_eq]

theorem labelOf_gray_black (sq : Sqrtf) (t_cd t_bl t_bu : Flt) :
    LCM.labelOf (grayModel t_cd t_bl t_bu).toLCM
      (SingleLCM.normalizedPixel sq (grayModel t_cd t_bl t_bu) black).1
      (SingleLCM.normalizedPixel sq (grayModel t_cd t_bl t_bu) black).2 = LCM.SHADOW := by
  rw [normalizedPixel_gray_black]
  cases t_cd <;> cases t_bl <;> cases t_bu <;>
    simp [LCM.labelOf, grayModel, Flt.gt, Flt.lt, Flt.ofNat_eq]

theorem labelOf_gray_white (sq : Sqrtf) (t_cd t_bl t_bu : Flt) :
    LCM.labelOf (grayModel t_cd t_bl t_bu).toLCM
      (SingleLCM.normalizedPixel sq (grayModel t_cd t_bl t_bu) white).1
      (SingleLCM.normalizedPixel sq (grayModel t_cd t_bl t_bu) white).2 = LCM.HIGHLIGHT := by
  rw [normalizedPixel_gray_white]
  cases t_cd <;> cases t_bl <;> cases t_bu <;>
    simp [LCM.labelOf, grayModel, Flt.gt, Flt.lt, Flt.ofNat_eq]

theorem labelOf_gray_green (sq : Sqrtf) (t_bl t_bu : Flt) :
    LCM.labelOf (grayModel .nan t_bl t_bu).toLCM
      (SingleLCM.normalizedPixel sq (grayModel .nan t_bl t_bu) green).1
      (SingleLCM.normalizedPixel sq (grayModel .nan t_bl t_bu) green).2 = LCM.SHADOW := by
  rw [normalizedPixel_gray_green]
  cases t_bl <;> cases t_bu <;>
    simp [LCM.labelOf, grayModel, Flt.gt, Flt.lt, Flt.ofNat_eq]

/-! ## Claims on the uniform gray scenario -/

/-- C6, as stated, fails: the model trained at detection rate 0.9 on the one
pixel gray image labels that same image HIGHLIGHT, not BACKGROUND. -/
theorem C6_gray_on_gray_counterexample :
    SingleLCM.computeModel sqrtQ 0 0 (.fin (9 / 10)) [[gray]] [[1]]
      = some (grayModel .nan .nan .nan) ∧
    Model.classify sqrtQ (.single (grayModel .nan .nan .nan)) [[gray]]
      = .ok [[LCM.HIGHLIGHT]] ∧
    LCM.HIGHLIGHT ≠ LCM.BACKGROUND := by
  refine ⟨by decide!, ?_, by decide⟩
  simp only [Model.classify, Model.computeNormalizedDistortions, Except.ok.injEq]
  decide!

/-- C6, amended: a `SingleLCM` trained with detection rate 0.9 on an image all
of whose pixels are (128,128,128), with a mask that selects at least one
pixel, labels every pixel of that same image HIGHLIGHT. -/
theorem C6_gray_on_gray_is_highlight (sq : Sqrtf) (oob_c oob_b : Flt)
    (image : Mat Vec3b) (mask : Mat Nat)
    (hgray : ∀ row ∈ image, ∀ p ∈ row, p = gray)
    (hshape : Mat.shape mask = Mat.shape image)
    (hsel : ∃ row ∈ mask, ∃ v ∈ row, v ≠ 0) :
    ∃ m, SingleLCM.computeModel sq oob_c oob_b (.fin (9 / 10)) image mask = some m ∧
      Model.classify sq (.single m) image = .ok (Mat.filled image LCM.HIGHLIGHT) := by
  refine ⟨_, computeModel_gray sq oob_c oob_b image mask hgray hshape hsel, ?_⟩
  rw [classify_uniform sq _ gray image hgray, labelOf_gray_gray]

theorem C6_gray_on_gray_is_highlight_witness :
    ∃ m, SingleLCM.computeModel sqrtQ 0 0 (.fin (9 / 10)) [[gray, gray], [gray, gray]]
        [[0, 1], [0, 0]] = some m ∧
      Model.classify sqrtQ (.single m) [[gray, gray], [gray, gray]]
        = .ok (Mat.filled [[gray, gray], [gray, gray]] LCM.HIGHLIGHT) :=
  C6_gray_on_gray_is_highlight sqrtQ 0 0 [[gray, gray], [gray, gray]] [[0, 1], [0, 0]]
    (by decide) (by decide) (by decide)

/-- C7: a `SingleLCM` trained with detection rate 0.9 on a uniform
(128,128,128) image labels every pixel of an image whose pixels are all
(0,0,0) SHADOW. -/
theorem C7_black_is_shadow (sq : Sqrtf) (oob_c oob_b : Flt)
    (image : Mat Vec3b) (mask : Mat Nat)
    (hgray : ∀ row ∈ image, ∀ p ∈ row, p = gray)
    (hshape : Mat.shape mask = Mat.shape image)
    (hsel : ∃ row ∈ mask, ∃ v ∈ row, v ≠ 0) :
    ∃ m, SingleLCM.computeModel sq oob_c oob_b (.fin (9 / 10)) image mask = some m ∧
      ∀ test : Mat Vec3b, (∀ row ∈ test, ∀ p ∈ row, p = black) →
        Model.classify sq (.single m) test = .ok (Mat.filled test LCM.SHADOW) := by
  refine ⟨_, computeModel_gray sq oob_c oob_b image mask hgray hshape hsel, ?_⟩
  intro test htest
  rw [classify_uniform sq _ black test htest, labelOf_gray_black]

theorem C7_black_is_shadow_witness :
    ∃ m, SingleLCM.computeModel sqrtQ 0 0 (.fin (9 / 10)) [[gray, gray], [gray, gray]]
        [[0, 1], [0, 0]] = some m ∧
      ∀ test : Mat Vec3b, (∀ row ∈ test, ∀ p ∈ row, p = black) →
        Model.classify sqrtQ (.single m) test = .ok (Mat.filled test LCM.SHADOW) :=
  C7_black_is_shadow sqrtQ 0 0 [[gray, gray], [gray, gray]] [[0, 1], [0, 0]]
    (by decide) (by decide) (by decide)

/-- C9: a `SingleLCM` trained with detection rate 0.9 on a uniform
(128,128,128) image labels every pixel of an image whose pixels are all
(255,255,255) HIGHLIGHT. -/
theorem C9_white_is_highlight (sq : Sqrtf) (oob_c oob_b : Flt)
    (image : Mat Vec3b) (mask : Mat Nat)
    (hgray : ∀ row ∈ image, ∀ p ∈ row, p = gray)
    (hshape : Mat.shape mask = Mat.shape image)
    (hsel : ∃ row ∈ mask, ∃ v ∈ row, v ≠ 0) :
    ∃ m, SingleLCM.computeModel sq oob_c oob_b (.fin (9 / 10)) image mask = some m ∧
      ∀ test : Mat Vec3b, (∀ row ∈ test, ∀ p ∈ row, p = white) →
        Model.classify sq (.single m) test = .ok (Mat.filled test LCM.HIGHLIGHT) := by
  refine ⟨_, computeModel_gray sq oob_c oob_b image mask hgray hshape hsel, ?_⟩
  intro test htest
  rw [classify_uniform sq _ white test htest, labelOf_gray_white]

theorem C9_white_is_highlight_witness :
    ∃ m, SingleLCM.computeModel sqrtQ 0 0 (.fin (9 / 10)) [[gray, gray], [gray, gray]]
        [[0, 1], [0, 0]] = some m ∧
      ∀ test : Mat Vec3b, (∀ row ∈ test, ∀ p ∈ row, p = white) →
        Model.classify sqrtQ (.single m) test = .ok (Mat.filled test LCM.HIGHLIGHT) :=
  C9_white_is_highlight sqrtQ 0 0 [[gray, gray], [gray, gray]] [[0, 1], [0, 0]]
    (by decide) (by decide) (by decide)

/-- C8 on the code: whatever the square root and whatever lies behind the
sorted arrays, the `SingleLCM` trained with detection rate 0.9 on the one pixel
image (128,128,128) has the threshold `T_cd = NaN` and labels the pixel
(0,255,0) SHADOW, not FOREGROUND. -/
theorem C8_green_is_shadow (sq : Sqrtf) (oob_c oob_b : Flt) :
    ∃ m, SingleLCM.computeModel sq oob_c oob_b (.fin (9 / 10)) [[gray]] [[1]] = some m ∧
      m._threshold_cdist = Flt.nan ∧
      Model.classify sq (.single m) [[green]] = .ok [[LCM.SHADOW]] ∧
      LCM.SHADOW ≠ LCM.FOREGROUND := by
  refine ⟨_, computeModel_gray sq oob_c oob_b [[gray]] [[1]] (by decide) (by decide)
    (by decide), rfl, ?_, by decide⟩
  rw [classify_uniform sq _ green [[green]] (by decide), labelOf_gray_green]
  rfl

theorem multiple_stats_gray (sq : Sqrtf) :
    MultipleLCM.computeModelMeanStdDev sq [[[gray]]]
      = .ok [[(⟨.fin 128, .fin 128, .fin 128⟩, ⟨.fin 1, .fin 1, .fin 1⟩,
          ⟨.fin (1 / 384), .fin (1 / 384), .fin (1 / 384)⟩)]] := by
  have h := meanStdDev_gray sq 1 (by norm_num)
  simp only [List.replicate_one] at h
  simp [MultipleLCM.computeModelMeanStdDev, mapSitesM, mapFromM, pixelsAt, Mat.at?, h,
    siteStatistics_gray]

theorem multiple_variations_gray (sq : Sqrtf) :
    MultipleLCM.computeVariations sq [[⟨.fin 128, .fin 128, .fin 128⟩]]
      [[⟨.fin 1, .fin 1, .fin 1⟩]] [[⟨.fin (1 / 384), .fin (1 / 384), .fin (1 / 384)⟩]]
      [[[gray]]] = .ok [[(Flt.fin 0, Flt.fin 0)]] := by
  have hb := grayBrightness
  have hc := grayChromacity sq
  simp only [SingleLCM.computeBrightnessDistortion, SingleLCM.computeChromacityDistortion]
    at hb hc
  have h1 : Flt.fin 0 / Flt.fin 1 = Flt.fin 0 := by decide!
  simp only [MultipleLCM.computeVariations, mapSitesM, mapFromM, MultipleLCM.siteSums,
    MultipleLCM.computeBrightnessDistortion, MultipleLCM.computeChromacityDistortion, Mat.at?,
    List.getElem?_cons_zero, List.length_singleton, hb, hc, Flt.ofNat_eq, Flt.natCast_eq,
    Nat.cast_one, Nat.cast_zero, Flt.fin_sub, Flt.fin_mul, Flt.fin_add, sub_self, mul_zero,
    add_zero, h1, Flt.sqrt_zero]

/-- The `MultipleLCM` that training on the single one pixel gray frame builds. -/
theorem multiple_construct_gray (sq : Sqrtf) (oob_c oob_b : Flt) :
    MultipleLCM.construct sq oob_c oob_b (.fin (9 / 10)) [[[gray]]]
      = .ok ⟨⟨.fin (9 / 10), .nan, .nan, .nan⟩, [[⟨.fin 128, .fin 128, .fin 128⟩]],
          [[⟨.fin 1, .fin 1, .fin 1⟩]],
          [[⟨.fin (1 / 384), .fin (1 / 384), .fin (1 / 384)⟩]], [[.fin 0]], [[.fin 0]]⟩ := by
  have hb := grayBrightness
  have hc := grayChromacity sq
  simp only [SingleLCM.computeBrightnessDistortion, SingleLCM.computeChromacityDistortion]
    at hb hc
  have hnorm : MultipleLCM.computeNormalizedDistortions sq
      ⟨⟨.fin (9 / 10), 0, 0, 0⟩, [[⟨.fin 128, .fin 128, .fin 128⟩]],
          [[⟨.fin 1, .fin 1, .fin 1⟩]],
          [[⟨.fin (1 / 384), .fin (1 / 384), .fin (1 / 384)⟩]], [[.fin 0]], [[.fin 0]]⟩
      [[[gray]]] = .ok ([[Flt.nan]], [[Flt.nan]]) := by
    simp only [MultipleLCM.computeNormalizedDistortions, MultipleLCM.normalizedBlocks,
      mapSitesM, mapFromM, MultipleLCM.normalizedSite, MultipleLCM.computeBrightnessDistortion,
      MultipleLCM.computeChromacityDistortion, Mat.at?, List.getElem?_cons_zero, hb, hc,
      Flt.ofNat_eq, Nat.cast_one, Flt.fin_sub, sub_self, Flt.zero_div_zero, hcat,
      List.map_cons, List.map_nil]
  have hthr : ∀ oob, LCM.selectThresholdMatrix oob [[Flt.nan]] (Flt.fin (9 / 10))
      = some (Flt.nan, Flt.nan) := by
    intro oob
    apply selectThresholdMatrix_allNaN
    · intro v hv
      simpa using hv
    · simp
  simp only [MultipleLCM.construct, List.isEmpty_cons, Bool.false_eq_true, if_false,
    MultipleLCM.computeModel, multiple_stats_gray, List.map_cons, List.map_nil,
    multiple_variations_gray, hnorm, LCM.selectThresholds, hthr]

/-- C5 on the code: training on a corpus whose samples all match their site
leaves both distortion variations at `sqrt( 0 / n ) = 0` in both variants; the
value is not clamped to 1, and `computeNormalizedDistortions` then divides the
training pixel's distortions by it, which gives `0 / 0 = NaN`. -/
theorem C5_zero_variation_not_clamped (sq : Sqrtf) (oob_c oob_b : Flt) :
    (∃ m, SingleLCM.computeModel sq oob_c oob_b (.fin (9 / 10)) [[gray]] [[1]] = some m ∧
      m._bdist_variation = Flt.fin 0 ∧ m._cdist_variation = Flt.fin 0 ∧
      SingleLCM.computeNormalizedDistortions sq m [[gray]] = ([[Flt.nan]], [[Flt.nan]])) ∧
    (∃ m, MultipleLCM.construct sq oob_c oob_b (.fin (9 / 10)) [[[gray]]] = .ok m ∧
      m._bdist_variation = [[Flt.fin 0]] ∧ m._cdist_variation = [[Flt.fin 0]] ∧
      MultipleLCM.computeNormalizedDistortions sq m [[[gray]]]
        = .ok ([[Flt.nan]], [[Flt.nan]])) := by
  constructor
  · refine ⟨_, computeModel_gray sq oob_c oob_b [[gray]] [[1]] (by decide) (by decide)
      (by decide), rfl, rfl, ?_⟩
    simp only [SingleLCM.computeNormalizedDistortions, List.map_cons, List.map_nil,
      normalizedPixel_gray_gray]
  · refine ⟨_, multiple_construct_gray sq oob_c oob_b, rfl, rfl, ?_⟩
    have hb := grayBrightness
    have hc := grayChromacity sq
    simp only [SingleLCM.computeBrightnessDistortion, SingleLCM.computeChromacityDistortion]
      at hb hc
    simp only [MultipleLCM.computeNormalizedDistortions, MultipleLCM.normalizedBlocks,
      mapSitesM, mapFromM, MultipleLCM.normalizedSite, MultipleLCM.computeBrightnessDistortion,
      MultipleLCM.computeChromacityDistortion, Mat.at?, List.getElem?_cons_zero, hb, hc,
      Flt.ofNat_eq, Nat.cast_one, Flt.fin_sub, sub_self, Flt.zero_div_zero, hcat,
      List.map_cons, List.map_nil]

/-! ## Claims on construction and on the size of the classification map -/

/-- C11: constructing a `MultipleLCM` from an empty sequence of training images
fails: the constructor reports "ERROR: no input images!" and leaves through
`exit( 0 )`; no model, hence no statistics, variations or thresholds, is
produced. -/
theorem C11_empty_corpus_fails (sq : Sqrtf) (oob_c oob_b detection_rate : Flt) :
    MultipleLCM.construct sq oob_c oob_b detection_rate [] = .error .exited ∧
    ∀ m : MultipleLCM, MultipleLCM.construct sq oob_c oob_b detection_rate [] ≠ .ok m := by
  constructor
  · rfl
  · intro m h
    simp [MultipleLCM.construct] at h

theorem shape_length_eq {α β : Type} (a : Mat α) (b : Mat β)
    (h : Mat.shape a = Mat.shape b) : a.length = b.length := by
  have := congrArg List.length h
  simpa [Mat.shape] using this

theorem shape_row_length {α β : Type} (a : Mat α) (b : Mat β)
    (h : Mat.shape a = Mat.shape b) (row : List α) (hrow : row ∈ a) :
    ∃ row2 ∈ b, row2.length = row.length := by
  have h1 : row.length ∈ Mat.shape a := List.mem_map.mpr ⟨row, hrow, rfl⟩
  rw [h] at h1
  obtain ⟨row2, hrow2, hlen⟩ := List.mem_map.mp h1
  exact ⟨row2, hrow2, hlen⟩

/-- C14: for a `SingleLCM`, `classify` succeeds on an image of any height `H`
and width `W`, whatever the model was trained on, and the map it returns has
exactly `H` rows and `W` columns. -/
theorem C14_single_classifies_any_size (sq : Sqrtf) (m : SingleLCM) (image : Mat Vec3b)
    (H W : Nat) (hH : image.length = H) (hW : ∀ row ∈ image, row.length = W) :
    ∃ out, Model.classify sq (.single m) image = .ok out ∧
      out.length = H ∧ ∀ row ∈ out, row.length = W := by
  obtain ⟨out, hout, hshape, _, _⟩ :=
    Model.classify_pixel sq (.single m) image _ _ (rfl :
      Model.computeNormalizedDistortions sq (.single m) image
        = .ok ((SingleLCM.computeNormalizedDistortions sq m image).1,
               (SingleLCM.computeNormalizedDistortions sq m image).2))
  refine ⟨out, hout, ?_, ?_⟩
  · rw [shape_length_eq out image hshape, hH]
  · intro row hrow
    obtain ⟨row2, hrow2, hlen⟩ := shape_row_length out image hshape row hrow
    rw [← hlen, hW row2 hrow2]

theorem C14_single_classifies_any_size_witness :
    ∃ out, Model.classify sqrtQ (.single demoModel) demoTest = .ok out ∧
      out.length = 1 ∧ ∀ row ∈ out, row.length = 2 :=
  C14_single_classifies_any_size sqrtQ demoModel demoTest 1 2 (by decide) (by decide)

/-- C17: for every mean triple and every stddev triple with non-zero channels,
`computeBrightnessDenominator` returns the sum over the three channels of
`(mean_c / stddev_c)^2` when that sum is non-zero and 1 when it is exactly 0;
the result is strictly positive. -/
theorem C17_brightness_denominator (m0 m1 m2 s0 s1 s2 : ℚ)
    (h0 : s0 ≠ 0) (h1 : s1 ≠ 0) (h2 : s2 ≠ 0) :
    LCM.computeBrightnessDenominator ⟨.fin m0, .fin m1, .fin m2⟩ ⟨.fin s0, .fin s1, .fin s2⟩
      = Flt.fin (if (m0 / s0) ^ 2 + (m1 / s1) ^ 2 + (m2 / s2) ^ 2 = 0 then 1
          else (m0 / s0) ^ 2 + (m1 / s1) ^ 2 + (m2 / s2) ^ 2) ∧
    (0 : ℚ) < (if (m0 / s0) ^ 2 + (m1 / s1) ^ 2 + (m2 / s2) ^ 2 = 0 then 1
          else (m0 / s0) ^ 2 + (m1 / s1) ^ 2 + (m2 / s2) ^ 2) := by
  have hnn : (0 : ℚ) ≤ (m0 / s0) ^ 2 + (m1 / s1) ^ 2 + (m2 / s2) ^ 2 := by positivity
  constructor
  · simp only [LCM.computeBrightnessDenominator, Flt.fin_div _ _ h0, Flt.fin_div _ _ h1,
      Flt.fin_div _ _ h2, Flt.fin_mul, Flt.fin_add, Flt.ofNat_eq, Nat.cast_zero, Nat.cast_one,
      Flt.eq, Flt.fin.injEq, decide_eq_true_eq, ← pow_two]
    split <;> rfl
  · split
    · norm_num
    · rename_i hne
      exact lt_of_le_of_ne hnn (Ne.symm hne)

theorem C17_brightness_denominator_witness :
    LCM.computeBrightnessDenominator ⟨.fin 20, .fin 20, .fin 80⟩ ⟨.fin 10, .fin 10, .fin 10⟩
      = Flt.fin (if ((20 : ℚ) / 10) ^ 2 + (20 / 10) ^ 2 + (80 / 10) ^ 2 = 0 then 1
          else (20 / 10) ^ 2 + (20 / 10) ^ 2 + (80 / 10) ^ 2) ∧
    (0 : ℚ) < (if ((20 : ℚ) / 10) ^ 2 + (20 / 10) ^ 2 + (80 / 10) ^ 2 = 0 then 1
          else (20 / 10) ^ 2 + (20 / 10) ^ 2 + (80 / 10) ^ 2) :=
  C17_brightness_denominator 20 20 80 10 10 10 (by norm_num) (by norm_num) (by norm_num)

/-- C20: for a `SingleLCM`, the label that `classify` assigns to a pixel depends
only on the colour of the pixel: two pixels of the same colour, at any
coordinates of the same or of different images, receive the same label. -/
theorem C20_single_label_depends_on_colour (sq : Sqrtf) (m : SingleLCM)
    (image1 image2 : Mat Vec3b) (y1 x1 y2 x2 : Nat) (p : Vec3b)
    (h1 : Mat.get? image1 y1 x1 = some p) (h2 : Mat.get? image2 y2 x2 = some p) :
    ∃ out1 out2 label, Model.classify sq (.single m) image1 = .ok out1 ∧
      Model.classify sq (.single m) image2 = .ok out2 ∧
      Mat.get? out1 y1 x1 = some label ∧ Mat.get? out2 y2 x2 = some label := by
  have key : ∀ image : Mat Vec3b, ∀ y x : Nat, Mat.get? image y x = some p →
      ∃ out, Model.classify sq (.single m) image = .ok out ∧
        Mat.get? out y x = some (LCM.labelOf m.toLCM (SingleLCM.normalizedPixel sq m p).1
          (SingleLCM.normalizedPixel sq m p).2) := by
    intro image y x h
    obtain ⟨out, hout, _, _, hpix⟩ :=
      Model.classify_pixel sq (.single m) image _ _ (rfl :
        Model.computeNormalizedDistortions sq (.single m) image
          = .ok ((SingleLCM.computeNormalizedDistortions sq m image).1,
                 (SingleLCM.computeNormalizedDistortions sq m image).2))
    refine ⟨out, hout, hpix y x _ _ ?_ ?_⟩
    · show Mat.get? (image.map (fun row => row.map
          (fun q => (SingleLCM.normalizedPixel sq m q).1))) y x = _
      rw [Mat.get?_map, h]; rfl
    · show Mat.get? (image.map (fun row => row.map
          (fun q => (SingleLCM.normalizedPixel sq m q).2))) y x = _
      rw [Mat.get?_map, h]; rfl
  obtain ⟨out1, ho1, hp1⟩ := key image1 y1 x1 h1
  obtain ⟨out2, ho2, hp2⟩ := key image2 y2 x2 h2
  exact ⟨out1, out2, _, ho1, ho2, hp1, hp2⟩

/-- The pixel (30,30,90) occurs at columns 0 and 2 of `demoImage`. -/
theorem C20_single_label_depends_on_colour_witness :
    ∃ out1 out2 label, Model.classify sqrtQ (.single demoModel) demoImage = .ok out1 ∧
      Model.classify sqrtQ (.single demoModel) demoImage = .ok out2 ∧
      Mat.get? out1 0 0 = some label ∧ Mat.get? out2 0 2 = some label :=
  C20_single_label_depends_on_colour sqrtQ demoModel demoImage demoImage 0 0 0 2 ⟨30, 30, 90⟩
    (by decide) (by decide)

/-! ## Success of the threshold selection and of the spatial training -/

theorem LCM.readSorted_some (sorted : List Flt) (q : ℚ) (n : Nat) (hq0 : 0 ≤ q)
    (hq : q ≤ (n : ℚ)) (hlen : sorted.length = n + 1) :
    ∃ v, LCM.readSorted sorted ⌊q⌋ = some v := by
  have h0 : 0 ≤ ⌊q⌋ := Int.floor_nonneg.mpr hq0
  have h1 : ⌊q⌋ ≤ (n : ℤ) := by
    have : ((⌊q⌋ : ℤ) : ℚ) ≤ ((n : ℤ) : ℚ) := le_trans (Int.floor_le q) (by exact_mod_cast hq)
    exact_mod_cast this
  have h2 : ⌊q⌋.toNat < sorted.length := by omega
  refine ⟨sorted[⌊q⌋.toNat], ?_⟩
  unfold LCM.readSorted
  rw [if_neg (by omega), List.getElem?_eq_getElem h2]

/-- For a detection rate between 0 and 1 both reads of `selectThresholdMatrix`
stay inside the sorted range. -/
theorem LCM.selectThresholdMatrix_some (oob : Flt) (mat : Mat Flt) (r : ℚ)
    (hr0 : 0 ≤ r) (hr1 : r ≤ 1) :
    ∃ left right, LCM.selectThresholdMatrix oob mat (Flt.fin r) = some (left, right) := by
  have hM : (0 : ℚ) ≤ (mat.flatten.length : ℚ) := by positivity
  have hl0 : (0 : ℚ) ≤ (1 - r) * (mat.flatten.length : ℚ) := by nlinarith
  have hl1 : (1 - r) * (mat.flatten.length : ℚ) ≤ (mat.flatten.length : ℚ) := by nlinarith
  have hq0 : (0 : ℚ) ≤ r * (mat.flatten.length : ℚ) := by nlinarith
  have hq1 : r * (mat.flatten.length : ℚ) ≤ (mat.flatten.length : ℚ) := by nlinarith
  have hlen : (LCM.stdSort (mat.flatten ++ [oob])).length = mat.flatten.length + 1 := by
    simp [LCM.stdSort, List.length_insertionSort]
  obtain ⟨vl, hvl⟩ := LCM.readSorted_some _ _ _ hl0 hl1 hlen
  obtain ⟨vr, hvr⟩ := LCM.readSorted_some _ _ _ hq0 hq1 hlen
  refine ⟨vl, vr, ?_⟩
  unfold LCM.selectThresholdMatrix
  simp only [Flt.ofNat_eq, Nat.cast_one, Flt.natCast_eq, Flt.fin_sub, Flt.fin_mul,
    LCM.toInt_fin_nonneg _ hl0, LCM.toInt_fin_nonneg _ hq0, hvl, hvr]

theorem LCM.selectThresholds_some (oob_c oob_b : Flt) (bn cn : Mat Flt) (r : ℚ)
    (hr0 : 0 ≤ r) (hr1 : r ≤ 1) :
    ∃ t, LCM.selectThresholds oob_c oob_b (Flt.fin r) bn cn = some t := by
  obtain ⟨l1, r1, h1⟩ := LCM.selectThresholdMatrix_some oob_c cn r hr0 hr1
  obtain ⟨l2, r2, h2⟩ := LCM.selectThresholdMatrix_some oob_b bn r hr0 hr1
  exact ⟨(r1, l2, r2), by simp only [LCM.selectThresholds, h1, h2]⟩

/-- What a trained `SingleLCM` stores: the site statistics of
`computeModelMeanStdDev` and the variations of `computeVariations`. -/
theorem SingleLCM.computeModel_fields (sq : Sqrtf) (oob_c oob_b rate : Flt)
    (image : Mat Vec3b) (mask : Mat Nat) (m : SingleLCM)
    (h : SingleLCM.computeModel sq oob_c oob_b rate image mask = some m) :
    m._mean = (SingleLCM.computeModelMeanStdDev sq image mask).1 ∧
    m._stddev = (SingleLCM.computeModelMeanStdDev sq image mask).2.1 ∧
    m._brightness = (SingleLCM.computeModelMeanStdDev sq image mask).2.2 ∧
    SingleLCM.computeVariations sq (SingleLCM.computeModelMeanStdDev sq image mask).1
      (SingleLCM.computeModelMeanStdDev sq image mask).2.1
      (SingleLCM.computeModelMeanStdDev sq image mask).2.2 image mask
      = some (m._bdist_variation, m._cdist_variation) := by
  unfold SingleLCM.computeModel at h
  simp only at h
  split at h
  · cases h
  · rename_i bvar cvar hv
    split at h
    · cases h
    · simp only [Option.some.injEq] at h
      subst h
      exact ⟨rfl, rfl, rfl, hv⟩

/-- The spatial training succeeds as soon as the mask has the size of the
image and the detection rate lies between 0 and 1. -/
theorem SingleLCM.computeModel_some (sq : Sqrtf) (oob_c oob_b : Flt) (r : ℚ)
    (hr0 : 0 ≤ r) (hr1 : r ≤ 1) (image : Mat Vec3b) (mask : Mat Nat)
    (hshape : Mat.shape mask = Mat.shape image) :
    ∃ m, SingleLCM.computeModel sq oob_c oob_b (Flt.fin r) image mask = some m := by
  have hv : ∃ v, SingleLCM.computeVariations sq (SingleLCM.computeModelMeanStdDev sq image mask).1
      (SingleLCM.computeModelMeanStdDev sq image mask).2.1
      (SingleLCM.computeModelMeanStdDev sq image mask).2.2 image mask = some v := by
    unfold SingleLCM.computeVariations
    rw [if_pos hshape.symm]
    simp only
    split
    · exact ⟨_, rfl⟩
    · exact ⟨_, rfl⟩
  obtain ⟨v, hv⟩ := hv
  unfold SingleLCM.computeModel
  simp only [hv]
  obtain ⟨t, ht⟩ := LCM.selectThresholds_some oob_c oob_b
    (SingleLCM.computeNormalizedDistortions sq
      ⟨⟨Flt.fin r, 0, 0, 0⟩, (SingleLCM.computeModelMeanStdDev sq image mask).1,
        (SingleLCM.computeModelMeanStdDev sq image mask).2.1,
        (SingleLCM.computeModelMeanStdDev sq image mask).2.2, v.1, v.2⟩ image).1
    (SingleLCM.computeNormalizedDistortions sq
      ⟨⟨Flt.fin r, 0, 0, 0⟩, (SingleLCM.computeModelMeanStdDev sq image mask).1,
        (SingleLCM.computeModelMeanStdDev sq image mask).2.1,
        (SingleLCM.computeModelMeanStdDev sq image mask).2.2, v.1, v.2⟩ image).2 r hr0 hr1
  simp only [ht]
  exact ⟨_, rfl⟩

theorem selectedPixels_nil (image : Mat Vec3b) (mask : Mat Nat)
    (hnone : ∀ row ∈ mask, ∀ v ∈ row, v = 0) : selectedPixels image mask = [] := by
  unfold selectedPixels
  rw [List.map_eq_nil_iff, List.filter_eq_nil_iff]
  intro pm hpm
  have h2 : pm.2 ∈ mask.flatten := (List.of_mem_zip (a := pm.1) (b := pm.2) hpm).2
  obtain ⟨row, hrow, hv⟩ := List.mem_flatten.mp h2
  simp [hnone row hrow _ hv]

/-- C15: training a `SingleLCM` with a mask that selects no pixel succeeds, and
both the brightness-distortion variation and the chromaticity-distortion
variation of the resulting model equal 1. -/
theorem C15_empty_mask_variations_one (sq : Sqrtf) (oob_c oob_b : Flt) (r : ℚ)
    (hr0 : 0 ≤ r) (hr1 : r ≤ 1) (image : Mat Vec3b) (mask : Mat Nat)
    (hshape : Mat.shape mask = Mat.shape image)
    (hnone : ∀ row ∈ mask, ∀ v ∈ row, v = 0) :
    ∃ m, SingleLCM.computeModel sq oob_c oob_b (Flt.fin r) image mask = some m ∧
      m._bdist_variation = Flt.fin 1 ∧ m._cdist_variation = Flt.fin 1 := by
  obtain ⟨m, hm⟩ := SingleLCM.computeModel_some sq oob_c oob_b r hr0 hr1 image mask hshape
  obtain ⟨_, _, _, hv⟩ := SingleLCM.computeModel_fields sq oob_c oob_b _ image mask m hm
  refine ⟨m, hm, ?_⟩
  unfold SingleLCM.computeVariations at hv
  rw [if_pos hshape.symm, selectedPixels_nil image mask hnone] at hv
  simp only [SingleLCM.accumulateVariations, List.foldl_nil, gt_iff_lt, lt_self_iff_false,
    if_false, Option.some.injEq, Prod.mk.injEq, Flt.ofNat_eq, Nat.cast_one] at hv
  exact ⟨hv.1.symm, hv.2.symm⟩

theorem C15_empty_mask_variations_one_witness :
    ∃ m, SingleLCM.computeModel sqrtQ 0 0 (Flt.fin (9 / 10)) demoImage [[0, 0, 0, 0, 0]] = some m ∧
      m._bdist_variation = Flt.fin 1 ∧ m._cdist_variation = Flt.fin 1 :=
  C15_empty_mask_variations_one sqrtQ 0 0 (9 / 10) (by norm_num) (by norm_num) demoImage
    [[0, 0, 0, 0, 0]] (by decide) (by decide)

/-! ## Mean and deviation of a site -/

/-- Mean and deviation of a channel that has the same value on every sample. -/
theorem channelMeanStdDev_const (sq : Sqrtf) (v : ℚ) (k : Nat) (hk : 0 < k) :
    channelMeanStdDev sq (List.replicate k v) = (Flt.fin v, Flt.fin 0) := by
  have hk0 : (k : ℚ) ≠ 0 := by exact_mod_cast hk.ne'
  unfold channelMeanStdDev
  rw [if_neg (by simp; omega)]
  simp only [List.length_replicate, List.map_replicate, List.sum_replicate, nsmul_eq_mul]
  have h1 : (k : ℚ) * v / k = v := by field_simp
  have h2 : (k : ℚ) * (v * v) / k - v * v = 0 := by field_simp
  rw [h1, h2, max_self, Flt.sqrt_zero]

theorem meanStdDev_const (sq : Sqrtf) (c : Vec3b) (k : Nat) (hk : 0 < k) :
    meanStdDev sq (List.replicate k c)
      = (⟨.fin ((c.c0 : Nat) : ℚ), .fin ((c.c1 : Nat) : ℚ), .fin ((c.c2 : Nat) : ℚ)⟩,
         ⟨.fin 0, .fin 0, .fin 0⟩) := by
  simp only [meanStdDev, List.map_replicate, channelMeanStdDev_const sq _ k hk]

/-- The deviation that `cv::meanStdDev` returns is a finite non-negative value. -/
theorem channelMeanStdDev_snd (sq : Sqrtf) (vals : List ℚ) :
    ∃ s : ℚ, 0 ≤ s ∧ (channelMeanStdDev sq vals).2 = Flt.fin s := by
  unfold channelMeanStdDev
  split
  · exact ⟨0, le_refl 0, by simp [Flt.ofNat_eq]⟩
  · simp only
    set q := max ((vals.map (fun v => v * v)).sum / (vals.length : ℚ)
      - vals.sum / (vals.length : ℚ) * (vals.sum / (vals.length : ℚ))) 0 with hq
    have hq0 : 0 ≤ q := le_max_right _ _
    refine ⟨sq.f q, ?_, ?_⟩
    · rcases hq0.lt_or_eq with h | h
      · exact (sq.pos q h).le
      · rw [← h, sq.zero]
    · simp [Flt.sqrt, not_lt.mpr hq0]

/-- The clamp `if( stddev[ id ] == 0 ) stddev[ id ] = 1` on a finite
non-negative deviation: 1 in place of 0, the deviation itself otherwise, and in
both cases a positive value. -/
theorem clampStdDev_fin (s : ℚ) (hs : 0 ≤ s) :
    clampStdDev (Flt.fin s) = (if Flt.fin s = Flt.fin 0 then Flt.fin 1 else Flt.fin s) ∧
    ∃ t : ℚ, 0 < t ∧ clampStdDev (Flt.fin s) = Flt.fin t := by
  unfold clampStdDev
  by_cases h : s = 0
  · subst h
    simp [Flt.eq, Flt.ofNat_eq]
  · have hpos : 0 < s := lt_of_le_of_ne hs (Ne.symm h)
    simp [Flt.eq, Flt.ofNat_eq, h, hpos]

/-- Each stored deviation of a site is the clamped deviation of its samples. -/
theorem siteStatistics_stddev (sq : Sqrtf) (pixels : List Vec3b) (c : Fin 3) :
    (siteStatistics (meanStdDev sq pixels)).2.1.chan c
      = (if (meanStdDev sq pixels).2.chan c = Flt.fin 0 then Flt.fin 1
          else (meanStdDev sq pixels).2.chan c) ∧
    ∃ t : ℚ, 0 < t ∧ (siteStatistics (meanStdDev sq pixels)).2.1.chan c = Flt.fin t := by
  obtain ⟨s0, h0, e0⟩ := channelMeanStdDev_snd sq (pixels.map (fun p => ((p.c0 : Nat) : ℚ)))
  obtain ⟨s1, h1, e1⟩ := channelMeanStdDev_snd sq (pixels.map (fun p => ((p.c1 : Nat) : ℚ)))
  obtain ⟨s2, h2, e2⟩ := channelMeanStdDev_snd sq (pixels.map (fun p => ((p.c2 : Nat) : ℚ)))
  fin_cases c
  · simpa only [siteStatistics, meanStdDev, Scalar.chan, e0] using clampStdDev_fin s0 h0
  · simpa only [siteStatistics, meanStdDev, Scalar.chan, e1] using clampStdDev_fin s1 h1
  · simpa only [siteStatistics, meanStdDev, Scalar.chan, e2] using clampStdDev_fin s2 h2

/-- C18: for every spatial training input whose mask selects at least one pixel
and whose selected pixels all have the same colour `c`, the trained model's
mean equals `c` and every channel of its stddev equals 1. -/
theorem C18_uniform_selection_mean_stddev (sq : Sqrtf) (oob_c oob_b : Flt) (r : ℚ)
    (hr0 : 0 ≤ r) (hr1 : r ≤ 1) (image : Mat Vec3b) (mask : Mat Nat)
    (hshape : Mat.shape mask = Mat.shape image) (c : Vec3b)
    (hne : selectedPixels image mask ≠ [])
    (hall : ∀ p ∈ selectedPixels image mask, p = c) :
    ∃ m, SingleLCM.computeModel sq oob_c oob_b (Flt.fin r) image mask = some m ∧
      m._mean = ⟨.fin ((c.c0 : Nat) : ℚ), .fin ((c.c1 : Nat) : ℚ), .fin ((c.c2 : Nat) : ℚ)⟩ ∧
      m._stddev = ⟨.fin 1, .fin 1, .fin 1⟩ := by
  obtain ⟨m, hm⟩ := SingleLCM.computeModel_some sq oob_c oob_b r hr0 hr1 image mask hshape
  obtain ⟨hmean, hsd, _, _⟩ := SingleLCM.computeModel_fields sq oob_c oob_b _ image mask m hm
  have hk : 0 < (selectedPixels image mask).length := List.length_pos.mpr hne
  have hrep : selectedPixels image mask
      = List.replicate (selectedPixels image mask).length c :=
    List.eq_replicate_iff.mpr ⟨rfl, hall⟩
  have hstat : SingleLCM.computeModelMeanStdDev sq image mask
      = siteStatistics (⟨.fin ((c.c0 : Nat) : ℚ), .fin ((c.c1 : Nat) : ℚ),
          .fin ((c.c2 : Nat) : ℚ)⟩, ⟨.fin 0, .fin 0, .fin 0⟩) := by
    unfold SingleLCM.computeModelMeanStdDev
    rw [hrep, meanStdDev_const sq c _ hk]
  refine ⟨m, hm, ?_, ?_⟩
  · rw [hmean, hstat]; rfl
  · rw [hsd, hstat]
    simp [siteStatistics, clampStdDev, Flt.eq, Flt.ofNat_eq]

theorem C18_uniform_selection_mean_stddev_witness :
    ∃ m, SingleLCM.computeModel sqrtQ 0 0 (Flt.fin (9 / 10)) [[gray, black], [green, gray]]
        [[1, 0], [0, 1]] = some m ∧
      m._mean = ⟨.fin ((gray.c0 : Nat) : ℚ), .fin ((gray.c1 : Nat) : ℚ),
        .fin ((gray.c2 : Nat) : ℚ)⟩ ∧
      m._stddev = ⟨.fin 1, .fin 1, .fin 1⟩ :=
  C18_uniform_selection_mean_stddev sqrtQ 0 0 (9 / 10) (by norm_num) (by norm_num)
    [[gray, black], [green, gray]] [[1, 0], [0, 1]] (by decide) gray (by decide) (by decide)

/-! ## The double loop over the sites -/

theorem mapFromM_get {α β : Type} (f : Nat → α → Except Fault β) (l : List α) :
    ∀ (i : Nat) (r : List β), mapFromM f i l = .ok r →
      ∀ (j : Nat) (b : β), r[j]? = some b → ∃ a, l[j]? = some a ∧ f (i + j) a = .ok b := by
  induction l with
  | nil =>
      intro i r h j b hb
      simp only [mapFromM, Except.ok.injEq] at h
      subst h
      simp at hb
  | cons a l ih =>
      intro i r h j b hb
      simp only [mapFromM] at h
      split at h
      · cases h
      · rename_i b0 hb0
        split at h
        · cases h
        · rename_i bs hbs
          simp only [Except.ok.injEq] at h
          subst h
          cases j with
          | zero =>
              simp only [List.getElem?_cons_zero, Option.some.injEq] at hb
              subst hb
              exact ⟨a, by simp, by simpa using hb0⟩
          | succ j =>
              simp only [List.getElem?_cons_succ] at hb
              obtain ⟨a2, ha2, hf⟩ := ih (i + 1) bs hbs j b hb
              refine ⟨a2, by simpa using ha2, ?_⟩
              rw [← hf]
              congr 1
              omega

theorem mapFromM_ok {α β : Type} (f : Nat → α → Except Fault β) (l : List α) :
    ∀ (i : Nat), (∀ (j : Nat) (a : α), l[j]? = some a → ∃ b, f (i + j) a = .ok b) →
      ∃ r, mapFromM f i l = .ok r := by
  induction l with
  | nil => intro i _; exact ⟨[], rfl⟩
  | cons a l ih =>
      intro i h
      obtain ⟨b, hb⟩ := h 0 a (by simp)
      obtain ⟨bs, hbs⟩ := ih (i + 1) (by
        intro j a2 ha2
        obtain ⟨b2, hb2⟩ := h (j + 1) a2 (by simpa using ha2)
        refine ⟨b2, ?_⟩
        rw [← hb2]
        congr 1
        omega)
      simp only [Nat.add_zero] at hb
      exact ⟨b :: bs, by simp only [mapFromM, hb, hbs]⟩

theorem Mat.get?_eq_some {α : Type} (m : Mat α) (y x : Nat) (v : α) :
    Mat.get? m y x = some v ↔ ∃ row, m[y]? = some row ∧ row[x]? = some v := by
  unfold Mat.get?
  cases m[y]? with
  | none => simp
  | some row => simp

/-- The value that the double loop stores at a position is the value computed
for that position. -/
theorem mapSitesM_get {α β : Type} (like : Mat α) (f : Nat → Nat → Except Fault β)
    (r : Mat β) (h : mapSitesM like f = .ok r) (y x : Nat) (b : β)
    (hb : Mat.get? r y x = some b) :
    (Mat.get? like y x).isSome ∧ f y x = .ok b := by
  obtain ⟨rowr, hrowr, hbx⟩ := (Mat.get?_eq_some r y x b).mp hb
  obtain ⟨row, hrow, hg⟩ := mapFromM_get _ like 0 r h y rowr hrowr
  obtain ⟨a, ha, hf⟩ := mapFromM_get _ row 0 rowr hg x b hbx
  simp only [Nat.zero_add] at hf
  refine ⟨?_, hf⟩
  rw [(Mat.get?_eq_some like y x a).mpr ⟨row, hrow, ha⟩]
  rfl

/-- The double loop succeeds when the computation succeeds at every position. -/
theorem mapSitesM_ok {α β : Type} (like : Mat α) (f : Nat → Nat → Except Fault β)
    (h : ∀ y x : Nat, (Mat.get? like y x).isSome → ∃ b, f y x = .ok b) :
    ∃ r, mapSitesM like f = .ok r := by
  unfold mapSitesM
  apply mapFromM_ok
  intro y row hrow
  simp only [Nat.zero_add]
  apply mapFromM_ok
  intro x a ha
  simp only [Nat.zero_add]
  apply h
  rw [(Mat.get?_eq_some like y x a).mpr ⟨row, hrow, ha⟩]
  rfl

theorem Mat.get?_isSome_iff {α : Type} (m : Mat α) (y x : Nat) :
    (Mat.get? m y x).isSome ↔ ∃ n, (Mat.shape m)[y]? = some n ∧ x < n := by
  unfold Mat.get? Mat.shape
  rw [List.getElem?_map]
  cases m[y]? with
  | none => simp
  | some row =>
      simp only [Option.map_some', Option.some.injEq, exists_eq_left']
      constructor
      · intro h
        obtain ⟨v, hv⟩ := Option.isSome_iff_exists.mp h
        exact (List.getElem?_eq_some_iff.mp hv).1
      · intro h
        rw [List.getElem?_eq_getElem h]
        rfl

theorem Mat.get?_isSome_of_shape {α β : Type} (a : Mat α) (b : Mat β)
    (h : Mat.shape a = Mat.shape b) (y x : Nat) :
    (Mat.get? a y x).isSome ↔ (Mat.get? b y x).isSome := by
  rw [Mat.get?_isSome_iff, Mat.get?_isSome_iff, h]

/-- When the double loop succeeds the computation has succeeded at every position. -/
theorem mapSitesM_all {α β : Type} (like : Mat α) (f : Nat → Nat → Except Fault β)
    (r : Mat β) (h : mapSitesM like f = .ok r) (y x : Nat)
    (hyx : (Mat.get? like y x).isSome) : ∃ b, Mat.get? r y x = some b ∧ f y x = .ok b := by
  have hs := (Mat.get?_isSome_of_shape r like (mapSitesM_shape like f r h) y x).mpr hyx
  obtain ⟨b, hb⟩ := Option.isSome_iff_exists.mp hs
  exact ⟨b, hb, (mapSitesM_get like f r h y x b hb).2⟩

/-! ## What a trained `MultipleLCM` stores -/

theorem MultipleLCM.construct_fields (sq : Sqrtf) (oob_c oob_b rate : Flt)
    (images : List (Mat Vec3b)) (m : MultipleLCM)
    (h : MultipleLCM.construct sq oob_c oob_b rate images = .ok m) :
    ∃ (first : Mat Vec3b) (rest : List (Mat Vec3b))
      (stats : Mat (Scalar × Scalar × Scalar)) (vars : Mat (Flt × Flt)),
      images = first :: rest ∧
      MultipleLCM.computeModelMeanStdDev sq images = .ok stats ∧
      m._mean = stats.map (fun row => row.map (fun s => s.1)) ∧
      m._stddev = stats.map (fun row => row.map (fun s => s.2.1)) ∧
      m._brightness = stats.map (fun row => row.map (fun s => s.2.2)) ∧
      MultipleLCM.computeVariations sq m._mean m._stddev m._brightness images = .ok vars ∧
      m._bdist_variation = vars.map (fun row => row.map Prod.fst) ∧
      m._cdist_variation = vars.map (fun row => row.map Prod.snd) := by
  cases images with
  | nil => simp [MultipleLCM.construct] at h
  | cons first rest =>
      simp only [MultipleLCM.construct, List.isEmpty_cons, Bool.false_eq_true, if_false,
        MultipleLCM.computeModel] at h
      split at h
      · cases h
      · rename_i stats hstats
        split at h
        · cases h
        · rename_i vars hvars
          split at h
          · cases h
          · split at h
            · cases h
            · simp only [Except.ok.injEq] at h
              subst h
              exact ⟨first, rest, stats, vars, rfl, hstats, rfl, rfl, rfl, hvars, rfl, rfl⟩

/-- The statistics of a site of a trained `MultipleLCM` are those of the pixels
of the training images at that site. -/
theorem MultipleLCM.stats_site (sq : Sqrtf) (images : List (Mat Vec3b))
    (stats : Mat (Scalar × Scalar × Scalar))
    (h : MultipleLCM.computeModelMeanStdDev sq images = .ok stats) (y x : Nat)
    (st : Scalar × Scalar × Scalar) (hst : Mat.get? stats y x = some st) :
    ∃ pixels, pixelsAt images y x = .ok pixels ∧ st = siteStatistics (meanStdDev sq pixels) := by
  cases images with
  | nil => simp [MultipleLCM.computeModelMeanStdDev] at h
  | cons first rest =>
      simp only [MultipleLCM.computeModelMeanStdDev] at h
      have hf := (mapSitesM_get first _ stats h y x st hst).2
      split at hf
      · cases hf
      · rename_i pixels hp
        simp only [Except.ok.injEq] at hf
        exact ⟨pixels, hp, hf.symm⟩

/-- C16: for every trained model, in both modes, every channel of the stored
standard deviation of every site is strictly positive: it is 1 when the
population standard deviation of the site's samples in that channel (the value
`cv::meanStdDev` returns) is 0, and that standard deviation otherwise. -/
theorem C16_stored_stddev_positive (sq : Sqrtf) :
    (∀ (oob_c oob_b rate : Flt) (image : Mat Vec3b) (mask : Mat Nat) (m : SingleLCM),
      SingleLCM.computeModel sq oob_c oob_b rate image mask = some m →
      ∀ c : Fin 3,
        m._stddev.chan c
          = (if (meanStdDev sq (selectedPixels image mask)).2.chan c = Flt.fin 0 then Flt.fin 1
              else (meanStdDev sq (selectedPixels image mask)).2.chan c) ∧
        ∃ t : ℚ, 0 < t ∧ m._stddev.chan c = Flt.fin t) ∧
    (∀ (oob_c oob_b rate : Flt) (images : List (Mat Vec3b)) (m : MultipleLCM),
      MultipleLCM.construct sq oob_c oob_b rate images = .ok m →
      ∀ (y x : Nat) (sd : Scalar), Mat.get? m._stddev y x = some sd →
        ∃ pixels, pixelsAt images y x = .ok pixels ∧
          ∀ c : Fin 3,
            sd.chan c
              = (if (meanStdDev sq pixels).2.chan c = Flt.fin 0 then Flt.fin 1
                  else (meanStdDev sq pixels).2.chan c) ∧
            ∃ t : ℚ, 0 < t ∧ sd.chan c = Flt.fin t) := by
  constructor
  · intro oob_c oob_b rate image mask m hm c
    obtain ⟨_, hsd, _, _⟩ := SingleLCM.computeModel_fields sq oob_c oob_b rate image mask m hm
    rw [hsd]
    exact siteStatistics_stddev sq (selectedPixels image mask) c
  · intro oob_c oob_b rate images m hm y x sd hsd
    obtain ⟨first, rest, stats, vars, _, hstats, _, hsdm, _, _, _, _⟩ :=
      MultipleLCM.construct_fields sq oob_c oob_b rate images m hm
    rw [hsdm, Mat.get?_map] at hsd
    cases hg : Mat.get? stats y x with
    | none => simp [hg] at hsd
    | some st =>
        simp only [hg, Option.map_some', Option.some.injEq] at hsd
        obtain ⟨pixels, hp, hst⟩ := MultipleLCM.stats_site sq images stats hstats y x st hg
        refine ⟨pixels, hp, ?_⟩
        intro c
        rw [← hsd, hst]
        exact siteStatistics_stddev sq pixels c

theorem C16_stored_stddev_positive_witness :
    demoModel._stddev.chan 0
        = (if (meanStdDev sqrtQ (selectedPixels demoImage demoMask)).2.chan 0 = Flt.fin 0
            then Flt.fin 1
            else (meanStdDev sqrtQ (selectedPixels demoImage demoMask)).2.chan 0) ∧
      ∃ t : ℚ, 0 < t ∧ demoModel._stddev.chan 0 = Flt.fin t :=
  (C16_stored_stddev_positive sqrtQ).1 0 0 (.fin (9 / 10)) demoImage demoMask demoModel
    demoModel_trained 0

/-! ## Reads of the temporal model -/

theorem Mat.at?_eq_ok {α : Type} (m : Mat α) (y x : Nat) (v : α) :
    Mat.at? m y x = .ok v ↔ Mat.get? m y x = some v := by
  unfold Mat.at? Mat.get?
  cases m[y]? with
  | none => simp
  | some row =>
      simp only
      cases hx : row[x]? with
      | none => simp
      | some w => simp

theorem Mat.at?_ok_of_isSome {α : Type} (m : Mat α) (y x : Nat)
    (h : (Mat.get? m y x).isSome) : ∃ v, Mat.at? m y x = .ok v := by
  obtain ⟨v, hv⟩ := Option.isSome_iff_exists.mp h
  exact ⟨v, (Mat.at?_eq_ok m y x v).mpr hv⟩

theorem Mat.isSome_of_at?_ok {α : Type} (m : Mat α) (y x : Nat) (v : α)
    (h : Mat.at? m y x = .ok v) : (Mat.get? m y x).isSome := by
  rw [(Mat.at?_eq_ok m y x v).mp h]
  rfl

/-- The pixels of a site can be read exactly when every image has the site. -/
theorem pixelsAt_ok_iff (images : List (Mat Vec3b)) (y x : Nat) :
    (∃ ps, pixelsAt images y x = .ok ps) ↔
      ∀ image ∈ images, (Mat.get? image y x).isSome := by
  induction images with
  | nil => simp [pixelsAt]
  | cons image images ih =>
      constructor
      · rintro ⟨ps, hps⟩
        simp only [pixelsAt] at hps
        split at hps
        · cases hps
        · rename_i p hp
          split at hps
          · cases hps
          · rename_i ps2 hps2
            intro im him
            rcases List.mem_cons.mp him with h | h
            · rw [h]; exact Mat.isSome_of_at?_ok image y x p hp
            · exact ih.mp ⟨ps2, hps2⟩ im h
      · intro h
        obtain ⟨p, hp⟩ := Mat.at?_ok_of_isSome image y x (h image (List.mem_cons_self _ _))
        obtain ⟨ps, hps⟩ := ih.mpr (fun im him => h im (List.mem_cons_of_mem _ him))
        exact ⟨p :: ps, by simp only [pixelsAt, hp, hps]⟩

theorem pixelsAt_length (images : List (Mat Vec3b)) (y x : Nat) :
    ∀ ps, pixelsAt images y x = .ok ps → ps.length = images.length := by
  induction images with
  | nil =>
      intro ps h
      simp only [pixelsAt, Except.ok.injEq] at h
      subst h
      rfl
  | cons image images ih =>
      intro ps hps
      simp only [pixelsAt] at hps
      split at hps
      · cases hps
      · split at hps
        · cases hps
        · rename_i ps2 hps2
          simp only [Except.ok.injEq] at hps
          subst hps
          simp [ih ps2 hps2]

theorem MultipleLCM.normalizedSite_ok (sq : Sqrtf) (m : MultipleLCM) (image : Mat Vec3b)
    (y x : Nat) (himg : (Mat.get? image y x).isSome)
    (h1 : (Mat.get? m._mean y x).isSome) (h2 : (Mat.get? m._stddev y x).isSome)
    (h3 : (Mat.get? m._brightness y x).isSome)
    (h4 : (Mat.get? m._bdist_variation y x).isSome)
    (h5 : (Mat.get? m._cdist_variation y x).isSome) :
    ∃ v, MultipleLCM.normalizedSite sq m image y x = .ok v := by
  obtain ⟨p, hp⟩ := Mat.at?_ok_of_isSome _ y x himg
  obtain ⟨v1, e1⟩ := Mat.at?_ok_of_isSome _ y x h1
  obtain ⟨v2, e2⟩ := Mat.at?_ok_of_isSome _ y x h2
  obtain ⟨v3, e3⟩ := Mat.at?_ok_of_isSome _ y x h3
  obtain ⟨v4, e4⟩ := Mat.at?_ok_of_isSome _ y x h4
  obtain ⟨v5, e5⟩ := Mat.at?_ok_of_isSome _ y x h5
  simp only [MultipleLCM.normalizedSite, MultipleLCM.computeBrightnessDistortion,
    MultipleLCM.computeChromacityDistortion, hp, e1, e2, e3, e4, e5]
  exact ⟨_, rfl⟩

theorem MultipleLCM.normalizedSite_inv (sq : Sqrtf) (m : MultipleLCM) (image : Mat Vec3b)
    (y x : Nat) (v : Flt × Flt) (h : MultipleLCM.normalizedSite sq m image y x = .ok v) :
    (Mat.get? m._brightness y x).isSome := by
  unfold MultipleLCM.normalizedSite MultipleLCM.computeBrightnessDistortion at h
  cases hb : m._brightness.at? y x with
  | error e => simp [hb] at h
  | ok b => exact Mat.isSome_of_at?_ok _ y x b hb

theorem MultipleLCM.siteSums_ok (sq : Sqrtf) (_mean _stddev _brightness : Mat Scalar)
    (y x : Nat) (h1 : (Mat.get? _mean y x).isSome) (h2 : (Mat.get? _stddev y x).isSome)
    (h3 : (Mat.get? _brightness y x).isSome) (images : List (Mat Vec3b)) :
    (∀ image ∈ images, (Mat.get? image y x).isSome) →
      ∀ acc, ∃ sums, MultipleLCM.siteSums sq _mean _stddev _brightness y x images acc
        = .ok sums := by
  obtain ⟨v1, e1⟩ := Mat.at?_ok_of_isSome _ y x h1
  obtain ⟨v2, e2⟩ := Mat.at?_ok_of_isSome _ y x h2
  obtain ⟨v3, e3⟩ := Mat.at?_ok_of_isSome _ y x h3
  induction images with
  | nil => intro _ acc; exact ⟨acc, rfl⟩
  | cons image images ih =>
      intro h acc
      obtain ⟨p, hp⟩ := Mat.at?_ok_of_isSome image y x (h image (List.mem_cons_self _ _))
      simp only [MultipleLCM.siteSums, MultipleLCM.computeBrightnessDistortion,
        MultipleLCM.computeChromacityDistortion, hp, e1, e2, e3]
      exact ih (fun im him => h im (List.mem_cons_of_mem _ him)) _

theorem MultipleLCM.normalizedBlocks_ok (sq : Sqrtf) (m : MultipleLCM) (first : Mat Vec3b)
    (l : List (Mat Vec3b))
    (h : ∀ image ∈ l, ∀ y x : Nat, (Mat.get? first y x).isSome →
      ∃ v, MultipleLCM.normalizedSite sq m image y x = .ok v) :
    ∃ blocks, MultipleLCM.normalizedBlocks sq m first l = .ok blocks := by
  induction l with
  | nil => exact ⟨[], rfl⟩
  | cons image l ih =>
      obtain ⟨block, hblock⟩ := mapSitesM_ok first
        (fun y x => MultipleLCM.normalizedSite sq m image y x)
        (h image (List.mem_cons_self _ _))
      obtain ⟨blocks, hblocks⟩ := ih (fun im him => h im (List.mem_cons_of_mem _ him))
      exact ⟨block :: blocks, by simp only [MultipleLCM.normalizedBlocks, hblock, hblocks]⟩

theorem MultipleLCM.normalizedBlocks_inv (sq : Sqrtf) (m : MultipleLCM) (first : Mat Vec3b)
    (l : List (Mat Vec3b)) :
    ∀ blocks, MultipleLCM.normalizedBlocks sq m first l = .ok blocks →
      ∀ image ∈ l, ∀ y x : Nat, (Mat.get? first y x).isSome →
        ∃ v, MultipleLCM.normalizedSite sq m image y x = .ok v := by
  induction l with
  | nil => intro _ _ image him; simp at him
  | cons image l ih =>
      intro blocks h im him y x hyx
      simp only [MultipleLCM.normalizedBlocks] at h
      split at h
      · cases h
      · rename_i block hblock
        split at h
        · cases h
        · rename_i blocks2 hblocks2
          rcases List.mem_cons.mp him with e | e
          · subst e
            obtain ⟨b, _, hb⟩ := mapSitesM_all first _ block hblock y x hyx
            exact ⟨b, hb⟩
          · exact ih blocks2 hblocks2 im e y x hyx

theorem MultipleLCM.computeNormalizedDistortions_ok_iff (sq : Sqrtf) (m : MultipleLCM)
    (first : Mat Vec3b) (rest : List (Mat Vec3b)) :
    (∃ norm, MultipleLCM.computeNormalizedDistortions sq m (first :: rest) = .ok norm) ↔
      ∀ image ∈ first :: rest, ∀ y x : Nat, (Mat.get? first y x).isSome →
        ∃ v, MultipleLCM.normalizedSite sq m image y x = .ok v := by
  constructor
  · rintro ⟨norm, h⟩
    simp only [MultipleLCM.computeNormalizedDistortions] at h
    split at h
    · cases h
    · rename_i blocks hblocks
      exact MultipleLCM.normalizedBlocks_inv sq m first _ blocks hblocks
  · intro h
    obtain ⟨blocks, hblocks⟩ := MultipleLCM.normalizedBlocks_ok sq m first _ h
    simp only [MultipleLCM.computeNormalizedDistortions, hblocks]
    exact ⟨_, rfl⟩

/-- The five matrices of a trained `MultipleLCM` have the size of the first
training image. -/
theorem MultipleLCM.construct_shapes (sq : Sqrtf) (oob_c oob_b rate : Flt)
    (first : Mat Vec3b) (rest : List (Mat Vec3b)) (m : MultipleLCM)
    (h : MultipleLCM.construct sq oob_c oob_b rate (first :: rest) = .ok m) :
    Mat.shape m._mean = Mat.shape first ∧ Mat.shape m._stddev = Mat.shape first ∧
    Mat.shape m._brightness = Mat.shape first ∧
    Mat.shape m._bdist_variation = Mat.shape first ∧
    Mat.shape m._cdist_variation = Mat.shape first := by
  obtain ⟨first2, rest2, stats, vars, himg, hstats, h1, h2, h3, hvars, h4, h5⟩ :=
    MultipleLCM.construct_fields sq oob_c oob_b rate _ m h
  have hs : Mat.shape stats = Mat.shape first := by
    simp only [MultipleLCM.computeModelMeanStdDev] at hstats
    exact mapSitesM_shape _ _ _ hstats
  have hv : Mat.shape vars = Mat.shape first := by
    simp only [MultipleLCM.computeVariations] at hvars
    exact mapSitesM_shape _ _ _ hvars
  rw [h1, h2, h3, h4, h5]
  simp only [Mat.shape_map]
  exact ⟨hs, hs, hs, hv, hv⟩

/-- A `MultipleLCM` whose matrices have the size of `grid` classifies exactly
the images all of whose positions are positions of `grid`. -/
theorem MultipleLCM.classify_ok_iff (sq : Sqrtf) (m : MultipleLCM) {γ : Type} (grid : Mat γ)
    (h1 : Mat.shape m._mean = Mat.shape grid) (h2 : Mat.shape m._stddev = Mat.shape grid)
    (h3 : Mat.shape m._brightness = Mat.shape grid)
    (h4 : Mat.shape m._bdist_variation = Mat.shape grid)
    (h5 : Mat.shape m._cdist_variation = Mat.shape grid) (image : Mat Vec3b) :
    (∃ out, Model.classify sq (.multiple m) image = .ok out) ↔ Mat.fitsIn image grid := by
  have hnorm : (∃ out, Model.classify sq (.multiple m) image = .ok out) ↔
      ∃ norm, MultipleLCM.computeNormalizedDistortions sq m [image] = .ok norm := by
    simp only [Model.classify, Model.computeNormalizedDistortions]
    constructor
    · rintro ⟨out, h⟩
      split at h
      · cases h
      · rename_i norm hn
        exact ⟨norm, hn⟩
    · rintro ⟨norm, hn⟩
      simp only [hn]
      exact ⟨_, rfl⟩
  rw [hnorm, MultipleLCM.computeNormalizedDistortions_ok_iff]
  constructor
  · intro h y x hyx
    obtain ⟨v, hv⟩ := h image (List.mem_cons_self _ _) y x hyx
    exact (Mat.get?_isSome_of_shape _ _ h3 y x).mp
      (MultipleLCM.normalizedSite_inv sq m image y x v hv)
  · intro hfit im him y x hyx
    simp only [List.mem_singleton] at him
    subst him
    have hg := hfit y x hyx
    exact MultipleLCM.normalizedSite_ok sq m im y x hyx
      ((Mat.get?_isSome_of_shape _ _ h1 y x).mpr hg)
      ((Mat.get?_isSome_of_shape _ _ h2 y x).mpr hg)
      ((Mat.get?_isSome_of_shape _ _ h3 y x).mpr hg)
      ((Mat.get?_isSome_of_shape _ _ h4 y x).mpr hg)
      ((Mat.get?_isSome_of_shape _ _ h5 y x).mpr hg)

/-- The temporal training makes no check of the sizes: for a detection rate
between 0 and 1 it returns a model exactly when every training image has a
pixel at each position of the first one. -/
theorem MultipleLCM.construct_ok_iff (sq : Sqrtf) (oob_c oob_b : Flt) (r : ℚ)
    (hr0 : 0 ≤ r) (hr1 : r ≤ 1) (first : Mat Vec3b) (rest : List (Mat Vec3b)) :
    (∃ m, MultipleLCM.construct sq oob_c oob_b (Flt.fin r) (first :: rest) = .ok m) ↔
      ∀ image ∈ first :: rest, Mat.fitsIn first image := by
  constructor
  · rintro ⟨m, hm⟩ image him y x hyx
    obtain ⟨_, _, stats, _, _, hstats, _⟩ :=
      MultipleLCM.construct_fields sq oob_c oob_b _ _ m hm
    simp only [MultipleLCM.computeModelMeanStdDev] at hstats
    obtain ⟨b, _, hb⟩ := mapSitesM_all first _ stats hstats y x hyx
    split at hb
    · cases hb
    · rename_i pixels hp
      exact (pixelsAt_ok_iff _ y x).mp ⟨pixels, hp⟩ image him
  · intro hcov
    obtain ⟨stats, hstats⟩ : ∃ stats,
        MultipleLCM.computeModelMeanStdDev sq (first :: rest) = .ok stats := by
      simp only [MultipleLCM.computeModelMeanStdDev]
      apply mapSitesM_ok
      intro y x hyx
      obtain ⟨ps, hps⟩ := (pixelsAt_ok_iff (first :: rest) y x).mpr
        (fun image him => hcov image him y x hyx)
      simp only [hps]
      exact ⟨_, rfl⟩
    have hs : Mat.shape stats = Mat.shape first := by
      simp only [MultipleLCM.computeModelMeanStdDev] at hstats
      exact mapSitesM_shape _ _ _ hstats
    obtain ⟨vars, hvars⟩ : ∃ vars,
        MultipleLCM.computeVariations sq (stats.map (fun row => row.map (fun s => s.1)))
          (stats.map (fun row => row.map (fun s => s.2.1)))
          (stats.map (fun row => row.map (fun s => s.2.2))) (first :: rest) = .ok vars := by
      simp only [MultipleLCM.computeVariations]
      apply mapSitesM_ok
      intro y x hyx
      have hst : (Mat.get? stats y x).isSome := (Mat.get?_isSome_of_shape _ _ hs y x).mpr hyx
      obtain ⟨sums, hsums⟩ := MultipleLCM.siteSums_ok sq
        (stats.map (fun row => row.map (fun s => s.1)))
        (stats.map (fun row => row.map (fun s => s.2.1)))
        (stats.map (fun row => row.map (fun s => s.2.2))) y x
        ((Mat.get?_isSome_of_shape _ _ (Mat.shape_map _ _) y x).mpr hst)
        ((Mat.get?_isSome_of_shape _ _ (Mat.shape_map _ _) y x).mpr hst)
        ((Mat.get?_isSome_of_shape _ _ (Mat.shape_map _ _) y x).mpr hst)
        (first :: rest) (fun image him => hcov image him y x hyx) (0, 0)
      simp only [hsums]
      exact ⟨_, rfl⟩
    have hv : Mat.shape vars = Mat.shape first := by
      simp only [MultipleLCM.computeVariations] at hvars
      exact mapSitesM_shape _ _ _ hvars
    obtain ⟨norm, hnorm⟩ : ∃ norm, MultipleLCM.computeNormalizedDistortions sq
        ⟨⟨Flt.fin r, 0, 0, 0⟩, stats.map (fun row => row.map (fun s => s.1)),
          stats.map (fun row => row.map (fun s => s.2.1)),
          stats.map (fun row => row.map (fun s => s.2.2)),
          vars.map (fun row => row.map Prod.fst), vars.map (fun row => row.map Prod.snd)⟩
        (first :: rest) = .ok norm := by
      rw [MultipleLCM.computeNormalizedDistortions_ok_iff]
      intro image him y x hyx
      have hst : (Mat.get? stats y x).isSome := (Mat.get?_isSome_of_shape _ _ hs y x).mpr hyx
      have hvr : (Mat.get? vars y x).isSome := (Mat.get?_isSome_of_shape _ _ hv y x).mpr hyx
      exact MultipleLCM.normalizedSite_ok sq _ image y x (hcov image him y x hyx)
        ((Mat.get?_isSome_of_shape _ _ (Mat.shape_map _ _) y x).mpr hst)
        ((Mat.get?_isSome_of_shape _ _ (Mat.shape_map _ _) y x).mpr hst)
        ((Mat.get?_isSome_of_shape _ _ (Mat.shape_map _ _) y x).mpr hst)
        ((Mat.get?_isSome_of_shape _ _ (Mat.shape_map _ _) y x).mpr hvr)
        ((Mat.get?_isSome_of_shape _ _ (Mat.shape_map _ _) y x).mpr hvr)
    obtain ⟨t, ht⟩ := LCM.selectThresholds_some oob_c oob_b norm.1 norm.2 r hr0 hr1
    simp only [MultipleLCM.construct, List.isEmpty_cons, Bool.false_eq_true, if_false,
      MultipleLCM.computeModel, hstats, hvars, hnorm, ht]
    exact ⟨_, rfl⟩

/-! ## Faults of the temporal model -/

theorem mapFromM_error {α β : Type} (f : Nat → α → Except Fault β) (l : List α) :
    ∀ (i : Nat) (e : Fault), mapFromM f i l = .error e → ∃ j a, f j a = .error e := by
  induction l with
  | nil => intro i e h; simp [mapFromM] at h
  | cons a l ih =>
      intro i e h
      simp only [mapFromM] at h
      split at h
      · rename_i e2 he2
        simp only [Except.error.injEq] at h
        subst h
        exact ⟨i, a, he2⟩
      · split at h
        · rename_i e2 he2
          simp only [Except.error.injEq] at h
          subst h
          exact ih _ _ he2
        · cases h

theorem mapSitesM_error {α β : Type} (like : Mat α) (f : Nat → Nat → Except Fault β)
    (e : Fault) (h : mapSitesM like f = .error e) : ∃ y x, f y x = .error e := by
  obtain ⟨y, row, hrow⟩ := mapFromM_error _ like 0 e h
  obtain ⟨x, _, hx⟩ := mapFromM_error _ row 0 e hrow
  exact ⟨y, x, hx⟩

theorem Mat.at?_error {α : Type} (m : Mat α) (y x : Nat) (e : Fault)
    (h : Mat.at? m y x = .error e) : e = .outOfBounds := by
  unfold Mat.at? at h
  split at h
  · simp only [Except.error.injEq] at h; exact h.symm
  · split at h
    · simp only [Except.error.injEq] at h; exact h.symm
    · cases h

theorem pixelsAt_error (images : List (Mat Vec3b)) (y x : Nat) (e : Fault) :
    pixelsAt images y x = .error e → e = .outOfBounds := by
  induction images with
  | nil => intro h; simp [pixelsAt] at h
  | cons image images ih =>
      intro h
      simp only [pixelsAt] at h
      split at h
      · rename_i e2 he2
        simp only [Except.error.injEq] at h
        subst h
        exact Mat.at?_error _ _ _ _ he2
      · split at h
        · rename_i e2 he2
          simp only [Except.error.injEq] at h
          subst h
          exact ih he2
        · cases h

theorem MultipleLCM.computeBrightnessDistortion_error (_brightness : Mat Scalar)
    (image : Mat Vec3b) (y x : Nat) (e : Fault)
    (h : MultipleLCM.computeBrightnessDistortion _brightness image y x = .error e) :
    e = .outOfBounds := by
  unfold MultipleLCM.computeBrightnessDistortion at h
  split at h
  all_goals first
    | (cases h; done)
    | (cases h; exact Mat.at?_error _ _ _ _ (by assumption))

theorem MultipleLCM.computeChromacityDistortion_error (sq : Sqrtf) (_mean _stddev : Mat Scalar)
    (image : Mat Vec3b) (y x : Nat) (bdist : Flt) (e : Fault)
    (h : MultipleLCM.computeChromacityDistortion sq _mean _stddev image y x bdist = .error e) :
    e = .outOfBounds := by
  unfold MultipleLCM.computeChromacityDistortion at h
  split at h
  all_goals first
    | (cases h; done)
    | (cases h; exact Mat.at?_error _ _ _ _ (by assumption))

theorem MultipleLCM.normalizedSite_error (sq : Sqrtf) (m : MultipleLCM) (image : Mat Vec3b)
    (y x : Nat) (e : Fault) (h : MultipleLCM.normalizedSite sq m image y x = .error e) :
    e = .outOfBounds := by
  unfold MultipleLCM.normalizedSite at h
  split at h
  · simp only [Except.error.injEq] at h
    subst h
    exact MultipleLCM.computeBrightnessDistortion_error _ _ _ _ _ (by assumption)
  · split at h
    · simp only [Except.error.injEq] at h
      subst h
      exact MultipleLCM.computeChromacityDistortion_error _ _ _ _ _ _ _ _ (by assumption)
    · split at h
      all_goals first
        | (cases h; done)
        | (cases h; exact Mat.at?_error _ _ _ _ (by assumption))

/-- A failing classification by a `MultipleLCM` is an out-of-bounds read. -/
theorem MultipleLCM.classify_error (sq : Sqrtf) (m : MultipleLCM) (image : Mat Vec3b)
    (e : Fault) (h : Model.classify sq (.multiple m) image = .error e) : e = .outOfBounds := by
  simp only [Model.classify, Model.computeNormalizedDistortions,
    MultipleLCM.computeNormalizedDistortions, MultipleLCM.normalizedBlocks] at h
  split at h
  · rename_i e2 he2
    simp only [Except.error.injEq] at h
    subst h
    split at he2
    · rename_i e3 he3
      simp only [Except.error.injEq] at he2
      subst he2
      split at he3
      · rename_i e4 he4
        simp only [Except.error.injEq] at he3
        subst he3
        obtain ⟨y, x, hyx⟩ := mapSitesM_error _ _ _ he4
        exact MultipleLCM.normalizedSite_error sq m image y x _ hyx
      · cases he3
    · cases he2
  · cases h

/-- A failing first stage of the temporal training is an out-of-bounds read. -/
theorem MultipleLCM.computeModelMeanStdDev_error (sq : Sqrtf) (first : Mat Vec3b)
    (rest : List (Mat Vec3b)) (e : Fault)
    (h : MultipleLCM.computeModelMeanStdDev sq (first :: rest) = .error e) :
    e = .outOfBounds := by
  simp only [MultipleLCM.computeModelMeanStdDev] at h
  obtain ⟨y, x, hyx⟩ := mapSitesM_error _ _ _ h
  split at hyx
  · rename_i e2 he2
    simp only [Except.error.injEq] at hyx
    subst hyx
    exact pixelsAt_error _ _ _ _ he2
  · cases hyx

/-! ## Claims on the sizes of the images in temporal mode -/

theorem Except.eq_ok_of_toOption {α : Type} (e : Except Fault α) (a : α)
    (h : e.toOption = some a) : e = .ok a := by
  cases e with
  | error err => simp [Except.toOption] at h
  | ok b =>
      simp only [Except.toOption, Option.some.injEq] at h
      rw [h]

theorem mixedCorpus_trained :
    MultipleLCM.construct sqrtQ 0 0 (.fin (9 / 10)) mixedCorpus = .ok mixedModel :=
  Except.eq_ok_of_toOption _ _ (by decide!)

theorem wideModel_trained :
    MultipleLCM.construct sqrtQ 0 0 (.fin (9 / 10)) [[[gray, gray]]] = .ok wideModel :=
  Except.eq_ok_of_toOption _ _ (by decide!)

theorem wideModel_classifies_narrow :
    Model.classify sqrtQ (.multiple wideModel) [[gray]] = .ok [[LCM.HIGHLIGHT]] :=
  Except.eq_ok_of_toOption _ _ (by decide!)

/-- The first stage of the temporal training succeeds exactly when every
training image has a pixel at each position of the first one. -/
theorem MultipleLCM.computeModelMeanStdDev_ok_iff (sq : Sqrtf) (first : Mat Vec3b)
    (rest : List (Mat Vec3b)) :
    (∃ stats, MultipleLCM.computeModelMeanStdDev sq (first :: rest) = .ok stats) ↔
      ∀ image ∈ first :: rest, Mat.fitsIn first image := by
  constructor
  · rintro ⟨stats, hstats⟩ image him y x hyx
    simp only [MultipleLCM.computeModelMeanStdDev] at hstats
    obtain ⟨b, _, hb⟩ := mapSitesM_all first _ stats hstats y x hyx
    split at hb
    · cases hb
    · rename_i pixels hp
      exact (pixelsAt_ok_iff _ y x).mp ⟨pixels, hp⟩ image him
  · intro hcov
    simp only [MultipleLCM.computeModelMeanStdDev]
    apply mapSitesM_ok
    intro y x hyx
    obtain ⟨ps, hps⟩ := (pixelsAt_ok_iff (first :: rest) y x).mpr
      (fun image him => hcov image him y x hyx)
    simp only [hps]
    exact ⟨_, rfl⟩

/-- C12, as stated, fails: the two frames of `mixedCorpus` do not have the same
width, and the constructor returns a model. -/
theorem C12_mismatched_sizes_counterexample :
    mixedCorpus = [[[gray]], [[gray, gray]]] ∧
    Mat.shape ([[gray]] : Mat Vec3b) ≠ Mat.shape ([[gray, gray]] : Mat Vec3b) ∧
    MultipleLCM.construct sqrtQ 0 0 (.fin (9 / 10)) mixedCorpus = .ok mixedModel :=
  ⟨rfl, by decide, mixedCorpus_trained⟩

/-- C12, amended: the constructor of `MultipleLCM` makes no check that the
training images have the same height and width.  For a detection rate between
0 and 1 it returns a model exactly when every training image has a pixel at
each position of the first image; the matrices of that model have the size of
the first image.  When some image lacks such a position the construction ends
in an out-of-bounds read of that image. -/
theorem C12_construct_without_size_check (sq : Sqrtf) (oob_c oob_b : Flt) (r : ℚ)
    (hr0 : 0 ≤ r) (hr1 : r ≤ 1) (first : Mat Vec3b) (rest : List (Mat Vec3b)) :
    ((∃ m, MultipleLCM.construct sq oob_c oob_b (Flt.fin r) (first :: rest) = .ok m) ↔
      ∀ image ∈ first :: rest, Mat.fitsIn first image) ∧
    (∀ m, MultipleLCM.construct sq oob_c oob_b (Flt.fin r) (first :: rest) = .ok m →
      Mat.shape m._mean = Mat.shape first ∧ Mat.shape m._stddev = Mat.shape first ∧
      Mat.shape m._brightness = Mat.shape first ∧
      Mat.shape m._bdist_variation = Mat.shape first ∧
      Mat.shape m._cdist_variation = Mat.shape first) ∧
    (¬ (∀ image ∈ first :: rest, Mat.fitsIn first image) →
      MultipleLCM.construct sq oob_c oob_b (Flt.fin r) (first :: rest)
        = .error .outOfBounds) := by
  refine ⟨MultipleLCM.construct_ok_iff sq oob_c oob_b r hr0 hr1 first rest,
    fun m hm => MultipleLCM.construct_shapes sq oob_c oob_b _ first rest m hm, ?_⟩
  intro hnot
  cases hs : MultipleLCM.computeModelMeanStdDev sq (first :: rest) with
  | ok stats =>
      exact absurd ((MultipleLCM.computeModelMeanStdDev_ok_iff sq first rest).mp ⟨stats, hs⟩) hnot
  | error e =>
      have he := MultipleLCM.computeModelMeanStdDev_error sq first rest e hs
      subst he
      simp only [MultipleLCM.construct, List.isEmpty_cons, Bool.false_eq_true, if_false,
        MultipleLCM.computeModel, hs]

theorem C12_construct_without_size_check_witness :
    ((∃ m, MultipleLCM.construct sqrtQ 0 0 (Flt.fin (9 / 10)) ([[gray]] :: [[[gray, gray]]])
        = .ok m) ↔
      ∀ image ∈ ([[gray]] : Mat Vec3b) :: [[[gray, gray]]], Mat.fitsIn [[gray]] image) ∧
    (∀ m, MultipleLCM.construct sqrtQ 0 0 (Flt.fin (9 / 10)) ([[gray]] :: [[[gray, gray]]])
        = .ok m →
      Mat.shape m._mean = Mat.shape [[gray]] ∧ Mat.shape m._stddev = Mat.shape [[gray]] ∧
      Mat.shape m._brightness = Mat.shape [[gray]] ∧
      Mat.shape m._bdist_variation = Mat.shape [[gray]] ∧
      Mat.shape m._cdist_variation = Mat.shape [[gray]]) ∧
    (¬ (∀ image ∈ ([[gray]] : Mat Vec3b) :: [[[gray, gray]]], Mat.fitsIn [[gray]] image) →
      MultipleLCM.construct sqrtQ 0 0 (Flt.fin (9 / 10)) ([[gray]] :: [[[gray, gray]]])
        = .error .outOfBounds) :=
  C12_construct_without_size_check sqrtQ 0 0 (9 / 10) (by norm_num) (by norm_num)
    [[gray]] [[[gray, gray]]]

/-- C13, as stated, fails: the model trained on a frame of one row of two
pixels classifies an image of one pixel and returns a map for it. -/
theorem C13_classify_other_size_counterexample :
    MultipleLCM.construct sqrtQ 0 0 (.fin (9 / 10)) [[[gray, gray]]] = .ok wideModel ∧
    Mat.shape ([[gray]] : Mat Vec3b) ≠ Mat.shape ([[gray, gray]] : Mat Vec3b) ∧
    Model.classify sqrtQ (.multiple wideModel) [[gray]] = .ok [[LCM.HIGHLIGHT]] :=
  ⟨wideModel_trained, by decide, wideModel_classifies_narrow⟩

/-- C13, amended: `classify` on a `MultipleLCM` makes no check of the size of
the image.  For a model trained on images whose first one has the size
`H x W`, it returns a classification map exactly when every position of the
image is a position of the `H x W` grid, and the map has the size of the
image; an image with a position outside the grid makes `classify` read the
site statistics outside the matrices of the model. -/
theorem C13_classify_without_size_check (sq : Sqrtf) (oob_c oob_b rate : Flt)
    (first : Mat Vec3b) (rest : List (Mat Vec3b)) (m : MultipleLCM)
    (hm : MultipleLCM.construct sq oob_c oob_b rate (first :: rest) = .ok m)
    (image : Mat Vec3b) :
    ((∃ out, Model.classify sq (.multiple m) image = .ok out) ↔ Mat.fitsIn image first) ∧
    (∀ out, Model.classify sq (.multiple m) image = .ok out →
      Mat.shape out = Mat.shape image) ∧
    (¬ Mat.fitsIn image first →
      Model.classify sq (.multiple m) image = .error .outOfBounds) := by
  obtain ⟨h1, h2, h3, h4, h5⟩ := MultipleLCM.construct_shapes sq oob_c oob_b rate first rest m hm
  have hiff := MultipleLCM.classify_ok_iff sq m first h1 h2 h3 h4 h5 image
  refine ⟨hiff, ?_, ?_⟩
  · intro out hout
    cases hn : Model.computeNormalizedDistortions sq (.multiple m) image with
    | error e => simp [Model.classify, hn] at hout
    | ok norm =>
        obtain ⟨out2, hout2, hshape, _, _⟩ :=
          Model.classify_pixel sq (.multiple m) image norm.1 norm.2 hn
        rw [hout, Except.ok.injEq] at hout2
        rw [hout2]
        exact hshape
  · intro hnot
    cases hc : Model.classify sq (.multiple m) image with
    | ok out => exact absurd (hiff.mp ⟨out, hc⟩) hnot
    | error e => rw [MultipleLCM.classify_error sq m image e hc]

theorem C13_classify_without_size_check_witness :
    ((∃ out, Model.classify sqrtQ (.multiple wideModel) [[gray]] = .ok out) ↔
      Mat.fitsIn ([[gray]] : Mat Vec3b) ([[gray, gray]] : Mat Vec3b)) ∧
    (∀ out, Model.classify sqrtQ (.multiple wideModel) [[gray]] = .ok out →
      Mat.shape out = Mat.shape ([[gray]] : Mat Vec3b)) ∧
    (¬ Mat.fitsIn ([[gray]] : Mat Vec3b) ([[gray, gray]] : Mat Vec3b) →
      Model.classify sqrtQ (.multiple wideModel) [[gray]] = .error .outOfBounds) :=
  C13_classify_without_size_check sqrtQ 0 0 (.fin (9 / 10)) [[gray, gray]] [] wideModel
    wideModel_trained [[gray]]

/-! ## The temporal scenario of three frames -/

/-- The square root `sqrtUp` maps values above 1 to values above 1. -/
theorem sqrtUp_gt_one (x : ℚ) (hx : 1 < x) : 1 < sqrtUp.f x := by
  have hx0 : 0 < x := by linarith
  have hs : 0 < sqrtQfun x := sqrtQ.pos x hx0
  show 1 < sqrtUpFun x
  simp only [sqrtUpFun, if_neg (not_le.mpr hx0)]
  split
  · rename_i heq
    by_contra hle
    push_neg at hle
    nlinarith
  · rw [lt_div_iff₀ (by norm_num : (0 : ℚ) < 2)]
    have h1 : x / sqrtQfun x * sqrtQfun x = x := div_mul_cancel₀ x hs.ne'
    have h2 : 0 < x / sqrtQfun x := div_pos hx0 hs
    nlinarith [sq_nonneg (sqrtQfun x - 1), sq_nonneg (x / sqrtQfun x - 1)]

theorem Mat.fitsIn_of_shape {α β : Type} (a : Mat α) (b : Mat β)
    (h : Mat.shape a = Mat.shape b) : Mat.fitsIn a b :=
  fun y x hyx => (Mat.get?_isSome_of_shape a b h y x).mp hyx

/-- The deviation of a channel over three samples. -/
theorem channelMeanStdDev_three (sq : Sqrtf) (a b c : ℚ) :
    (channelMeanStdDev sq [a, b, c]).2
      = Flt.sqrt sq (Flt.fin (max ((a * a + b * b + c * c) / 3
          - (a + b + c) / 3 * ((a + b + c) / 3)) 0)) := by
  simp only [channelMeanStdDev, List.length_cons, List.length_nil, List.sum_cons,
    List.sum_nil, List.map_cons, List.map_nil]
  norm_num
  ring_nf

theorem meanStdDev_chan (sq : Sqrtf) (pixels : List Vec3b) (c : Fin 3) :
    (meanStdDev sq pixels).2.chan c
      = (channelMeanStdDev sq (pixels.map (fun p => ((p.chan c : Nat) : ℚ)))).2 := by
  fin_cases c <;> rfl

/-- The deviation of three samples with values 100 and 150, not all equal, is
the root of 5000/9. -/
theorem channelMeanStdDev_100_150 (sq : Sqrtf) (a b c : Nat)
    (ha : a = 100 ∨ a = 150) (hb : b = 100 ∨ b = 150) (hc : c = 100 ∨ c = 150)
    (hne : ¬ (a = b ∧ b = c)) :
    (channelMeanStdDev sq [(a : ℚ), (b : ℚ), (c : ℚ)]).2 = Flt.fin (sq.f (5000 / 9)) := by
  have key : max (((a : ℚ) * a + b * b + c * c) / 3 - (a + b + c) / 3 * ((a + b + c) / 3)) 0
      = 5000 / 9 := by
    rcases ha with rfl | rfl <;> rcases hb with rfl | rfl <;> rcases hc with rfl | rfl <;>
      first
        | (exfalso; exact hne ⟨rfl, rfl⟩)
        | norm_num
  rw [channelMeanStdDev_three, key]
  exact (Flt.sqrt_pos sq (5000 / 9) (by norm_num)).1

theorem pixelsAt_three (f1 f2 f3 : Mat Vec3b) (y x : Nat) (p1 p2 p3 : Vec3b)
    (h1 : Mat.get? f1 y x = some p1) (h2 : Mat.get? f2 y x = some p2)
    (h3 : Mat.get? f3 y x = some p3) :
    pixelsAt [f1, f2, f3] y x = .ok [p1, p2, p3] := by
  simp only [pixelsAt, (Mat.at?_eq_ok f1 y x p1).mpr h1, (Mat.at?_eq_ok f2 y x p2).mpr h2,
    (Mat.at?_eq_ok f3 y x p3).mpr h3]

/-- C19: temporal scenario.  For three training frames of the same size, at a
site where a channel takes the values 100 and 150 across the frames (not all
three equal) the trained stddev of that channel is strictly greater than 1,
and at every site whose three samples are identical every stddev channel
equals exactly 1.  The square root is assumed to map values above 1 to values
above 1. -/
theorem C19_three_frames_stddev (sq : Sqrtf) (hsq : ∀ x : ℚ, 1 < x → 1 < sq.f x)
    (oob_c oob_b : Flt) (r : ℚ) (hr0 : 0 ≤ r) (hr1 : r ≤ 1) (f1 f2 f3 : Mat Vec3b)
    (hs2 : Mat.shape f2 = Mat.shape f1) (hs3 : Mat.shape f3 = Mat.shape f1) :
    ∃ m, MultipleLCM.construct sq oob_c oob_b (Flt.fin r) [f1, f2, f3] = .ok m ∧
      ∀ (y x : Nat) (p1 p2 p3 : Vec3b), Mat.get? f1 y x = some p1 →
        Mat.get? f2 y x = some p2 → Mat.get? f3 y x = some p3 →
        ∃ sd, Mat.get? m._stddev y x = some sd ∧
          (p1 = p2 ∧ p2 = p3 → sd = ⟨.fin 1, .fin 1, .fin 1⟩) ∧
          ∀ c : Fin 3, (p1.chan c = 100 ∨ p1.chan c = 150) →
            (p2.chan c = 100 ∨ p2.chan c = 150) → (p3.chan c = 100 ∨ p3.chan c = 150) →
            ¬ (p1.chan c = p2.chan c ∧ p2.chan c = p3.chan c) →
            ∃ s : ℚ, 1 < s ∧ sd.chan c = Flt.fin s := by
  obtain ⟨m, hm⟩ := (MultipleLCM.construct_ok_iff sq oob_c oob_b r hr0 hr1 f1 [f2, f3]).mpr (by
    intro image him
    simp only [List.mem_cons, List.mem_singleton, List.not_mem_nil, or_false] at him
    rcases him with e | e | e
    · rw [e]; exact fun _ _ h => h
    · rw [e]; exact Mat.fitsIn_of_shape _ _ hs2.symm
    · rw [e]; exact Mat.fitsIn_of_shape _ _ hs3.symm)
  refine ⟨m, hm, ?_⟩
  intro y x p1 p2 p3 h1 h2 h3
  obtain ⟨_, _, stats, _, _, hstats, _, hsdm, _⟩ :=
    MultipleLCM.construct_fields sq oob_c oob_b _ _ m hm
  have hsite : (Mat.get? f1 y x).isSome := by rw [h1]; rfl
  have hstats2 := hstats
  simp only [MultipleLCM.computeModelMeanStdDev] at hstats2
  obtain ⟨st, hst, _⟩ := mapSitesM_all f1 _ stats hstats2 y x hsite
  obtain ⟨pixels, hp, hsteq⟩ := MultipleLCM.stats_site sq _ stats hstats y x st hst
  rw [pixelsAt_three f1 f2 f3 y x p1 p2 p3 h1 h2 h3, Except.ok.injEq] at hp
  subst hp
  refine ⟨st.2.1, ?_, ?_, ?_⟩
  · rw [hsdm, Mat.get?_map, hst]; rfl
  · rintro ⟨e1, e2⟩
    subst e1 e2
    have hrep : [p1, p1, p1] = List.replicate 3 p1 := rfl
    rw [hsteq, hrep, meanStdDev_const sq p1 3 (by norm_num)]
    simp [siteStatistics, clampStdDev, Flt.eq, Flt.ofNat_eq]
  · intro c ha hb hc hne
    obtain ⟨hval, _⟩ := siteStatistics_stddev sq [p1, p2, p3] c
    have hraw : (meanStdDev sq [p1, p2, p3]).2.chan c = Flt.fin (sq.f (5000 / 9)) := by
      rw [meanStdDev_chan]
      exact channelMeanStdDev_100_150 sq _ _ _ ha hb hc hne
    have hgt : 1 < sq.f (5000 / 9) := hsq _ (by norm_num)
    refine ⟨sq.f (5000 / 9), hgt, ?_⟩
    rw [hsteq, hval, hraw, if_neg]
    simp only [Flt.fin.injEq]
    linarith

theorem C19_three_frames_stddev_witness :
    ∃ m, MultipleLCM.construct sqrtUp 0 0 (Flt.fin (9 / 10))
        [[[⟨100, 7, 7⟩, gray]], [[⟨150, 7, 7⟩, gray]], [[⟨100, 7, 7⟩, gray]]] = .ok m ∧
      ∀ (y x : Nat) (p1 p2 p3 : Vec3b),
        Mat.get? ([[⟨100, 7, 7⟩, gray]] : Mat Vec3b) y x = some p1 →
        Mat.get? ([[⟨150, 7, 7⟩, gray]] : Mat Vec3b) y x = some p2 →
        Mat.get? ([[⟨100, 7, 7⟩, gray]] : Mat Vec3b) y x = some p3 →
        ∃ sd, Mat.get? m._stddev y x = some sd ∧
          (p1 = p2 ∧ p2 = p3 → sd = ⟨.fin 1, .fin 1, .fin 1⟩) ∧
          ∀ c : Fin 3, (p1.chan c = 100 ∨ p1.chan c = 150) →
            (p2.chan c = 100 ∨ p2.chan c = 150) → (p3.chan c = 100 ∨ p3.chan c = 150) →
            ¬ (p1.chan c = p2.chan c ∧ p2.chan c = p3.chan c) →
            ∃ s : ℚ, 1 < s ∧ sd.chan c = Flt.fin s :=
  C19_three_frames_stddev sqrtUp sqrtUp_gt_one 0 0 (9 / 10) (by norm_num) (by norm_num)
    [[⟨100, 7, 7⟩, gray]] [[⟨150, 7, 7⟩, gray]] [[⟨100, 7, 7⟩, gray]] (by decide) (by decide)

/-- The deviations that the constructor stores for `threeFrames` with the
square root `sqrtUp`: `sqrtUp` maps 5000/9 to 165/7. -/
theorem threeFrames_stddev :
    (MultipleLCM.construct sqrtUp 0 0 (Flt.fin (9 / 10)) threeFrames).toOption.map
        (fun m => m._stddev)
      = some [[⟨.fin (165 / 7), .fin 1, .fin 1⟩, ⟨.fin 1, .fin 1, .fin 1⟩]] := by
  decide!

/-! ## Claims on the training regions and on the ranks -/

/-- C22: the mask that the region constructor fills is larger than the
rectangle.  For the rectangle at (0,0) of width 1 and height 1 on the image of
one row `gray, black`, the pixel at column 1 lies outside the rectangle and is
selected all the same: `fillRectangle` passes `rect.x + rect.width` as the
opposite vertex, which `cv::rectangle` includes.  The trained mean is 64 per
channel, the mean of both pixels, where the gray pixel alone gives 128. -/
theorem C22_region_one_column_too_wide :
    Rect.contains ⟨0, 0, 1, 1⟩ 0 0 = true ∧ Rect.contains ⟨0, 0, 1, 1⟩ 1 0 = false ∧
    LCM.fillRectangles (Mat.filled grayBlack 0) [⟨0, 0, 1, 1⟩] 1 = [[1, 1]] ∧
    selectedPixels grayBlack (LCM.fillRectangles (Mat.filled grayBlack 0) [⟨0, 0, 1, 1⟩] 1)
      = [gray, black] ∧
    (SingleLCM.fromRegions sqrtQ 0 0 grayBlack (Flt.fin (9 / 10)) [⟨0, 0, 1, 1⟩]).map
        (fun m => m._mean) = some ⟨Flt.fin 64, Flt.fin 64, Flt.fin 64⟩ ∧
    (SingleLCM.computeModel sqrtQ 0 0 (Flt.fin (9 / 10)) grayBlack [[1, 0]]).map
        (fun m => m._mean) = some ⟨Flt.fin 128, Flt.fin 128, Flt.fin 128⟩ := by
  refine ⟨?_, ?_, ?_, ?_, ?_, ?_⟩ <;> decide!

/-- The reads of `selectThresholdMatrix` in terms of its two ranks. -/
theorem LCM.selectThresholdMatrix_index (oob : Flt) (mat : Mat Flt) (rate : Flt) :
    LCM.selectThresholdMatrix oob mat rate
      = (LCM.index_left rate mat.flatten.length).bind (fun i =>
          (LCM.index_right rate mat.flatten.length).bind (fun j =>
            (LCM.readSorted (LCM.stdSort (mat.flatten ++ [oob])) i).bind (fun left =>
              (LCM.readSorted (LCM.stdSort (mat.flatten ++ [oob])) j).map (fun right =>
                (left, right))))) := by
  unfold LCM.selectThresholdMatrix LCM.index_left LCM.index_right
  simp only
  cases LCM.toInt ((1 - rate) * (mat.flatten.length : Flt)) with
  | none => rfl
  | some i =>
      cases LCM.toInt (rate * (mat.flatten.length : Flt)) with
      | none => rfl
      | some j =>
          simp only [Option.some_bind]
          cases LCM.readSorted (LCM.stdSort (mat.flatten ++ [oob])) i with
          | none => rfl
          | some left =>
              cases LCM.readSorted (LCM.stdSort (mat.flatten ++ [oob])) j with
              | none => rfl
              | some right => rfl

/-- C23: a value from outside the distribution takes part in the sort.  On the
distribution 1, 2 at the detection rate 0.9 the ranks are 0 and 1 and the
ascending sort of the two values is 1, 2; with the float 0 behind the array
`selectThresholdMatrix` returns `(0, 1)` in place of `(1, 2)`. -/
theorem C23_foreign_value_in_sort :
    LCM.index_left (Flt.fin (9 / 10)) 2 = some 0 ∧
    LCM.index_right (Flt.fin (9 / 10)) 2 = some 1 ∧
    LCM.stdSort [Flt.fin 1, Flt.fin 2] = [Flt.fin 1, Flt.fin 2] ∧
    LCM.stdSort ([Flt.fin 1, Flt.fin 2] ++ [Flt.fin 0]) = [Flt.fin 0, Flt.fin 1, Flt.fin 2] ∧
    LCM.selectThresholdMatrix (Flt.fin 0) [[Flt.fin 1, Flt.fin 2]] (Flt.fin (9 / 10))
      = some (Flt.fin 0, Flt.fin 1) := by
  refine ⟨?_, ?_, ?_, ?_, ?_⟩ <;> decide!

/-- C24: the ranks are not clamped.  On a distribution of 2 values the right
rank at the detection rate 1 and the left rank at the detection rate 0 are
both 2, the size of the array, and the value returned for that rank is the
float found behind the array (7 here). -/
theorem C24_rank_not_clamped :
    LCM.index_right (Flt.fin 1) 2 = some 2 ∧
    LCM.index_left (Flt.fin 0) 2 = some 2 ∧
    LCM.selectThresholdMatrix (Flt.fin 7) [[Flt.fin 1, Flt.fin 2]] (Flt.fin 1)
      = some (Flt.fin 1, Flt.fin 7) ∧
    LCM.selectThresholdMatrix (Flt.fin 7) [[Flt.fin 1, Flt.fin 2]] (Flt.fin 0)
      = some (Flt.fin 7, Flt.fin 1) := by
  refine ⟨?_, ?_, ?_, ?_⟩ <;> decide!

/-- C25: the thresholds of a `SingleLCM` depend on the pixels that the mask
does not select.  `trainNear` and `trainFar` agree on the two pixels that
`trainMask` selects and differ in the third one; at the detection rate 0.9
the trained statistics and variations are the same and the thresholds differ,
whether the float behind the arrays is 0 or `+inf`. -/
theorem C25_thresholds_from_unselected_pixels :
    selectedPixels trainNear trainMask = selectedPixels trainFar trainMask ∧
    (SingleLCM.computeModel sqrtQ 0 0 (Flt.fin (9 / 10)) trainNear trainMask).map
        (fun m => (m._mean, m._stddev, m._bdist_variation, m._cdist_variation))
      = (SingleLCM.computeModel sqrtQ 0 0 (Flt.fin (9 / 10)) trainFar trainMask).map
        (fun m => (m._mean, m._stddev, m._bdist_variation, m._cdist_variation)) ∧
    (SingleLCM.computeModel sqrtQ 0 0 (Flt.fin (9 / 10)) trainNear trainMask).map
        (fun m => (m._threshold_cdist, m._threshold_bdist_left, m._threshold_bdist_right))
      = some (Flt.fin 1, Flt.fin (-1), Flt.fin 0) ∧
    (SingleLCM.computeModel sqrtQ 0 0 (Flt.fin (9 / 10)) trainFar trainMask).map
        (fun m => (m._threshold_cdist, m._threshold_bdist_left, m._threshold_bdist_right))
      = some (Flt.fin 1, Flt.fin (-1), Flt.fin 1) ∧
    (SingleLCM.computeModel sqrtQ Flt.pinf Flt.pinf (Flt.fin (9 / 10)) trainNear trainMask).map
        (fun m => (m._threshold_cdist, m._threshold_bdist_left, m._threshold_bdist_right))
      = some (Flt.fin 1, Flt.fin (-1), Flt.fin 1) ∧
    (SingleLCM.computeModel sqrtQ Flt.pinf Flt.pinf (Flt.fin (9 / 10)) trainFar trainMask).map
        (fun m => (m._threshold_cdist, m._threshold_bdist_left, m._threshold_bdist_right))
      = some (Flt.fin 6, Flt.fin (-1), Flt.fin 6) := by
  refine ⟨?_, ?_, ?_, ?_, ?_, ?_⟩ <;> decide!

/-! ## The sort of a range without `NaN` -/

theorem Flt.lt_irrefl (a : Flt) : Flt.lt a a = false := by
  cases a <;> simp [Flt.lt]

theorem Flt.lt_asymm (a b : Flt) (h : Flt.lt a b = true) : Flt.lt b a = false := by
  cases a <;> cases b <;> simp_all [Flt.lt]
  exact le_of_lt h

/-- The comparison of the sort is transitive through a value that is not `NaN`. -/
theorem Flt.not_lt_trans (a b c : Flt) (hb : b ≠ Flt.nan)
    (hab : Flt.lt b a = false) (hbc : Flt.lt c b = false) : Flt.lt c a = false := by
  cases a <;> cases b <;> cases c <;> simp_all [Flt.lt]
  exact le_trans hab hbc

theorem Flt.le_of_not_lt (a b : Flt) (ha : a ≠ Flt.nan) (hb : b ≠ Flt.nan)
    (h : Flt.lt b a = false) : Flt.le a b = true := by
  cases a <;> cases b <;> simp_all [Flt.lt, Flt.le, Flt.eq]
  exact lt_or_eq_of_le h

/-- Inserting a value into an ascending range without `NaN` keeps it ascending. -/
theorem orderedInsert_ascending (a : Flt) (l : List Flt) (ha : a ≠ Flt.nan)
    (hl : ∀ v ∈ l, v ≠ Flt.nan)
    (hs : List.Pairwise (fun a b => Flt.lt b a = false) l) :
    List.Pairwise (fun a b => Flt.lt b a = false)
      (List.orderedInsert (fun a b => Flt.lt b a = false) a l) := by
  induction l with
  | nil => simp [List.orderedInsert]
  | cons b l ih =>
      have hb : b ≠ Flt.nan := hl b (List.mem_cons_self b l)
      have hl2 : ∀ v ∈ l, v ≠ Flt.nan := fun v hv => hl v (List.mem_cons_of_mem b hv)
      obtain ⟨hbl, hsl⟩ := List.pairwise_cons.mp hs
      by_cases hab : Flt.lt b a = false
      · rw [List.orderedInsert, if_pos hab]
        refine List.pairwise_cons.mpr ⟨?_, hs⟩
        intro c hc
        rcases List.mem_cons.mp hc with hcb | hcl
        · rw [hcb]; exact hab
        · exact Flt.not_lt_trans a b c hb hab (hbl c hcl)
      · rw [List.orderedInsert, if_neg hab]
        refine List.pairwise_cons.mpr ⟨?_, ih hl2 hsl⟩
        intro c hc
        rcases (List.mem_orderedInsert _).mp hc with hca | hcl
        · rw [hca]
          have : Flt.lt b a = true := by simpa using hab
          exact Flt.lt_asymm b a this
        · exact hbl c hcl

/-- On a range without `NaN` the sort returns an ascending arrangement. -/
theorem stdSort_ascending (l : List Flt) (hl : ∀ v ∈ l, v ≠ Flt.nan) :
    List.Pairwise (fun a b => Flt.lt b a = false) (LCM.stdSort l) := by
  induction l with
  | nil => simp [LCM.stdSort]
  | cons a l ih =>
      have hl2 : ∀ v ∈ l, v ≠ Flt.nan := fun v hv => hl v (List.mem_cons_of_mem a hv)
      unfold LCM.stdSort at ih ⊢
      rw [List.insertionSort]
      refine orderedInsert_ascending a _ (hl a (List.mem_cons_self a l)) ?_ (ih hl2)
      intro v hv
      exact hl2 v ((List.perm_insertionSort _ l).mem_iff.mp hv)

theorem stdSort_mem (l : List Flt) (v : Flt) : v ∈ LCM.stdSort l ↔ v ∈ l :=
  (List.perm_insertionSort _ l).mem_iff

theorem stdSort_length (l : List Flt) : (LCM.stdSort l).length = l.length :=
  List.length_insertionSort _ l

/-- A value that no element of the range exceeds stays behind the range. -/
theorem orderedInsert_append_last (a oob : Flt) (l : List Flt)
    (ha : Flt.lt oob a = false) :
    List.orderedInsert (fun a b => Flt.lt b a = false) a (l ++ [oob])
      = List.orderedInsert (fun a b => Flt.lt b a = false) a l ++ [oob] := by
  induction l with
  | nil => simp [List.orderedInsert, ha]
  | cons b l ih =>
      by_cases hab : Flt.lt b a = false
      · rw [List.cons_append, List.orderedInsert, if_pos hab, List.orderedInsert, if_pos hab]
        rfl
      · rw [List.cons_append, List.orderedInsert, if_neg hab, ih, List.orderedInsert,
          if_neg hab]
        rfl

/-- When the float behind the array is not below any value of the array, the
sort of the array and that float is the sort of the array, followed by that float. -/
theorem stdSort_append_last (oob : Flt) (l : List Flt)
    (h : ∀ v ∈ l, Flt.lt oob v = false) :
    LCM.stdSort (l ++ [oob]) = LCM.stdSort l ++ [oob] := by
  induction l with
  | nil => rfl
  | cons a l ih =>
      have hl : ∀ v ∈ l, Flt.lt oob v = false := fun v hv => h v (List.mem_cons_of_mem a hv)
      have ih2 := ih hl
      unfold LCM.stdSort at ih2 ⊢
      rw [List.cons_append, List.insertionSort, ih2, List.insertionSort,
        orderedInsert_append_last a oob _ (h a (List.mem_cons_self a l))]

/-- In an ascending range the element at a lower rank is not above the element
at a higher rank. -/
theorem ascending_rank (s : List Flt)
    (hs : List.Pairwise (fun a b => Flt.lt b a = false) s) (i j : Nat) (hij : i ≤ j)
    (a b : Flt) (ha : s[i]? = some a) (hb : s[j]? = some b) :
    Flt.lt b a = false := by
  obtain ⟨hi, hai⟩ := List.getElem?_eq_some.mp ha
  obtain ⟨hj, hbj⟩ := List.getElem?_eq_some.mp hb
  rcases Nat.eq_or_lt_of_le hij with h | h
  · subst h
    rw [← hai, ← hbj]
    exact Flt.lt_irrefl _
  · rw [← hai, ← hbj]
    exact List.pairwise_iff_getElem.mp hs i j hi hj h

/-- The element of rank 0 of the sort of a range without `NaN` is a smallest
element of the range. -/
theorem stdSort_rank_zero (l : List Flt) (hl : ∀ v ∈ l, v ≠ Flt.nan) (v : Flt)
    (hv : (LCM.stdSort l)[0]? = some v) : Flt.IsMinOf v l := by
  have hmem : v ∈ l := (stdSort_mem l v).mp (List.getElem?_mem hv)
  refine ⟨hmem, ?_⟩
  intro w hw
  obtain ⟨k, hk, hwk⟩ := List.mem_iff_getElem.mp ((stdSort_mem l w).mpr hw)
  have hwk2 : (LCM.stdSort l)[k]? = some w := by
    rw [List.getElem?_eq_getElem hk, hwk]
  exact Flt.le_of_not_lt v w (hl v hmem) (hl w hw)
    (ascending_rank _ (stdSort_ascending l hl) 0 k (Nat.zero_le k) v w hv hwk2)

/-- The element of the last rank of the sort of a range without `NaN` is a
largest element of the range. -/
theorem stdSort_rank_last (l : List Flt) (hl : ∀ v ∈ l, v ≠ Flt.nan) (v : Flt)
    (hv : (LCM.stdSort l)[l.length - 1]? = some v) : Flt.IsMaxOf v l := by
  have hmem : v ∈ l := (stdSort_mem l v).mp (List.getElem?_mem hv)
  refine ⟨hmem, ?_⟩
  intro w hw
  obtain ⟨k, hk, hwk⟩ := List.mem_iff_getElem.mp ((stdSort_mem l w).mpr hw)
  have hwk2 : (LCM.stdSort l)[k]? = some w := by
    rw [List.getElem?_eq_getElem hk, hwk]
  have hk2 : k ≤ l.length - 1 := by
    rw [stdSort_length] at hk
    omega
  exact Flt.le_of_not_lt w v (hl w hw) (hl v hmem)
    (ascending_rank _ (stdSort_ascending l hl) k (l.length - 1) hk2 w v hwk2 hv)

theorem LCM.readSorted_natCast (sorted : List Flt) (k : Nat) :
    LCM.readSorted sorted (k : ℤ) = sorted[k]? := by
  unfold LCM.readSorted
  rw [if_neg (by omega), Int.toNat_natCast]

/-- The values that `selectThresholdMatrix` returns when the two ranks are `i`
and `j`: the elements at these ranks of the sorted range of `size + 1` floats. -/
theorem LCM.selectThresholdMatrix_ranks (oob : Flt) (mat : Mat Flt) (r : ℚ)
    (hr0 : 0 ≤ r) (hr1 : r ≤ 1) (i j : Nat)
    (hi : ⌊(1 - r) * (mat.flatten.length : ℚ)⌋ = (i : ℤ))
    (hj : ⌊r * (mat.flatten.length : ℚ)⌋ = (j : ℤ))
    (left right : Flt)
    (hleft : (LCM.stdSort (mat.flatten ++ [oob]))[i]? = some left)
    (hright : (LCM.stdSort (mat.flatten ++ [oob]))[j]? = some right) :
    LCM.selectThresholdMatrix oob mat (Flt.fin r) = some (left, right) := by
  have hM : (0 : ℚ) ≤ (mat.flatten.length : ℚ) := by positivity
  have hl0 : (0 : ℚ) ≤ (1 - r) * (mat.flatten.length : ℚ) := by nlinarith
  have hq0 : (0 : ℚ) ≤ r * (mat.flatten.length : ℚ) := by nlinarith
  unfold LCM.selectThresholdMatrix
  simp only [Flt.ofNat_eq, Nat.cast_one, Flt.natCast_eq, Flt.fin_sub, Flt.fin_mul,
    LCM.toInt_fin_nonneg _ hl0, LCM.toInt_fin_nonneg _ hq0, hi, hj,
    LCM.readSorted_natCast, hleft, hright]

/-- The ranks of `selectThresholdMatrix` for a detection rate just below 1. -/
theorem floor_rate_high (M : Nat) (hM : 0 < M) (r : ℚ)
    (hr : ((M : ℚ) - 1) / (M : ℚ) < r) (hr1 : r < 1) :
    ⌊(1 - r) * (M : ℚ)⌋ = ((0 : Nat) : ℤ) ∧ ⌊r * (M : ℚ)⌋ = ((M - 1 : Nat) : ℤ) := by
  have hMq : (0 : ℚ) < (M : ℚ) := by exact_mod_cast hM
  have h1 : (M : ℚ) - 1 < r * (M : ℚ) := (div_lt_iff₀ hMq).mp hr
  have h2 : r * (M : ℚ) < (M : ℚ) := by nlinarith
  constructor
  · rw [Int.floor_eq_iff]
    constructor
    · push_cast; nlinarith
    · push_cast; nlinarith
  · rw [Int.floor_eq_iff]
    have hc : (((M - 1 : Nat) : ℤ) : ℚ) = (M : ℚ) - 1 := by
      rw [Int.cast_natCast, Nat.cast_sub hM, Nat.cast_one]
    rw [hc]
    constructor
    · exact h1.le
    · linarith

/-- The ranks of `selectThresholdMatrix` for a detection rate just above 0. -/
theorem floor_rate_low (M : Nat) (hM : 0 < M) (r : ℚ)
    (hr0 : 0 < r) (hr : r < 1 / (M : ℚ)) :
    ⌊(1 - r) * (M : ℚ)⌋ = ((M - 1 : Nat) : ℤ) ∧ ⌊r * (M : ℚ)⌋ = ((0 : Nat) : ℤ) := by
  have hMq : (0 : ℚ) < (M : ℚ) := by exact_mod_cast hM
  have h1 : r * (M : ℚ) < 1 := (lt_div_iff₀ hMq).mp hr
  have h2 : 0 < r * (M : ℚ) := mul_pos hr0 hMq
  constructor
  · rw [Int.floor_eq_iff]
    have hc : (((M - 1 : Nat) : ℤ) : ℚ) = (M : ℚ) - 1 := by
      rw [Int.cast_natCast, Nat.cast_sub hM, Nat.cast_one]
    rw [hc]
    constructor
    · linarith
    · linarith
  · rw [Int.floor_eq_iff]
    constructor
    · push_cast; exact h2.le
    · push_cast; linarith

/-- With a float behind the array that is not below any value of the array,
the element of rank `k < size` of the sorted range is the element of rank `k`
of the sort of the array alone. -/
theorem stdSort_rank_inside (oob : Flt) (l : List Flt)
    (h : ∀ v ∈ l, Flt.lt oob v = false) (k : Nat) (hk : k < l.length) :
    ∃ v, (LCM.stdSort (l ++ [oob]))[k]? = some v ∧ (LCM.stdSort l)[k]? = some v := by
  have hk2 : k < (LCM.stdSort l).length := by rw [stdSort_length]; exact hk
  refine ⟨(LCM.stdSort l)[k], ?_, List.getElem?_eq_getElem hk2⟩
  rw [stdSort_append_last oob l h, List.getElem?_append_left hk2,
    List.getElem?_eq_getElem hk2]

/-- The two values of `selectThresholdMatrix` for a detection rate just below 1,
when the float behind the array is not below any value of the array: a
smallest and a largest value of the distribution. -/
theorem selectThresholdMatrix_rate_high (oob : Flt) (mat : Mat Flt) (r : ℚ)
    (hM : 0 < mat.flatten.length)
    (hr : ((mat.flatten.length : ℚ) - 1) / (mat.flatten.length : ℚ) < r) (hr1 : r < 1)
    (hnan : ∀ v ∈ mat.flatten, v ≠ Flt.nan)
    (hoob : ∀ v ∈ mat.flatten, Flt.lt oob v = false) :
    ∃ left right, LCM.selectThresholdMatrix oob mat (Flt.fin r) = some (left, right) ∧
      Flt.IsMinOf left mat.flatten ∧ Flt.IsMaxOf right mat.flatten := by
  have hMq : (0 : ℚ) < (mat.flatten.length : ℚ) := by exact_mod_cast hM
  have hr0 : 0 ≤ r := by
    have h1 : (mat.flatten.length : ℚ) - 1 < r * (mat.flatten.length : ℚ) :=
      (div_lt_iff₀ hMq).mp hr
    have h2 : (1 : ℚ) ≤ (mat.flatten.length : ℚ) := by exact_mod_cast hM
    by_contra hneg
    push_neg at hneg
    nlinarith
  obtain ⟨hi, hj⟩ := floor_rate_high _ hM r hr hr1
  obtain ⟨left, hl1, hl2⟩ := stdSort_rank_inside oob mat.flatten hoob 0 hM
  obtain ⟨right, hr2, hr3⟩ :=
    stdSort_rank_inside oob mat.flatten hoob (mat.flatten.length - 1) (by omega)
  exact ⟨left, right,
    LCM.selectThresholdMatrix_ranks oob mat r hr0 hr1.le _ _ hi hj left right hl1 hr2,
    stdSort_rank_zero _ hnan left hl2, stdSort_rank_last _ hnan right hr3⟩

/-- The two values of `selectThresholdMatrix` for a detection rate just above 0,
when the float behind the array is not below any value of the array: a
largest and a smallest value of the distribution. -/
theorem selectThresholdMatrix_rate_low (oob : Flt) (mat : Mat Flt) (r : ℚ)
    (hM : 0 < mat.flatten.length)
    (hr0 : 0 < r) (hr : r < 1 / (mat.flatten.length : ℚ))
    (hnan : ∀ v ∈ mat.flatten, v ≠ Flt.nan)
    (hoob : ∀ v ∈ mat.flatten, Flt.lt oob v = false) :
    ∃ left right, LCM.selectThresholdMatrix oob mat (Flt.fin r) = some (left, right) ∧
      Flt.IsMaxOf left mat.flatten ∧ Flt.IsMinOf right mat.flatten := by
  have hMq : (0 : ℚ) < (mat.flatten.length : ℚ) := by exact_mod_cast hM
  have hr1 : r ≤ 1 := by
    have h1 : r * (mat.flatten.length : ℚ) < 1 := (lt_div_iff₀ hMq).mp hr
    have h2 : (1 : ℚ) ≤ (mat.flatten.length : ℚ) := by exact_mod_cast hM
    by_contra hneg
    push_neg at hneg
    nlinarith
  obtain ⟨hi, hj⟩ := floor_rate_low _ hM r hr0 hr
  obtain ⟨right, hl1, hl2⟩ := stdSort_rank_inside oob mat.flatten hoob 0 hM
  obtain ⟨left, hr2, hr3⟩ :=
    stdSort_rank_inside oob mat.flatten hoob (mat.flatten.length - 1) (by omega)
  exact ⟨left, right,
    LCM.selectThresholdMatrix_ranks oob mat r hr0.le hr1 _ _ hi hj left right hr2 hl1,
    stdSort_rank_last _ hnan left hr3, stdSort_rank_zero _ hnan right hl2⟩

/-- The two values of `selectThresholdMatrix` on a range without `NaN`: the
left value is not above the right one from the rate 1/2 on, and not below it
up to the rate 1/2. -/
theorem selectThresholdMatrix_order (oob : Flt) (mat : Mat Flt) (r : ℚ)
    (hr0 : 0 ≤ r) (hr1 : r ≤ 1)
    (hnan : ∀ v ∈ mat.flatten, v ≠ Flt.nan) (hoob : oob ≠ Flt.nan) :
    ∃ left right, LCM.selectThresholdMatrix oob mat (Flt.fin r) = some (left, right) ∧
      (1 / 2 ≤ r → Flt.le left right = true) ∧ (r ≤ 1 / 2 → Flt.le right left = true) := by
  have hM : (0 : ℚ) ≤ (mat.flatten.length : ℚ) := by positivity
  have hl0 : (0 : ℚ) ≤ (1 - r) * (mat.flatten.length : ℚ) := by nlinarith
  have hl1 : (1 - r) * (mat.flatten.length : ℚ) ≤ (mat.flatten.length : ℚ) := by nlinarith
  have hq0 : (0 : ℚ) ≤ r * (mat.flatten.length : ℚ) := by nlinarith
  have hq1 : r * (mat.flatten.length : ℚ) ≤ (mat.flatten.length : ℚ) := by nlinarith
  have hall : ∀ v ∈ mat.flatten ++ [oob], v ≠ Flt.nan := by
    intro v hv
    rcases List.mem_append.mp hv with h | h
    · exact hnan v h
    · rw [List.mem_singleton.mp h]; exact hoob
  have hlen : (LCM.stdSort (mat.flatten ++ [oob])).length = mat.flatten.length + 1 := by
    rw [stdSort_length, List.length_append, List.length_singleton]
  have hi0 : 0 ≤ ⌊(1 - r) * (mat.flatten.length : ℚ)⌋ := Int.floor_nonneg.mpr hl0
  have hj0 : 0 ≤ ⌊r * (mat.flatten.length : ℚ)⌋ := Int.floor_nonneg.mpr hq0
  have hi1 : ⌊(1 - r) * (mat.flatten.length : ℚ)⌋ ≤ (mat.flatten.length : ℤ) := by
    have : ((⌊(1 - r) * (mat.flatten.length : ℚ)⌋ : ℤ) : ℚ) ≤ ((mat.flatten.length : ℤ) : ℚ) :=
      le_trans (Int.floor_le _) (by exact_mod_cast hl1)
    exact_mod_cast this
  have hj1 : ⌊r * (mat.flatten.length : ℚ)⌋ ≤ (mat.flatten.length : ℤ) := by
    have : ((⌊r * (mat.flatten.length : ℚ)⌋ : ℤ) : ℚ) ≤ ((mat.flatten.length : ℤ) : ℚ) :=
      le_trans (Int.floor_le _) (by exact_mod_cast hq1)
    exact_mod_cast this
  have hi : ⌊(1 - r) * (mat.flatten.length : ℚ)⌋
      = ((⌊(1 - r) * (mat.flatten.length : ℚ)⌋.toNat : Nat) : ℤ) := (Int.toNat_of_nonneg hi0).symm
  have hj : ⌊r * (mat.flatten.length : ℚ)⌋
      = ((⌊r * (mat.flatten.length : ℚ)⌋.toNat : Nat) : ℤ) := (Int.toNat_of_nonneg hj0).symm
  have hib : ⌊(1 - r) * (mat.flatten.length : ℚ)⌋.toNat
      < (LCM.stdSort (mat.flatten ++ [oob])).length := by omega
  have hjb : ⌊r * (mat.flatten.length : ℚ)⌋.toNat
      < (LCM.stdSort (mat.flatten ++ [oob])).length := by omega
  have hleft := List.getElem?_eq_getElem hib
  have hright := List.getElem?_eq_getElem hjb
  have hasc := stdSort_ascending _ hall
  have hlm : (LCM.stdSort (mat.flatten ++ [oob]))[⌊(1 - r) * (mat.flatten.length : ℚ)⌋.toNat]
      ≠ Flt.nan := hall _ ((stdSort_mem _ _).mp (List.getElem_mem hib))
  have hrm : (LCM.stdSort (mat.flatten ++ [oob]))[⌊r * (mat.flatten.length : ℚ)⌋.toNat]
      ≠ Flt.nan := hall _ ((stdSort_mem _ _).mp (List.getElem_mem hjb))
  refine ⟨_, _, LCM.selectThresholdMatrix_ranks oob mat r hr0 hr1 _ _ hi hj _ _ hleft hright,
    ?_, ?_⟩
  · intro hhalf
    have hle : ⌊(1 - r) * (mat.flatten.length : ℚ)⌋ ≤ ⌊r * (mat.flatten.length : ℚ)⌋ :=
      Int.floor_le_floor (by nlinarith)
    exact Flt.le_of_not_lt _ _ hlm hrm
      (ascending_rank _ hasc _ _ (Int.toNat_le_toNat hle) _ _ hleft hright)
  · intro hhalf
    have hle : ⌊r * (mat.flatten.length : ℚ)⌋ ≤ ⌊(1 - r) * (mat.flatten.length : ℚ)⌋ :=
      Int.floor_le_floor (by nlinarith)
    exact Flt.le_of_not_lt _ _ hrm hlm
      (ascending_rank _ hasc _ _ (Int.toNat_le_toNat hle) _ _ hright hleft)

theorem selectThresholds_of_matrices (oob_c oob_b rate : Flt) (bn cn : Mat Flt)
    (dummy t_cd t_bl t_bu : Flt)
    (hc : LCM.selectThresholdMatrix oob_c cn rate = some (dummy, t_cd))
    (hb : LCM.selectThresholdMatrix oob_b bn rate = some (t_bl, t_bu)) :
    LCM.selectThresholds oob_c oob_b rate bn cn = some (t_cd, t_bl, t_bu) := by
  simp only [LCM.selectThresholds, hc, hb]

/-! ## Rounding to `float`, and the ranks of `selectThresholdMatrix` in `float` -/

theorem pow2_eq_zpow (e : Int) : pow2 e = (2 : ℚ) ^ e := by
  unfold pow2
  split
  · rename_i h
    obtain ⟨n, rfl⟩ := Int.eq_ofNat_of_zero_le h
    simp
  · rename_i h
    obtain ⟨n, rfl⟩ : ∃ n : ℕ, e = -(n : ℤ) := ⟨(-e).toNat, by omega⟩
    simp

theorem pow2_pos (e : Int) : 0 < pow2 e := by
  rw [pow2_eq_zpow]; positivity

theorem pow2_le_pow2 {a b : Int} (h : a ≤ b) : pow2 a ≤ pow2 b := by
  rw [pow2_eq_zpow, pow2_eq_zpow]
  exact zpow_le_zpow_right₀ (by norm_num) h

theorem pow2_lt_pow2_iff {a b : Int} : pow2 a < pow2 b ↔ a < b := by
  rw [pow2_eq_zpow, pow2_eq_zpow]
  exact zpow_lt_zpow_iff_right₀ (by norm_num)

theorem pow2_add (a b : Int) : pow2 (a + b) = pow2 a * pow2 b := by
  rw [pow2_eq_zpow, pow2_eq_zpow, pow2_eq_zpow, zpow_add₀ (by norm_num)]

theorem pow2_natCast (n : Nat) : pow2 (n : Int) = (2 : ℚ) ^ n := by
  rw [pow2_eq_zpow, zpow_natCast]

theorem bitLength_zero (fuel : Nat) : bitLength fuel 0 = 0 := by
  cases fuel <;> simp [bitLength]

theorem bitLength_spec : ∀ (fuel n : Nat), 0 < n → n ≤ fuel →
    n < 2 ^ bitLength fuel n ∧ 2 ^ bitLength fuel n ≤ 2 * n
  | 0, n, h0, hf => by omega
  | fuel + 1, n, h0, hf => by
    simp only [bitLength, if_neg (Nat.pos_iff_ne_zero.mp h0)]
    by_cases h1 : n / 2 = 0
    · have h2 : n = 1 := by omega
      subst h2
      simp [bitLength_zero]
    · have h3 := bitLength_spec fuel (n / 2) (by omega) (by omega)
      rw [pow_succ]
      generalize 2 ^ bitLength fuel (n / 2) = P at h3 ⊢
      omega

theorem ilog2_spec (a : ℚ) (ha : 0 < a) : pow2 (ilog2 a) ≤ a ∧ a < pow2 (ilog2 a + 1) := by
  have hnum : 0 < a.num := Rat.num_pos.mpr ha
  have hn : 0 < a.num.natAbs := Int.natAbs_pos.mpr hnum.ne'
  have hd : 0 < a.den := a.den_pos
  obtain ⟨n1, n2⟩ := bitLength_spec _ _ hn le_rfl
  obtain ⟨d1, d2⟩ := bitLength_spec _ _ hd le_rfl
  have h0 : (a.num.natAbs : ℤ) = a.num := Int.natAbs_of_nonneg hnum.le
  have h1 : (a.num.natAbs : ℚ) = (a.num : ℚ) := by
    rw [← Int.cast_natCast, h0]
  have ha_eq : a = (a.num.natAbs : ℚ) / (a.den : ℚ) := by
    rw [h1]
    exact (Rat.num_div_den a).symm
  have hdq : (0 : ℚ) < (a.den : ℚ) := by exact_mod_cast hd
  have n1q : (a.num.natAbs : ℚ) < (2 : ℚ) ^ bitLength a.num.natAbs a.num.natAbs := by
    exact_mod_cast n1
  have n2q : (2 : ℚ) ^ bitLength a.num.natAbs a.num.natAbs ≤ 2 * (a.num.natAbs : ℚ) := by
    exact_mod_cast n2
  have d1q : (a.den : ℚ) < (2 : ℚ) ^ bitLength a.den a.den := by exact_mod_cast d1
  have d2q : (2 : ℚ) ^ bitLength a.den a.den ≤ 2 * (a.den : ℚ) := by exact_mod_cast d2
  unfold ilog2
  simp only []
  generalize bitLength a.num.natAbs a.num.natAbs = bn at n1q n2q ⊢
  generalize bitLength a.den a.den = bd at d1q d2q ⊢
  have hE : ∀ k : ℤ, pow2 ((bn : ℤ) - (bd : ℤ) + k) = (2 : ℚ) ^ bn / (2 : ℚ) ^ bd * pow2 k := by
    intro k
    rw [pow2_add, pow2_eq_zpow, zpow_sub₀ (by norm_num), zpow_natCast, zpow_natCast]
  have hbd : (0 : ℚ) < (2 : ℚ) ^ bd := by positivity
  have hbn : (0 : ℚ) < (2 : ℚ) ^ bn := by positivity
  have hup : a < pow2 ((bn : ℤ) - (bd : ℤ) + 1) := by
    rw [hE 1]
    have h2 : pow2 1 = 2 := by rw [pow2_eq_zpow]; norm_num
    rw [h2, div_mul_eq_mul_div, lt_div_iff₀ hbd]
    have h3 : a * (a.den : ℚ) = (a.num.natAbs : ℚ) := by
      rw [h1]; exact Rat.mul_den_eq_num a
    nlinarith
  have hlow : pow2 ((bn : ℤ) - (bd : ℤ) + (-1)) ≤ a := by
    rw [hE (-1)]
    have h2 : pow2 (-1) = 1 / 2 := by rw [pow2_eq_zpow]; norm_num
    rw [h2, div_mul_eq_mul_div, div_le_iff₀ hbd]
    have h3 : a * (a.den : ℚ) = (a.num.natAbs : ℚ) := by
      rw [h1]; exact Rat.mul_den_eq_num a
    nlinarith
  split
  · rename_i h
    exact ⟨h, hup⟩
  · rename_i h
    push_neg at h
    refine ⟨?_, ?_⟩
    · have h5 : (bn : ℤ) - (bd : ℤ) - 1 = (bn : ℤ) - (bd : ℤ) + (-1) := by ring
      rw [h5]; exact hlow
    · have h5 : (bn : ℤ) - (bd : ℤ) - 1 + 1 = (bn : ℤ) - (bd : ℤ) := by ring
      rw [h5]; exact h

theorem ilog2_unique (a : ℚ) (e : Int) (h1 : pow2 e ≤ a) (h2 : a < pow2 (e + 1)) :
    ilog2 a = e := by
  have ha : 0 < a := lt_of_lt_of_le (pow2_pos e) h1
  obtain ⟨s1, s2⟩ := ilog2_spec a ha
  have l1 : e < ilog2 a + 1 := pow2_lt_pow2_iff.mp (lt_of_le_of_lt h1 s2)
  have l2 : ilog2 a < e + 1 := pow2_lt_pow2_iff.mp (lt_of_le_of_lt s1 h2)
  omega

theorem roundHalfEven_cases (y : ℚ) : roundHalfEven y = ⌊y⌋ ∨ roundHalfEven y = ⌊y⌋ + 1 := by
  unfold roundHalfEven
  simp only []
  split
  · left; rfl
  · split
    · right; rfl
    · split
      · left; rfl
      · right; rfl

theorem roundHalfEven_near (y : ℚ) :
    (roundHalfEven y : ℚ) ≤ y + 1 / 2 ∧ y - 1 / 2 ≤ (roundHalfEven y : ℚ) := by
  have hf1 : ((⌊y⌋ : ℤ) : ℚ) ≤ y := Int.floor_le y
  have hf2 : y < ((⌊y⌋ : ℤ) : ℚ) + 1 := Int.lt_floor_add_one y
  have hfl : Rat.floor y = ⌊y⌋ := rfl
  unfold roundHalfEven
  simp only [hfl]
  split
  · rename_i h
    constructor <;> linarith
  · rename_i h
    push_neg at h
    split
    · rename_i h'
      push_cast
      constructor <;> linarith
    · rename_i h'
      push_neg at h'
      have hd : y - ((⌊y⌋ : ℤ) : ℚ) = 1 / 2 := le_antisymm h' h
      split
      · constructor <;> linarith
      · push_cast
        constructor <;> linarith

theorem roundHalfEven_ge (y : ℚ) (N : ℤ) (h : (N : ℚ) ≤ y) : N ≤ roundHalfEven y := by
  have h1 : N ≤ ⌊y⌋ := Int.le_floor.mpr h
  rcases roundHalfEven_cases y with h2 | h2 <;> omega

theorem roundHalfEven_le (y : ℚ) (N : ℤ) (h : y ≤ (N : ℚ)) : roundHalfEven y ≤ N := by
  have hn := (roundHalfEven_near y).1
  have h1 : (roundHalfEven y : ℚ) < (N : ℚ) + 1 := by linarith
  have h2 : roundHalfEven y < N + 1 := by exact_mod_cast h1
  omega

/-- The `float` nearest to a positive rational of the normal range with the
exponent `e`: a multiple `n * 2^(e-23)` within half a spacing. -/
theorem f32_of_exponent (q : ℚ) (e : Int) (h1 : pow2 e ≤ q) (h2 : q < pow2 (e + 1))
    (h3 : -126 ≤ e) (h4 : e ≤ 126) :
    Flt.f32 (Flt.fin q)
      = Flt.fin ((roundHalfEven (q / pow2 (e - 23)) : ℚ) * pow2 (e - 23)) := by
  have hq : 0 < q := lt_of_lt_of_le (pow2_pos e) h1
  have hlog := ilog2_unique q e h1 h2
  have hQ := pow2_pos (e - 23)
  have hy : q / pow2 (e - 23) ≤ ((2 ^ 24 : ℤ) : ℚ) := by
    rw [div_le_iff₀ hQ]
    have : pow2 (e + 1) = ((2 ^ 24 : ℤ) : ℚ) * pow2 (e - 23) := by
      have : e + 1 = 24 + (e - 23) := by ring
      rw [this, pow2_add]
      congr 1
    linarith
  have hn := roundHalfEven_le _ _ hy
  have hnq : (roundHalfEven (q / pow2 (e - 23)) : ℚ) ≤ ((2 ^ 24 : ℤ) : ℚ) := by exact_mod_cast hn
  have hr : (roundHalfEven (q / pow2 (e - 23)) : ℚ) * pow2 (e - 23) ≤ pow2 (e + 1) := by
    have : pow2 (e + 1) = ((2 ^ 24 : ℤ) : ℚ) * pow2 (e - 23) := by
      have : e + 1 = 24 + (e - 23) := by ring
      rw [this, pow2_add]
      congr 1
    rw [this]
    exact mul_le_mul_of_nonneg_right hnq hQ.le
  have hov : ¬ pow2 (127 + 1) ≤ (roundHalfEven (q / pow2 (e - 23)) : ℚ) * pow2 (e - 23) := by
    push_neg
    refine lt_of_le_of_lt hr ?_
    exact pow2_lt_pow2_iff.mpr (by omega)
  simp only [Flt.f32, roundBinary, if_neg hq.ne', if_pos hq, hlog, if_pos h3]
  have he : e - ((24 : ℕ) : ℤ) + 1 = e - 23 := by push_cast; ring
  rw [he, if_neg hov]

theorem f32_normal (q : ℚ) (e : Int) (h1 : pow2 e ≤ q) (h2 : q < pow2 (e + 1))
    (h3 : -126 ≤ e) (h4 : e ≤ 126) :
    ∃ n : ℤ, Flt.f32 (Flt.fin q) = Flt.fin ((n : ℚ) * pow2 (e - 23)) ∧
      (n : ℚ) * pow2 (e - 23) ≤ q + pow2 (e - 24) ∧
      q - pow2 (e - 24) ≤ (n : ℚ) * pow2 (e - 23) ∧
      (∀ N : ℤ, (N : ℚ) * pow2 (e - 23) ≤ q → N ≤ n) ∧
      (∀ N : ℤ, q ≤ (N : ℚ) * pow2 (e - 23) → n ≤ N) := by
  have hQ := pow2_pos (e - 23)
  have hhalf : pow2 (e - 24) = 1 / 2 * pow2 (e - 23) := by
    have h5 : e - 24 = -1 + (e - 23) := by ring
    have h6 : pow2 (-1) = 1 / 2 := by rw [pow2_eq_zpow]; norm_num
    rw [h5, pow2_add, h6]
  obtain ⟨n1, n2⟩ := roundHalfEven_near (q / pow2 (e - 23))
  refine ⟨roundHalfEven (q / pow2 (e - 23)), f32_of_exponent q e h1 h2 h3 h4, ?_, ?_, ?_, ?_⟩
  · have h5 := mul_le_mul_of_nonneg_right n1 hQ.le
    rw [add_mul, div_mul_cancel₀ _ hQ.ne'] at h5
    rw [hhalf]; exact h5
  · have h5 := mul_le_mul_of_nonneg_right n2 hQ.le
    rw [sub_mul, div_mul_cancel₀ _ hQ.ne'] at h5
    rw [hhalf]; exact h5
  · intro N hN
    exact roundHalfEven_ge _ _ ((le_div_iff₀ hQ).mpr hN)
  · intro N hN
    exact roundHalfEven_le _ _ ((div_le_iff₀ hQ).mpr hN)

/-- The `float` nearest to a rational `q` of the normal range: it is within
half a spacing of `q`, and no multiple of `2^j` lies between `q` and it when
`q < 2^(j+24)`. -/
theorem f32_bounds (q : ℚ) (hpos : pow2 (-126) ≤ q) (hsmall : q < pow2 127) :
    ∃ v e, Flt.f32 (Flt.fin q) = Flt.fin v ∧ pow2 e ≤ q ∧ q < pow2 (e + 1) ∧
      v ≤ q + pow2 (e - 24) ∧ q - pow2 (e - 24) ≤ v ∧
      ∀ k j : ℤ, q < pow2 (j + 24) →
        ((k : ℚ) * pow2 j ≤ q → (k : ℚ) * pow2 j ≤ v) ∧
        (q ≤ (k : ℚ) * pow2 j → v ≤ (k : ℚ) * pow2 j) := by
  have hq : 0 < q := lt_of_lt_of_le (pow2_pos _) hpos
  obtain ⟨s1, s2⟩ := ilog2_spec q hq
  have e1 : -126 ≤ ilog2 q := by
    have := pow2_lt_pow2_iff.mp (lt_of_le_of_lt hpos s2)
    omega
  have e2 : ilog2 q ≤ 126 := by
    have := pow2_lt_pow2_iff.mp (lt_of_le_of_lt s1 hsmall)
    omega
  obtain ⟨n, hn, b1, b2, g1, g2⟩ := f32_normal q (ilog2 q) s1 s2 e1 e2
  refine ⟨_, ilog2 q, hn, s1, s2, b1, b2, ?_⟩
  intro k j hj
  have e3 : ilog2 q < j + 24 := pow2_lt_pow2_iff.mp (lt_of_le_of_lt s1 hj)
  obtain ⟨t, ht⟩ : ∃ t : ℕ, j = (t : ℤ) + (ilog2 q - 23) :=
    ⟨(j - (ilog2 q - 23)).toNat, by omega⟩
  have hk : (k : ℚ) * pow2 j = ((k * 2 ^ t : ℤ) : ℚ) * pow2 (ilog2 q - 23) := by
    rw [ht, pow2_add, pow2_natCast]
    push_cast
    ring
  have hQ := pow2_pos (ilog2 q - 23)
  constructor
  · intro h
    rw [hk] at h ⊢
    have := g1 _ h
    exact mul_le_mul_of_nonneg_right (by exact_mod_cast this) hQ.le
  · intro h
    rw [hk] at h ⊢
    have := g2 _ h
    exact mul_le_mul_of_nonneg_right (by exact_mod_cast this) hQ.le

/-- A multiple `k * 2^j` of the normal range below `2^(j+24)` is a `float`. -/
theorem f32_exact (q : ℚ) (k j : ℤ) (hq : q = (k : ℚ) * pow2 j) (hpos : pow2 (-126) ≤ q)
    (hlt : q < pow2 (j + 24)) (hsmall : q < pow2 127) :
    Flt.f32 (Flt.fin q) = Flt.fin q := by
  obtain ⟨v, e, hv, _, _, _, _, hg⟩ := f32_bounds q hpos hsmall
  obtain ⟨g1, g2⟩ := hg k j hlt
  rw [hv]
  congr 1
  exact le_antisymm (by rw [hq]; exact g2 hq.le) (by rw [hq]; exact g1 hq.ge)

theorem f32_natCast (M : Nat) (hM : 0 < M) (hlt : M < 2 ^ 24) :
    Flt.f32 (Flt.fin (M : ℚ)) = Flt.fin (M : ℚ) := by
  have h1 : (1 : ℚ) ≤ (M : ℚ) := by exact_mod_cast hM
  have h2 : (M : ℚ) < 2 ^ 24 := by exact_mod_cast hlt
  have p0 : pow2 0 = 1 := by rw [pow2_eq_zpow]; norm_num
  have p24 : pow2 (0 + 24) = 2 ^ 24 := by rw [pow2_eq_zpow]; norm_num
  have p126 : pow2 (-126) ≤ 1 := by
    rw [← p0]; exact pow2_le_pow2 (by norm_num)
  have p127 : (2 : ℚ) ^ 24 ≤ pow2 127 := by
    rw [← p24]; exact pow2_le_pow2 (by norm_num)
  refine f32_exact (M : ℚ) (M : ℤ) 0 ?_ ?_ ?_ ?_
  · rw [p0]; push_cast; ring
  · linarith
  · rw [p24]; exact h2
  · linarith

theorem pow2_values : pow2 0 = 1 ∧ pow2 (-1) = 1 / 2 ∧ pow2 (-24) = 1 / 2 ^ 24 ∧
    pow2 (-25) = 1 / 2 ^ 25 ∧ pow2 24 = 2 ^ 24 ∧ pow2 23 = 2 ^ 23 := by
  refine ⟨?_, ?_, ?_, ?_, ?_, ?_⟩ <;> rw [pow2_eq_zpow] <;> norm_num

/-- Outside the ranges of the two rank theorems the `float` ranks leave the
array: up to the rate `2^-25` the difference `1 - r` is 1 in `float` and the
left rank is the size. -/
theorem ieee_index_left_tiny_rate :
    Flt.f32 (Flt.fin (1 / 2 ^ 25)) = Flt.fin (1 / 2 ^ 25) ∧
    ieee.index_left (Flt.fin (1 / 2 ^ 25)) 1 = some 1 ∧
    ieee.index_left (Flt.fin (1 / 2 ^ 70)) 1 = some 1 ∧
    LCM.index_left (Flt.fin (1 / 2 ^ 70)) 1 = some 0 := by
  refine ⟨?_, ?_, ?_, ?_⟩ <;> decide!

theorem roundBinary_not_neg (p : Nat) (emin emax : Int) (q : ℚ) (hq : 0 ≤ q) :
    Flt.lt (roundBinary p emin emax q) 0 = false := by
  unfold roundBinary
  by_cases h0 : q = 0
  · rw [if_pos h0]; simp [Flt.lt, Flt.ofNat_eq]
  · have hpos : 0 < q := lt_of_le_of_ne hq (Ne.symm h0)
    simp only [if_neg h0, if_pos hpos]
    generalize (if emin ≤ ilog2 q then ilog2 q else emin) = e
    have hQ := pow2_pos (e - (p : ℤ) + 1)
    have hn : (0 : ℤ) ≤ roundHalfEven (q / pow2 (e - (p : ℤ) + 1)) :=
      roundHalfEven_ge _ 0 (by rw [Int.cast_zero]; exact div_nonneg hq hQ.le)
    have hnq : (0 : ℚ) ≤ (roundHalfEven (q / pow2 (e - (p : ℤ) + 1)) : ℚ) := by
      exact_mod_cast hn
    by_cases hov : pow2 (emax + 1)
        ≤ (roundHalfEven (q / pow2 (e - (p : ℤ) + 1)) : ℚ) * pow2 (e - (p : ℤ) + 1)
    · rw [if_pos hov]; simp [Flt.lt, Flt.ofNat_eq]
    · rw [if_neg hov]; simp [Flt.lt, Flt.ofNat_eq, mul_nonneg hnq hQ.le]

theorem Flt.sqrtf_not_neg (v : Flt) : Flt.lt (Flt.sqrtf v) 0 = false := by
  cases v with
  | nan => rfl
  | ninf => rfl
  | pinf => rfl
  | fin q =>
      simp only [Flt.sqrtf]
      by_cases hq : q < 0
      · rw [if_pos hq]; rfl
      · rw [if_neg hq]
        unfold sqrtBinary
        by_cases h0 : q = 0
        · rw [if_pos h0]; simp [Flt.lt, Flt.ofNat_eq]
        · rw [if_neg h0]
          simp only []
          split
          · exact roundBinary_not_neg _ _ _ _ (by positivity)
          · exact roundBinary_not_neg _ _ _ _ (by positivity)

theorem ieee_chromacity_not_neg (pixel : Vec3b) (mean stddev : Scalar) (bdist : Flt) :
    Flt.lt (ieee.computeChromacityDistortion pixel mean stddev bdist) 0 = false := by
  unfold ieee.computeChromacityDistortion
  exact Flt.sqrtf_not_neg _

/-! ## Claims on the selected thresholds -/

/-- C26 (amended): for every detection rate `r` in (0,1) and every brightness
distribution without `NaN` (the float that the sort takes in behind the array
included), the selected thresholds satisfy `T_bl <= T_bu` when `r >= 1/2`, and
`T_bu <= T_bl` when `r <= 1/2`. -/
theorem C26_band_order_from_one_half (oob_c oob_b : Flt) (bn cn : Mat Flt) (r : ℚ)
    (hr0 : 0 < r) (hr1 : r < 1)
    (hnan : ∀ v ∈ bn.flatten, v ≠ Flt.nan) (hoob : oob_b ≠ Flt.nan) :
    ∃ t_cd t_bl t_bu,
      LCM.selectThresholds oob_c oob_b (Flt.fin r) bn cn = some (t_cd, t_bl, t_bu) ∧
      (1 / 2 ≤ r → Flt.le t_bl t_bu = true) ∧ (r ≤ 1 / 2 → Flt.le t_bu t_bl = true) := by
  obtain ⟨dummy, t_cd, hc⟩ := LCM.selectThresholdMatrix_some oob_c cn r hr0.le hr1.le
  obtain ⟨t_bl, t_bu, hb, hhigh, hlow⟩ :=
    selectThresholdMatrix_order oob_b bn r hr0.le hr1.le hnan hoob
  exact ⟨t_cd, t_bl, t_bu,
    selectThresholds_of_matrices oob_c oob_b _ bn cn dummy t_cd t_bl t_bu hc hb, hhigh, hlow⟩

theorem C26_band_order_from_one_half_witness :
    ∃ t_cd t_bl t_bu,
      LCM.selectThresholds (Flt.fin 0) (Flt.fin 0) (Flt.fin (9 / 10))
        [[Flt.fin 1, Flt.fin 2, Flt.fin 3]] [[Flt.fin 4, Flt.fin 5, Flt.fin 6]]
        = some (t_cd, t_bl, t_bu) ∧
      ((1 : ℚ) / 2 ≤ 9 / 10 → Flt.le t_bl t_bu = true) ∧
      ((9 : ℚ) / 10 ≤ 1 / 2 → Flt.le t_bu t_bl = true) :=
  C26_band_order_from_one_half (Flt.fin 0) (Flt.fin 0) [[Flt.fin 1, Flt.fin 2, Flt.fin 3]]
    [[Flt.fin 4, Flt.fin 5, Flt.fin 6]] (9 / 10) (by norm_num) (by norm_num)
    (by decide) (by decide)

/-- C26, as stated, fails: at the detection rate 0.1 on the brightness
distribution 1, 2, 3 the left rank is 2 and the right rank is 0, so that
`T_bl = 3` and `T_bu = 1`. -/
theorem C26_band_order_counterexample :
    (0 : ℚ) < 1 / 10 ∧ (1 : ℚ) / 10 < 1 ∧
    LCM.selectThresholds (Flt.fin 5) (Flt.fin 5) (Flt.fin (1 / 10))
      [[Flt.fin 1, Flt.fin 2, Flt.fin 3]] [[Flt.fin 1, Flt.fin 2, Flt.fin 3]]
      = some (Flt.fin 1, Flt.fin 3, Flt.fin 1) ∧
    Flt.le (Flt.fin 3) (Flt.fin 1) = false := by
  refine ⟨by norm_num, by norm_num, ?_, ?_⟩ <;> decide!

/-- The site statistics on a finite mean, when the three clamped deviations
are the positive values `t0`, `t1`, `t2`. -/
theorem siteStatistics_of_clamped (m0 m1 m2 t0 t1 t2 : ℚ) (raw : Scalar)
    (h0 : 0 < t0) (h1 : 0 < t1) (h2 : 0 < t2)
    (c0 : clampStdDev raw.v0 = Flt.fin t0) (c1 : clampStdDev raw.v1 = Flt.fin t1)
    (c2 : clampStdDev raw.v2 = Flt.fin t2) (d : ℚ)
    (hd : d = if (m0 / t0) ^ 2 + (m1 / t1) ^ 2 + (m2 / t2) ^ 2 = 0 then 1
      else (m0 / t0) ^ 2 + (m1 / t1) ^ 2 + (m2 / t2) ^ 2) :
    siteStatistics (⟨Flt.fin m0, Flt.fin m1, Flt.fin m2⟩, raw)
      = (⟨Flt.fin m0, Flt.fin m1, Flt.fin m2⟩, ⟨Flt.fin t0, Flt.fin t1, Flt.fin t2⟩,
         ⟨Flt.fin (m0 / (d * t0 * t0)), Flt.fin (m1 / (d * t1 * t1)),
          Flt.fin (m2 / (d * t2 * t2))⟩) := by
  have hnn : (0 : ℚ) ≤ (m0 / t0) ^ 2 + (m1 / t1) ^ 2 + (m2 / t2) ^ 2 := by positivity
  have hdpos : 0 < d := by
    rw [hd]
    split
    · norm_num
    · rename_i hne
      exact lt_of_le_of_ne hnn (Ne.symm hne)
  have hden : LCM.computeBrightnessDenominator ⟨Flt.fin m0, Flt.fin m1, Flt.fin m2⟩
      ⟨Flt.fin t0, Flt.fin t1, Flt.fin t2⟩ = Flt.fin d := by
    rw [hd]
    simp only [LCM.computeBrightnessDenominator, Flt.fin_div _ _ h0.ne', Flt.fin_div _ _ h1.ne',
      Flt.fin_div _ _ h2.ne', Flt.fin_mul, Flt.fin_add, Flt.ofNat_eq, Nat.cast_zero,
      Nat.cast_one, Flt.eq, Flt.fin.injEq, decide_eq_true_eq, ← pow_two]
    split <;> rfl
  have e0 : d * t0 * t0 ≠ 0 := by positivity
  have e1 : d * t1 * t1 ≠ 0 := by positivity
  have e2 : d * t2 * t2 ≠ 0 := by positivity
  simp only [siteStatistics, c0, c1, c2, hden, Flt.fin_mul, Flt.fin_div _ _ e0,
    Flt.fin_div _ _ e1, Flt.fin_div _ _ e2]

theorem clampStdDev_pos (s : ℚ) (hs : 0 < s) : clampStdDev (Flt.fin s) = Flt.fin s := by
  simp [clampStdDev, Flt.eq, Flt.ofNat_eq, hs.ne']

/-- The difference of two weighted residuals, for a scale `alpha` that solves
the normal equation of the fit. -/
theorem weightedResidual_sub {K : Type} [Field K] (p0 p1 p2 m0 m1 m2 s0 s1 s2 alpha a : K)
    (hN : alpha * ((m0 / s0) ^ 2 + (m1 / s1) ^ 2 + (m2 / s2) ^ 2)
      = p0 * m0 / (s0 * s0) + p1 * m1 / (s1 * s1) + p2 * m2 / (s2 * s2)) :
    weightedResidual p0 p1 p2 m0 m1 m2 s0 s1 s2 a
        - weightedResidual p0 p1 p2 m0 m1 m2 s0 s1 s2 alpha
      = ((m0 / s0) ^ 2 + (m1 / s1) ^ 2 + (m2 / s2) ^ 2) * (a - alpha) ^ 2 := by
  unfold weightedResidual
  linear_combination (2 * (a - alpha)) * hN

/-- The brightness distortion solves the normal equation of the fit, whether
the denominator is clamped or not. -/
theorem alpha_normal_equation (p0 p1 p2 m0 m1 m2 s0 s1 s2 d : ℚ)
    (h0 : 0 < s0) (h1 : 0 < s1) (h2 : 0 < s2)
    (hd : d = if (m0 / s0) ^ 2 + (m1 / s1) ^ 2 + (m2 / s2) ^ 2 = 0 then 1
      else (m0 / s0) ^ 2 + (m1 / s1) ^ 2 + (m2 / s2) ^ 2) :
    (p0 * (m0 / (d * s0 * s0)) + p1 * (m1 / (d * s1 * s1)) + p2 * (m2 / (d * s2 * s2)))
        * ((m0 / s0) ^ 2 + (m1 / s1) ^ 2 + (m2 / s2) ^ 2)
      = p0 * m0 / (s0 * s0) + p1 * m1 / (s1 * s1) + p2 * m2 / (s2 * s2) := by
  by_cases hD : (m0 / s0) ^ 2 + (m1 / s1) ^ 2 + (m2 / s2) ^ 2 = 0
  · have hz0 : (m0 / s0) ^ 2 = 0 := by nlinarith [sq_nonneg (m0 / s0), sq_nonneg (m1 / s1), sq_nonneg (m2 / s2)]
    have hz1 : (m1 / s1) ^ 2 = 0 := by nlinarith [sq_nonneg (m0 / s0), sq_nonneg (m1 / s1), sq_nonneg (m2 / s2)]
    have hz2 : (m2 / s2) ^ 2 = 0 := by nlinarith [sq_nonneg (m0 / s0), sq_nonneg (m1 / s1), sq_nonneg (m2 / s2)]
    have g0 : m0 = 0 := by
      have := pow_eq_zero_iff (two_ne_zero) |>.mp hz0
      rcases div_eq_zero_iff.mp this with h | h
      · exact h
      · exact absurd h h0.ne'
    have g1 : m1 = 0 := by
      have := pow_eq_zero_iff (two_ne_zero) |>.mp hz1
      rcases div_eq_zero_iff.mp this with h | h
      · exact h
      · exact absurd h h1.ne'
    have g2 : m2 = 0 := by
      have := pow_eq_zero_iff (two_ne_zero) |>.mp hz2
      rcases div_eq_zero_iff.mp this with h | h
      · exact h
      · exact absurd h h2.ne'
    subst g0 g1 g2
    simp
  · rw [if_neg hD] at hd
    subst hd
    generalize (m0 / s0) ^ 2 + (m1 / s1) ^ 2 + (m2 / s2) ^ 2 = D at hD
    have e0 : s0 ≠ 0 := h0.ne'
    have e1 : s1 ≠ 0 := h1.ne'
    have e2 : s2 ≠ 0 := h2.ne'
    field_simp
    ring

/-- The brightness distortion of a pixel against the statistics of a site with
a finite mean and positive deviations: a finite value that solves the normal
equation of the fit. -/
theorem alpha_of_statistics (pixel : Vec3b) (m0 m1 m2 s0 s1 s2 : ℚ)
    (h0 : 0 < s0) (h1 : 0 < s1) (h2 : 0 < s2) :
    (siteStatistics (⟨Flt.fin m0, Flt.fin m1, Flt.fin m2⟩,
        ⟨Flt.fin s0, Flt.fin s1, Flt.fin s2⟩)).1 = ⟨Flt.fin m0, Flt.fin m1, Flt.fin m2⟩ ∧
    (siteStatistics (⟨Flt.fin m0, Flt.fin m1, Flt.fin m2⟩,
        ⟨Flt.fin s0, Flt.fin s1, Flt.fin s2⟩)).2.1 = ⟨Flt.fin s0, Flt.fin s1, Flt.fin s2⟩ ∧
    ∃ alpha : ℚ,
      LCM.computeBrightnessDistortion pixel
        (siteStatistics (⟨Flt.fin m0, Flt.fin m1, Flt.fin m2⟩,
          ⟨Flt.fin s0, Flt.fin s1, Flt.fin s2⟩)).2.2 = Flt.fin alpha ∧
      alpha * ((m0 / s0) ^ 2 + (m1 / s1) ^ 2 + (m2 / s2) ^ 2)
        = ((pixel.c0 : Nat) : ℚ) * m0 / (s0 * s0) + ((pixel.c1 : Nat) : ℚ) * m1 / (s1 * s1)
          + ((pixel.c2 : Nat) : ℚ) * m2 / (s2 * s2) := by
  rw [siteStatistics_of_clamped m0 m1 m2 s0 s1 s2 _ h0 h1 h2 (clampStdDev_pos s0 h0)
    (clampStdDev_pos s1 h1) (clampStdDev_pos s2 h2) _ rfl]
  refine ⟨rfl, rfl, _, ?_, alpha_normal_equation ((pixel.c0 : Nat) : ℚ) ((pixel.c1 : Nat) : ℚ)
    ((pixel.c2 : Nat) : ℚ) m0 m1 m2 s0 s1 s2 _ h0 h1 h2 rfl⟩
  simp only [LCM.computeBrightnessDistortion, LCM.px0, LCM.px1, LCM.px2, Flt.natCast_eq,
    Flt.fin_mul, Flt.fin_add]

/-! ## The brightness distortion with the roundings of the source -/

theorem roundBinary_of_exponent (p : Nat) (emin emax : Int) (q : ℚ) (e : Int)
    (h1 : pow2 e ≤ q) (h2 : q < pow2 (e + 1)) (h3 : emin ≤ e) (h4 : e < emax) :
    roundBinary p emin emax q
      = Flt.fin ((roundHalfEven (q / pow2 (e - (p : ℤ) + 1)) : ℚ) * pow2 (e - (p : ℤ) + 1)) := by
  have hq : 0 < q := lt_of_lt_of_le (pow2_pos e) h1
  have hlog := ilog2_unique q e h1 h2
  have hQ := pow2_pos (e - (p : ℤ) + 1)
  have hsplit : pow2 (e + 1) = ((2 ^ p : ℤ) : ℚ) * pow2 (e - (p : ℤ) + 1) := by
    have h5 : e + 1 = (p : ℤ) + (e - (p : ℤ) + 1) := by ring
    rw [h5, pow2_add, pow2_natCast]
    push_cast
    ring_nf
  have hy : q / pow2 (e - (p : ℤ) + 1) ≤ ((2 ^ p : ℤ) : ℚ) := by
    rw [div_le_iff₀ hQ, ← hsplit]
    exact h2.le
  have hn := roundHalfEven_le _ _ hy
  have hnq : (roundHalfEven (q / pow2 (e - (p : ℤ) + 1)) : ℚ) ≤ ((2 ^ p : ℤ) : ℚ) := by
    exact_mod_cast hn
  have hr : (roundHalfEven (q / pow2 (e - (p : ℤ) + 1)) : ℚ) * pow2 (e - (p : ℤ) + 1)
      ≤ pow2 (e + 1) := by
    rw [hsplit]
    exact mul_le_mul_of_nonneg_right hnq hQ.le
  have hov : ¬ pow2 (emax + 1)
      ≤ (roundHalfEven (q / pow2 (e - (p : ℤ) + 1)) : ℚ) * pow2 (e - (p : ℤ) + 1) := by
    push_neg
    refine lt_of_le_of_lt hr ?_
    exact pow2_lt_pow2_iff.mpr (by omega)
  simp only [roundBinary, if_neg hq.ne', if_pos hq, hlog, if_pos h3]
  rw [if_neg hov]

/-- The relative error of a rounding in the normal range is at most `2^-p`. -/
theorem roundBinary_rel (p : Nat) (emin emax : Int) (q : ℚ)
    (hlo : pow2 emin ≤ q) (hhi : q < pow2 emax) :
    ∃ v, roundBinary p emin emax q = Flt.fin v ∧
      q * (1 - pow2 (-(p : ℤ))) ≤ v ∧ v ≤ q * (1 + pow2 (-(p : ℤ))) := by
  have hq : 0 < q := lt_of_lt_of_le (pow2_pos _) hlo
  obtain ⟨s1, s2⟩ := ilog2_spec q hq
  have e1 : emin ≤ ilog2 q := by
    have := pow2_lt_pow2_iff.mp (lt_of_le_of_lt hlo s2)
    omega
  have e2 : ilog2 q < emax := pow2_lt_pow2_iff.mp (lt_of_le_of_lt s1 hhi)
  refine ⟨_, roundBinary_of_exponent p emin emax q (ilog2 q) s1 s2 e1 e2, ?_, ?_⟩
  all_goals
    generalize ilog2 q = e at s1 s2
    have hQ := pow2_pos (e - (p : ℤ) + 1)
    obtain ⟨n1, n2⟩ := roundHalfEven_near (q / pow2 (e - (p : ℤ) + 1))
    have hhalf : 1 / 2 * pow2 (e - (p : ℤ) + 1) = pow2 e * pow2 (-(p : ℤ)) := by
      have h5 : e - (p : ℤ) + 1 = 1 + (e + -(p : ℤ)) := by ring
      have h6 : pow2 1 = 2 := by rw [pow2_eq_zpow]; norm_num
      rw [h5, pow2_add, pow2_add, h6]
      ring
    have hu := pow2_pos (-(p : ℤ))
    have hle : pow2 e * pow2 (-(p : ℤ)) ≤ q * pow2 (-(p : ℤ)) :=
      mul_le_mul_of_nonneg_right s1 hu.le
  · have h5 := mul_le_mul_of_nonneg_right n2 hQ.le
    rw [sub_mul, div_mul_cancel₀ _ hQ.ne', hhalf] at h5
    linarith
  · have h5 := mul_le_mul_of_nonneg_right n1 hQ.le
    rw [add_mul, div_mul_cancel₀ _ hQ.ne', hhalf] at h5
    linarith

theorem approx_round (p : Nat) (emin emax : Int) (u e lo hi x q : ℚ)
    (h : Approx e lo hi x q) (he0 : 0 ≤ e) (he : e ≤ 1 / 2)
    (hu : pow2 (-(p : ℤ)) ≤ u) (hu1 : u ≤ 1)
    (hlo : 2 * pow2 emin ≤ lo) (hhi : 2 * hi ≤ pow2 emax) :
    ∃ v, roundBinary p emin emax q = Flt.fin v ∧ Approx (e + 2 * u) lo hi x v := by
  rcases h with ⟨hx, hq⟩ | ⟨h1, h2, h3, h4⟩
  · subst hx hq
    exact ⟨0, by simp [roundBinary], Or.inl ⟨rfl, rfl⟩⟩
  · have hpe := pow2_pos emin
    have hx0 : 0 < x := by linarith
    have hq1 : x * (1 / 2) ≤ q := by nlinarith
    have hq2 : q ≤ x * (3 / 2) := by nlinarith
    obtain ⟨v, hv, b1, b2⟩ := roundBinary_rel p emin emax q (by nlinarith) (by nlinarith)
    have hup := pow2_pos (-(p : ℤ))
    have hq0 : 0 < q := by nlinarith
    refine ⟨v, hv, Or.inr ⟨h1, h2, ?_, ?_⟩⟩
    · have c1 : q * (1 - u) ≤ v := by nlinarith
      have c2 : x * (1 - e) * (1 - u) ≤ q * (1 - u) :=
        mul_le_mul_of_nonneg_right h3 (by linarith)
      nlinarith [mul_nonneg (mul_nonneg hx0.le he0) (by linarith : (0 : ℚ) ≤ u)]
    · have c1 : v ≤ q * (1 + u) := by nlinarith
      have c2 : q * (1 + u) ≤ x * (1 + e) * (1 + u) :=
        mul_le_mul_of_nonneg_right h4 (by linarith)
      have c3 : x * e * u ≤ x * u := by
        have : e * u ≤ 1 * u := mul_le_mul_of_nonneg_right (by linarith) (by linarith)
        nlinarith
      nlinarith

theorem approx_f32 (e lo hi x q : ℚ) (h : Approx e lo hi x q) (he0 : 0 ≤ e) (he : e ≤ 1 / 2)
    (hlo : 1 / 2 ^ 120 ≤ lo) (hhi : hi ≤ 2 ^ 120) :
    ∃ v, Flt.f32 (Flt.fin q) = Flt.fin v ∧ Approx (e + 1 / 2 ^ 23) lo hi x v := by
  have p1 : pow2 (-((24 : ℕ) : ℤ)) = 1 / 2 ^ 24 := by rw [pow2_eq_zpow]; norm_num
  have p2 : pow2 (-126) = 1 / 2 ^ 126 := by rw [pow2_eq_zpow]; norm_num
  have p3 : pow2 127 = 2 ^ 127 := by rw [pow2_eq_zpow]; norm_num
  obtain ⟨v, hv, hA⟩ := approx_round 24 (-126) 127 (1 / 2 ^ 24) e lo hi x q h he0 he
    (by rw [p1]) (by norm_num)
    (by rw [p2]; exact le_trans (by norm_num) hlo) (by rw [p3]; linarith)
  refine ⟨v, hv, ?_⟩
  have h5 : e + 2 * (1 / 2 ^ 24) = e + 1 / 2 ^ 23 := by norm_num
  rw [← h5]; exact hA

theorem approx_f64 (e lo hi x q : ℚ) (h : Approx e lo hi x q) (he0 : 0 ≤ e) (he : e ≤ 1 / 2)
    (hlo : 1 / 2 ^ 1000 ≤ lo) (hhi : hi ≤ 2 ^ 1000) :
    ∃ v, Flt.f64 (Flt.fin q) = Flt.fin v ∧ Approx (e + 1 / 2 ^ 52) lo hi x v := by
  have p1 : pow2 (-((53 : ℕ) : ℤ)) = 1 / 2 ^ 53 := by rw [pow2_eq_zpow]; norm_num
  have p2 : pow2 (-1022) = 1 / 2 ^ 1022 := by rw [pow2_eq_zpow]; norm_num
  have p3 : pow2 1023 = 2 ^ 1023 := by rw [pow2_eq_zpow]; norm_num
  obtain ⟨v, hv, hA⟩ := approx_round 53 (-1022) 1023 (1 / 2 ^ 53) e lo hi x q h he0 he
    (by rw [p1]) (by norm_num)
    (by rw [p2]; exact le_trans (by norm_num) hlo) (by rw [p3]; linarith)
  refine ⟨v, hv, ?_⟩
  have h5 : e + 2 * (1 / 2 ^ 53) = e + 1 / 2 ^ 52 := by norm_num
  rw [← h5]; exact hA

theorem approx_exact (lo hi x : ℚ) (h : x = 0 ∨ (lo ≤ x ∧ x ≤ hi)) : Approx 0 lo hi x x := by
  rcases h with h | ⟨h1, h2⟩
  · exact Or.inl ⟨h, h⟩
  · exact Or.inr ⟨h1, h2, by linarith, by linarith⟩

theorem approx_mono (e lo hi x v e2 lo2 hi2 : ℚ) (h : Approx e lo hi x v)
    (hlo0 : 0 ≤ lo) (he : e ≤ e2) (hlo : lo2 ≤ lo) (hhi : hi ≤ hi2) :
    Approx e2 lo2 hi2 x v := by
  rcases h with h | ⟨h1, h2, h3, h4⟩
  · exact Or.inl h
  · have hx : 0 ≤ x := le_trans hlo0 h1
    refine Or.inr ⟨by linarith, by linarith, ?_, ?_⟩
    · nlinarith
    · nlinarith

theorem approx_mul (a b l1 h1 l2 h2 x y v w : ℚ) (hx : Approx a l1 h1 x v)
    (hy : Approx b l2 h2 y w) (ha0 : 0 ≤ a) (ha : a ≤ 1) (hb0 : 0 ≤ b) (hb : b ≤ 1)
    (hl1 : 0 < l1) (hl2 : 0 < l2) :
    Approx (a + b + a * b) (l1 * l2) (h1 * h2) (x * y) (v * w) := by
  rcases hx with ⟨hx0, hv0⟩ | ⟨x1, x2, x3, x4⟩
  · subst hx0 hv0
    exact Or.inl ⟨by ring, by ring⟩
  · rcases hy with ⟨hy0, hw0⟩ | ⟨y1, y2, y3, y4⟩
    · subst hy0 hw0
      exact Or.inl ⟨by ring, by ring⟩
    · have hx0 : 0 < x := by linarith
      have hy0 : 0 < y := by linarith
      have hv0 : 0 ≤ v := le_trans (mul_nonneg hx0.le (by linarith)) x3
      have hw0 : 0 ≤ w := le_trans (mul_nonneg hy0.le (by linarith)) y3
      refine Or.inr ⟨mul_le_mul x1 y1 hl2.le hx0.le, mul_le_mul x2 y2 hy0.le (by linarith),
        ?_, ?_⟩
      · have c1 : x * (1 - a) * (y * (1 - b)) ≤ v * w :=
          mul_le_mul x3 y3 (mul_nonneg hy0.le (by linarith)) hv0
        have c2 : 0 ≤ x * y * (a * b) := by positivity
        nlinarith
      · have c1 : v * w ≤ x * (1 + a) * (y * (1 + b)) :=
          mul_le_mul x4 y4 hw0 (mul_nonneg hx0.le (by linarith))
        nlinarith

theorem approx_add (a l1 h1 l2 h2 x y v w : ℚ) (hx : Approx a l1 h1 x v)
    (hy : Approx a l2 h2 y w) (hl2 : 0 < l2) (hh1 : 0 ≤ h1) (hh2 : 0 ≤ h2) :
    Approx a (min l1 l2) (h1 + h2) (x + y) (v + w) := by
  rcases hx with ⟨hx0, hv0⟩ | ⟨x1, x2, x3, x4⟩
  · subst hx0 hv0
    rcases hy with ⟨hy0, hw0⟩ | ⟨y1, y2, y3, y4⟩
    · subst hy0 hw0
      exact Or.inl ⟨by ring, by ring⟩
    · refine Or.inr ⟨?_, ?_, ?_, ?_⟩
      · rw [zero_add]; exact le_trans (min_le_right _ _) y1
      · linarith
      · rw [zero_add, zero_add]; exact y3
      · rw [zero_add, zero_add]; exact y4
  · rcases hy with ⟨hy0, hw0⟩ | ⟨y1, y2, y3, y4⟩
    · subst hy0 hw0
      refine Or.inr ⟨?_, ?_, ?_, ?_⟩
      · rw [add_zero]; exact le_trans (min_le_left _ _) x1
      · linarith
      · rw [add_zero, add_zero]; exact x3
      · rw [add_zero, add_zero]; exact x4
    · refine Or.inr ⟨?_, ?_, ?_, ?_⟩
      · have := min_le_left l1 l2
        linarith
      · linarith
      · linarith
      · linarith

theorem approx_div (a b l1 h1 l2 h2 x y v w : ℚ) (hx : Approx a l1 h1 x v)
    (hy : l2 ≤ y ∧ y ≤ h2 ∧ y * (1 - b) ≤ w ∧ w ≤ y * (1 + b))
    (ha0 : 0 ≤ a) (ha : a ≤ 1) (hb0 : 0 ≤ b) (hb : b ≤ 1 / 2) (hl1 : 0 < l1) (hl2 : 0 < l2) :
    Approx (a + 2 * b + 2 * a * b) (l1 / h2) (h1 / l2) (x / y) (v / w) := by
  obtain ⟨y1, y2, y3, y4⟩ := hy
  have hy0 : 0 < y := by linarith
  have hw0 : 0 < w := by nlinarith
  rcases hx with ⟨hx0, hv0⟩ | ⟨x1, x2, x3, x4⟩
  · subst hx0 hv0
    exact Or.inl ⟨by simp, by simp⟩
  · have hx0 : 0 < x := by linarith
    have hv0 : 0 ≤ v := le_trans (mul_nonneg hx0.le (by linarith)) x3
    have ht : 0 < x / y := div_pos hx0 hy0
    have hxy : x / y * y = x := div_mul_cancel₀ x hy0.ne'
    refine Or.inr ⟨div_le_div₀ hx0.le x1 hy0 y2, div_le_div₀ (by linarith) x2 hl2 y1, ?_, ?_⟩
    · rw [le_div_iff₀ hw0]
      by_cases hneg : 1 - (a + 2 * b + 2 * a * b) ≤ 0
      · have : x / y * (1 - (a + 2 * b + 2 * a * b)) * w ≤ 0 :=
          mul_nonpos_of_nonpos_of_nonneg (mul_nonpos_of_nonneg_of_nonpos ht.le hneg) hw0.le
        linarith
      · push_neg at hneg
        have c1 : x / y * (1 - (a + 2 * b + 2 * a * b)) * w
            ≤ x / y * (1 - (a + 2 * b + 2 * a * b)) * (y * (1 + b)) :=
          mul_le_mul_of_nonneg_left y4 (mul_nonneg ht.le hneg.le)
        have c2 : x / y * (1 - (a + 2 * b + 2 * a * b)) * (y * (1 + b))
            = x * ((1 - (a + 2 * b + 2 * a * b)) * (1 + b)) := by
          rw [← hxy]; field_simp; ring
        have c3 : (1 - (a + 2 * b + 2 * a * b)) * (1 + b) ≤ 1 - a := by
          nlinarith [mul_nonneg ha0 hb0, mul_nonneg hb0 hb0, mul_nonneg (mul_nonneg ha0 hb0) hb0]
        have c4 : x * ((1 - (a + 2 * b + 2 * a * b)) * (1 + b)) ≤ x * (1 - a) :=
          mul_le_mul_of_nonneg_left c3 hx0.le
        linarith
    · rw [div_le_iff₀ hw0]
      have c1 : x / y * (1 + (a + 2 * b + 2 * a * b)) * (y * (1 - b))
          ≤ x / y * (1 + (a + 2 * b + 2 * a * b)) * w :=
        mul_le_mul_of_nonneg_left y3 (mul_nonneg ht.le (by nlinarith [mul_nonneg ha0 hb0]))
      have c2 : x / y * (1 + (a + 2 * b + 2 * a * b)) * (y * (1 - b))
          = x * ((1 + (a + 2 * b + 2 * a * b)) * (1 - b)) := by
        rw [← hxy]; field_simp; ring
      have c3 : 1 + a ≤ (1 + (a + 2 * b + 2 * a * b)) * (1 - b) := by
        have h5 : 0 ≤ b * (1 - 2 * b) := mul_nonneg hb0 (by linarith)
        have h6 : 0 ≤ a * (b * (1 - 2 * b)) := mul_nonneg ha0 h5
        nlinarith
      have c4 : x * (1 + a) ≤ x * ((1 + (a + 2 * b + 2 * a * b)) * (1 - b)) :=
        mul_le_mul_of_nonneg_left c3 hx0.le
      linarith

/-- The square of one quotient `mean / stddev` as `computeBrightnessDenominator`
evaluates it in `float`. -/
theorem ieee_square_near (m s : ℚ) (hm : m = 0 ∨ (1 / 2 ^ 16 ≤ m ∧ m ≤ 2 ^ 8))
    (hs1 : 1 / 2 ^ 16 ≤ s) (hs2 : s ≤ 2 ^ 8) :
    ∃ v, Flt.f32 (Flt.f32 (Flt.f64 (Flt.fin m / Flt.fin s))
        * Flt.f32 (Flt.f64 (Flt.fin m / Flt.fin s))) = Flt.fin v ∧
      Approx (1 / 2 ^ 20) (1 / 2 ^ 48) (2 ^ 48) ((m / s) ^ 2) v := by
  have hs0 : 0 < s := lt_of_lt_of_le (by norm_num) hs1
  have hq : Approx 0 (1 / 2 ^ 24) (2 ^ 24) (m / s) (m / s) := by
    refine approx_exact _ _ _ ?_
    rcases hm with h | ⟨h1, h2⟩
    · left; rw [h, zero_div]
    · right
      constructor
      · rw [le_div_iff₀ hs0]; nlinarith
      · rw [div_le_iff₀ hs0]; nlinarith
  obtain ⟨v1, hv1, A1⟩ := approx_f64 _ _ _ _ _ hq le_rfl (by norm_num) (by norm_num)
    (by norm_num)
  obtain ⟨v2, hv2, A2⟩ := approx_f32 _ _ _ _ _ A1 (by norm_num) (by norm_num) (by norm_num)
    (by norm_num)
  have A3 := approx_mul _ _ _ _ _ _ _ _ _ _ A2 A2 (by norm_num) (by norm_num) (by norm_num)
    (by norm_num) (by norm_num) (by norm_num)
  obtain ⟨v3, hv3, A4⟩ := approx_f32 _ _ _ _ _ A3 (by norm_num) (by norm_num) (by norm_num)
    (by norm_num)
  refine ⟨v3, by rw [Flt.fin_div _ _ hs0.ne', hv1, hv2, Flt.fin_mul, hv3], ?_⟩
  rw [pow_two]
  exact approx_mono _ _ _ _ _ _ _ _ A4 (by norm_num) (by norm_num) (by norm_num) (by norm_num)

/-- The `float` brightness denominator of a site approximates the exact one,
clamp included. -/
theorem ieee_denominator_near (m0 m1 m2 s0 s1 s2 : ℚ)
    (hm0 : m0 = 0 ∨ (1 / 2 ^ 16 ≤ m0 ∧ m0 ≤ 2 ^ 8))
    (hm1 : m1 = 0 ∨ (1 / 2 ^ 16 ≤ m1 ∧ m1 ≤ 2 ^ 8))
    (hm2 : m2 = 0 ∨ (1 / 2 ^ 16 ≤ m2 ∧ m2 ≤ 2 ^ 8))
    (hs0 : 1 / 2 ^ 16 ≤ s0 ∧ s0 ≤ 2 ^ 8) (hs1 : 1 / 2 ^ 16 ≤ s1 ∧ s1 ≤ 2 ^ 8)
    (hs2 : 1 / 2 ^ 16 ≤ s2 ∧ s2 ≤ 2 ^ 8) (d : ℚ)
    (hd : d = if (m0 / s0) ^ 2 + (m1 / s1) ^ 2 + (m2 / s2) ^ 2 = 0 then 1
      else (m0 / s0) ^ 2 + (m1 / s1) ^ 2 + (m2 / s2) ^ 2) :
    ∃ dh, ieee.computeBrightnessDenominator ⟨Flt.fin m0, Flt.fin m1, Flt.fin m2⟩
        ⟨Flt.fin s0, Flt.fin s1, Flt.fin s2⟩ = Flt.fin dh ∧
      1 / 2 ^ 48 ≤ d ∧ d ≤ 2 ^ 50 ∧ d * (1 - 1 / 2 ^ 19) ≤ dh ∧ dh ≤ d * (1 + 1 / 2 ^ 19) := by
  obtain ⟨q0, hq0, A0⟩ := ieee_square_near m0 s0 hm0 hs0.1 hs0.2
  obtain ⟨q1, hq1, A1⟩ := ieee_square_near m1 s1 hm1 hs1.1 hs1.2
  obtain ⟨q2, hq2, A2⟩ := ieee_square_near m2 s2 hm2 hs2.1 hs2.2
  have B0 := approx_add _ _ _ _ _ _ _ _ _ A0 A1 (by norm_num) (by norm_num) (by norm_num)
  obtain ⟨t1, ht1, B1⟩ := approx_f32 _ _ _ _ _ B0 (by norm_num) (by norm_num)
    (by rw [min_self]; norm_num) (by norm_num)
  have A2m := approx_mono _ _ _ _ _ (1 / 2 ^ 20 + 1 / 2 ^ 23) (1 / 2 ^ 48) (2 ^ 48) A2
    (by norm_num) (by norm_num) le_rfl le_rfl
  have B2 := approx_add _ _ _ _ _ _ _ _ _ B1 A2m (by norm_num) (by norm_num) (by norm_num)
  obtain ⟨t2, ht2, B3⟩ := approx_f32 _ _ _ _ _ B2 (by norm_num) (by norm_num)
    (by rw [min_self, min_self]; norm_num) (by norm_num)
  have hden : ieee.computeBrightnessDenominator ⟨Flt.fin m0, Flt.fin m1, Flt.fin m2⟩
      ⟨Flt.fin s0, Flt.fin s1, Flt.fin s2⟩ = if Flt.eq (Flt.fin t2) 0 then 1 else Flt.fin t2 := by
    simp only [ieee.computeBrightnessDenominator, hq0, hq1, hq2, Flt.fin_add, ht1, ht2]
  rw [hden]
  rcases B3 with ⟨hD, ht⟩ | ⟨b1, b2, b3, b4⟩
  · rw [if_pos hD] at hd
    subst hd ht
    refine ⟨1, by decide!, by norm_num, by norm_num, by norm_num, by norm_num⟩
  · rw [min_self, min_self] at b1
    have hDpos : 0 < (m0 / s0) ^ 2 + (m1 / s1) ^ 2 + (m2 / s2) ^ 2 :=
      lt_of_lt_of_le (by norm_num) b1
    rw [if_neg hDpos.ne'] at hd
    rw [← hd] at b1 b2 b3 b4
    have hdpos : 0 < d := by rw [hd]; exact hDpos
    have ht2pos : 0 < t2 := by nlinarith
    refine ⟨t2, ?_, b1, by linarith, by nlinarith, by nlinarith⟩
    simp [Flt.eq, Flt.ofNat_eq, ht2pos.ne']

/-- One brightness weight `mean / ( denom * stddev * stddev )` as
`computeModelMeanStdDev` evaluates it in `double`. -/
theorem ieee_weight_near (m s d dh : ℚ) (hm : m = 0 ∨ (1 / 2 ^ 16 ≤ m ∧ m ≤ 2 ^ 8))
    (hs : 1 / 2 ^ 16 ≤ s ∧ s ≤ 2 ^ 8)
    (hd : 1 / 2 ^ 48 ≤ d ∧ d ≤ 2 ^ 50 ∧ d * (1 - 1 / 2 ^ 19) ≤ dh ∧ dh ≤ d * (1 + 1 / 2 ^ 19)) :
    ∃ w, Flt.f64 (Flt.fin m / Flt.f64 (Flt.f64 (Flt.fin dh * Flt.fin s) * Flt.fin s))
        = Flt.fin w ∧
      Approx (1 / 2 ^ 16) (1 / 2 ^ 82) (2 ^ 88) (m / (d * s * s)) w := by
  have hs0 : 0 < s := lt_of_lt_of_le (by norm_num) hs.1
  have hd0 : 0 < d := lt_of_lt_of_le (by norm_num) hd.1
  have Ad : Approx (1 / 2 ^ 19) (1 / 2 ^ 48) (2 ^ 50) d dh := Or.inr hd
  have As : Approx 0 (1 / 2 ^ 16) (2 ^ 8) s s := approx_exact _ _ _ (Or.inr hs)
  have Am : Approx 0 (1 / 2 ^ 16) (2 ^ 8) m m := approx_exact _ _ _ hm
  have C1 := approx_mul _ _ _ _ _ _ _ _ _ _ Ad As (by norm_num) (by norm_num) (by norm_num)
    (by norm_num) (by norm_num) (by norm_num)
  obtain ⟨u1, hu1, C2⟩ := approx_f64 _ _ _ _ _ C1 (by norm_num) (by norm_num) (by norm_num)
    (by norm_num)
  have C3 := approx_mul _ _ _ _ _ _ _ _ _ _ C2 As (by norm_num) (by norm_num) (by norm_num)
    (by norm_num) (by norm_num) (by norm_num)
  obtain ⟨u2, hu2, C4⟩ := approx_f64 _ _ _ _ _ C3 (by norm_num) (by norm_num) (by norm_num)
    (by norm_num)
  have hdss : 0 < d * s * s := by positivity
  rcases C4 with ⟨h0, _⟩ | hpos
  · exact absurd h0 hdss.ne'
  · have hu2pos : 0 < u2 := by
      obtain ⟨_, _, h3, _⟩ := hpos
      refine lt_of_lt_of_le ?_ h3
      exact mul_pos hdss (by norm_num)
    have C5 := approx_div _ _ _ _ _ _ _ _ _ _ Am hpos (by norm_num) (by norm_num) (by norm_num)
      (by norm_num) (by norm_num) (by norm_num)
    obtain ⟨w, hw, C6⟩ := approx_f64 _ _ _ _ _ C5 (by norm_num) (by norm_num) (by norm_num)
      (by norm_num)
    refine ⟨w, by rw [Flt.fin_mul, hu1, Flt.fin_mul, hu2, Flt.fin_div _ _ hu2pos.ne', hw], ?_⟩
    exact approx_mono _ _ _ _ _ _ _ _ C6 (by norm_num) (by norm_num) (by norm_num) (by norm_num)

/-- The weighted sum of `computeBrightnessDistortion`, evaluated in `double`
and returned as a `float`. -/
theorem ieee_sum_near (p0 p1 p2 x0 x1 x2 w0 w1 w2 : ℚ)
    (hp0 : p0 = 0 ∨ (1 ≤ p0 ∧ p0 ≤ 255)) (hp1 : p1 = 0 ∨ (1 ≤ p1 ∧ p1 ≤ 255))
    (hp2 : p2 = 0 ∨ (1 ≤ p2 ∧ p2 ≤ 255))
    (W0 : Approx (1 / 2 ^ 16) (1 / 2 ^ 82) (2 ^ 88) x0 w0)
    (W1 : Approx (1 / 2 ^ 16) (1 / 2 ^ 82) (2 ^ 88) x1 w1)
    (W2 : Approx (1 / 2 ^ 16) (1 / 2 ^ 82) (2 ^ 88) x2 w2) :
    ∃ a, Flt.f32 (Flt.f64 (Flt.f64 (Flt.f64 (Flt.fin p0 * Flt.fin w0)
        + Flt.f64 (Flt.fin p1 * Flt.fin w1)) + Flt.f64 (Flt.fin p2 * Flt.fin w2))) = Flt.fin a ∧
      Approx (1 / 2 ^ 15) (1 / 2 ^ 82) (2 ^ 98) (p0 * x0 + p1 * x1 + p2 * x2) a := by
  have P0 : Approx 0 1 255 p0 p0 := approx_exact _ _ _ hp0
  have P1 : Approx 0 1 255 p1 p1 := approx_exact _ _ _ hp1
  have P2 : Approx 0 1 255 p2 p2 := approx_exact _ _ _ hp2
  have M0 := approx_mul _ _ _ _ _ _ _ _ _ _ P0 W0 (by norm_num) (by norm_num) (by norm_num)
    (by norm_num) (by norm_num) (by norm_num)
  have M1 := approx_mul _ _ _ _ _ _ _ _ _ _ P1 W1 (by norm_num) (by norm_num) (by norm_num)
    (by norm_num) (by norm_num) (by norm_num)
  have M2 := approx_mul _ _ _ _ _ _ _ _ _ _ P2 W2 (by norm_num) (by norm_num) (by norm_num)
    (by norm_num) (by norm_num) (by norm_num)
  obtain ⟨y0, hy0, N0⟩ := approx_f64 _ _ _ _ _ M0 (by norm_num) (by norm_num) (by norm_num)
    (by norm_num)
  obtain ⟨y1, hy1, N1⟩ := approx_f64 _ _ _ _ _ M1 (by norm_num) (by norm_num) (by norm_num)
    (by norm_num)
  obtain ⟨y2, hy2, N2⟩ := approx_f64 _ _ _ _ _ M2 (by norm_num) (by norm_num) (by norm_num)
    (by norm_num)
  have S0 := approx_add _ _ _ _ _ _ _ _ _ N0 N1 (by norm_num) (by norm_num) (by norm_num)
  obtain ⟨z1, hz1, S1⟩ := approx_f64 _ _ _ _ _ S0 (by norm_num) (by norm_num)
    (by rw [min_self]; norm_num) (by norm_num)
  have N2m := approx_mono _ _ _ _ _
    (0 + 1 / 2 ^ 16 + 0 * (1 / 2 ^ 16) + 1 / 2 ^ 52 + 1 / 2 ^ 52) _ _ N2
    (by norm_num) (by norm_num) le_rfl le_rfl
  have S2 := approx_add _ _ _ _ _ _ _ _ _ S1 N2m (by norm_num) (by norm_num) (by norm_num)
  obtain ⟨z2, hz2, S3⟩ := approx_f64 _ _ _ _ _ S2 (by norm_num) (by norm_num)
    (by rw [min_self, min_self]; norm_num) (by norm_num)
  obtain ⟨a, ha, S4⟩ := approx_f32 _ _ _ _ _ S3 (by norm_num) (by norm_num)
    (by rw [min_self, min_self]; norm_num) (by norm_num)
  refine ⟨a, by rw [Flt.fin_mul, Flt.fin_mul, Flt.fin_mul, hy0, hy1, hy2, Flt.fin_add, hz1,
    Flt.fin_add, hz2, ha], ?_⟩
  exact approx_mono _ _ _ _ _ _ _ _ S4 (by rw [min_self, min_self]; norm_num) (by norm_num)
    (by rw [min_self, min_self]; norm_num) (by norm_num)

theorem Vec3b.channel_range (c : Fin 256) :
    ((c : Nat) : ℚ) = 0 ∨ (1 ≤ ((c : Nat) : ℚ) ∧ ((c : Nat) : ℚ) ≤ 255) := by
  have h1 : (c : Nat) ≤ 255 := by omega
  rcases Nat.eq_zero_or_pos (c : Nat) with h | h
  · left; rw [h]; rfl
  · right
    exact ⟨by exact_mod_cast h, by exact_mod_cast h1⟩

/-- The brightness distortion that the code returns approximates the exact one
with a relative error of at most `2^-15`, for means that are zero or in
`[2^-16, 2^8]` and clamped deviations in `[2^-16, 2^8]`. -/
theorem ieee_alpha_near (pixel : Vec3b) (m0 m1 m2 s0 s1 s2 : ℚ) (raw : Scalar)
    (hm0 : m0 = 0 ∨ (1 / 2 ^ 16 ≤ m0 ∧ m0 ≤ 2 ^ 8))
    (hm1 : m1 = 0 ∨ (1 / 2 ^ 16 ≤ m1 ∧ m1 ≤ 2 ^ 8))
    (hm2 : m2 = 0 ∨ (1 / 2 ^ 16 ≤ m2 ∧ m2 ≤ 2 ^ 8))
    (hs0 : 1 / 2 ^ 16 ≤ s0 ∧ s0 ≤ 2 ^ 8) (hs1 : 1 / 2 ^ 16 ≤ s1 ∧ s1 ≤ 2 ^ 8)
    (hs2 : 1 / 2 ^ 16 ≤ s2 ∧ s2 ≤ 2 ^ 8)
    (c0 : clampStdDev raw.v0 = Flt.fin s0) (c1 : clampStdDev raw.v1 = Flt.fin s1)
    (c2 : clampStdDev raw.v2 = Flt.fin s2) (d : ℚ)
    (hd : d = if (m0 / s0) ^ 2 + (m1 / s1) ^ 2 + (m2 / s2) ^ 2 = 0 then 1
      else (m0 / s0) ^ 2 + (m1 / s1) ^ 2 + (m2 / s2) ^ 2) :
    ∃ a, ieee.computeBrightnessDistortion pixel
        (ieee.siteStatistics (⟨Flt.fin m0, Flt.fin m1, Flt.fin m2⟩, raw)).2.2 = Flt.fin a ∧
      LCM.computeBrightnessDistortion pixel
        (siteStatistics (⟨Flt.fin m0, Flt.fin m1, Flt.fin m2⟩, raw)).2.2
        = Flt.fin (((pixel.c0 : Nat) : ℚ) * (m0 / (d * s0 * s0))
          + ((pixel.c1 : Nat) : ℚ) * (m1 / (d * s1 * s1))
          + ((pixel.c2 : Nat) : ℚ) * (m2 / (d * s2 * s2))) ∧
      0 ≤ ((pixel.c0 : Nat) : ℚ) * (m0 / (d * s0 * s0))
          + ((pixel.c1 : Nat) : ℚ) * (m1 / (d * s1 * s1))
          + ((pixel.c2 : Nat) : ℚ) * (m2 / (d * s2 * s2)) ∧
      (((pixel.c0 : Nat) : ℚ) * (m0 / (d * s0 * s0))
          + ((pixel.c1 : Nat) : ℚ) * (m1 / (d * s1 * s1))
          + ((pixel.c2 : Nat) : ℚ) * (m2 / (d * s2 * s2))) * (1 - 1 / 2 ^ 15) ≤ a ∧
      a ≤ (((pixel.c0 : Nat) : ℚ) * (m0 / (d * s0 * s0))
          + ((pixel.c1 : Nat) : ℚ) * (m1 / (d * s1 * s1))
          + ((pixel.c2 : Nat) : ℚ) * (m2 / (d * s2 * s2))) * (1 + 1 / 2 ^ 15) := by
  have p0 : 0 < s0 := lt_of_lt_of_le (by norm_num) hs0.1
  have p1 : 0 < s1 := lt_of_lt_of_le (by norm_num) hs1.1
  have p2 : 0 < s2 := lt_of_lt_of_le (by norm_num) hs2.1
  obtain ⟨dh, hden, hdh⟩ := ieee_denominator_near m0 m1 m2 s0 s1 s2 hm0 hm1 hm2 hs0 hs1 hs2 d hd
  obtain ⟨w0, hw0, W0⟩ := ieee_weight_near m0 s0 d dh hm0 hs0 hdh
  obtain ⟨w1, hw1, W1⟩ := ieee_weight_near m1 s1 d dh hm1 hs1 hdh
  obtain ⟨w2, hw2, W2⟩ := ieee_weight_near m2 s2 d dh hm2 hs2 hdh
  obtain ⟨a, ha, A⟩ := ieee_sum_near _ _ _ _ _ _ _ _ _ (Vec3b.channel_range pixel.c0)
    (Vec3b.channel_range pixel.c1) (Vec3b.channel_range pixel.c2) W0 W1 W2
  refine ⟨a, ?_, ?_, ?_⟩
  · simp only [ieee.computeBrightnessDistortion, ieee.siteStatistics, c0, c1, c2, hden, hw0,
      hw1, hw2, LCM.px0, LCM.px1, LCM.px2, Flt.natCast_eq]
    exact ha
  · rw [siteStatistics_of_clamped m0 m1 m2 s0 s1 s2 raw p0 p1 p2 c0 c1 c2 d hd]
    simp only [LCM.computeBrightnessDistortion, LCM.px0, LCM.px1, LCM.px2, Flt.natCast_eq,
      Flt.fin_mul, Flt.fin_add]
  · rcases A with ⟨hx, hv⟩ | ⟨h1, _, h3, h4⟩
    · rw [hx, hv]; norm_num
    · exact ⟨le_trans (by norm_num) h1, h3, h4⟩

/-- The residual of the brightness distortion that the code returns exceeds
the least residual by at most `D * (alpha / 2^15)^2`, where `D` is the sum of
the squares of `mean / stddev` and `alpha` the exact minimiser. -/
theorem ieee_alpha_residual (pixel : Vec3b) (m0 m1 m2 s0 s1 s2 : ℚ)
    (hm0 : m0 = 0 ∨ (1 / 2 ^ 16 ≤ m0 ∧ m0 ≤ 2 ^ 8))
    (hm1 : m1 = 0 ∨ (1 / 2 ^ 16 ≤ m1 ∧ m1 ≤ 2 ^ 8))
    (hm2 : m2 = 0 ∨ (1 / 2 ^ 16 ≤ m2 ∧ m2 ≤ 2 ^ 8))
    (hs0 : 1 / 2 ^ 16 ≤ s0 ∧ s0 ≤ 2 ^ 8) (hs1 : 1 / 2 ^ 16 ≤ s1 ∧ s1 ≤ 2 ^ 8)
    (hs2 : 1 / 2 ^ 16 ≤ s2 ∧ s2 ≤ 2 ^ 8) (alpha : ℚ)
    (halpha : LCM.computeBrightnessDistortion pixel
        (siteStatistics (⟨Flt.fin m0, Flt.fin m1, Flt.fin m2⟩,
          ⟨Flt.fin s0, Flt.fin s1, Flt.fin s2⟩)).2.2 = Flt.fin alpha)
    (hN : alpha * ((m0 / s0) ^ 2 + (m1 / s1) ^ 2 + (m2 / s2) ^ 2)
        = ((pixel.c0 : Nat) : ℚ) * m0 / (s0 * s0) + ((pixel.c1 : Nat) : ℚ) * m1 / (s1 * s1)
          + ((pixel.c2 : Nat) : ℚ) * m2 / (s2 * s2)) :
    ∃ a' : ℚ,
      ieee.computeBrightnessDistortion pixel
        (ieee.siteStatistics (⟨Flt.fin m0, Flt.fin m1, Flt.fin m2⟩,
          ⟨Flt.fin s0, Flt.fin s1, Flt.fin s2⟩)).2.2 = Flt.fin a' ∧
      alpha * (1 - 1 / 2 ^ 15) ≤ a' ∧ a' ≤ alpha * (1 + 1 / 2 ^ 15) ∧
      ∀ a : ℝ,
        weightedResidual (((pixel.c0 : Nat) : ℚ) : ℝ) (((pixel.c1 : Nat) : ℚ) : ℝ)
            (((pixel.c2 : Nat) : ℚ) : ℝ) (m0 : ℝ) (m1 : ℝ) (m2 : ℝ) (s0 : ℝ) (s1 : ℝ) (s2 : ℝ)
            (a' : ℝ)
          ≤ weightedResidual (((pixel.c0 : Nat) : ℚ) : ℝ) (((pixel.c1 : Nat) : ℚ) : ℝ)
            (((pixel.c2 : Nat) : ℚ) : ℝ) (m0 : ℝ) (m1 : ℝ) (m2 : ℝ) (s0 : ℝ) (s1 : ℝ) (s2 : ℝ)
            a
            + (((m0 : ℝ) / (s0 : ℝ)) ^ 2 + ((m1 : ℝ) / (s1 : ℝ)) ^ 2
                + ((m2 : ℝ) / (s2 : ℝ)) ^ 2) * ((alpha : ℝ) / 2 ^ 15) ^ 2 := by
  have p0 : 0 < s0 := lt_of_lt_of_le (by norm_num) hs0.1
  have p1 : 0 < s1 := lt_of_lt_of_le (by norm_num) hs1.1
  have p2 : 0 < s2 := lt_of_lt_of_le (by norm_num) hs2.1
  obtain ⟨a', ha', hex, hnn, hlo, hhi⟩ := ieee_alpha_near pixel m0 m1 m2 s0 s1 s2
    ⟨Flt.fin s0, Flt.fin s1, Flt.fin s2⟩ hm0 hm1 hm2 hs0 hs1 hs2 (clampStdDev_pos s0 p0)
    (clampStdDev_pos s1 p1) (clampStdDev_pos s2 p2) _ rfl
  have heq := Flt.fin.inj (halpha.symm.trans hex)
  rw [← heq] at hnn hlo hhi
  refine ⟨a', ha', hlo, hhi, ?_⟩
  intro a
  have hNr := congrArg (fun q : ℚ => (q : ℝ)) hN
  simp only [Rat.cast_mul, Rat.cast_add, Rat.cast_pow, Rat.cast_div] at hNr
  have hsub := weightedResidual_sub (((pixel.c0 : Nat) : ℚ) : ℝ) (((pixel.c1 : Nat) : ℚ) : ℝ)
    (((pixel.c2 : Nat) : ℚ) : ℝ) (m0 : ℝ) (m1 : ℝ) (m2 : ℝ) (s0 : ℝ) (s1 : ℝ) (s2 : ℝ)
    (alpha : ℝ) a hNr
  have hsub2 := weightedResidual_sub (((pixel.c0 : Nat) : ℚ) : ℝ) (((pixel.c1 : Nat) : ℚ) : ℝ)
    (((pixel.c2 : Nat) : ℚ) : ℝ) (m0 : ℝ) (m1 : ℝ) (m2 : ℝ) (s0 : ℝ) (s1 : ℝ) (s2 : ℝ)
    (alpha : ℝ) (a' : ℝ) hNr
  have hD : (0 : ℝ) ≤ ((m0 : ℝ) / (s0 : ℝ)) ^ 2 + ((m1 : ℝ) / (s1 : ℝ)) ^ 2
      + ((m2 : ℝ) / (s2 : ℝ)) ^ 2 := by positivity
  have hnn1 : (0 : ℝ) ≤ (((m0 : ℝ) / (s0 : ℝ)) ^ 2 + ((m1 : ℝ) / (s1 : ℝ)) ^ 2
      + ((m2 : ℝ) / (s2 : ℝ)) ^ 2) * (a - (alpha : ℝ)) ^ 2 := by positivity
  have hloR : ((alpha * (1 - 1 / 2 ^ 15) : ℚ) : ℝ) ≤ (a' : ℝ) := Rat.cast_le.mpr hlo
  have hhiR : (a' : ℝ) ≤ ((alpha * (1 + 1 / 2 ^ 15) : ℚ) : ℝ) := Rat.cast_le.mpr hhi
  push_cast at hloR hhiR
  have hsq : ((a' : ℝ) - (alpha : ℝ)) ^ 2 ≤ ((alpha : ℝ) / 2 ^ 15) ^ 2 := by
    apply sq_le_sq'
    · linarith
    · linarith
  have hmul := mul_le_mul_of_nonneg_left hsq hD
  linarith


theorem Vec3b.channel_stat_range (c : Fin 256) :
    ((c : Nat) : ℚ) = 0 ∨ (1 / 2 ^ 16 ≤ ((c : Nat) : ℚ) ∧ ((c : Nat) : ℚ) ≤ 2 ^ 8) := by
  rcases Vec3b.channel_range c with h | ⟨h1, h2⟩
  · exact Or.inl h
  · exact Or.inr ⟨le_trans (by norm_num) h1, le_trans h2 (by norm_num)⟩

/-- C29 (amended): in exact arithmetic, for every site statistics with a finite
mean and positive deviations and every pixel `P`, the brightness distortion
`alpha` is a finite value that minimises the weighted residual: for every real
`a`, the sum over the channels of `((P_c - alpha * mean_c) / stddev_c)^2` is at
most the same sum at `a`; the chromaticity distortion is the square root of
that least sum.  With the roundings of the source, for means that are zero or
in `[2^-16, 2^8]` and deviations in `[2^-16, 2^8]`, the brightness distortion
`alpha'` that the code returns lies within `alpha * 2^-15` of `alpha`, and its
residual is at most the residual at any real `a` plus `D * (alpha / 2^15)^2`,
where `D` is the sum of the squares of `mean_c / stddev_c`. -/
theorem C29_alpha_minimises_residual (sq : Sqrtf) (pixel : Vec3b)
    (m0 m1 m2 s0 s1 s2 : ℚ) (h0 : 0 < s0) (h1 : 0 < s1) (h2 : 0 < s2) :
    ∃ alpha : ℚ,
      LCM.computeBrightnessDistortion pixel
        (siteStatistics (⟨Flt.fin m0, Flt.fin m1, Flt.fin m2⟩,
          ⟨Flt.fin s0, Flt.fin s1, Flt.fin s2⟩)).2.2 = Flt.fin alpha ∧
      (∀ a : ℝ,
        weightedResidual (((pixel.c0 : Nat) : ℚ) : ℝ) (((pixel.c1 : Nat) : ℚ) : ℝ)
            (((pixel.c2 : Nat) : ℚ) : ℝ) (m0 : ℝ) (m1 : ℝ) (m2 : ℝ) (s0 : ℝ) (s1 : ℝ) (s2 : ℝ)
            (alpha : ℝ)
          ≤ weightedResidual (((pixel.c0 : Nat) : ℚ) : ℝ) (((pixel.c1 : Nat) : ℚ) : ℝ)
            (((pixel.c2 : Nat) : ℚ) : ℝ) (m0 : ℝ) (m1 : ℝ) (m2 : ℝ) (s0 : ℝ) (s1 : ℝ) (s2 : ℝ)
            a) ∧
      LCM.computeChromacityDistortion sq pixel
        (siteStatistics (⟨Flt.fin m0, Flt.fin m1, Flt.fin m2⟩,
          ⟨Flt.fin s0, Flt.fin s1, Flt.fin s2⟩)).1
        (siteStatistics (⟨Flt.fin m0, Flt.fin m1, Flt.fin m2⟩,
          ⟨Flt.fin s0, Flt.fin s1, Flt.fin s2⟩)).2.1 (Flt.fin alpha)
        = Flt.sqrt sq (Flt.fin (weightedResidual ((pixel.c0 : Nat) : ℚ) ((pixel.c1 : Nat) : ℚ)
            ((pixel.c2 : Nat) : ℚ) m0 m1 m2 s0 s1 s2 alpha)) ∧
      ((m0 = 0 ∨ (1 / 2 ^ 16 ≤ m0 ∧ m0 ≤ 2 ^ 8)) → (m1 = 0 ∨ (1 / 2 ^ 16 ≤ m1 ∧ m1 ≤ 2 ^ 8)) →
        (m2 = 0 ∨ (1 / 2 ^ 16 ≤ m2 ∧ m2 ≤ 2 ^ 8)) →
        (1 / 2 ^ 16 ≤ s0 ∧ s0 ≤ 2 ^ 8) → (1 / 2 ^ 16 ≤ s1 ∧ s1 ≤ 2 ^ 8) →
        (1 / 2 ^ 16 ≤ s2 ∧ s2 ≤ 2 ^ 8) →
        ∃ a' : ℚ,
          ieee.computeBrightnessDistortion pixel
            (ieee.siteStatistics (⟨Flt.fin m0, Flt.fin m1, Flt.fin m2⟩,
              ⟨Flt.fin s0, Flt.fin s1, Flt.fin s2⟩)).2.2 = Flt.fin a' ∧
          alpha * (1 - 1 / 2 ^ 15) ≤ a' ∧ a' ≤ alpha * (1 + 1 / 2 ^ 15) ∧
          ∀ a : ℝ,
            weightedResidual (((pixel.c0 : Nat) : ℚ) : ℝ) (((pixel.c1 : Nat) : ℚ) : ℝ)
                (((pixel.c2 : Nat) : ℚ) : ℝ) (m0 : ℝ) (m1 : ℝ) (m2 : ℝ) (s0 : ℝ) (s1 : ℝ)
                (s2 : ℝ) (a' : ℝ)
              ≤ weightedResidual (((pixel.c0 : Nat) : ℚ) : ℝ) (((pixel.c1 : Nat) : ℚ) : ℝ)
                (((pixel.c2 : Nat) : ℚ) : ℝ) (m0 : ℝ) (m1 : ℝ) (m2 : ℝ) (s0 : ℝ) (s1 : ℝ)
                (s2 : ℝ) a
                + (((m0 : ℝ) / (s0 : ℝ)) ^ 2 + ((m1 : ℝ) / (s1 : ℝ)) ^ 2
                    + ((m2 : ℝ) / (s2 : ℝ)) ^ 2) * ((alpha : ℝ) / 2 ^ 15) ^ 2) := by
  obtain ⟨hmean, hstd, alpha, halpha, hN⟩ := alpha_of_statistics pixel m0 m1 m2 s0 s1 s2 h0 h1 h2
  rw [hmean, hstd]
  refine ⟨alpha, halpha, ?_, ?_, fun r0 r1 r2 t0 t1 t2 =>
    ieee_alpha_residual pixel m0 m1 m2 s0 s1 s2 r0 r1 r2 t0 t1 t2 alpha halpha hN⟩
  · intro a
    have hNr := congrArg (fun q : ℚ => (q : ℝ)) hN
    simp only [Rat.cast_mul, Rat.cast_add, Rat.cast_pow, Rat.cast_div] at hNr
    have hsub := weightedResidual_sub (((pixel.c0 : Nat) : ℚ) : ℝ) (((pixel.c1 : Nat) : ℚ) : ℝ)
      (((pixel.c2 : Nat) : ℚ) : ℝ) (m0 : ℝ) (m1 : ℝ) (m2 : ℝ) (s0 : ℝ) (s1 : ℝ) (s2 : ℝ)
      (alpha : ℝ) a hNr
    have hnn : (0 : ℝ) ≤ (((m0 : ℝ) / (s0 : ℝ)) ^ 2 + ((m1 : ℝ) / (s1 : ℝ)) ^ 2
        + ((m2 : ℝ) / (s2 : ℝ)) ^ 2) * (a - (alpha : ℝ)) ^ 2 := by positivity
    linarith
  · rw [LCM.computeChromacityDistortion_eq]
    simp only [LCM.px0, LCM.px1, LCM.px2, Flt.natCast_eq, Flt.fin_mul, Flt.fin_sub,
      Flt.fin_div _ _ h0.ne', Flt.fin_div _ _ h1.ne', Flt.fin_div _ _ h2.ne', Flt.fin_add]
    congr 2
    unfold weightedResidual
    ring

theorem C29_alpha_minimises_residual_witness :
    ∃ alpha : ℚ,
      LCM.computeBrightnessDistortion ⟨40, 40, 70⟩
        (siteStatistics (⟨Flt.fin 20, Flt.fin 20, Flt.fin 80⟩,
          ⟨Flt.fin 10, Flt.fin 10, Flt.fin 10⟩)).2.2 = Flt.fin alpha ∧
      (∀ a : ℝ,
        weightedResidual ((((⟨40, 40, 70⟩ : Vec3b).c0 : Nat) : ℚ) : ℝ)
            ((((⟨40, 40, 70⟩ : Vec3b).c1 : Nat) : ℚ) : ℝ)
            ((((⟨40, 40, 70⟩ : Vec3b).c2 : Nat) : ℚ) : ℝ) ((20 : ℚ) : ℝ) ((20 : ℚ) : ℝ)
            ((80 : ℚ) : ℝ) ((10 : ℚ) : ℝ) ((10 : ℚ) : ℝ) ((10 : ℚ) : ℝ) (alpha : ℝ)
          ≤ weightedResidual ((((⟨40, 40, 70⟩ : Vec3b).c0 : Nat) : ℚ) : ℝ)
            ((((⟨40, 40, 70⟩ : Vec3b).c1 : Nat) : ℚ) : ℝ)
            ((((⟨40, 40, 70⟩ : Vec3b).c2 : Nat) : ℚ) : ℝ) ((20 : ℚ) : ℝ) ((20 : ℚ) : ℝ)
            ((80 : ℚ) : ℝ) ((10 : ℚ) : ℝ) ((10 : ℚ) : ℝ) ((10 : ℚ) : ℝ) a) ∧
      LCM.computeChromacityDistortion sqrtQ ⟨40, 40, 70⟩
        (siteStatistics (⟨Flt.fin 20, Flt.fin 20, Flt.fin 80⟩,
          ⟨Flt.fin 10, Flt.fin 10, Flt.fin 10⟩)).1
        (siteStatistics (⟨Flt.fin 20, Flt.fin 20, Flt.fin 80⟩,
          ⟨Flt.fin 10, Flt.fin 10, Flt.fin 10⟩)).2.1 (Flt.fin alpha)
        = Flt.sqrt sqrtQ (Flt.fin (weightedResidual
            (((⟨40, 40, 70⟩ : Vec3b).c0 : Nat) : ℚ) (((⟨40, 40, 70⟩ : Vec3b).c1 : Nat) : ℚ)
            (((⟨40, 40, 70⟩ : Vec3b).c2 : Nat) : ℚ) 20 20 80 10 10 10 alpha)) ∧
      (∃ a' : ℚ,
          ieee.computeBrightnessDistortion (⟨40, 40, 70⟩ : Vec3b)
            (ieee.siteStatistics (⟨Flt.fin (20 : ℚ), Flt.fin (20 : ℚ), Flt.fin (80 : ℚ)⟩,
              ⟨Flt.fin (10 : ℚ), Flt.fin (10 : ℚ), Flt.fin (10 : ℚ)⟩)).2.2 = Flt.fin a' ∧
          alpha * (1 - 1 / 2 ^ 15) ≤ a' ∧ a' ≤ alpha * (1 + 1 / 2 ^ 15) ∧
          ∀ a : ℝ,
            weightedResidual ((((⟨40, 40, 70⟩ : Vec3b).c0 : Nat) : ℚ) : ℝ) ((((⟨40, 40, 70⟩ : Vec3b).c1 : Nat) : ℚ) : ℝ)
                ((((⟨40, 40, 70⟩ : Vec3b).c2 : Nat) : ℚ) : ℝ) ((20 : ℚ) : ℝ) ((20 : ℚ) : ℝ) ((80 : ℚ) : ℝ) ((10 : ℚ) : ℝ) ((10 : ℚ) : ℝ)
                ((10 : ℚ) : ℝ) (a' : ℝ)
              ≤ weightedResidual ((((⟨40, 40, 70⟩ : Vec3b).c0 : Nat) : ℚ) : ℝ) ((((⟨40, 40, 70⟩ : Vec3b).c1 : Nat) : ℚ) : ℝ)
                ((((⟨40, 40, 70⟩ : Vec3b).c2 : Nat) : ℚ) : ℝ) ((20 : ℚ) : ℝ) ((20 : ℚ) : ℝ) ((80 : ℚ) : ℝ) ((10 : ℚ) : ℝ) ((10 : ℚ) : ℝ)
                ((10 : ℚ) : ℝ) a
                + ((((20 : ℚ) : ℝ) / ((10 : ℚ) : ℝ)) ^ 2 + (((20 : ℚ) : ℝ) / ((10 : ℚ) : ℝ)) ^ 2
                    + (((80 : ℚ) : ℝ) / ((10 : ℚ) : ℝ)) ^ 2) * ((alpha : ℝ) / 2 ^ 15) ^ 2) :=
  Exists.imp
    (fun _ h => ⟨h.1, h.2.1, h.2.2.1,
      h.2.2.2 (Or.inr ⟨by norm_num, by norm_num⟩) (Or.inr ⟨by norm_num, by norm_num⟩)
        (Or.inr ⟨by norm_num, by norm_num⟩) ⟨by norm_num, by norm_num⟩
        ⟨by norm_num, by norm_num⟩ ⟨by norm_num, by norm_num⟩⟩)
    (C29_alpha_minimises_residual sqrtQ ⟨40, 40, 70⟩ 20 20 80 10 10 10
      (by norm_num) (by norm_num) (by norm_num))

/-- C29, as stated, fails on the values that the code returns: on the site
trained from the pixels (0,0,1) and (2,2,7), of mean (1,1,4) and standard
deviation (1,1,3), the `float` denominator is 3.7777779 and the brightness
distortion of the pixel (1,1,4) is returned as `1 - 2^-24`; the weighted
residual there is positive, above the residual 0 at `a = 1`. -/
theorem C29_alpha_minimises_residual_counterexample :
    meanStdDev sqrtQ (selectedPixels twoPixels [[1, 1]])
      = (⟨.fin 1, .fin 1, .fin 4⟩, ⟨.fin 1, .fin 1, .fin 3⟩) ∧
    ieee.computeBrightnessDenominator ⟨.fin 1, .fin 1, .fin 4⟩ ⟨.fin 1, .fin 1, .fin 3⟩
      = .fin (15845149 / 4194304) ∧
    ieee.computeBrightnessDistortion ⟨1, 1, 4⟩ twoPixelsStats.2.2
      = .fin (16777215 / 16777216) ∧
    ¬ (weightedResidual (1 : ℚ) 1 4 1 1 4 1 1 3 (16777215 / 16777216)
        ≤ weightedResidual (1 : ℚ) 1 4 1 1 4 1 1 3 1) := by
  refine ⟨?_, ?_, ?_, ?_⟩
  · decide!
  · decide!
  · decide!
  · unfold weightedResidual
    norm_num

/-! ## The brightness distortion of the mean colour -/

theorem Vec3b.eq_black_iff (pixel : Vec3b) :
    pixel = black ↔ ((pixel.c0 : Nat) : ℚ) = 0 ∧ ((pixel.c1 : Nat) : ℚ) = 0
      ∧ ((pixel.c2 : Nat) : ℚ) = 0 := by
  obtain ⟨c0, c1, c2⟩ := pixel
  simp only [black, Vec3b.mk.injEq, Nat.cast_eq_zero]
  constructor
  · rintro ⟨h0, h1, h2⟩
    subst h0 h1 h2
    exact ⟨rfl, rfl, rfl⟩
  · rintro ⟨h0, h1, h2⟩
    exact ⟨Fin.ext h0, Fin.ext h1, Fin.ext h2⟩

/-- C30 (amended): in exact arithmetic, for every trained site statistics and
every pixel whose colour equals the site's mean, the brightness distortion
computed from the site's brightness weights is exactly 1 when the colour is
not (0,0,0), and exactly 0 when it is (0,0,0).  With the roundings of the
source, when the clamped deviations of the site lie in `[2^-16, 2^8]`, the
brightness distortion that the code returns is 0 for the colour (0,0,0) and
lies within `2^-15` of 1 otherwise. -/
theorem C30_alpha_of_mean_colour (sq : Sqrtf) (pixels : List Vec3b) (pixel : Vec3b)
    (hmean : (meanStdDev sq pixels).1 = ⟨LCM.px0 pixel, LCM.px1 pixel, LCM.px2 pixel⟩) :
    LCM.computeBrightnessDistortion pixel (siteStatistics (meanStdDev sq pixels)).2.2
      = (if pixel = black then Flt.fin 0 else Flt.fin 1) ∧
    (∀ s0 s1 s2 : ℚ, (1 / 2 ^ 16 ≤ s0 ∧ s0 ≤ 2 ^ 8) → (1 / 2 ^ 16 ≤ s1 ∧ s1 ≤ 2 ^ 8) →
      (1 / 2 ^ 16 ≤ s2 ∧ s2 ≤ 2 ^ 8) →
      clampStdDev (meanStdDev sq pixels).2.v0 = Flt.fin s0 →
      clampStdDev (meanStdDev sq pixels).2.v1 = Flt.fin s1 →
      clampStdDev (meanStdDev sq pixels).2.v2 = Flt.fin s2 →
      ∃ a' : ℚ,
        ieee.computeBrightnessDistortion pixel
          (ieee.siteStatistics (meanStdDev sq pixels)).2.2 = Flt.fin a' ∧
        if pixel = black then a' = 0 else 1 - 1 / 2 ^ 15 ≤ a' ∧ a' ≤ 1 + 1 / 2 ^ 15) := by
  have hexact : LCM.computeBrightnessDistortion pixel
      (siteStatistics (meanStdDev sq pixels)).2.2
        = if pixel = black then Flt.fin 0 else Flt.fin 1 := by
    obtain ⟨s0, hs0, e0⟩ := channelMeanStdDev_snd sq (pixels.map (fun p => ((p.c0 : Nat) : ℚ)))
    obtain ⟨s1, hs1, e1⟩ := channelMeanStdDev_snd sq (pixels.map (fun p => ((p.c1 : Nat) : ℚ)))
    obtain ⟨s2, hs2, e2⟩ := channelMeanStdDev_snd sq (pixels.map (fun p => ((p.c2 : Nat) : ℚ)))
    obtain ⟨_, t0, ht0, c0⟩ := clampStdDev_fin s0 hs0
    obtain ⟨_, t1, ht1, c1⟩ := clampStdDev_fin s1 hs1
    obtain ⟨_, t2, ht2, c2⟩ := clampStdDev_fin s2 hs2
    have hms : meanStdDev sq pixels
        = (⟨Flt.fin ((pixel.c0 : Nat) : ℚ), Flt.fin ((pixel.c1 : Nat) : ℚ),
            Flt.fin ((pixel.c2 : Nat) : ℚ)⟩, ⟨Flt.fin s0, Flt.fin s1, Flt.fin s2⟩) := by
      refine Prod.ext hmean ?_
      simp only [meanStdDev, e0, e1, e2]
    rw [hms, siteStatistics_of_clamped _ _ _ t0 t1 t2 _ ht0 ht1 ht2 c0 c1 c2 _ rfl]
    simp only [LCM.computeBrightnessDistortion, LCM.px0, LCM.px1, LCM.px2, Flt.natCast_eq,
      Flt.fin_mul, Flt.fin_add]
    have hb := Vec3b.eq_black_iff pixel
    generalize ((pixel.c0 : Nat) : ℚ) = p0 at hb ⊢
    generalize ((pixel.c1 : Nat) : ℚ) = p1 at hb ⊢
    generalize ((pixel.c2 : Nat) : ℚ) = p2 at hb ⊢
    have e0 : t0 ≠ 0 := ht0.ne'
    have e1 : t1 ≠ 0 := ht1.ne'
    have e2 : t2 ≠ 0 := ht2.ne'
    by_cases hD : (p0 / t0) ^ 2 + (p1 / t1) ^ 2 + (p2 / t2) ^ 2 = 0
    · have g0 : p0 = 0 := by
        have hz : (p0 / t0) ^ 2 = 0 := by
          nlinarith [sq_nonneg (p0 / t0), sq_nonneg (p1 / t1), sq_nonneg (p2 / t2)]
        exact (div_eq_zero_iff.mp (pow_eq_zero_iff two_ne_zero |>.mp hz)).resolve_right e0
      have g1 : p1 = 0 := by
        have hz : (p1 / t1) ^ 2 = 0 := by
          nlinarith [sq_nonneg (p0 / t0), sq_nonneg (p1 / t1), sq_nonneg (p2 / t2)]
        exact (div_eq_zero_iff.mp (pow_eq_zero_iff two_ne_zero |>.mp hz)).resolve_right e1
      have g2 : p2 = 0 := by
        have hz : (p2 / t2) ^ 2 = 0 := by
          nlinarith [sq_nonneg (p0 / t0), sq_nonneg (p1 / t1), sq_nonneg (p2 / t2)]
        exact (div_eq_zero_iff.mp (pow_eq_zero_iff two_ne_zero |>.mp hz)).resolve_right e2
      rw [if_pos (hb.mpr ⟨g0, g1, g2⟩)]
      subst g0 g1 g2
      simp
    · have hne : ¬ pixel = black := by
        intro h
        obtain ⟨g0, g1, g2⟩ := hb.mp h
        apply hD
        rw [g0, g1, g2]
        simp
      rw [if_neg hne, if_neg hD]
      congr 1
      have hexp : ∀ D : ℚ, D ≠ 0 →
          p0 * (p0 / (D * t0 * t0)) + p1 * (p1 / (D * t1 * t1)) + p2 * (p2 / (D * t2 * t2))
            = ((p0 / t0) ^ 2 + (p1 / t1) ^ 2 + (p2 / t2) ^ 2) / D := by
        intro D hDne
        field_simp
        ring
      rw [hexp _ hD, div_self hD]
  refine ⟨hexact, ?_⟩
  intro s0 s1 s2 hs0 hs1 hs2 c0 c1 c2
  have hms : meanStdDev sq pixels
      = (⟨Flt.fin ((pixel.c0 : Nat) : ℚ), Flt.fin ((pixel.c1 : Nat) : ℚ),
          Flt.fin ((pixel.c2 : Nat) : ℚ)⟩, (meanStdDev sq pixels).2) := Prod.ext hmean rfl
  obtain ⟨a', ha', hex, _, hlo, hhi⟩ := ieee_alpha_near pixel ((pixel.c0 : Nat) : ℚ)
    ((pixel.c1 : Nat) : ℚ) ((pixel.c2 : Nat) : ℚ) s0 s1 s2 (meanStdDev sq pixels).2
    (Vec3b.channel_stat_range pixel.c0) (Vec3b.channel_stat_range pixel.c1)
    (Vec3b.channel_stat_range pixel.c2) hs0 hs1 hs2 c0 c1 c2 _ rfl
  rw [← hms] at ha' hex
  refine ⟨a', ha', ?_⟩
  rw [hex] at hexact
  by_cases hb : pixel = black
  · rw [if_pos hb] at hexact ⊢
    have h0 := Flt.fin.inj hexact
    rw [h0] at hlo hhi
    linarith
  · rw [if_neg hb] at hexact ⊢
    have h1 := Flt.fin.inj hexact
    rw [h1] at hlo hhi
    constructor <;> linarith

theorem C30_alpha_of_mean_colour_witness :
    LCM.computeBrightnessDistortion ⟨20, 20, 80⟩
        (siteStatistics (meanStdDev sqrtQ (selectedPixels demoImage demoMask))).2.2
      = (if (⟨20, 20, 80⟩ : Vec3b) = black then Flt.fin 0 else Flt.fin 1) ∧
    ∃ a' : ℚ,
      ieee.computeBrightnessDistortion ⟨20, 20, 80⟩
        (ieee.siteStatistics (meanStdDev sqrtQ (selectedPixels demoImage demoMask))).2.2
        = Flt.fin a' ∧
      if (⟨20, 20, 80⟩ : Vec3b) = black then a' = 0
      else 1 - 1 / 2 ^ 15 ≤ a' ∧ a' ≤ 1 + 1 / 2 ^ 15 :=
  ⟨(C30_alpha_of_mean_colour sqrtQ (selectedPixels demoImage demoMask) ⟨20, 20, 80⟩
      (by decide!)).1,
    (C30_alpha_of_mean_colour sqrtQ (selectedPixels demoImage demoMask) ⟨20, 20, 80⟩
      (by decide!)).2 10 10 10 ⟨by norm_num, by norm_num⟩ ⟨by norm_num, by norm_num⟩
      ⟨by norm_num, by norm_num⟩ (by decide!) (by decide!) (by decide!)⟩

/-- C30, as stated, fails on a site whose mean is (0,0,0): after training on a
black pixel the mean is black, the brightness denominator is clamped to 1, the
weights are 0 and the brightness distortion of a black pixel is 0, with and
without the roundings of the source.  It also fails on the values that the
code returns for a mean other than black: on the site trained from the pixels
(0,0,1) and (2,2,7), of mean (1,1,4), the brightness distortion of the pixel
(1,1,4) is returned as `1 - 2^-24`. -/
theorem C30_alpha_of_mean_colour_counterexample :
    (SingleLCM.computeModel sqrtQ 0 0 (Flt.fin (9 / 10)) [[black]] [[1]]).map
        (fun m => (m._mean, m._brightness,
          SingleLCM.computeBrightnessDistortion m._brightness black))
      = some (⟨LCM.px0 black, LCM.px1 black, LCM.px2 black⟩,
          ⟨Flt.fin 0, Flt.fin 0, Flt.fin 0⟩, Flt.fin 0) ∧
    (ieee.siteStatistics (meanStdDev sqrtQ (selectedPixels [[black]] [[1]]))).1
      = ⟨LCM.px0 black, LCM.px1 black, LCM.px2 black⟩ ∧
    ieee.computeBrightnessDistortion black
        (ieee.siteStatistics (meanStdDev sqrtQ (selectedPixels [[black]] [[1]]))).2.2
      = .fin 0 ∧
    Flt.fin 0 ≠ Flt.fin 1 ∧
    twoPixelsStats.1 = ⟨LCM.px0 ⟨1, 1, 4⟩, LCM.px1 ⟨1, 1, 4⟩, LCM.px2 ⟨1, 1, 4⟩⟩ ∧
    ieee.computeBrightnessDistortion ⟨1, 1, 4⟩ twoPixelsStats.2.2
      = .fin (16777215 / 16777216) ∧
    Flt.fin (16777215 / 16777216) ≠ Flt.fin 1 := by
  refine ⟨?_, ?_, ?_, ?_, ?_, ?_, ?_⟩ <;> decide!

/-! ## The chromaticity distortion on the line of the mean -/

theorem Flt.sqrt_not_neg (sq : Sqrtf) (v : Flt) : Flt.lt (Flt.sqrt sq v) 0 = false := by
  cases v with
  | nan => rfl
  | ninf => rfl
  | pinf => rfl
  | fin q =>
      simp only [Flt.sqrt]
      by_cases hq : q < 0
      · rw [if_pos hq]
        rfl
      · rw [if_neg hq]
        have hq0 : 0 ≤ q := not_lt.mp hq
        have hf : 0 ≤ sq.f q := by
          rcases hq0.lt_or_eq with h | h
          · exact (sq.pos q h).le
          · rw [← h, sq.zero]
        simp [Flt.lt, Flt.ofNat_eq, hf]

/-- C31 (amended): the chromaticity distortion is never negative, with any
square root that is not negative and also with every operation rounded as in
the source; in exact arithmetic, against the statistics of a site with a finite
mean, a pixel whose colour is `k` times the mean has the chromaticity
distortion 0 when it is computed with the pixel's own brightness distortion,
and when the mean is not the zero triple that brightness distortion is `k`.
With the roundings of the source, for means that are zero or in `[2^-16, 2^8]`
and deviations in `[2^-16, 2^8]`, the brightness distortion that the code
returns for such a pixel lies within `k * 2^-15` of `k`. -/
theorem C31_chromaticity_on_mean_line (sq : Sqrtf) :
    (∀ (pixel : Vec3b) (mean stddev : Scalar) (bdist : Flt),
      Flt.lt (LCM.computeChromacityDistortion sq pixel mean stddev bdist) 0 = false) ∧
    (∀ (pixel : Vec3b) (mean stddev : Scalar) (bdist : Flt),
      Flt.lt (ieee.computeChromacityDistortion pixel mean stddev bdist) 0 = false) ∧
    (∀ (m0 m1 m2 s0 s1 s2 k : ℚ) (pixel : Vec3b), 0 ≤ s0 → 0 ≤ s1 → 0 ≤ s2 →
      ((pixel.c0 : Nat) : ℚ) = k * m0 → ((pixel.c1 : Nat) : ℚ) = k * m1 →
      ((pixel.c2 : Nat) : ℚ) = k * m2 →
      sampleCD sq (siteStatistics (⟨Flt.fin m0, Flt.fin m1, Flt.fin m2⟩,
          ⟨Flt.fin s0, Flt.fin s1, Flt.fin s2⟩)) pixel = Flt.fin 0 ∧
      (¬ (m0 = 0 ∧ m1 = 0 ∧ m2 = 0) →
        sampleAlpha (siteStatistics (⟨Flt.fin m0, Flt.fin m1, Flt.fin m2⟩,
          ⟨Flt.fin s0, Flt.fin s1, Flt.fin s2⟩)) pixel = Flt.fin k)) ∧
    (∀ (m0 m1 m2 s0 s1 s2 k : ℚ) (pixel : Vec3b),
      (m0 = 0 ∨ (1 / 2 ^ 16 ≤ m0 ∧ m0 ≤ 2 ^ 8)) → (m1 = 0 ∨ (1 / 2 ^ 16 ≤ m1 ∧ m1 ≤ 2 ^ 8)) →
      (m2 = 0 ∨ (1 / 2 ^ 16 ≤ m2 ∧ m2 ≤ 2 ^ 8)) →
      (1 / 2 ^ 16 ≤ s0 ∧ s0 ≤ 2 ^ 8) → (1 / 2 ^ 16 ≤ s1 ∧ s1 ≤ 2 ^ 8) →
      (1 / 2 ^ 16 ≤ s2 ∧ s2 ≤ 2 ^ 8) →
      ((pixel.c0 : Nat) : ℚ) = k * m0 → ((pixel.c1 : Nat) : ℚ) = k * m1 →
      ((pixel.c2 : Nat) : ℚ) = k * m2 → ¬ (m0 = 0 ∧ m1 = 0 ∧ m2 = 0) →
      ∃ a' : ℚ,
        ieee.computeBrightnessDistortion pixel
          (ieee.siteStatistics (⟨Flt.fin m0, Flt.fin m1, Flt.fin m2⟩,
            ⟨Flt.fin s0, Flt.fin s1, Flt.fin s2⟩)).2.2 = Flt.fin a' ∧
        k * (1 - 1 / 2 ^ 15) ≤ a' ∧ a' ≤ k * (1 + 1 / 2 ^ 15)) := by
  have hexact : (∀ (m0 m1 m2 s0 s1 s2 k : ℚ) (pixel : Vec3b), 0 ≤ s0 → 0 ≤ s1 → 0 ≤ s2 →
        ((pixel.c0 : Nat) : ℚ) = k * m0 → ((pixel.c1 : Nat) : ℚ) = k * m1 →
        ((pixel.c2 : Nat) : ℚ) = k * m2 →
        sampleCD sq (siteStatistics (⟨Flt.fin m0, Flt.fin m1, Flt.fin m2⟩,
            ⟨Flt.fin s0, Flt.fin s1, Flt.fin s2⟩)) pixel = Flt.fin 0 ∧
        (¬ (m0 = 0 ∧ m1 = 0 ∧ m2 = 0) →
          sampleAlpha (siteStatistics (⟨Flt.fin m0, Flt.fin m1, Flt.fin m2⟩,
            ⟨Flt.fin s0, Flt.fin s1, Flt.fin s2⟩)) pixel = Flt.fin k)) := by
    intro m0 m1 m2 s0 s1 s2 k pixel hs0 hs1 hs2 hp0 hp1 hp2
    obtain ⟨_, t0, ht0, c0⟩ := clampStdDev_fin s0 hs0
    obtain ⟨_, t1, ht1, c1⟩ := clampStdDev_fin s1 hs1
    obtain ⟨_, t2, ht2, c2⟩ := clampStdDev_fin s2 hs2
    have e0 : t0 ≠ 0 := ht0.ne'
    have e1 : t1 ≠ 0 := ht1.ne'
    have e2 : t2 ≠ 0 := ht2.ne'
    obtain ⟨d, hd⟩ : ∃ d : ℚ, d = if (m0 / t0) ^ 2 + (m1 / t1) ^ 2 + (m2 / t2) ^ 2 = 0 then 1
        else (m0 / t0) ^ 2 + (m1 / t1) ^ 2 + (m2 / t2) ^ 2 := ⟨_, rfl⟩
    rw [siteStatistics_of_clamped m0 m1 m2 t0 t1 t2 _ ht0 ht1 ht2 c0 c1 c2 d hd]
    have halpha : ∃ a : ℚ, sampleAlpha (⟨Flt.fin m0, Flt.fin m1, Flt.fin m2⟩,
        ⟨Flt.fin t0, Flt.fin t1, Flt.fin t2⟩,
        ⟨Flt.fin (m0 / (d * t0 * t0)), Flt.fin (m1 / (d * t1 * t1)),
         Flt.fin (m2 / (d * t2 * t2))⟩) pixel
          = Flt.fin a ∧ a * m0 = k * m0 ∧ a * m1 = k * m1 ∧ a * m2 = k * m2 ∧
          (¬ (m0 = 0 ∧ m1 = 0 ∧ m2 = 0) → a = k) := by
      refine ⟨((pixel.c0 : Nat) : ℚ) * (m0 / (d * t0 * t0))
        + ((pixel.c1 : Nat) : ℚ) * (m1 / (d * t1 * t1))
        + ((pixel.c2 : Nat) : ℚ) * (m2 / (d * t2 * t2)), ?_, ?_⟩
      · simp only [sampleAlpha, LCM.computeBrightnessDistortion, LCM.px0, LCM.px1, LCM.px2,
          Flt.natCast_eq, Flt.fin_mul, Flt.fin_add]
      · rw [hp0, hp1, hp2]
        by_cases hD : (m0 / t0) ^ 2 + (m1 / t1) ^ 2 + (m2 / t2) ^ 2 = 0
        · have g0 : m0 = 0 := by
            have hz : (m0 / t0) ^ 2 = 0 := by
              nlinarith [sq_nonneg (m0 / t0), sq_nonneg (m1 / t1), sq_nonneg (m2 / t2)]
            exact (div_eq_zero_iff.mp (pow_eq_zero_iff two_ne_zero |>.mp hz)).resolve_right e0
          have g1 : m1 = 0 := by
            have hz : (m1 / t1) ^ 2 = 0 := by
              nlinarith [sq_nonneg (m0 / t0), sq_nonneg (m1 / t1), sq_nonneg (m2 / t2)]
            exact (div_eq_zero_iff.mp (pow_eq_zero_iff two_ne_zero |>.mp hz)).resolve_right e1
          have g2 : m2 = 0 := by
            have hz : (m2 / t2) ^ 2 = 0 := by
              nlinarith [sq_nonneg (m0 / t0), sq_nonneg (m1 / t1), sq_nonneg (m2 / t2)]
            exact (div_eq_zero_iff.mp (pow_eq_zero_iff two_ne_zero |>.mp hz)).resolve_right e2
          subst g0 g1 g2
          refine ⟨by ring, by ring, by ring, ?_⟩
          intro hne
          exact absurd ⟨rfl, rfl, rfl⟩ hne
        · rw [if_neg hD] at hd
          have hexp : ∀ D : ℚ, D ≠ 0 →
              k * m0 * (m0 / (D * t0 * t0)) + k * m1 * (m1 / (D * t1 * t1))
                + k * m2 * (m2 / (D * t2 * t2))
                = k * (((m0 / t0) ^ 2 + (m1 / t1) ^ 2 + (m2 / t2) ^ 2) / D) := by
            intro D hDne
            field_simp
            ring
          have hdne : d ≠ 0 := by rw [hd]; exact hD
          rw [hexp d hdne, ← hd, div_self hdne, mul_one]
          exact ⟨rfl, rfl, rfl, fun _ => rfl⟩
    obtain ⟨a, ha, ha0, ha1, ha2, hak⟩ := halpha
    refine ⟨?_, fun hne => by rw [ha, hak hne]⟩
    unfold sampleCD
    rw [ha, LCM.computeChromacityDistortion_eq]
    simp only [LCM.px0, LCM.px1, LCM.px2, Flt.natCast_eq, Flt.fin_mul, Flt.fin_sub,
      Flt.fin_div _ _ e0, Flt.fin_div _ _ e1, Flt.fin_div _ _ e2, Flt.fin_add,
      hp0, hp1, hp2, ha0, ha1, ha2, sub_self, zero_div, mul_zero, add_zero]
    exact Flt.sqrt_zero sq
  refine ⟨?_, ?_, hexact, ?_⟩
  · intro pixel mean stddev bdist
    rw [LCM.computeChromacityDistortion_eq]
    exact Flt.sqrt_not_neg sq _
  · intro pixel mean stddev bdist
    exact ieee_chromacity_not_neg pixel mean stddev bdist
  · intro m0 m1 m2 s0 s1 s2 k pixel hm0 hm1 hm2 hs0 hs1 hs2 hp0 hp1 hp2 hne
    have p0 : 0 < s0 := lt_of_lt_of_le (by norm_num) hs0.1
    have p1 : 0 < s1 := lt_of_lt_of_le (by norm_num) hs1.1
    have p2 : 0 < s2 := lt_of_lt_of_le (by norm_num) hs2.1
    obtain ⟨a', ha', hex, _, hlo, hhi⟩ := ieee_alpha_near pixel m0 m1 m2 s0 s1 s2
      ⟨Flt.fin s0, Flt.fin s1, Flt.fin s2⟩ hm0 hm1 hm2 hs0 hs1 hs2 (clampStdDev_pos s0 p0)
      (clampStdDev_pos s1 p1) (clampStdDev_pos s2 p2) _ rfl
    have hk := (hexact m0 m1 m2 s0 s1 s2 k pixel p0.le p1.le p2.le hp0 hp1 hp2).2 hne
    unfold sampleAlpha at hk
    rw [hex] at hk
    have h1 := Flt.fin.inj hk
    rw [h1] at hlo hhi
    exact ⟨a', ha', hlo, hhi⟩

theorem C31_chromaticity_on_mean_line_witness :
    (sampleCD sqrtQ (siteStatistics (⟨Flt.fin 20, Flt.fin 20, Flt.fin 80⟩,
        ⟨Flt.fin 10, Flt.fin 10, Flt.fin 10⟩)) ⟨40, 40, 160⟩ = Flt.fin 0 ∧
      (¬ ((20 : ℚ) = 0 ∧ (20 : ℚ) = 0 ∧ (80 : ℚ) = 0) →
        sampleAlpha (siteStatistics (⟨Flt.fin 20, Flt.fin 20, Flt.fin 80⟩,
          ⟨Flt.fin 10, Flt.fin 10, Flt.fin 10⟩)) ⟨40, 40, 160⟩ = Flt.fin 2)) ∧
    ∃ a' : ℚ,
      ieee.computeBrightnessDistortion ⟨40, 40, 160⟩
        (ieee.siteStatistics (⟨Flt.fin 20, Flt.fin 20, Flt.fin 80⟩,
          ⟨Flt.fin 10, Flt.fin 10, Flt.fin 10⟩)).2.2 = Flt.fin a' ∧
      2 * (1 - 1 / 2 ^ 15) ≤ a' ∧ a' ≤ 2 * (1 + 1 / 2 ^ 15) :=
  ⟨(C31_chromaticity_on_mean_line sqrtQ).2.2.1 20 20 80 10 10 10 2 ⟨40, 40, 160⟩
      (by norm_num) (by norm_num) (by norm_num) (by decide!) (by decide!) (by decide!),
    (C31_chromaticity_on_mean_line sqrtQ).2.2.2 20 20 80 10 10 10 2 ⟨40, 40, 160⟩
      (by norm_num) (by norm_num) (by norm_num) (by norm_num) (by norm_num) (by norm_num)
      (by decide!) (by decide!) (by decide!) (by norm_num)⟩

/-- C31, as stated, fails on the values that the code returns: on the site of
mean (1,1,4) and standard deviation (1,1,3) the chromaticity distortion of the
pixel (1,1,4), computed with its own brightness distortion `1 - 2^-24`, is
about `1.16e-7` and not 0, and the brightness distortion of the pixel (2,2,8),
twice the mean, is `2 - 2^-23` and not 2. -/
theorem C31_chromaticity_on_mean_line_counterexample :
    ieee.computeChromacityDistortion ⟨1, 1, 4⟩ twoPixelsStats.1 twoPixelsStats.2.1
        (ieee.computeBrightnessDistortion ⟨1, 1, 4⟩ twoPixelsStats.2.2)
      = .fin (4076131 / 35184372088832) ∧
    Flt.fin (4076131 / 35184372088832) ≠ Flt.fin 0 ∧
    ieee.computeBrightnessDistortion ⟨2, 2, 8⟩ twoPixelsStats.2.2
      = .fin (16777215 / 8388608) ∧
    Flt.fin (16777215 / 8388608) ≠ Flt.fin 2 := by
  refine ⟨?_, ?_, ?_, ?_⟩ <;> decide!

/-! ## Sums and mean squares of finite values -/

theorem foldl_add_fin (qs : List ℚ) (a : ℚ) :
    (qs.map Flt.fin).foldl (fun acc v => acc + v) (Flt.fin a) = Flt.fin (a + qs.sum) := by
  induction qs generalizing a with
  | nil => simp
  | cons q qs ih =>
      simp only [List.map_cons, List.foldl_cons, Flt.fin_add, ih, List.sum_cons, add_assoc]

theorem Flt.sum_fin (qs : List ℚ) : Flt.sum (qs.map Flt.fin) = Flt.fin qs.sum := by
  unfold Flt.sum
  rw [Flt.ofNat_eq, Nat.cast_zero, foldl_add_fin, zero_add]

theorem meanSquare_fin (qs : List ℚ) (hne : qs ≠ []) :
    meanSquare (qs.map Flt.fin)
      = Flt.fin ((qs.map (fun q => q * q)).sum / (qs.length : ℚ)) := by
  have hk : ((qs.length : Nat) : ℚ) ≠ 0 := by
    have : 0 < qs.length := List.length_pos.mpr hne
    exact_mod_cast this.ne'
  unfold meanSquare
  have hmap : (qs.map Flt.fin).map (fun v => v * v) = (qs.map (fun q => q * q)).map Flt.fin := by
    simp only [List.map_map]
    apply List.map_congr_left
    intro q _
    rfl
  rw [hmap, Flt.sum_fin, List.length_map, Flt.natCast_eq, Flt.fin_div _ _ hk]

/-- A list of finite floats is the image of a list of rationals. -/
theorem exists_rationals (vals : List Flt) (hfin : ∀ v ∈ vals, ∃ q : ℚ, v = Flt.fin q) :
    ∃ qs : List ℚ, vals = qs.map Flt.fin := by
  induction vals with
  | nil => exact ⟨[], rfl⟩
  | cons v vals ih =>
      obtain ⟨q, hq⟩ := hfin v (List.mem_cons_self v vals)
      obtain ⟨qs, hqs⟩ := ih (fun w hw => hfin w (List.mem_cons_of_mem v hw))
      exact ⟨q :: qs, by rw [hq, hqs]; rfl⟩

theorem sum_div_sq (qs : List ℚ) (w : ℚ) :
    (qs.map (fun q => q / w * (q / w))).sum = (qs.map (fun q => q * q)).sum / (w * w) := by
  induction qs with
  | nil => simp
  | cons q qs ih =>
      simp only [List.map_cons, List.sum_cons, ih]
      rw [add_div, div_mul_div_comm]

/-- Dividing finite values by a finite non-zero value divides their mean
square by the square of that value; the quotient is 1 exactly when the square
of that value is the mean square. -/
theorem meanSquare_scaled (vals : List Flt) (hfin : ∀ v ∈ vals, ∃ q : ℚ, v = Flt.fin q)
    (hne : vals ≠ []) (w : ℚ) (hw : w ≠ 0) :
    meanSquare (vals.map (fun v => v / Flt.fin w))
      = meanSquare vals / (Flt.fin w * Flt.fin w) ∧
    (meanSquare (vals.map (fun v => v / Flt.fin w)) = Flt.fin 1 ↔
      Flt.fin w * Flt.fin w = meanSquare vals) := by
  obtain ⟨qs, hqs⟩ := exists_rationals vals hfin
  subst hqs
  have hqne : qs ≠ [] := by
    intro h
    apply hne
    rw [h]
    rfl
  have hww : w * w ≠ 0 := mul_ne_zero hw hw
  have hmap : (qs.map Flt.fin).map (fun v => v / Flt.fin w)
      = (qs.map (fun q => q / w)).map Flt.fin := by
    simp only [List.map_map]
    apply List.map_congr_left
    intro q _
    exact Flt.fin_div q w hw
  have hne2 : qs.map (fun q => q / w) ≠ [] := by
    intro h
    exact hqne (List.map_eq_nil_iff.mp h)
  have hsum : (qs.map ((fun q => q * q) ∘ fun q => q / w)).sum
      = (qs.map (fun q => q * q)).sum / (w * w) := sum_div_sq qs w
  have hval : meanSquare ((qs.map Flt.fin).map (fun v => v / Flt.fin w))
      = Flt.fin ((qs.map (fun q => q * q)).sum / (qs.length : ℚ) / (w * w)) := by
    rw [hmap, meanSquare_fin _ hne2, List.map_map, List.length_map, hsum, div_right_comm]
  rw [hval, meanSquare_fin qs hqne, Flt.fin_mul, Flt.fin_div _ _ hww]
  refine ⟨rfl, ?_⟩
  rw [Flt.fin.injEq, Flt.fin.injEq, div_eq_one_iff_eq hww]
  exact eq_comm

/-- The mean square of finite values is a finite non-negative value. -/
theorem meanSquare_fin_nonneg (vals : List Flt) (hfin : ∀ v ∈ vals, ∃ q : ℚ, v = Flt.fin q)
    (hne : vals ≠ []) : ∃ x : ℚ, 0 ≤ x ∧ meanSquare vals = Flt.fin x := by
  obtain ⟨qs, hqs⟩ := exists_rationals vals hfin
  subst hqs
  have hqne : qs ≠ [] := by
    intro h
    apply hne
    rw [h]
    rfl
  refine ⟨_, ?_, meanSquare_fin qs hqne⟩
  apply div_nonneg
  · apply List.sum_nonneg
    intro x hx
    obtain ⟨q, _, hq⟩ := List.mem_map.mp hx
    rw [← hq]
    exact mul_self_nonneg q
  · positivity

/-! ## The loops of `computeVariations` as sums over the samples -/

theorem foldl_variationStep (sq : Sqrtf) (stats : Scalar × Scalar × Scalar)
    (ps : List Vec3b) (a b : Flt) (n : Nat) :
    ps.foldl (SingleLCM.variationStep sq stats.1 stats.2.1 stats.2.2) (a, b, n)
      = ((ps.map (fun p => (sampleAlpha stats p - 1) * (sampleAlpha stats p - 1))).foldl
            (fun acc v => acc + v) a,
         (ps.map (fun p => sampleCD sq stats p * sampleCD sq stats p)).foldl
            (fun acc v => acc + v) b,
         n + ps.length) := by
  induction ps generalizing a b n with
  | nil => rfl
  | cons p ps ih =>
      simp only [List.foldl_cons, List.map_cons, List.length_cons]
      have hstep : SingleLCM.variationStep sq stats.1 stats.2.1 stats.2.2 (a, b, n) p
          = (a + (sampleAlpha stats p - 1) * (sampleAlpha stats p - 1),
             b + sampleCD sq stats p * sampleCD sq stats p, n + 1) := rfl
      rw [hstep, ih]
      congr 2
      omega

theorem meanSquare_map {α : Type} (l : List α) (h : α → Flt) :
    meanSquare (l.map h) = Flt.sum (l.map (fun p => h p * h p)) / (l.length : Flt) := by
  unfold meanSquare
  rw [List.map_map, List.length_map]
  rfl

/-- The variations of `had::SingleLCM::computeVariations` on a mask that
selects at least one pixel are the root-mean-squares over the selected pixels. -/
theorem computeVariations_rms (sq : Sqrtf) (stats : Scalar × Scalar × Scalar)
    (image : Mat Vec3b) (mask : Mat Nat) (hshape : image.shape = mask.shape)
    (hk : 1 ≤ (selectedPixels image mask).length) :
    SingleLCM.computeVariations sq stats.1 stats.2.1 stats.2.2 image mask
      = some (rmsVariations sq stats (selectedPixels image mask)) := by
  unfold SingleLCM.computeVariations SingleLCM.accumulateVariations
  rw [if_pos hshape]
  simp only
  rw [Flt.ofNat_eq, Nat.cast_zero, foldl_variationStep]
  simp only [Nat.zero_add]
  rw [if_pos (by omega)]
  unfold rmsVariations
  rw [meanSquare_map, meanSquare_map]
  rfl

/-- The sums of `had::MultipleLCM::computeVariations` at a site, over the
pixels of the training images at that site. -/
theorem siteSums_eq (sq : Sqrtf) (_mean _stddev _brightness : Mat Scalar) (y x : Nat)
    (stats : Scalar × Scalar × Scalar)
    (h1 : _mean.at? y x = .ok stats.1) (h2 : _stddev.at? y x = .ok stats.2.1)
    (h3 : _brightness.at? y x = .ok stats.2.2) (images : List (Mat Vec3b)) :
    ∀ (ps : List Vec3b) (acc : Flt × Flt), pixelsAt images y x = .ok ps →
      MultipleLCM.siteSums sq _mean _stddev _brightness y x images acc
        = .ok ((ps.map (fun p => (sampleAlpha stats p - 1) * (sampleAlpha stats p - 1))).foldl
                (fun acc v => acc + v) acc.1,
               (ps.map (fun p => sampleCD sq stats p * sampleCD sq stats p)).foldl
                (fun acc v => acc + v) acc.2) := by
  induction images with
  | nil =>
      intro ps acc hps
      simp only [pixelsAt, Except.ok.injEq] at hps
      subst hps
      rfl
  | cons image images ih =>
      intro ps acc hps
      simp only [pixelsAt] at hps
      split at hps
      · cases hps
      · rename_i p hp
        split at hps
        · cases hps
        · rename_i ps2 hps2
          simp only [Except.ok.injEq] at hps
          subst hps
          simp only [MultipleLCM.siteSums, MultipleLCM.computeBrightnessDistortion,
            MultipleLCM.computeChromacityDistortion, hp, h1, h2, h3]
          rw [ih ps2 _ hps2]
          rfl

theorem twoFrames_trained :
    MultipleLCM.construct sqrtQ 0 0 (.fin (9 / 10)) twoFrames = .ok twoFramesModel :=
  Except.eq_ok_of_toOption _ _ (by decide!)

/-- What a trained `MultipleLCM` holds at a site where it stores a pair of
variations: the pixels of the training images at the site, the statistics of
these pixels, and as variations the root-mean-squares over these pixels. -/
theorem MultipleLCM.site_of_trained (sq : Sqrtf) (oob_c oob_b rate : Flt)
    (images : List (Mat Vec3b)) (m : MultipleLCM)
    (hm : MultipleLCM.construct sq oob_c oob_b rate images = .ok m) (y x : Nat)
    (bvar cvar : Flt) (hb : Mat.get? m._bdist_variation y x = some bvar)
    (hc : Mat.get? m._cdist_variation y x = some cvar) :
    ∃ (samples : List Vec3b),
      pixelsAt images y x = .ok samples ∧ samples.length = images.length ∧
      Mat.get? m._mean y x = some (siteStatistics (meanStdDev sq samples)).1 ∧
      Mat.get? m._stddev y x = some (siteStatistics (meanStdDev sq samples)).2.1 ∧
      Mat.get? m._brightness y x = some (siteStatistics (meanStdDev sq samples)).2.2 ∧
      (bvar, cvar) = rmsVariations sq (siteStatistics (meanStdDev sq samples)) samples := by
  obtain ⟨first, rest, stats, vars, himg, hstats, hmean, hsd, hbr, hvars, hbv, hcv⟩ :=
    MultipleLCM.construct_fields sq oob_c oob_b rate images m hm
  rw [hbv, Mat.get?_map] at hb
  rw [hcv, Mat.get?_map] at hc
  cases hg : Mat.get? vars y x with
  | none => simp [hg] at hb
  | some v =>
      simp only [hg, Option.map_some', Option.some.injEq] at hb hc
      have hvars2 := hvars
      rw [himg] at hvars2
      simp only [MultipleLCM.computeVariations] at hvars2
      obtain ⟨hyx, hf⟩ := mapSitesM_get first _ vars hvars2 y x v hg
      have hstats2 := hstats
      rw [himg] at hstats2
      simp only [MultipleLCM.computeModelMeanStdDev] at hstats2
      obtain ⟨st, hst, _⟩ := mapSitesM_all first _ stats hstats2 y x hyx
      obtain ⟨samples, hps, hsite⟩ := MultipleLCM.stats_site sq images stats hstats y x st hst
      have hlen := pixelsAt_length images y x samples hps
      have g1 : Mat.get? m._mean y x = some st.1 := by
        rw [hmean, Mat.get?_map, hst]
        rfl
      have g2 : Mat.get? m._stddev y x = some st.2.1 := by
        rw [hsd, Mat.get?_map, hst]
        rfl
      have g3 : Mat.get? m._brightness y x = some st.2.2 := by
        rw [hbr, Mat.get?_map, hst]
        rfl
      have hsums := siteSums_eq sq m._mean m._stddev m._brightness y x st
        ((Mat.at?_eq_ok _ y x _).mpr g1) ((Mat.at?_eq_ok _ y x _).mpr g2)
        ((Mat.at?_eq_ok _ y x _).mpr g3) images samples (0, 0) hps
      rw [himg] at hsums
      rw [hsums] at hf
      simp only [Except.ok.injEq] at hf
      subst hsite
      refine ⟨samples, hps, hlen, g1, g2, g3, ?_⟩
      rw [← hb, ← hc, ← hf]
      unfold rmsVariations
      rw [meanSquare_map, meanSquare_map, hlen, himg]
      rfl

/-- C32: the distortion variations are root-mean-squares over the training
samples.  In spatial mode with at least one mask-selected pixel the two stored
variations are `sqrt( sum / k )` of `(alpha - 1)^2` and of `CD^2` over the `k`
selected pixels; in temporal mode the variation matrices have the size of the
first frame and at every site the two stored variations are the same
expressions over the pixels of the `N` frames at that site, with divisor `N`. -/
theorem C32_variations_are_rms (sq : Sqrtf) :
    (∀ (oob_c oob_b rate : Flt) (image : Mat Vec3b) (mask : Mat Nat) (m : SingleLCM),
      SingleLCM.computeModel sq oob_c oob_b rate image mask = some m →
      1 ≤ (selectedPixels image mask).length →
      (m._bdist_variation, m._cdist_variation)
        = rmsVariations sq (m._mean, m._stddev, m._brightness) (selectedPixels image mask)) ∧
    (∀ (oob_c oob_b rate : Flt) (first : Mat Vec3b) (rest : List (Mat Vec3b)) (m : MultipleLCM),
      MultipleLCM.construct sq oob_c oob_b rate (first :: rest) = .ok m →
      Mat.shape m._bdist_variation = Mat.shape first ∧
      Mat.shape m._cdist_variation = Mat.shape first ∧
      ∀ (y x : Nat) (bvar cvar : Flt), Mat.get? m._bdist_variation y x = some bvar →
        Mat.get? m._cdist_variation y x = some cvar →
        ∃ (samples : List Vec3b) (mean stddev brightness : Scalar),
          pixelsAt (first :: rest) y x = .ok samples ∧
          samples.length = (first :: rest).length ∧
          Mat.get? m._mean y x = some mean ∧ Mat.get? m._stddev y x = some stddev ∧
          Mat.get? m._brightness y x = some brightness ∧
          (bvar, cvar) = rmsVariations sq (mean, stddev, brightness) samples) := by
  constructor
  · intro oob_c oob_b rate image mask m hm hk
    obtain ⟨h1, h2, h3, hv⟩ := SingleLCM.computeModel_fields sq oob_c oob_b rate image mask m hm
    have hshape : image.shape = mask.shape := by
      by_contra hne
      unfold SingleLCM.computeVariations at hv
      rw [if_neg hne] at hv
      cases hv
    have hrms := computeVariations_rms sq (SingleLCM.computeModelMeanStdDev sq image mask)
      image mask hshape hk
    rw [hv, Option.some.injEq] at hrms
    rw [hrms, h1, h2, h3]
  · intro oob_c oob_b rate first rest m hm
    obtain ⟨_, _, _, hs1, hs2⟩ := MultipleLCM.construct_shapes sq oob_c oob_b rate first rest m hm
    refine ⟨hs1, hs2, ?_⟩
    intro y x bvar cvar hb hc
    obtain ⟨samples, hps, hlen, g1, g2, g3, hrms⟩ :=
      MultipleLCM.site_of_trained sq oob_c oob_b rate _ m hm y x bvar cvar hb hc
    exact ⟨samples, _, _, _, hps, hlen, g1, g2, g3, hrms⟩

theorem C32_variations_are_rms_witness :
    (demoModel._bdist_variation, demoModel._cdist_variation)
        = rmsVariations sqrtQ (demoModel._mean, demoModel._stddev, demoModel._brightness)
            (selectedPixels demoImage demoMask) ∧
    ∃ (samples : List Vec3b) (mean stddev brightness : Scalar),
      pixelsAt ([[⟨30, 30, 90⟩]] :: [[[⟨10, 10, 70⟩]]]) 0 0 = .ok samples ∧
      samples.length = (([[⟨30, 30, 90⟩]] : Mat Vec3b) :: [[[⟨10, 10, 70⟩]]]).length ∧
      Mat.get? twoFramesModel._mean 0 0 = some mean ∧
      Mat.get? twoFramesModel._stddev 0 0 = some stddev ∧
      Mat.get? twoFramesModel._brightness 0 0 = some brightness ∧
      (Flt.fin (1 / 6), Flt.fin 1) = rmsVariations sqrtQ (mean, stddev, brightness) samples :=
  ⟨(C32_variations_are_rms sqrtQ).1 0 0 (.fin (9 / 10)) demoImage demoMask demoModel
      demoModel_trained (by decide),
   ((C32_variations_are_rms sqrtQ).2 0 0 (.fin (9 / 10)) [[⟨30, 30, 90⟩]] [[[⟨10, 10, 70⟩]]]
      twoFramesModel twoFrames_trained).2.2 0 0 (Flt.fin (1 / 6)) (Flt.fin 1) rfl rfl⟩

/-! ## Coverage of the chromaticity threshold -/

theorem countAbove_append (t : Flt) (a b : List Flt) :
    countAbove t (a ++ b) = countAbove t a + countAbove t b := by
  simp [countAbove, List.filter_append]

theorem countAbove_le_length (t : Flt) (l : List Flt) : countAbove t l ≤ l.length :=
  List.length_filter_le _ l

theorem countAbove_stdSort (t : Flt) (l : List Flt) :
    countAbove t (LCM.stdSort l) = countAbove t l :=
  ((List.perm_insertionSort _ l).filter _).length_eq

/-- In an ascending range, the values strictly above the element of rank `j`
all sit at the ranks after `j`. -/
theorem countAbove_ascending (s : List Flt)
    (hs : List.Pairwise (fun a b => Flt.lt b a = false) s) (j : Nat) (t : Flt)
    (ht : s[j]? = some t) : countAbove t s + (j + 1) ≤ s.length := by
  obtain ⟨hj, _⟩ := List.getElem?_eq_some.mp ht
  have hzero : countAbove t (s.take (j + 1)) = 0 := by
    unfold countAbove
    rw [List.length_eq_zero, List.filter_eq_nil_iff]
    intro v hv
    obtain ⟨i, hi, hvi⟩ := List.mem_iff_getElem.mp hv
    have hi2 : i < j + 1 := by
      have := hi
      rw [List.length_take] at this
      omega
    have hi3 : i < s.length := by omega
    have hsi : s[i]? = some v := by
      rw [List.getElem?_eq_getElem hi3, ← hvi, List.getElem_take]
    have := ascending_rank s hs i j (by omega) v t hsi ht
    simp only [Flt.gt, this, Bool.false_eq_true, not_false_eq_true]
  have hsplit : countAbove t s = countAbove t (s.take (j + 1)) + countAbove t (s.drop (j + 1)) := by
    rw [← countAbove_append, List.take_append_drop]
  have hdrop : countAbove t (s.drop (j + 1)) ≤ s.length - (j + 1) := by
    have := countAbove_le_length t (s.drop (j + 1))
    rw [List.length_drop] at this
    exact this
  omega

/-- When the float behind the array is not below any value of the array and
the distribution has no `NaN`, fewer than `(1 - r) * M` values of the
distribution are strictly above the right value of `selectThresholdMatrix`. -/
theorem coverage_of_clean_sort (oob : Flt) (mat : Mat Flt) (r : ℚ)
    (hr0 : 0 < r) (hr1 : r < 1) (hM : 1 ≤ mat.flatten.length)
    (hnan : ∀ v ∈ mat.flatten, v ≠ Flt.nan)
    (hoob : ∀ v ∈ mat.flatten, Flt.lt oob v = false) :
    ∃ left right, LCM.selectThresholdMatrix oob mat (Flt.fin r) = some (left, right) ∧
      ((countAbove right mat.flatten : Nat) : ℚ) < (1 - r) * (mat.flatten.length : ℚ) := by
  have hMq : (0 : ℚ) < (mat.flatten.length : ℚ) := by exact_mod_cast hM
  have hl0 : (0 : ℚ) ≤ (1 - r) * (mat.flatten.length : ℚ) := by nlinarith
  have hl1 : (1 - r) * (mat.flatten.length : ℚ) < (mat.flatten.length : ℚ) := by nlinarith
  have hq0 : (0 : ℚ) ≤ r * (mat.flatten.length : ℚ) := by nlinarith
  have hq1 : r * (mat.flatten.length : ℚ) < (mat.flatten.length : ℚ) := by nlinarith
  have hi0 : 0 ≤ ⌊(1 - r) * (mat.flatten.length : ℚ)⌋ := Int.floor_nonneg.mpr hl0
  have hj0 : 0 ≤ ⌊r * (mat.flatten.length : ℚ)⌋ := Int.floor_nonneg.mpr hq0
  have hi1 : ⌊(1 - r) * (mat.flatten.length : ℚ)⌋ < (mat.flatten.length : ℤ) :=
    Int.floor_lt.mpr (by exact_mod_cast hl1)
  have hj1 : ⌊r * (mat.flatten.length : ℚ)⌋ < (mat.flatten.length : ℤ) :=
    Int.floor_lt.mpr (by exact_mod_cast hq1)
  obtain ⟨left, hl2, _⟩ := stdSort_rank_inside oob mat.flatten hoob
    ⌊(1 - r) * (mat.flatten.length : ℚ)⌋.toNat (by omega)
  obtain ⟨right, hr2, hr3⟩ := stdSort_rank_inside oob mat.flatten hoob
    ⌊r * (mat.flatten.length : ℚ)⌋.toNat (by omega)
  refine ⟨left, right, LCM.selectThresholdMatrix_ranks oob mat r hr0.le hr1.le _ _
    (Int.toNat_of_nonneg hi0).symm (Int.toNat_of_nonneg hj0).symm left right hl2 hr2, ?_⟩
  have hcount := countAbove_ascending _ (stdSort_ascending _ hnan) _ right hr3
  rw [countAbove_stdSort, stdSort_length] at hcount
  have hfl : r * (mat.flatten.length : ℚ) - 1 < ((⌊r * (mat.flatten.length : ℚ)⌋ : ℤ) : ℚ) :=
    Int.sub_one_lt_floor _
  have hcast : ((⌊r * (mat.flatten.length : ℚ)⌋ : ℤ) : ℚ)
      = ((⌊r * (mat.flatten.length : ℚ)⌋.toNat : Nat) : ℚ) := by
    have := Int.toNat_of_nonneg hj0
    exact_mod_cast this.symm
  have hc2 : ((countAbove right mat.flatten : Nat) : ℚ)
      + ((⌊r * (mat.flatten.length : ℚ)⌋.toNat : Nat) : ℚ) + 1 ≤ (mat.flatten.length : ℚ) := by
    exact_mod_cast hcount
  rw [hcast] at hfl
  linarith

/-- C33: the coverage fails when a foreign value enters the sort.  On the
pooled distributions 1, 2 (M = 2) at the detection rate 0.9, with the float 0
behind the arrays, `T_cd = 1`: one training value is strictly above it, which
is not less than `(1 - 0.9) * 2 = 0.2`.  With the float 5 behind the arrays,
which leaves the sort of the two values as it is, `T_cd = 2` and no training
value is above it. -/
theorem C33_coverage_lost_to_foreign_value :
    LCM.selectThresholds (Flt.fin 0) (Flt.fin 0) (Flt.fin (9 / 10))
      [[Flt.fin 1, Flt.fin 2]] [[Flt.fin 1, Flt.fin 2]]
      = some (Flt.fin 1, Flt.fin 0, Flt.fin 1) ∧
    countAbove (Flt.fin 1) (List.flatten [[Flt.fin 1, Flt.fin 2]]) = 1 ∧
    ¬ (((1 : Nat) : ℚ) < (1 - 9 / 10) * ((List.flatten [[Flt.fin 1, Flt.fin 2]]).length : ℚ)) ∧
    LCM.selectThresholds (Flt.fin 5) (Flt.fin 5) (Flt.fin (9 / 10))
      [[Flt.fin 1, Flt.fin 2]] [[Flt.fin 1, Flt.fin 2]]
      = some (Flt.fin 2, Flt.fin 1, Flt.fin 2) ∧
    countAbove (Flt.fin 2) (List.flatten [[Flt.fin 1, Flt.fin 2]]) = 0 := by
  refine ⟨?_, ?_, ?_, ?_, ?_⟩
  · decide!
  · decide!
  · norm_num
  · decide!
  · decide!

/-! ## Normalized distortions of the training samples -/

theorem channelMeanStdDev_fst (sq : Sqrtf) (vals : List ℚ) :
    ∃ m : ℚ, (channelMeanStdDev sq vals).1 = Flt.fin m := by
  unfold channelMeanStdDev
  split
  · exact ⟨0, by simp [Flt.ofNat_eq]⟩
  · exact ⟨_, rfl⟩

/-- Against the statistics of a trained site, the two distortions of every
pixel are finite values. -/
theorem trained_sample_fin (sq : Sqrtf) (pixels : List Vec3b) (p : Vec3b) :
    (∃ a : ℚ, sampleAlpha (siteStatistics (meanStdDev sq pixels)) p = Flt.fin a) ∧
    (∃ c : ℚ, sampleCD sq (siteStatistics (meanStdDev sq pixels)) p = Flt.fin c) := by
  obtain ⟨m0, f0⟩ := channelMeanStdDev_fst sq (pixels.map (fun p => ((p.c0 : Nat) : ℚ)))
  obtain ⟨m1, f1⟩ := channelMeanStdDev_fst sq (pixels.map (fun p => ((p.c1 : Nat) : ℚ)))
  obtain ⟨m2, f2⟩ := channelMeanStdDev_fst sq (pixels.map (fun p => ((p.c2 : Nat) : ℚ)))
  obtain ⟨s0, hs0, e0⟩ := channelMeanStdDev_snd sq (pixels.map (fun p => ((p.c0 : Nat) : ℚ)))
  obtain ⟨s1, hs1, e1⟩ := channelMeanStdDev_snd sq (pixels.map (fun p => ((p.c1 : Nat) : ℚ)))
  obtain ⟨s2, hs2, e2⟩ := channelMeanStdDev_snd sq (pixels.map (fun p => ((p.c2 : Nat) : ℚ)))
  obtain ⟨_, t0, ht0, c0⟩ := clampStdDev_fin s0 hs0
  obtain ⟨_, t1, ht1, c1⟩ := clampStdDev_fin s1 hs1
  obtain ⟨_, t2, ht2, c2⟩ := clampStdDev_fin s2 hs2
  have hms : meanStdDev sq pixels
      = (⟨Flt.fin m0, Flt.fin m1, Flt.fin m2⟩, ⟨Flt.fin s0, Flt.fin s1, Flt.fin s2⟩) := by
    simp only [meanStdDev, f0, f1, f2, e0, e1, e2]
  obtain ⟨d, hd⟩ : ∃ d : ℚ, d = if (m0 / t0) ^ 2 + (m1 / t1) ^ 2 + (m2 / t2) ^ 2 = 0 then 1
      else (m0 / t0) ^ 2 + (m1 / t1) ^ 2 + (m2 / t2) ^ 2 := ⟨_, rfl⟩
  rw [hms, siteStatistics_of_clamped m0 m1 m2 t0 t1 t2 _ ht0 ht1 ht2 c0 c1 c2 d hd]
  have ha : sampleAlpha (⟨Flt.fin m0, Flt.fin m1, Flt.fin m2⟩,
      ⟨Flt.fin t0, Flt.fin t1, Flt.fin t2⟩,
      ⟨Flt.fin (m0 / (d * t0 * t0)), Flt.fin (m1 / (d * t1 * t1)),
       Flt.fin (m2 / (d * t2 * t2))⟩) p
      = Flt.fin (((p.c0 : Nat) : ℚ) * (m0 / (d * t0 * t0))
        + ((p.c1 : Nat) : ℚ) * (m1 / (d * t1 * t1))
        + ((p.c2 : Nat) : ℚ) * (m2 / (d * t2 * t2))) := by
    simp only [sampleAlpha, LCM.computeBrightnessDistortion, LCM.px0, LCM.px1, LCM.px2,
      Flt.natCast_eq, Flt.fin_mul, Flt.fin_add]
  refine ⟨⟨_, ha⟩, ?_⟩
  unfold sampleCD
  rw [ha, LCM.computeChromacityDistortion_eq]
  simp only [LCM.px0, LCM.px1, LCM.px2, Flt.natCast_eq, Flt.fin_mul, Flt.fin_sub,
    Flt.fin_div _ _ ht0.ne', Flt.fin_div _ _ ht1.ne', Flt.fin_div _ _ ht2.ne', Flt.fin_add,
    Flt.sqrt]
  rw [if_neg (not_lt.mpr (add_nonneg (add_nonneg (mul_self_nonneg _) (mul_self_nonneg _))
    (mul_self_nonneg _)))]
  exact ⟨_, rfl⟩

/-- The values that the loop body of `computeNormalizedDistortions` computes at
a site for the training images, in terms of the pixels of the site. -/
theorem normalizedSite_samples (sq : Sqrtf) (m : MultipleLCM) (y x : Nat)
    (stats : Scalar × Scalar × Scalar) (bvar cvar : Flt)
    (h1 : Mat.get? m._mean y x = some stats.1) (h2 : Mat.get? m._stddev y x = some stats.2.1)
    (h3 : Mat.get? m._brightness y x = some stats.2.2)
    (h4 : Mat.get? m._bdist_variation y x = some bvar)
    (h5 : Mat.get? m._cdist_variation y x = some cvar) (images : List (Mat Vec3b)) :
    ∀ samples, pixelsAt images y x = .ok samples →
      List.Forall₂ (fun image n => MultipleLCM.normalizedSite sq m image y x = .ok n) images
        (samples.map (normalizedSample sq stats bvar cvar)) := by
  have a1 := (Mat.at?_eq_ok _ y x _).mpr h1
  have a2 := (Mat.at?_eq_ok _ y x _).mpr h2
  have a3 := (Mat.at?_eq_ok _ y x _).mpr h3
  have a4 := (Mat.at?_eq_ok _ y x _).mpr h4
  have a5 := (Mat.at?_eq_ok _ y x _).mpr h5
  induction images with
  | nil =>
      intro samples hps
      simp only [pixelsAt, Except.ok.injEq] at hps
      subst hps
      exact List.Forall₂.nil
  | cons image images ih =>
      intro samples hps
      simp only [pixelsAt] at hps
      split at hps
      · cases hps
      · rename_i p hp
        split at hps
        · cases hps
        · rename_i ps2 hps2
          simp only [Except.ok.injEq] at hps
          subst hps
          refine List.Forall₂.cons ?_ (ih ps2 hps2)
          simp only [MultipleLCM.normalizedSite, MultipleLCM.computeBrightnessDistortion,
            MultipleLCM.computeChromacityDistortion, hp, a1, a2, a3, a4, a5]
          rfl

/-- The variations of a trained site over a non-empty list of samples are
finite values. -/
theorem rmsVariations_fin (sq : Sqrtf) (pixels samples : List Vec3b) (hne : samples ≠ []) :
    ∃ v w : ℚ, rmsVariations sq (siteStatistics (meanStdDev sq pixels)) samples
      = (Flt.fin v, Flt.fin w) := by
  have hb : ∀ v ∈ samples.map
      (fun p => sampleAlpha (siteStatistics (meanStdDev sq pixels)) p - 1),
      ∃ q : ℚ, v = Flt.fin q := by
    intro v hv
    obtain ⟨p, _, hpv⟩ := List.mem_map.mp hv
    obtain ⟨⟨a, ha⟩, _⟩ := trained_sample_fin sq pixels p
    exact ⟨a - 1, by rw [← hpv, ha, Flt.ofNat_eq, Nat.cast_one, Flt.fin_sub]⟩
  have hc : ∀ v ∈ samples.map
      (fun p => sampleCD sq (siteStatistics (meanStdDev sq pixels)) p),
      ∃ q : ℚ, v = Flt.fin q := by
    intro v hv
    obtain ⟨p, _, hpv⟩ := List.mem_map.mp hv
    obtain ⟨_, ⟨c, hc⟩⟩ := trained_sample_fin sq pixels p
    exact ⟨c, by rw [← hpv, hc]⟩
  obtain ⟨x, hx, ex⟩ := meanSquare_fin_nonneg _ hb
    (fun h => hne (List.map_eq_nil_iff.mp h))
  obtain ⟨y, hy, ey⟩ := meanSquare_fin_nonneg _ hc
    (fun h => hne (List.map_eq_nil_iff.mp h))
  refine ⟨sq.f x, sq.f y, ?_⟩
  unfold rmsVariations
  rw [ex, ey]
  simp only [Flt.sqrt, not_lt.mpr hx, not_lt.mpr hy, if_false]

/-- The mean squares of the normalized distortions of the samples of a trained
site, for finite non-zero variations. -/
theorem normalized_meanSquare (sq : Sqrtf) (pixels samples : List Vec3b) (hne : samples ≠ [])
    (v w : ℚ) (hv : v ≠ 0) (hw : w ≠ 0) :
    (meanSquare (samples.map (fun p =>
        (normalizedSample sq (siteStatistics (meanStdDev sq pixels))
          (Flt.fin v) (Flt.fin w) p).1))
      = meanSquare (samples.map
          (fun p => sampleAlpha (siteStatistics (meanStdDev sq pixels)) p - 1))
        / (Flt.fin v * Flt.fin v) ∧
     (meanSquare (samples.map (fun p =>
        (normalizedSample sq (siteStatistics (meanStdDev sq pixels))
          (Flt.fin v) (Flt.fin w) p).1)) = Flt.fin 1 ↔
      Flt.fin v * Flt.fin v = meanSquare (samples.map
          (fun p => sampleAlpha (siteStatistics (meanStdDev sq pixels)) p - 1)))) ∧
    (meanSquare (samples.map (fun p =>
        (normalizedSample sq (siteStatistics (meanStdDev sq pixels))
          (Flt.fin v) (Flt.fin w) p).2))
      = meanSquare (samples.map
          (fun p => sampleCD sq (siteStatistics (meanStdDev sq pixels)) p))
        / (Flt.fin w * Flt.fin w) ∧
     (meanSquare (samples.map (fun p =>
        (normalizedSample sq (siteStatistics (meanStdDev sq pixels))
          (Flt.fin v) (Flt.fin w) p).2)) = Flt.fin 1 ↔
      Flt.fin w * Flt.fin w = meanSquare (samples.map
          (fun p => sampleCD sq (siteStatistics (meanStdDev sq pixels)) p)))) := by
  constructor
  · have h := meanSquare_scaled (samples.map
      (fun p => sampleAlpha (siteStatistics (meanStdDev sq pixels)) p - 1)) ?_ ?_ v hv
    · rw [List.map_map] at h
      exact h
    · intro x hx
      obtain ⟨p, _, hpv⟩ := List.mem_map.mp hx
      obtain ⟨⟨a, ha⟩, _⟩ := trained_sample_fin sq pixels p
      exact ⟨a - 1, by rw [← hpv, ha, Flt.ofNat_eq, Nat.cast_one, Flt.fin_sub]⟩
    · intro h
      exact hne (List.map_eq_nil_iff.mp h)
  · have h := meanSquare_scaled (samples.map
      (fun p => sampleCD sq (siteStatistics (meanStdDev sq pixels)) p)) ?_ ?_ w hw
    · rw [List.map_map] at h
      exact h
    · intro x hx
      obtain ⟨p, _, hpv⟩ := List.mem_map.mp hx
      obtain ⟨_, ⟨c, hc⟩⟩ := trained_sample_fin sq pixels p
      exact ⟨c, by rw [← hpv, hc]⟩
    · intro h
      exact hne (List.map_eq_nil_iff.mp h)

/-! ## Normalization with the roundings of the source -/

theorem isqrtIter_spec (n : Nat) (hn : 2 ≤ n) : ∀ (fuel x : Nat), 0 < x →
    n < (x + 1) * (x + 1) → x ≤ fuel + 1 →
    isqrtIter n fuel x * isqrtIter n fuel x ≤ n ∧
      n < (isqrtIter n fuel x + 1) * (isqrtIter n fuel x + 1)
  | 0, x, hx, hinv, hf => by
    have h1 : x = 1 := by omega
    subst h1
    simp only [isqrtIter]
    omega
  | fuel + 1, x, hx, hinv, hf => by
    simp only [isqrtIter]
    have hdiv1 : n / x * x ≤ n := Nat.div_mul_le_self n x
    have hdiv2 : n < (n / x + 1) * x := by
      have := Nat.lt_succ_self (n / x)
      exact (Nat.div_lt_iff_lt_mul hx).mp this
    generalize n / x = a at hdiv1 hdiv2
    have hy1 : 2 * ((x + a) / 2) ≤ x + a := Nat.mul_div_le (x + a) 2
    have hy2 : x + a < 2 * ((x + a) / 2) + 2 := by omega
    generalize (x + a) / 2 = y at hy1 hy2
    by_cases hlt : y < x
    · rw [if_pos hlt]
      refine isqrtIter_spec n hn fuel y ?_ ?_ (by omega)
      · rcases Nat.lt_or_ge 1 x with h | h
        · omega
        · have hx1 : x = 1 := by omega
          subst hx1
          omega
      · have h3 : x + a + 1 ≤ 2 * (y + 1) := by omega
        have h4 : (4 : ℤ) * n < 4 * ((y : ℤ) + 1) * ((y : ℤ) + 1) := by
          have h3z : (x : ℤ) + a + 1 ≤ 2 * ((y : ℤ) + 1) := by exact_mod_cast h3
          have h2z : (n : ℤ) < ((a : ℤ) + 1) * x := by exact_mod_cast hdiv2
          have hxz : (0 : ℤ) < x := by exact_mod_cast hx
          have haz : (0 : ℤ) ≤ a := by positivity
          nlinarith [sq_nonneg ((x : ℤ) - a - 1), mul_le_mul h3z h3z (by positivity)
            (by positivity : (0 : ℤ) ≤ 2 * ((y : ℤ) + 1))]
        have h5 : (n : ℤ) < ((y : ℤ) + 1) * ((y : ℤ) + 1) := by linarith
        exact_mod_cast h5
    · rw [if_neg hlt]
      refine ⟨?_, hinv⟩
      have hxa : x ≤ a := by omega
      calc x * x ≤ a * x := Nat.mul_le_mul_right x hxa
        _ ≤ n := hdiv1

theorem isqrt_spec (n : Nat) : isqrt n * isqrt n ≤ n ∧ n < (isqrt n + 1) * (isqrt n + 1) := by
  unfold isqrt
  by_cases h : n ≤ 1
  · rw [if_pos h]
    constructor
    · have : n = 0 ∨ n = 1 := by omega
      rcases this with h0 | h0 <;> subst h0 <;> simp
    · nlinarith
  · rw [if_neg h]
    exact isqrtIter_spec n (by omega) n n (by omega) (by nlinarith) (by omega)

/-- The point between two neighbours of the integer grid that `sqrtBinary`
hands to the rounding: its square is within `2^-25` of the radicand. -/
theorem sqrt_grid_point (scaled S X : ℚ) (hS : 2 ^ 26 ≤ S) (hX : X = S * S)
    (h1 : X ≤ scaled) (h2 : scaled < X + 2 * S + 1) :
    scaled * (1 - 1 / 2 ^ 25) ≤ (S + 1 / 2) * (S + 1 / 2) ∧
    (S + 1 / 2) * (S + 1 / 2) ≤ scaled * (1 + 1 / 2 ^ 25) := by
  have h3 : 2 ^ 26 * S ≤ X := by
    rw [hX]; exact mul_le_mul_of_nonneg_right hS (le_trans (by norm_num) hS)
  have h4 : (S + 1 / 2) * (S + 1 / 2) = X + S + 1 / 4 := by rw [hX]; ring
  rw [h4]
  constructor <;> linarith

theorem sqrt_scaled_ge (q : ℚ) (hq : 0 < q) :
    (2 : ℚ) ^ 52 ≤ q * ((4 ^ (24 + 2 + (-(ilog2 q)).toNat) : Nat) : ℚ) := by
  obtain ⟨s1, _⟩ := ilog2_spec q hq
  have h4 : ((4 ^ (24 + 2 + (-(ilog2 q)).toNat) : Nat) : ℚ)
      = 2 ^ 52 * 4 ^ (-(ilog2 q)).toNat := by
    push_cast; rw [pow_add]; norm_num
  rw [h4]
  have key : (1 : ℚ) ≤ q * 4 ^ (-(ilog2 q)).toNat := by
    rcases le_or_lt 0 (ilog2 q) with hL | hL
    · have h5 : (-(ilog2 q)).toNat = 0 := by omega
      have h6 : (1 : ℚ) ≤ q := by
        have : pow2 0 ≤ pow2 (ilog2 q) := pow2_le_pow2 hL
        rw [pow2_values.1] at this
        linarith
      rw [h5, pow_zero, mul_one]
      exact h6
    · obtain ⟨j, hj⟩ : ∃ j : ℕ, ilog2 q = -(j : ℤ) := ⟨(-(ilog2 q)).toNat, by omega⟩
      have h5 : (-(ilog2 q)).toNat = j := by omega
      have h6 : pow2 (ilog2 q) = 1 / 2 ^ j := by
        rw [hj, pow2_eq_zpow, zpow_neg, zpow_natCast, one_div]
      rw [h5]
      rw [h6] at s1
      have h7 : (0 : ℚ) < 2 ^ j := by positivity
      have h8 : (1 : ℚ) ≤ q * 2 ^ j := by
        have := mul_le_mul_of_nonneg_right s1 h7.le
        rwa [one_div, inv_mul_cancel₀ h7.ne'] at this
      have h9 : (4 : ℚ) ^ j = 2 ^ j * 2 ^ j := by
        rw [← mul_pow]; norm_num
      have h10 : (1 : ℚ) ≤ 2 ^ j := one_le_pow₀ (by norm_num)
      rw [h9, ← mul_assoc]
      calc (1 : ℚ) = 1 * 1 := by ring
        _ ≤ q * 2 ^ j * 2 ^ j := mul_le_mul h8 h10 (by norm_num) (by linarith)
  have h11 : q * (2 ^ 52 * 4 ^ (-(ilog2 q)).toNat) = 2 ^ 52 * (q * 4 ^ (-(ilog2 q)).toNat) := by
    ring
  rw [h11]
  exact le_mul_of_one_le_right (by positivity) key

/-- The value that `sqrtBinary` rounds: a positive `t` whose square is within
`q * 2^-25` of `q`. -/
theorem sqrtBinary_point (p : Nat) (emin emax : Int) (q : ℚ) (hq : 0 < q) (hp : p = 24) :
    ∃ t : ℚ, sqrtBinary p emin emax q = roundBinary p emin emax t ∧ 0 < t ∧
      q * (1 - 1 / 2 ^ 25) ≤ t * t ∧ t * t ≤ q * (1 + 1 / 2 ^ 25) := by
  subst hp
  have hscaled := sqrt_scaled_ge q hq
  simp only [sqrtBinary, if_neg hq.ne']
  generalize (24 + 2 + (-(ilog2 q)).toNat) = k at hscaled ⊢
  have hP : (0 : ℚ) < ((2 ^ k : Nat) : ℚ) := by positivity
  have hP4 : ((4 ^ k : Nat) : ℚ) = ((2 ^ k : Nat) : ℚ) * ((2 ^ k : Nat) : ℚ) := by
    push_cast; rw [← mul_pow]; norm_num
  have hP2 : ((2 ^ (k + 1) : Nat) : ℚ) = 2 * ((2 ^ k : Nat) : ℚ) := by
    push_cast; rw [pow_succ]; ring
  rw [hP4] at hscaled ⊢
  rw [hP2]
  generalize ((2 ^ k : Nat) : ℚ) = P at hP hscaled ⊢
  generalize hsc : q * (P * P) = scaled at hscaled ⊢
  have hsc0 : 0 < scaled := lt_of_lt_of_le (by norm_num) hscaled
  have hfl1 : ((⌊scaled⌋ : ℤ) : ℚ) ≤ scaled := Int.floor_le scaled
  have hfl2 : scaled < ((⌊scaled⌋ : ℤ) : ℚ) + 1 := Int.lt_floor_add_one scaled
  have hfl0 : (0 : ℤ) ≤ ⌊scaled⌋ := Int.floor_nonneg.mpr hsc0.le
  obtain ⟨N, hN⟩ : ∃ N : ℕ, ⌊scaled⌋ = (N : ℤ) := ⟨⌊scaled⌋.toNat, by omega⟩
  have hNnat : (Rat.floor scaled).toNat = N := by
    have : Rat.floor scaled = ⌊scaled⌋ := rfl
    rw [this]; omega
  rw [hNnat]
  rw [hN] at hfl1 hfl2
  simp only [Int.cast_natCast] at hfl1 hfl2
  obtain ⟨i1, i2⟩ := isqrt_spec N
  generalize isqrt N = s at i1 i2 ⊢
  have i1q : (s : ℚ) * s ≤ N := by exact_mod_cast i1
  have i2q : (N : ℚ) + 1 ≤ ((s : ℚ) + 1) * ((s : ℚ) + 1) := by
    have : N + 1 ≤ (s + 1) * (s + 1) := i2
    exact_mod_cast this
  have hs0 : (0 : ℚ) ≤ s := Nat.cast_nonneg s
  have hs26 : (2 : ℚ) ^ 26 ≤ s := by
    by_contra hneg
    push_neg at hneg
    have h5 : ((s : ℚ) + 1) ≤ 2 ^ 26 := by
      have h51 : s < 2 ^ 26 := by exact_mod_cast hneg
      have h52 : s + 1 ≤ 2 ^ 26 := h51
      exact_mod_cast h52
    have h6 : ((s : ℚ) + 1) * ((s : ℚ) + 1) ≤ 2 ^ 26 * 2 ^ 26 :=
      mul_le_mul h5 h5 (by linarith) (by norm_num)
    have h7 : (2 : ℚ) ^ 26 * 2 ^ 26 = 2 ^ 52 := by norm_num
    linarith
  have hspos : (0 : ℚ) < s := lt_of_lt_of_le (by norm_num) hs26
  have hqs : q = scaled / (P * P) := by
    rw [← hsc]; field_simp
  have hcast : ((s * s : Nat) : ℚ) = (s : ℚ) * s := by push_cast; ring
  have hcast2 : ((2 * s + 1 : Nat) : ℚ) = 2 * ((s : ℚ) + 1 / 2) := by push_cast; ring
  rw [hcast, hcast2]
  by_cases hex : (s : ℚ) * s = scaled
  · refine ⟨(s : ℚ) / P, by rw [if_pos hex], div_pos hspos hP, ?_, ?_⟩
    all_goals
      have h5 : (s : ℚ) / P * ((s : ℚ) / P) = q := by
        rw [div_mul_div_comm, hqs, hex]
      rw [h5]
    · exact mul_le_of_le_one_right hq.le (by norm_num)
    · exact le_mul_of_one_le_right hq.le (by norm_num)
  · obtain ⟨g1, g2⟩ := sqrt_grid_point scaled s ((s : ℚ) * s) hs26 rfl (by linarith)
      (by nlinarith)
    have h5 : 2 * ((s : ℚ) + 1 / 2) / (2 * P) * (2 * ((s : ℚ) + 1 / 2) / (2 * P))
        = (((s : ℚ) + 1 / 2) * ((s : ℚ) + 1 / 2)) / (P * P) := by
      field_simp
      ring
    refine ⟨2 * ((s : ℚ) + 1 / 2) / (2 * P), by rw [if_neg hex], by positivity, ?_, ?_⟩
    · rw [h5, hqs, div_mul_eq_mul_div]
      exact div_le_div_of_nonneg_right g1 (by positivity)
    · rw [h5, hqs, div_mul_eq_mul_div]
      exact div_le_div_of_nonneg_right g2 (by positivity)

/-- The square of the `float` root of `q` is within `q * 2^-21` of `q`, for
`q` in `[2^-120, 2^120]`. -/
theorem sqrtf_sq_near (q : ℚ) (h1 : 1 / 2 ^ 120 ≤ q) (h2 : q ≤ 2 ^ 120) :
    ∃ r, Flt.sqrtf (Flt.fin q) = Flt.fin r ∧ 0 < r ∧
      q * (1 - 1 / 2 ^ 21) ≤ r * r ∧ r * r ≤ q * (1 + 1 / 2 ^ 21) := by
  have hq : 0 < q := lt_of_lt_of_le (by norm_num) h1
  obtain ⟨t, ht, htpos, hlo, hhi⟩ := sqrtBinary_point 24 (-126) 127 q hq rfl
  have htt1 : 1 / 2 ^ 122 ≤ t * t := by
    have h3 : (1 : ℚ) / 2 ^ 120 * (1 - 1 / 2 ^ 25) ≤ q * (1 - 1 / 2 ^ 25) :=
      mul_le_mul_of_nonneg_right h1 (by norm_num)
    have h5 : (1 : ℚ) / 2 ^ 122 ≤ 1 / 2 ^ 120 * (1 - 1 / 2 ^ 25) := by norm_num
    linarith
  have htt2 : t * t ≤ 2 ^ 122 := by
    have h3 : q * (1 + 1 / 2 ^ 25) ≤ (2 : ℚ) ^ 120 * (1 + 1 / 2 ^ 25) :=
      mul_le_mul_of_nonneg_right h2 (by norm_num)
    have h5 : (2 : ℚ) ^ 120 * (1 + 1 / 2 ^ 25) ≤ 2 ^ 122 := by norm_num
    linarith
  have ht1 : 1 / 2 ^ 61 ≤ t := by
    by_contra hneg
    push_neg at hneg
    have h3 : t * t < 1 / 2 ^ 61 * (1 / 2 ^ 61) := mul_lt_mul'' hneg hneg htpos.le htpos.le
    have h5 : (1 : ℚ) / 2 ^ 61 * (1 / 2 ^ 61) = 1 / 2 ^ 122 := by norm_num
    linarith
  have ht2 : t ≤ 2 ^ 61 := by
    by_contra hneg
    push_neg at hneg
    have h3 : (2 : ℚ) ^ 61 * 2 ^ 61 < t * t :=
      mul_lt_mul'' hneg hneg (by positivity) (by positivity)
    have h5 : (2 : ℚ) ^ 61 * 2 ^ 61 = 2 ^ 122 := by norm_num
    linarith
  have p1 : pow2 (-126) = 1 / 2 ^ 126 := by rw [pow2_eq_zpow]; norm_num
  have p2 : pow2 127 = 2 ^ 127 := by rw [pow2_eq_zpow]; norm_num
  have p3 : pow2 (-((24 : ℕ) : ℤ)) = 1 / 2 ^ 24 := by rw [pow2_eq_zpow]; norm_num
  obtain ⟨r, hr, b1, b2⟩ := roundBinary_rel 24 (-126) 127 t
    (by rw [p1]; exact le_trans (by norm_num) ht1)
    (by rw [p2]; exact lt_of_le_of_lt ht2 (by norm_num))
  rw [p3] at b1 b2
  have hrpos : 0 < r := lt_of_lt_of_le (mul_pos htpos (by norm_num)) b1
  refine ⟨r, ?_, hrpos, ?_, ?_⟩
  · simp only [Flt.sqrtf, if_neg (not_lt.mpr hq.le)]
    rw [ht, hr]
  · have c1 : t * (1 - 1 / 2 ^ 24) * (t * (1 - 1 / 2 ^ 24)) ≤ r * r :=
      mul_le_mul b1 b1 (mul_nonneg htpos.le (by norm_num)) hrpos.le
    have c2 : t * (1 - 1 / 2 ^ 24) * (t * (1 - 1 / 2 ^ 24))
        = t * t * ((1 - 1 / 2 ^ 24) * (1 - 1 / 2 ^ 24)) := by ring
    have c3 : q * (1 - 1 / 2 ^ 25) * ((1 - 1 / 2 ^ 24) * (1 - 1 / 2 ^ 24))
        ≤ t * t * ((1 - 1 / 2 ^ 24) * (1 - 1 / 2 ^ 24)) :=
      mul_le_mul_of_nonneg_right hlo (by norm_num)
    have c4 : (1 : ℚ) - 1 / 2 ^ 21 ≤ (1 - 1 / 2 ^ 25) * ((1 - 1 / 2 ^ 24) * (1 - 1 / 2 ^ 24)) := by
      norm_num
    have c5 := mul_le_mul_of_nonneg_left c4 hq.le
    linarith
  · have c1 : r * r ≤ t * (1 + 1 / 2 ^ 24) * (t * (1 + 1 / 2 ^ 24)) :=
      mul_le_mul b2 b2 hrpos.le (mul_nonneg htpos.le (by norm_num))
    have c2 : t * (1 + 1 / 2 ^ 24) * (t * (1 + 1 / 2 ^ 24))
        = t * t * ((1 + 1 / 2 ^ 24) * (1 + 1 / 2 ^ 24)) := by ring
    have c3 : t * t * ((1 + 1 / 2 ^ 24) * (1 + 1 / 2 ^ 24))
        ≤ q * (1 + 1 / 2 ^ 25) * ((1 + 1 / 2 ^ 24) * (1 + 1 / 2 ^ 24)) :=
      mul_le_mul_of_nonneg_right hhi (by norm_num)
    have c4 : (1 + 1 / 2 ^ 25) * ((1 + 1 / 2 ^ 24) * (1 + 1 / 2 ^ 24)) ≤ (1 : ℚ) + 1 / 2 ^ 21 := by
      norm_num
    have c5 := mul_le_mul_of_nonneg_left c4 hq.le
    linarith

theorem roundBinary_neg (p : Nat) (emin emax : Int) (q r : ℚ) (hq : 0 < q)
    (h : roundBinary p emin emax q = Flt.fin r) :
    roundBinary p emin emax (-q) = Flt.fin (-r) := by
  have hn : ¬ (0 < -q) := by linarith
  have hne : -q ≠ 0 := by linarith
  simp only [roundBinary, if_neg hq.ne', if_pos hq] at h
  simp only [roundBinary, if_neg hne, if_neg hn, neg_neg]
  generalize (if emin ≤ ilog2 q then ilog2 q else emin) = e at h ⊢
  by_cases hov : pow2 (emax + 1)
      ≤ (roundHalfEven (q / pow2 (e - (p : ℤ) + 1)) : ℚ) * pow2 (e - (p : ℤ) + 1)
  · rw [if_pos hov] at h
    exact absurd h (by simp)
  · rw [if_neg hov] at h ⊢
    rw [Flt.fin.inj h]

/-- The square of the `float` nearest to `y` is within `y^2 * 2^-22` of `y^2`,
for `y` zero or of magnitude in `[2^-120, 2^120]`. -/
theorem f32_sq_near (y : ℚ) (hy : y = 0 ∨ (1 / 2 ^ 120 ≤ |y| ∧ |y| ≤ 2 ^ 120)) :
    ∃ b, Flt.f32 (Flt.fin y) = Flt.fin b ∧
      y * y * (1 - 1 / 2 ^ 22) ≤ b * b ∧ b * b ≤ y * y * (1 + 1 / 2 ^ 22) := by
  rcases hy with h0 | ⟨h1, h2⟩
  · subst h0
    exact ⟨0, by simp [Flt.f32, roundBinary], by norm_num, by norm_num⟩
  · have habs : 0 < |y| := lt_of_lt_of_le (by norm_num) h1
    have p1 : pow2 (-126) = 1 / 2 ^ 126 := by rw [pow2_eq_zpow]; norm_num
    have p2 : pow2 127 = 2 ^ 127 := by rw [pow2_eq_zpow]; norm_num
    have p3 : pow2 (-((24 : ℕ) : ℤ)) = 1 / 2 ^ 24 := by rw [pow2_eq_zpow]; norm_num
    obtain ⟨r, hr, b1, b2⟩ := roundBinary_rel 24 (-126) 127 |y|
      (by rw [p1]; exact le_trans (by norm_num) h1)
      (by rw [p2]; exact lt_of_le_of_lt h2 (by norm_num))
    rw [p3] at b1 b2
    have hrpos : 0 < r := lt_of_lt_of_le (mul_pos habs (by norm_num)) b1
    have hyy : y * y = |y| * |y| := (abs_mul_abs_self y).symm
    have c1 : |y| * (1 - 1 / 2 ^ 24) * (|y| * (1 - 1 / 2 ^ 24)) ≤ r * r :=
      mul_le_mul b1 b1 (mul_nonneg habs.le (by norm_num)) hrpos.le
    have c2 : r * r ≤ |y| * (1 + 1 / 2 ^ 24) * (|y| * (1 + 1 / 2 ^ 24)) :=
      mul_le_mul b2 b2 hrpos.le (mul_nonneg habs.le (by norm_num))
    have c3 : (1 : ℚ) - 1 / 2 ^ 22 ≤ (1 - 1 / 2 ^ 24) * (1 - 1 / 2 ^ 24) := by norm_num
    have c4 : (1 + 1 / 2 ^ 24) * (1 + 1 / 2 ^ 24) ≤ (1 : ℚ) + 1 / 2 ^ 22 := by norm_num
    have hnn : 0 ≤ |y| * |y| := mul_nonneg habs.le habs.le
    have c5 := mul_le_mul_of_nonneg_left c3 hnn
    have c6 := mul_le_mul_of_nonneg_left c4 hnn
    have hlo : y * y * (1 - 1 / 2 ^ 22) ≤ r * r := by rw [hyy]; nlinarith
    have hhi : r * r ≤ y * y * (1 + 1 / 2 ^ 22) := by rw [hyy]; nlinarith
    rcases lt_or_ge 0 y with hpos | hneg
    · refine ⟨r, ?_, hlo, hhi⟩
      rw [abs_of_pos hpos] at hr
      exact hr
    · have hyneg : y < 0 := by
        rcases hneg.lt_or_eq with h | h
        · exact h
        · rw [h] at habs; simp at habs
      refine ⟨-r, ?_, by rw [neg_mul_neg]; exact hlo, by rw [neg_mul_neg]; exact hhi⟩
      rw [abs_of_neg hyneg] at hr
      have := roundBinary_neg 24 (-126) 127 (-y) r (by linarith) hr
      rw [neg_neg] at this
      exact this

theorem sq_range_of_abs (x : ℚ) (hx : x = 0 ∨ (1 / 2 ^ 40 ≤ |x| ∧ |x| ≤ 2 ^ 40)) :
    x * x = 0 ∨ (1 / 2 ^ 80 ≤ x * x ∧ x * x ≤ 2 ^ 80) := by
  rcases hx with h | ⟨h1, h2⟩
  · left; rw [h]; ring
  · right
    have habs : 0 ≤ |x| := abs_nonneg x
    rw [← abs_mul_abs_self x]
    constructor
    · calc (1 : ℚ) / 2 ^ 80 = 1 / 2 ^ 40 * (1 / 2 ^ 40) := by norm_num
        _ ≤ |x| * |x| := mul_le_mul h1 h1 (by norm_num) habs
    · calc |x| * |x| ≤ 2 ^ 40 * 2 ^ 40 := mul_le_mul h2 h2 habs (by norm_num)
        _ = 2 ^ 80 := by norm_num

/-- The accumulation `sum += x * x` of `computeVariations` in `float`: after
`k` terms the relative error of the sum is at most `(k + 1) / 2^23`. -/
theorem fold_squares_near (xs : List ℚ)
    (hr : ∀ x ∈ xs, x = 0 ∨ (1 / 2 ^ 40 ≤ |x| ∧ |x| ≤ 2 ^ 40)) :
    ∀ (k : ℕ) (S0 Z0 : ℚ), k + xs.length ≤ 2 ^ 16 →
      Approx (((k : ℚ) + 1) / 2 ^ 23) (1 / 2 ^ 80) ((k : ℚ) * 2 ^ 80) Z0 S0 →
      ∃ S, (xs.map Flt.fin).foldl (fun a v => Flt.f32 (a + Flt.f32 (v * v))) (Flt.fin S0)
          = Flt.fin S ∧
        Approx ((((k + xs.length : ℕ) : ℚ) + 1) / 2 ^ 23) (1 / 2 ^ 80)
          (((k + xs.length : ℕ) : ℚ) * 2 ^ 80) (Z0 + (xs.map (fun x => x * x)).sum) S := by
  induction xs with
  | nil =>
      intro k S0 Z0 _ h
      refine ⟨S0, rfl, ?_⟩
      simpa using h
  | cons x xs ih =>
      intro k S0 Z0 hk h
      have hkq : (k : ℚ) + 1 ≤ 2 ^ 16 := by
        have : k + 1 ≤ 2 ^ 16 := by simp only [List.length_cons] at hk; omega
        exact_mod_cast this
      have hk0 : (0 : ℚ) ≤ k := Nat.cast_nonneg k
      have A1 : Approx 0 (1 / 2 ^ 80) (2 ^ 80) (x * x) (x * x) :=
        approx_exact _ _ _ (sq_range_of_abs x (hr x (List.mem_cons_self x xs)))
      obtain ⟨q, hq, A2⟩ := approx_f32 _ _ _ _ _ A1 le_rfl (by norm_num) (by norm_num)
        (by norm_num)
      have A2m := approx_mono _ _ _ _ _ (((k : ℚ) + 1) / 2 ^ 23) (1 / 2 ^ 80) (2 ^ 80) A2
        (by norm_num) (by rw [zero_add]; apply div_le_div_of_nonneg_right _ (by norm_num); linarith)
        le_rfl le_rfl
      have A3 := approx_add _ _ _ _ _ _ _ _ _ h A2m (by norm_num) (by positivity) (by norm_num)
      obtain ⟨S1, hS1, A4⟩ := approx_f32 _ _ _ _ _ A3 (by positivity)
        (by rw [div_le_iff₀ (by norm_num)]; linarith)
        (by rw [min_self]; norm_num) (by nlinarith)
      have A5 := approx_mono _ _ _ _ _ ((((k + 1 : ℕ) : ℚ) + 1) / 2 ^ 23) (1 / 2 ^ 80)
        (((k + 1 : ℕ) : ℚ) * 2 ^ 80) A4 (by rw [min_self]; norm_num)
        (by push_cast; rw [← add_div]) (by rw [min_self])
        (by push_cast; linarith)
      obtain ⟨S, hS, A6⟩ := ih (fun y hy => hr y (List.mem_cons_of_mem x hy)) (k + 1) S1
        (Z0 + x * x) (by simp only [List.length_cons] at hk; omega) A5
      refine ⟨S, ?_, ?_⟩
      · simp only [List.map_cons, List.foldl_cons, Flt.fin_mul, hq, Flt.fin_add, hS1]
        exact hS
      · have e1 : k + (x :: xs).length = k + 1 + xs.length := by
          simp only [List.length_cons]; omega
        rw [e1, List.map_cons, List.sum_cons, ← add_assoc]
        exact A6

/-- The normalized values `x / variation` in `float`: the sum of their squares
is within a relative `2^-22` of the sum of the `x^2` over `variation^2`. -/
theorem normalized_squares_near (r : ℚ) (hr1 : 1 / 2 ^ 49 ≤ r) (hr2 : r ≤ 2 ^ 41)
    (xs : List ℚ) (hx : ∀ x ∈ xs, x = 0 ∨ (1 / 2 ^ 40 ≤ |x| ∧ |x| ≤ 2 ^ 40)) :
    ∃ bs : List ℚ, xs.map (fun x => Flt.f32 (Flt.fin x / Flt.fin r)) = bs.map Flt.fin ∧
      bs.length = xs.length ∧
      (xs.map (fun x => x * x)).sum / (r * r) * (1 - 1 / 2 ^ 22)
        ≤ (bs.map (fun b => b * b)).sum ∧
      (bs.map (fun b => b * b)).sum
        ≤ (xs.map (fun x => x * x)).sum / (r * r) * (1 + 1 / 2 ^ 22) := by
  have hr0 : 0 < r := lt_of_lt_of_le (by norm_num) hr1
  induction xs with
  | nil => exact ⟨[], rfl, rfl, by simp, by simp⟩
  | cons x xs ih =>
      obtain ⟨bs, h1, h2, h3, h4⟩ := ih (fun y hy => hx y (List.mem_cons_of_mem x hy))
      have hy : x / r = 0 ∨ (1 / 2 ^ 120 ≤ |x / r| ∧ |x / r| ≤ 2 ^ 120) := by
        rcases hx x (List.mem_cons_self x xs) with h | ⟨a1, a2⟩
        · left; rw [h, zero_div]
        · right
          rw [abs_div, abs_of_pos hr0]
          constructor
          · rw [le_div_iff₀ hr0]
            calc (1 : ℚ) / 2 ^ 120 * r ≤ 1 / 2 ^ 120 * 2 ^ 41 :=
                  mul_le_mul_of_nonneg_left hr2 (by norm_num)
              _ ≤ 1 / 2 ^ 40 := by norm_num
              _ ≤ |x| := a1
          · rw [div_le_iff₀ hr0]
            calc |x| ≤ 2 ^ 40 := a2
              _ ≤ 2 ^ 120 * (1 / 2 ^ 49) := by norm_num
              _ ≤ 2 ^ 120 * r := mul_le_mul_of_nonneg_left hr1 (by norm_num)
      obtain ⟨b, hb, b1, b2⟩ := f32_sq_near (x / r) hy
      have hxx : x / r * (x / r) = x * x / (r * r) := by rw [div_mul_div_comm]
      rw [hxx] at b1 b2
      refine ⟨b :: bs, ?_, ?_, ?_, ?_⟩
      · simp only [List.map_cons, Flt.fin_div _ _ hr0.ne', hb]
        congr 1
        simpa only [Flt.fin_div _ _ hr0.ne'] using h1
      · simp only [List.length_cons, h2]
      · simp only [List.map_cons, List.sum_cons, add_div, add_mul]
        linarith
      · simp only [List.map_cons, List.sum_cons, add_div, add_mul]
        linarith

theorem sum_sq_pos (xs : List ℚ) (h0 : ∃ x ∈ xs, x ≠ 0) :
    0 < (xs.map (fun x => x * x)).sum := by
  have hnn : ∀ l : List ℚ, 0 ≤ (l.map (fun x => x * x)).sum := by
    intro l
    induction l with
    | nil => simp
    | cons y l ih =>
        simp only [List.map_cons, List.sum_cons]
        exact add_nonneg (mul_self_nonneg y) ih
  induction xs with
  | nil => obtain ⟨x, hx, _⟩ := h0; simp at hx
  | cons y l ih =>
      simp only [List.map_cons, List.sum_cons]
      obtain ⟨x, hx, hne⟩ := h0
      rcases List.mem_cons.mp hx with h | h
      · subst h
        have : 0 < x * x := mul_self_pos.mpr hne
        linarith [hnn l]
      · have := ih ⟨x, h, hne⟩
        linarith [mul_self_nonneg y]

theorem unit_rms_bound (X R n T : ℚ) (hn1 : 1 ≤ n) (hn2 : n ≤ 2 ^ 16) (hX : 0 < X)
    (hR : 0 < R) (q1 : X * (1 - (n + 7) / 2 ^ 23) ≤ R) (q2 : R ≤ X * (1 + (n + 7) / 2 ^ 23))
    (hb3 : X * n / R * (1 - 1 / 2 ^ 22) ≤ T) (hb4 : T ≤ X * n / R * (1 + 1 / 2 ^ 22)) :
    1 - (n + 16) / 2 ^ 22 ≤ T / n ∧ T / n ≤ 1 + (n + 16) / 2 ^ 22 := by
  have hn0 : 0 < n := by linarith
  have hE1 : (n + 7) / 2 ^ 23 ≤ 1 / 2 ^ 6 := by
    rw [div_le_iff₀ (by norm_num)]; linarith
  obtain ⟨w, hw⟩ : ∃ w : ℚ, w = X / R := ⟨_, rfl⟩
  have hwR : w * R = X := by rw [hw]; field_simp
  have hZw : X * n / R = w * n := by
    rw [hw]; field_simp
  rw [hZw] at hb3 hb4
  have hE0 : (0 : ℚ) ≤ (n + 7) / 2 ^ 23 := by positivity
  have hw0 : 0 < w := by rw [hw]; exact div_pos hX hR
  have w1 : w * (1 - (n + 7) / 2 ^ 23) ≤ 1 := by
    have : w * (1 - (n + 7) / 2 ^ 23) * R ≤ 1 * R := by
      calc w * (1 - (n + 7) / 2 ^ 23) * R
          = w * R * (1 - (n + 7) / 2 ^ 23) := by ring
        _ = X * (1 - (n + 7) / 2 ^ 23) := by rw [hwR]
        _ ≤ R := q1
        _ = 1 * R := by ring
    exact le_of_mul_le_mul_right this hR
  have w2 : 1 ≤ w * (1 + (n + 7) / 2 ^ 23) := by
    have : 1 * R ≤ w * (1 + (n + 7) / 2 ^ 23) * R := by
      calc 1 * R = R := by ring
        _ ≤ X * (1 + (n + 7) / 2 ^ 23) := q2
        _ = w * R * (1 + (n + 7) / 2 ^ 23) := by rw [hwR]
        _ = w * (1 + (n + 7) / 2 ^ 23) * R := by ring
    exact le_of_mul_le_mul_right this hR
  clear q1 q2 hwR hw hZw
  have w3 : w ≤ 2 := by
    have : w * (1 / 2) ≤ w * (1 - (n + 7) / 2 ^ 23) :=
      mul_le_mul_of_nonneg_left (by linarith) hw0.le
    linarith
  have w4 : w * ((n + 7) / 2 ^ 23) ≤ 2 * ((n + 7) / 2 ^ 23) :=
    mul_le_mul_of_nonneg_right w3 hE0
  have hE : 2 * ((n + 7) / 2 ^ 23) + 2 * (1 / 2 ^ 22) ≤ (n + 16) / 2 ^ 22 := by
    have h5 : (n + 16) / 2 ^ 22 - (2 * ((n + 7) / 2 ^ 23) + 2 * (1 / 2 ^ 22))
        = 7 / 2 ^ 22 := by ring
    have h6 : (0 : ℚ) ≤ 7 / 2 ^ 22 := by norm_num
    linarith
  have c3 : w * (1 / 2 ^ 22) ≤ 2 * (1 / 2 ^ 22) :=
    mul_le_mul_of_nonneg_right w3 (by norm_num)
  have e1 : w * (1 - 1 / 2 ^ 22) = w - w * (1 / 2 ^ 22) := by ring
  have e2 : w * (1 + 1 / 2 ^ 22) = w + w * (1 / 2 ^ 22) := by ring
  have e3 : w * (1 + (n + 7) / 2 ^ 23) = w + w * ((n + 7) / 2 ^ 23) := by ring
  have e4 : w * (1 - (n + 7) / 2 ^ 23) = w - w * ((n + 7) / 2 ^ 23) := by ring
  have lo : 1 - (n + 16) / 2 ^ 22 ≤ w * (1 - 1 / 2 ^ 22) := by
    rw [e1]; rw [e3] at w2; linarith
  have hi : w * (1 + 1 / 2 ^ 22) ≤ 1 + (n + 16) / 2 ^ 22 := by
    rw [e2]; rw [e4] at w1; linarith
  constructor
  · rw [le_div_iff₀ hn0]
    calc (1 - (n + 16) / 2 ^ 22) * n ≤ w * (1 - 1 / 2 ^ 22) * n :=
          mul_le_mul_of_nonneg_right lo hn0.le
      _ = w * n * (1 - 1 / 2 ^ 22) := by ring
      _ ≤ T := hb3
  · rw [div_le_iff₀ hn0]
    calc T ≤ w * n * (1 + 1 / 2 ^ 22) := hb4
      _ = w * (1 + 1 / 2 ^ 22) * n := by ring
      _ ≤ (1 + (n + 16) / 2 ^ 22) * n := mul_le_mul_of_nonneg_right hi hn0.le

/-- From the rounded mean `V` and the rounded root `r`: the square of the
variation against the exact mean square `X`. -/
theorem variation_sq_near (X V R n : ℚ) (hn1 : 1 ≤ n) (hn2 : n ≤ 2 ^ 16) (hX : 0 < X)
    (v1 : X * (1 - (n + 2) / 2 ^ 23) ≤ V) (v2 : V ≤ X * (1 + (n + 2) / 2 ^ 23))
    (r1 : V * (1 - 1 / 2 ^ 21) ≤ R) (r2 : R ≤ V * (1 + 1 / 2 ^ 21)) :
    X * (1 - (n + 7) / 2 ^ 23) ≤ R ∧ R ≤ X * (1 + (n + 7) / 2 ^ 23) := by
  have he3 : (n + 2) / 2 ^ 23 ≤ 1 / 2 ^ 6 := by
    rw [div_le_iff₀ (by norm_num)]; linarith
  have he4 : (0 : ℚ) ≤ (n + 2) / 2 ^ 23 := by positivity
  have h7 : (n + 7) / 2 ^ 23 = (n + 2) / 2 ^ 23 + 1 / 2 ^ 21 + 1 / 2 ^ 23 := by ring
  constructor
  · have c1 : X * (1 - (n + 2) / 2 ^ 23) * (1 - 1 / 2 ^ 21) ≤ V * (1 - 1 / 2 ^ 21) :=
      mul_le_mul_of_nonneg_right v1 (by norm_num)
    have c2 : (1 : ℚ) - (n + 7) / 2 ^ 23 ≤ (1 - (n + 2) / 2 ^ 23) * (1 - 1 / 2 ^ 21) := by
      have h5 : (1 - (n + 2) / 2 ^ 23) * (1 - 1 / 2 ^ 21)
          = 1 - (n + 2) / 2 ^ 23 - 1 / 2 ^ 21 + (n + 2) / 2 ^ 23 * (1 / 2 ^ 21) := by ring
      rw [h5]
      have h6 : (0 : ℚ) ≤ (n + 2) / 2 ^ 23 * (1 / 2 ^ 21) := by positivity
      rw [h7]
      have h8 : (0 : ℚ) ≤ 1 / 2 ^ 23 := by norm_num
      linarith
    have c3 := mul_le_mul_of_nonneg_left c2 hX.le
    have c4 : X * ((1 - (n + 2) / 2 ^ 23) * (1 - 1 / 2 ^ 21))
        = X * (1 - (n + 2) / 2 ^ 23) * (1 - 1 / 2 ^ 21) := by ring
    linarith
  · have c1 : V * (1 + 1 / 2 ^ 21) ≤ X * (1 + (n + 2) / 2 ^ 23) * (1 + 1 / 2 ^ 21) :=
      mul_le_mul_of_nonneg_right v2 (by norm_num)
    have c2 : (1 + (n + 2) / 2 ^ 23) * (1 + 1 / 2 ^ 21) ≤ (1 : ℚ) + (n + 7) / 2 ^ 23 := by
      have h5 : (1 + (n + 2) / 2 ^ 23) * (1 + 1 / 2 ^ 21)
          = 1 + (n + 2) / 2 ^ 23 + 1 / 2 ^ 21 + (n + 2) / 2 ^ 23 * (1 / 2 ^ 21) := by ring
      rw [h5]
      have h6 : (n + 2) / 2 ^ 23 * (1 / 2 ^ 21) ≤ 1 / 2 ^ 6 * (1 / 2 ^ 21) :=
        mul_le_mul_of_nonneg_right he3 (by norm_num)
      have h8 : (1 : ℚ) / 2 ^ 6 * (1 / 2 ^ 21) ≤ 1 / 2 ^ 23 := by norm_num
      rw [h7]
      linarith
    have c3 := mul_le_mul_of_nonneg_left c2 hX.le
    have c4 : X * ((1 + (n + 2) / 2 ^ 23) * (1 + 1 / 2 ^ 21))
        = X * (1 + (n + 2) / 2 ^ 23) * (1 + 1 / 2 ^ 21) := by ring
    linarith

/-- A positive `r` with `r^2` in `[2^-98, 2^82]` lies in `[2^-49, 2^41]`. -/
theorem root_range (r : ℚ) (hr : 0 < r) (h1 : 1 / 2 ^ 98 ≤ r * r) (h2 : r * r ≤ 2 ^ 82) :
    1 / 2 ^ 49 ≤ r ∧ r ≤ 2 ^ 41 := by
  constructor
  · by_contra hneg
    push_neg at hneg
    have h3 : r * r < 1 / 2 ^ 49 * (1 / 2 ^ 49) := mul_lt_mul'' hneg hneg hr.le hr.le
    have h5 : (1 : ℚ) / 2 ^ 49 * (1 / 2 ^ 49) = 1 / 2 ^ 98 := by norm_num
    linarith
  · by_contra hneg
    push_neg at hneg
    have h3 : (2 : ℚ) ^ 41 * 2 ^ 41 < r * r :=
      mul_lt_mul'' hneg hneg (by positivity) (by positivity)
    have h5 : (2 : ℚ) ^ 41 * 2 ^ 41 = 2 ^ 82 := by norm_num
    linarith

/-- Unit root mean square up to rounding: the `float` variation `r` of the
values `xs` (`sqrt( sum x^2 / n )` with the `float` accumulation of the source)
is positive, and the mean of the squares of the `float` quotients `x / r` is
within `(n + 16) / 2^22` of 1. -/
theorem ieee_unit_rms (xs : List ℚ) (hn : xs.length ≤ 2 ^ 16)
    (hr : ∀ x ∈ xs, x = 0 ∨ (1 / 2 ^ 40 ≤ |x| ∧ |x| ≤ 2 ^ 40)) (h0 : ∃ x ∈ xs, x ≠ 0) :
    ∃ r : ℚ,
      Flt.sqrtf (Flt.f32 ((xs.map Flt.fin).foldl (fun a v => Flt.f32 (a + Flt.f32 (v * v)))
        (Flt.fin 0) / Flt.fin (xs.length : ℚ))) = Flt.fin r ∧ 0 < r ∧
      ∃ B : ℚ, meanSquare (xs.map (fun x => Flt.f32 (Flt.fin x / Flt.fin r))) = Flt.fin B ∧
        1 - ((xs.length : ℚ) + 16) / 2 ^ 22 ≤ B ∧ B ≤ 1 + ((xs.length : ℚ) + 16) / 2 ^ 22 := by
  have hne : xs ≠ [] := by
    obtain ⟨x, hx, _⟩ := h0
    exact List.ne_nil_of_mem hx
  have hlen : 0 < xs.length := List.length_pos.mpr hne
  have hn1 : (1 : ℚ) ≤ (xs.length : ℚ) := by exact_mod_cast hlen
  have hn2 : (xs.length : ℚ) ≤ 2 ^ 16 := by exact_mod_cast hn
  have hZ := sum_sq_pos xs h0
  obtain ⟨S, hS, AS⟩ := fold_squares_near xs hr 0 0 0 (by simpa using hn) (Or.inl ⟨rfl, rfl⟩)
  simp only [Nat.zero_add, zero_add] at AS
  obtain ⟨Z, hZdef⟩ : ∃ Z : ℚ, Z = (xs.map (fun x => x * x)).sum := ⟨_, rfl⟩
  obtain ⟨n, hndef⟩ : ∃ n : ℚ, n = (xs.length : ℚ) := ⟨_, rfl⟩
  rw [← hZdef] at hZ AS
  rw [← hndef] at hn1 hn2 AS ⊢
  have hn0 : 0 < n := by linarith
  rcases AS with ⟨hz, _⟩ | ⟨z1, z2, z3, z4⟩
  · exact absurd hz hZ.ne'
  have he0 : (0 : ℚ) ≤ (n + 1) / 2 ^ 23 := by positivity
  have he1 : (n + 1) / 2 ^ 23 ≤ 1 / 2 := by
    rw [div_le_iff₀ (by norm_num)]; linarith
  have AX : Approx ((n + 1) / 2 ^ 23) (1 / 2 ^ 96) (2 ^ 80) (Z / n) (S / n) := by
    refine Or.inr ⟨?_, ?_, ?_, ?_⟩
    · rw [le_div_iff₀ hn0]
      calc (1 : ℚ) / 2 ^ 96 * n ≤ 1 / 2 ^ 96 * 2 ^ 16 :=
            mul_le_mul_of_nonneg_left hn2 (by norm_num)
        _ = 1 / 2 ^ 80 := by norm_num
        _ ≤ Z := z1
    · rw [div_le_iff₀ hn0]; linarith
    · rw [div_mul_eq_mul_div]; exact div_le_div_of_nonneg_right z3 hn0.le
    · rw [div_mul_eq_mul_div]; exact div_le_div_of_nonneg_right z4 hn0.le
  obtain ⟨V, hV, AV⟩ := approx_f32 _ _ _ _ _ AX he0 he1 (by norm_num) (by norm_num)
  clear AX z3 z4 he0 he1
  have hX : 0 < Z / n := div_pos hZ hn0
  obtain ⟨X, hXdef⟩ : ∃ X : ℚ, X = Z / n := ⟨_, rfl⟩
  rw [← hXdef] at AV hX
  rcases AV with ⟨hx0, _⟩ | ⟨x1, x2, v1, v2⟩
  · exact absurd hx0 hX.ne'
  have he2 : (n + 1) / 2 ^ 23 + 1 / 2 ^ 23 = (n + 2) / 2 ^ 23 := by ring
  rw [he2] at v1 v2
  have he3 : (n + 2) / 2 ^ 23 ≤ 1 / 2 := by
    rw [div_le_iff₀ (by norm_num)]; linarith
  have hV1 : X * (1 / 2) ≤ V :=
    le_trans (mul_le_mul_of_nonneg_left (by linarith) hX.le) v1
  have hV2 : V ≤ X * 2 :=
    le_trans v2 (mul_le_mul_of_nonneg_left (by linarith) hX.le)
  obtain ⟨r, hr', hrpos, r1, r2⟩ := sqrtf_sq_near V
    (le_trans (le_trans (by norm_num) (mul_le_mul_of_nonneg_right x1 (by norm_num))) hV1)
    (le_trans hV2 (le_trans (mul_le_mul_of_nonneg_right x2 (by norm_num)) (by norm_num)))
  obtain ⟨q1, q2⟩ := variation_sq_near X V (r * r) n hn1 hn2 hX v1 v2 r1 r2
  have hE1 : (n + 7) / 2 ^ 23 ≤ 1 / 2 := by
    rw [div_le_iff₀ (by norm_num)]; linarith
  have hrr1 : 1 / 2 ^ 98 ≤ r * r :=
    le_trans (le_trans (le_trans (by norm_num) (mul_le_mul_of_nonneg_right x1 (by norm_num)))
      (mul_le_mul_of_nonneg_left (by linarith) hX.le : X * (1 / 2) ≤ _)) q1
  have hrr2 : r * r ≤ 2 ^ 82 :=
    le_trans q2 (le_trans (mul_le_mul_of_nonneg_left (by linarith) hX.le : _ ≤ X * 2)
      (le_trans (mul_le_mul_of_nonneg_right x2 (by norm_num)) (by norm_num)))
  obtain ⟨hr1, hr2⟩ := root_range r hrpos hrr1 hrr2
  obtain ⟨bs, hb1, hb2, hb3, hb4⟩ := normalized_squares_near r hr1 hr2 xs hr
  have hbne : bs ≠ [] := by
    intro h
    rw [h] at hb2
    simp at hb2
    omega
  have hblen : (bs.length : ℚ) = n := by rw [hb2, hndef]
  rw [← hZdef] at hb3 hb4
  have hZX : Z = X * n := by rw [hXdef]; field_simp
  rw [hZX] at hb3 hb4
  obtain ⟨g1, g2⟩ := unit_rms_bound X (r * r) n _ hn1 hn2 hX (mul_pos hrpos hrpos) q1 q2 hb3 hb4
  refine ⟨r, ?_, hrpos, (bs.map (fun b => b * b)).sum / n, ?_, g1, g2⟩
  · rw [hS, Flt.fin_div _ _ hn0.ne', hV, hr']
  · rw [hb1, meanSquare_fin bs hbne, hblen]

theorem ieee_foldl_variationStep (mean stddev brightness : Scalar) (samples : List Vec3b) :
    ∀ acc : Flt × Flt × Nat,
      samples.foldl (ieee.variationStep mean stddev brightness) acc
        = ((samples.map (fun p =>
              Flt.f32 (ieee.computeBrightnessDistortion p brightness - 1))).foldl
            (fun a v => Flt.f32 (a + Flt.f32 (v * v))) acc.1,
           (samples.map (fun p => ieee.computeChromacityDistortion p mean stddev
              (ieee.computeBrightnessDistortion p brightness))).foldl
            (fun a v => Flt.f32 (a + Flt.f32 (v * v))) acc.2.1,
           acc.2.2 + samples.length) := by
  induction samples with
  | nil => intro acc; rfl
  | cons p l ih =>
      intro acc
      simp only [List.foldl_cons, List.map_cons, ih, ieee.variationStep, List.length_cons]
      refine Prod.ext rfl (Prod.ext rfl ?_)
      simp only []
      omega

/-- Normalization in `float` (spatial mode): when the `float` differences
`alpha - 1` and the `float` chromaticity distortions of the selected training
pixels are the finite values `xs` and `ys`, zero or of magnitude in
`[2^-40, 2^40]` and not all zero, the variations that the code stores are
positive and the means of the squares of the normalized distortions of the
selected pixels are within `(n + 16) / 2^22` of 1, `n <= 2^16` being the
number of selected pixels. -/
theorem ieee_normalized_unit_rms (mean stddev brightness : Scalar) (image : Mat Vec3b)
    (mask : Mat Nat) (xs ys : List ℚ) (hshape : image.shape = mask.shape)
    (hx : (selectedPixels image mask).map
        (fun p => Flt.f32 (ieee.computeBrightnessDistortion p brightness - 1))
      = xs.map Flt.fin)
    (hy : (selectedPixels image mask).map
        (fun p => ieee.computeChromacityDistortion p mean stddev
          (ieee.computeBrightnessDistortion p brightness))
      = ys.map Flt.fin)
    (hn : (selectedPixels image mask).length ≤ 2 ^ 16)
    (hxr : ∀ x ∈ xs, x = 0 ∨ (1 / 2 ^ 40 ≤ |x| ∧ |x| ≤ 2 ^ 40))
    (hyr : ∀ y ∈ ys, y = 0 ∨ (1 / 2 ^ 40 ≤ |y| ∧ |y| ≤ 2 ^ 40))
    (hx0 : ∃ x ∈ xs, x ≠ 0) (hy0 : ∃ y ∈ ys, y ≠ 0) :
    ∃ bvar cvar B C : ℚ,
      ieee.computeVariations mean stddev brightness image mask
        = some (Flt.fin bvar, Flt.fin cvar) ∧ 0 < bvar ∧ 0 < cvar ∧
      meanSquare ((selectedPixels image mask).map (fun p =>
        (ieee.normalizedPixel mean stddev brightness (Flt.fin bvar) (Flt.fin cvar) p).1))
        = Flt.fin B ∧
      meanSquare ((selectedPixels image mask).map (fun p =>
        (ieee.normalizedPixel mean stddev brightness (Flt.fin bvar) (Flt.fin cvar) p).2))
        = Flt.fin C ∧
      1 - (((selectedPixels image mask).length : ℚ) + 16) / 2 ^ 22 ≤ B ∧
      B ≤ 1 + (((selectedPixels image mask).length : ℚ) + 16) / 2 ^ 22 ∧
      1 - (((selectedPixels image mask).length : ℚ) + 16) / 2 ^ 22 ≤ C ∧
      C ≤ 1 + (((selectedPixels image mask).length : ℚ) + 16) / 2 ^ 22 := by
  have lx : xs.length = (selectedPixels image mask).length := by
    have := congrArg List.length hx
    simpa using this.symm
  have ly : ys.length = (selectedPixels image mask).length := by
    have := congrArg List.length hy
    simpa using this.symm
  obtain ⟨r, hr, hrpos, B, hB, b1, b2⟩ := ieee_unit_rms xs (by rw [lx]; exact hn) hxr hx0
  obtain ⟨t, ht, htpos, C, hC, c1, c2⟩ := ieee_unit_rms ys (by rw [ly]; exact hn) hyr hy0
  rw [lx] at hr b1 b2
  rw [ly] at ht c1 c2
  have hpos : 0 < (selectedPixels image mask).length := by
    obtain ⟨x, hxm, _⟩ := hx0
    rw [← lx]
    exact List.length_pos.mpr (List.ne_nil_of_mem hxm)
  have hcast := f32_natCast (selectedPixels image mask).length hpos
    (lt_of_le_of_lt hn (by norm_num))
  refine ⟨r, t, B, C, ?_, hrpos, htpos, ?_, ?_, b1, b2, c1, c2⟩
  · unfold ieee.computeVariations
    rw [if_pos hshape]
    simp only [ieee_foldl_variationStep]
    rw [hx, hy]
    simp only [Nat.zero_add, gt_iff_lt, if_pos hpos, Flt.natCast_eq, hcast, Flt.ofNat_eq,
      Nat.cast_zero]
    rw [hr, ht]
  · have hmap : (selectedPixels image mask).map (fun p =>
        (ieee.normalizedPixel mean stddev brightness (Flt.fin r) (Flt.fin t) p).1)
        = xs.map (fun x => Flt.f32 (Flt.fin x / Flt.fin r)) := by
      have h1 : (selectedPixels image mask).map (fun p =>
          (ieee.normalizedPixel mean stddev brightness (Flt.fin r) (Flt.fin t) p).1)
          = ((selectedPixels image mask).map (fun p =>
              Flt.f32 (ieee.computeBrightnessDistortion p brightness - 1))).map
            (fun v => Flt.f32 (v / Flt.fin r)) := by
        rw [List.map_map]; rfl
      rw [h1, hx, List.map_map]; rfl
    rw [hmap]; exact hB
  · have hmap : (selectedPixels image mask).map (fun p =>
        (ieee.normalizedPixel mean stddev brightness (Flt.fin r) (Flt.fin t) p).2)
        = ys.map (fun y => Flt.f32 (Flt.fin y / Flt.fin t)) := by
      have h1 : (selectedPixels image mask).map (fun p =>
          (ieee.normalizedPixel mean stddev brightness (Flt.fin r) (Flt.fin t) p).2)
          = ((selectedPixels image mask).map (fun p =>
              ieee.computeChromacityDistortion p mean stddev
                (ieee.computeBrightnessDistortion p brightness))).map
            (fun v => Flt.f32 (v / Flt.fin t)) := by
        rw [List.map_map]; rfl
      rw [h1, hy, List.map_map]; rfl
    rw [hmap]; exact hC


/-- C34 (amended): in exact arithmetic, normalization divides the mean squares
of the training distortions by the squares of the variations.  In spatial mode
with a non-empty selection and non-zero variations, the mean over the selected
pixels of `bn^2` is the mean of `(alpha - 1)^2` divided by the square of the
brightness variation, and it is 1 exactly when that square is the mean of
`(alpha - 1)^2`, that is when the square root that gave the variation is
exact; likewise for `cn^2`, `CD^2` and the chromaticity variation.  In temporal
mode the same holds at every site with non-zero variations, over the
normalized values of the `N` training frames at that site.  With the roundings
of the source, in spatial mode: when the `float` differences `alpha - 1` and
the `float` chromaticity distortions of the `n <= 2^16` selected pixels are
finite, zero or of magnitude in `[2^-40, 2^40]`, and not all zero, the stored
variations are positive and the means of `bn^2` and of `cn^2` over the selected
pixels are within `(n + 16) / 2^22` of 1. -/
theorem C34_normalized_mean_square (sq : Sqrtf) :
    (∀ (oob_c oob_b rate : Flt) (image : Mat Vec3b) (mask : Mat Nat) (m : SingleLCM),
      SingleLCM.computeModel sq oob_c oob_b rate image mask = some m →
      selectedPixels image mask ≠ [] →
      m._bdist_variation ≠ Flt.fin 0 → m._cdist_variation ≠ Flt.fin 0 →
      (meanSquare ((selectedPixels image mask).map
            (fun p => (SingleLCM.normalizedPixel sq m p).1))
          = meanSquare ((selectedPixels image mask).map
              (fun p => sampleAlpha (m._mean, m._stddev, m._brightness) p - 1))
            / (m._bdist_variation * m._bdist_variation) ∧
        (meanSquare ((selectedPixels image mask).map
            (fun p => (SingleLCM.normalizedPixel sq m p).1)) = Flt.fin 1 ↔
          m._bdist_variation * m._bdist_variation
            = meanSquare ((selectedPixels image mask).map
              (fun p => sampleAlpha (m._mean, m._stddev, m._brightness) p - 1)))) ∧
      (meanSquare ((selectedPixels image mask).map
            (fun p => (SingleLCM.normalizedPixel sq m p).2))
          = meanSquare ((selectedPixels image mask).map
              (fun p => sampleCD sq (m._mean, m._stddev, m._brightness) p))
            / (m._cdist_variation * m._cdist_variation) ∧
        (meanSquare ((selectedPixels image mask).map
            (fun p => (SingleLCM.normalizedPixel sq m p).2)) = Flt.fin 1 ↔
          m._cdist_variation * m._cdist_variation
            = meanSquare ((selectedPixels image mask).map
              (fun p => sampleCD sq (m._mean, m._stddev, m._brightness) p))))) ∧
    (∀ (oob_c oob_b rate : Flt) (images : List (Mat Vec3b)) (m : MultipleLCM),
      MultipleLCM.construct sq oob_c oob_b rate images = .ok m →
      ∀ (y x : Nat) (samples : List Vec3b) (mean stddev brightness : Scalar) (bvar cvar : Flt),
        pixelsAt images y x = .ok samples →
        Mat.get? m._mean y x = some mean → Mat.get? m._stddev y x = some stddev →
        Mat.get? m._brightness y x = some brightness →
        Mat.get? m._bdist_variation y x = some bvar →
        Mat.get? m._cdist_variation y x = some cvar →
        bvar ≠ Flt.fin 0 → cvar ≠ Flt.fin 0 →
        ∃ norms : List (Flt × Flt),
          List.Forall₂ (fun image n => MultipleLCM.normalizedSite sq m image y x = .ok n)
            images norms ∧
          (meanSquare (norms.map Prod.fst)
              = meanSquare (samples.map
                  (fun p => sampleAlpha (mean, stddev, brightness) p - 1)) / (bvar * bvar) ∧
            (meanSquare (norms.map Prod.fst) = Flt.fin 1 ↔
              bvar * bvar = meanSquare (samples.map
                  (fun p => sampleAlpha (mean, stddev, brightness) p - 1)))) ∧
          (meanSquare (norms.map Prod.snd)
              = meanSquare (samples.map
                  (fun p => sampleCD sq (mean, stddev, brightness) p)) / (cvar * cvar) ∧
            (meanSquare (norms.map Prod.snd) = Flt.fin 1 ↔
              cvar * cvar = meanSquare (samples.map
                  (fun p => sampleCD sq (mean, stddev, brightness) p))))) ∧
    (∀ (mean stddev brightness : Scalar) (image : Mat Vec3b) (mask : Mat Nat) (xs ys : List ℚ),
      image.shape = mask.shape →
      (selectedPixels image mask).map
          (fun p => Flt.f32 (ieee.computeBrightnessDistortion p brightness - 1))
        = xs.map Flt.fin →
      (selectedPixels image mask).map
          (fun p => ieee.computeChromacityDistortion p mean stddev
            (ieee.computeBrightnessDistortion p brightness))
        = ys.map Flt.fin →
      (selectedPixels image mask).length ≤ 2 ^ 16 →
      (∀ x ∈ xs, x = 0 ∨ (1 / 2 ^ 40 ≤ |x| ∧ |x| ≤ 2 ^ 40)) →
      (∀ y ∈ ys, y = 0 ∨ (1 / 2 ^ 40 ≤ |y| ∧ |y| ≤ 2 ^ 40)) →
      (∃ x ∈ xs, x ≠ 0) → (∃ y ∈ ys, y ≠ 0) →
      ∃ bvar cvar B C : ℚ,
        ieee.computeVariations mean stddev brightness image mask
          = some (Flt.fin bvar, Flt.fin cvar) ∧ 0 < bvar ∧ 0 < cvar ∧
        meanSquare ((selectedPixels image mask).map (fun p =>
          (ieee.normalizedPixel mean stddev brightness (Flt.fin bvar) (Flt.fin cvar) p).1))
          = Flt.fin B ∧
        meanSquare ((selectedPixels image mask).map (fun p =>
          (ieee.normalizedPixel mean stddev brightness (Flt.fin bvar) (Flt.fin cvar) p).2))
          = Flt.fin C ∧
        1 - (((selectedPixels image mask).length : ℚ) + 16) / 2 ^ 22 ≤ B ∧
        B ≤ 1 + (((selectedPixels image mask).length : ℚ) + 16) / 2 ^ 22 ∧
        1 - (((selectedPixels image mask).length : ℚ) + 16) / 2 ^ 22 ≤ C ∧
        C ≤ 1 + (((selectedPixels image mask).length : ℚ) + 16) / 2 ^ 22) := by
  refine ⟨?_, ?_, fun mean stddev brightness image mask xs ys hshape hx hy hn hxr hyr hx0 hy0 =>
    ieee_normalized_unit_rms mean stddev brightness image mask xs ys hshape hx hy hn hxr hyr
      hx0 hy0⟩
  · intro oob_c oob_b rate image mask m hm hne hb0 hc0
    obtain ⟨h1, h2, h3, hv⟩ := SingleLCM.computeModel_fields sq oob_c oob_b rate image mask m hm
    have hstats : (m._mean, m._stddev, m._brightness)
        = siteStatistics (meanStdDev sq (selectedPixels image mask)) := by
      rw [h1, h2, h3]
      rfl
    have hshape : image.shape = mask.shape := by
      by_contra hns
      unfold SingleLCM.computeVariations at hv
      rw [if_neg hns] at hv
      cases hv
    have hk : 1 ≤ (selectedPixels image mask).length := List.length_pos.mpr hne
    have hrms := computeVariations_rms sq (SingleLCM.computeModelMeanStdDev sq image mask)
      image mask hshape hk
    rw [hv, Option.some.injEq] at hrms
    obtain ⟨v, w, hvw⟩ := rmsVariations_fin sq (selectedPixels image mask)
      (selectedPixels image mask) hne
    have hvw2 : (m._bdist_variation, m._cdist_variation) = (Flt.fin v, Flt.fin w) := by
      rw [hrms]
      exact hvw
    have hbv : m._bdist_variation = Flt.fin v := congrArg Prod.fst hvw2
    have hcv : m._cdist_variation = Flt.fin w := congrArg Prod.snd hvw2
    have hv0 : v ≠ 0 := by
      intro h
      apply hb0
      rw [hbv, h]
    have hw0 : w ≠ 0 := by
      intro h
      apply hc0
      rw [hcv, h]
    have h := normalized_meanSquare sq (selectedPixels image mask) (selectedPixels image mask)
      hne v w hv0 hw0
    rw [← hstats, ← hbv, ← hcv] at h
    exact h
  · intro oob_c oob_b rate images m hm y x samples mean stddev brightness bvar cvar
      hps g1 g2 g3 g4 g5 hb0 hc0
    obtain ⟨samples2, hps2, hlen, k1, k2, k3, hrms⟩ :=
      MultipleLCM.site_of_trained sq oob_c oob_b rate images m hm y x bvar cvar g4 g5
    rw [hps, Except.ok.injEq] at hps2
    subst hps2
    have hstats : (mean, stddev, brightness) = siteStatistics (meanStdDev sq samples) := by
      rw [g1, Option.some.injEq] at k1
      rw [g2, Option.some.injEq] at k2
      rw [g3, Option.some.injEq] at k3
      rw [k1, k2, k3]
    have hne : samples ≠ [] := by
      obtain ⟨first, rest, _, _, himg, _⟩ :=
        MultipleLCM.construct_fields sq oob_c oob_b rate images m hm
      intro h
      rw [h, himg] at hlen
      simp at hlen
    obtain ⟨v, w, hvw⟩ := rmsVariations_fin sq samples samples hne
    rw [hvw] at hrms
    have hbv : bvar = Flt.fin v := congrArg Prod.fst hrms
    have hcv : cvar = Flt.fin w := congrArg Prod.snd hrms
    have hv0 : v ≠ 0 := by
      intro h
      apply hb0
      rw [hbv, h]
    have hw0 : w ≠ 0 := by
      intro h
      apply hc0
      rw [hcv, h]
    have h := normalized_meanSquare sq samples samples hne v w hv0 hw0
    rw [← hstats, ← hbv, ← hcv] at h
    refine ⟨samples.map (normalizedSample sq (mean, stddev, brightness) bvar cvar),
      normalizedSite_samples sq m y x (mean, stddev, brightness) bvar cvar g1 g2 g3 g4 g5
        images samples hps, ?_, ?_⟩
    · rw [List.map_map]
      exact h.1
    · rw [List.map_map]
      exact h.2

theorem C34_normalized_mean_square_witness :
    ((meanSquare ((selectedPixels demoImage demoMask).map
            (fun p => (SingleLCM.normalizedPixel sqrtQ demoModel p).1))
          = meanSquare ((selectedPixels demoImage demoMask).map
              (fun p => sampleAlpha (demoModel._mean, demoModel._stddev, demoModel._brightness)
                p - 1))
            / (demoModel._bdist_variation * demoModel._bdist_variation) ∧
        (meanSquare ((selectedPixels demoImage demoMask).map
            (fun p => (SingleLCM.normalizedPixel sqrtQ demoModel p).1)) = Flt.fin 1 ↔
          demoModel._bdist_variation * demoModel._bdist_variation
            = meanSquare ((selectedPixels demoImage demoMask).map
              (fun p => sampleAlpha (demoModel._mean, demoModel._stddev, demoModel._brightness)
                p - 1)))) ∧
      (meanSquare ((selectedPixels demoImage demoMask).map
            (fun p => (SingleLCM.normalizedPixel sqrtQ demoModel p).2))
          = meanSquare ((selectedPixels demoImage demoMask).map
              (fun p => sampleCD sqrtQ (demoModel._mean, demoModel._stddev,
                demoModel._brightness) p))
            / (demoModel._cdist_variation * demoModel._cdist_variation) ∧
        (meanSquare ((selectedPixels demoImage demoMask).map
            (fun p => (SingleLCM.normalizedPixel sqrtQ demoModel p).2)) = Flt.fin 1 ↔
          demoModel._cdist_variation * demoModel._cdist_variation
            = meanSquare ((selectedPixels demoImage demoMask).map
              (fun p => sampleCD sqrtQ (demoModel._mean, demoModel._stddev,
                demoModel._brightness) p))))) ∧
    (∃ norms : List (Flt × Flt),
      List.Forall₂ (fun image n => MultipleLCM.normalizedSite sqrtQ twoFramesModel image 0 0
        = .ok n) twoFrames norms ∧
      (meanSquare (norms.map Prod.fst)
          = meanSquare (([⟨30, 30, 90⟩, ⟨10, 10, 70⟩] : List Vec3b).map
              (fun p => sampleAlpha (⟨.fin 20, .fin 20, .fin 80⟩, ⟨.fin 10, .fin 10, .fin 10⟩,
                ⟨.fin (1 / 360), .fin (1 / 360), .fin (1 / 90)⟩) p - 1))
            / (Flt.fin (1 / 6) * Flt.fin (1 / 6)) ∧
        (meanSquare (norms.map Prod.fst) = Flt.fin 1 ↔
          Flt.fin (1 / 6) * Flt.fin (1 / 6)
            = meanSquare (([⟨30, 30, 90⟩, ⟨10, 10, 70⟩] : List Vec3b).map
              (fun p => sampleAlpha (⟨.fin 20, .fin 20, .fin 80⟩, ⟨.fin 10, .fin 10, .fin 10⟩,
                ⟨.fin (1 / 360), .fin (1 / 360), .fin (1 / 90)⟩) p - 1)))) ∧
      (meanSquare (norms.map Prod.snd)
          = meanSquare (([⟨30, 30, 90⟩, ⟨10, 10, 70⟩] : List Vec3b).map
              (fun p => sampleCD sqrtQ (⟨.fin 20, .fin 20, .fin 80⟩,
                ⟨.fin 10, .fin 10, .fin 10⟩,
                ⟨.fin (1 / 360), .fin (1 / 360), .fin (1 / 90)⟩) p))
            / (Flt.fin 1 * Flt.fin 1) ∧
        (meanSquare (norms.map Prod.snd) = Flt.fin 1 ↔
          Flt.fin 1 * Flt.fin 1
            = meanSquare (([⟨30, 30, 90⟩, ⟨10, 10, 70⟩] : List Vec3b).map
              (fun p => sampleCD sqrtQ (⟨.fin 20, .fin 20, .fin 80⟩,
                ⟨.fin 10, .fin 10, .fin 10⟩,
                ⟨.fin (1 / 360), .fin (1 / 360), .fin (1 / 90)⟩) p))))) ∧
    ∃ bvar cvar B C : ℚ,
      ieee.computeVariations twoPixelsStats.1 twoPixelsStats.2.1 twoPixelsStats.2.2
          twoPixels [[1, 1]]
        = some (Flt.fin bvar, Flt.fin cvar) ∧ 0 < bvar ∧ 0 < cvar ∧
      meanSquare ((selectedPixels twoPixels [[1, 1]]).map (fun p =>
        (ieee.normalizedPixel twoPixelsStats.1 twoPixelsStats.2.1 twoPixelsStats.2.2
          (Flt.fin bvar) (Flt.fin cvar) p).1))
        = Flt.fin B ∧
      meanSquare ((selectedPixels twoPixels [[1, 1]]).map (fun p =>
        (ieee.normalizedPixel twoPixelsStats.1 twoPixelsStats.2.1 twoPixelsStats.2.2
          (Flt.fin bvar) (Flt.fin cvar) p).2))
        = Flt.fin C ∧
      1 - (((selectedPixels twoPixels [[1, 1]]).length : ℚ) + 16) / 2 ^ 22 ≤ B ∧
      B ≤ 1 + (((selectedPixels twoPixels [[1, 1]]).length : ℚ) + 16) / 2 ^ 22 ∧
      1 - (((selectedPixels twoPixels [[1, 1]]).length : ℚ) + 16) / 2 ^ 22 ≤ C ∧
      C ≤ 1 + (((selectedPixels twoPixels [[1, 1]]).length : ℚ) + 16) / 2 ^ 22 :=
  ⟨(C34_normalized_mean_square sqrtQ).1 0 0 (.fin (9 / 10)) demoImage demoMask demoModel
      demoModel_trained (by decide) (by decide!) (by decide!),
   (C34_normalized_mean_square sqrtQ).2.1 0 0 (.fin (9 / 10)) twoFrames twoFramesModel
      twoFrames_trained 0 0 [⟨30, 30, 90⟩, ⟨10, 10, 70⟩]
      ⟨.fin 20, .fin 20, .fin 80⟩ ⟨.fin 10, .fin 10, .fin 10⟩
      ⟨.fin (1 / 360), .fin (1 / 360), .fin (1 / 90)⟩ (.fin (1 / 6)) (.fin 1)
      rfl rfl rfl rfl rfl rfl (by decide!) (by decide!),
   (C34_normalized_mean_square sqrtQ).2.2 twoPixelsStats.1 twoPixelsStats.2.1
      twoPixelsStats.2.2 twoPixels [[1, 1]] [-7401713 / 8388608, 462607 / 524288]
      [8138145 / 33554432, 16276291 / 67108864] (by decide) (by decide!) (by decide!)
      (by decide)
      (by
        intro x hx
        simp only [List.mem_cons, List.mem_singleton, List.not_mem_nil, or_false] at hx
        rcases hx with rfl | rfl
        · exact Or.inr ⟨by rw [abs_of_neg (by norm_num)]; norm_num,
            by rw [abs_of_neg (by norm_num)]; norm_num⟩
        · exact Or.inr ⟨by rw [abs_of_pos (by norm_num)]; norm_num,
            by rw [abs_of_pos (by norm_num)]; norm_num⟩)
      (by
        intro y hy
        simp only [List.mem_cons, List.mem_singleton, List.not_mem_nil, or_false] at hy
        rcases hy with rfl | rfl
        · exact Or.inr ⟨by rw [abs_of_pos (by norm_num)]; norm_num,
            by rw [abs_of_pos (by norm_num)]; norm_num⟩
        · exact Or.inr ⟨by rw [abs_of_pos (by norm_num)]; norm_num,
            by rw [abs_of_pos (by norm_num)]; norm_num⟩)
      ⟨462607 / 524288, by simp, by norm_num⟩
      ⟨8138145 / 33554432, by simp, by norm_num⟩⟩

/-- C34, as stated, fails on the values that the code returns: training on
`twoPixels` with both pixels selected gives the variations 0.8823529 and
0.24253562, both non-zero; the normalized brightness distortions of the two
training pixels are `-(1 + 2^-23)` and `1 - 2^-24`, the normalized chromaticity
distortions 1 and `1 + 2^-23`, and the means of their squares are above 1. -/
theorem C34_normalized_unit_rms_counterexample :
    ieee.computeVariations twoPixelsStats.1 twoPixelsStats.2.1 twoPixelsStats.2.2
        twoPixels [[1, 1]]
      = some (.fin (14803425 / 16777216), .fin (8138145 / 33554432)) ∧
    (selectedPixels twoPixels [[1, 1]]).map
        (ieee.normalizedPixel twoPixelsStats.1 twoPixelsStats.2.1 twoPixelsStats.2.2
          (.fin (14803425 / 16777216)) (.fin (8138145 / 33554432)))
      = [(.fin (-8388609 / 8388608), .fin 1), (.fin (16777215 / 16777216),
          .fin (8388609 / 8388608))] ∧
    meanSquare [Flt.fin (-8388609 / 8388608), Flt.fin (16777215 / 16777216)]
      = .fin (562949986975749 / 562949953421312) ∧
    Flt.fin (562949986975749 / 562949953421312) ≠ Flt.fin 1 ∧
    meanSquare [Flt.fin 1, Flt.fin (8388609 / 8388608)]
      = .fin (140737505132545 / 140737488355328) ∧
    Flt.fin (140737505132545 / 140737488355328) ≠ Flt.fin 1 := by
  refine ⟨?_, ?_, ?_, ?_, ?_, ?_⟩ <;> decide!

/-! ## The ranks under the documented precondition -/

/-- C35: for a detection rate `r` with `0 < r < 1` and a distribution of
`M >= 1` values, the two ranks computed by `selectThresholdMatrix` are
`floor((1-r)*M)` and `floor(r*M)` and both lie in `[0, M-1]`; the two reads of
the sorted array succeed at these ranks, with no clamping. -/
theorem C35_ranks_in_bounds (r : ℚ) (hr0 : 0 < r) (hr1 : r < 1) :
    (∀ M : Nat, 1 ≤ M →
      ∃ i j : Nat, LCM.index_left (Flt.fin r) M = some (i : ℤ) ∧
        LCM.index_right (Flt.fin r) M = some (j : ℤ) ∧ i ≤ M - 1 ∧ j ≤ M - 1) ∧
    (∀ (oob : Flt) (mat : Mat Flt), 1 ≤ mat.flatten.length →
      ∃ (i j : Nat) (left right : Flt),
        LCM.index_left (Flt.fin r) mat.flatten.length = some (i : ℤ) ∧
        LCM.index_right (Flt.fin r) mat.flatten.length = some (j : ℤ) ∧
        i < mat.flatten.length ∧ j < mat.flatten.length ∧
        (LCM.stdSort (mat.flatten ++ [oob]))[i]? = some left ∧
        (LCM.stdSort (mat.flatten ++ [oob]))[j]? = some right ∧
        LCM.selectThresholdMatrix oob mat (Flt.fin r) = some (left, right)) := by
  have key : ∀ M : Nat, 1 ≤ M →
      ∃ i j : Nat, ⌊(1 - r) * (M : ℚ)⌋ = (i : ℤ) ∧ ⌊r * (M : ℚ)⌋ = (j : ℤ) ∧
        LCM.index_left (Flt.fin r) M = some (i : ℤ) ∧
        LCM.index_right (Flt.fin r) M = some (j : ℤ) ∧ i < M ∧ j < M := by
    intro M hM
    have hMq : (0 : ℚ) < (M : ℚ) := by exact_mod_cast hM
    have hl0 : (0 : ℚ) ≤ (1 - r) * (M : ℚ) := by nlinarith
    have hl1 : (1 - r) * (M : ℚ) < (M : ℚ) := by nlinarith
    have hq0 : (0 : ℚ) ≤ r * (M : ℚ) := by nlinarith
    have hq1 : r * (M : ℚ) < (M : ℚ) := by nlinarith
    have hi0 : 0 ≤ ⌊(1 - r) * (M : ℚ)⌋ := Int.floor_nonneg.mpr hl0
    have hj0 : 0 ≤ ⌊r * (M : ℚ)⌋ := Int.floor_nonneg.mpr hq0
    have hi1 : ⌊(1 - r) * (M : ℚ)⌋ < (M : ℤ) := Int.floor_lt.mpr (by exact_mod_cast hl1)
    have hj1 : ⌊r * (M : ℚ)⌋ < (M : ℤ) := Int.floor_lt.mpr (by exact_mod_cast hq1)
    refine ⟨⌊(1 - r) * (M : ℚ)⌋.toNat, ⌊r * (M : ℚ)⌋.toNat,
      (Int.toNat_of_nonneg hi0).symm, (Int.toNat_of_nonneg hj0).symm, ?_, ?_, by omega, by omega⟩
    · simp only [LCM.index_left, Flt.ofNat_eq, Nat.cast_one, Flt.natCast_eq, Flt.fin_sub,
        Flt.fin_mul, LCM.toInt_fin_nonneg _ hl0, Int.toNat_of_nonneg hi0]
    · simp only [LCM.index_right, Flt.natCast_eq, Flt.fin_mul, LCM.toInt_fin_nonneg _ hq0,
        Int.toNat_of_nonneg hj0]
  constructor
  · intro M hM
    obtain ⟨i, j, _, _, hi, hj, hib, hjb⟩ := key M hM
    exact ⟨i, j, hi, hj, by omega, by omega⟩
  · intro oob mat hM
    obtain ⟨i, j, hfi, hfj, hi, hj, hib, hjb⟩ := key _ hM
    have hlen : (LCM.stdSort (mat.flatten ++ [oob])).length = mat.flatten.length + 1 := by
      rw [stdSort_length, List.length_append, List.length_singleton]
    have hib2 : i < (LCM.stdSort (mat.flatten ++ [oob])).length := by omega
    have hjb2 : j < (LCM.stdSort (mat.flatten ++ [oob])).length := by omega
    exact ⟨i, j, _, _, hi, hj, hib, hjb, List.getElem?_eq_getElem hib2,
      List.getElem?_eq_getElem hjb2,
      LCM.selectThresholdMatrix_ranks oob mat r hr0.le hr1.le i j hfi hfj _ _
        (List.getElem?_eq_getElem hib2) (List.getElem?_eq_getElem hjb2)⟩

theorem C35_ranks_in_bounds_witness :
    (∃ i j : Nat, LCM.index_left (Flt.fin (9 / 10)) 3 = some (i : ℤ) ∧
        LCM.index_right (Flt.fin (9 / 10)) 3 = some (j : ℤ) ∧ i ≤ 3 - 1 ∧ j ≤ 3 - 1) ∧
    (∃ (i j : Nat) (left right : Flt),
        LCM.index_left (Flt.fin (9 / 10))
          (List.flatten [[Flt.fin 1, Flt.fin 2, Flt.fin 3]]).length = some (i : ℤ) ∧
        LCM.index_right (Flt.fin (9 / 10))
          (List.flatten [[Flt.fin 1, Flt.fin 2, Flt.fin 3]]).length = some (j : ℤ) ∧
        i < (List.flatten [[Flt.fin 1, Flt.fin 2, Flt.fin 3]]).length ∧
        j < (List.flatten [[Flt.fin 1, Flt.fin 2, Flt.fin 3]]).length ∧
        (LCM.stdSort (List.flatten [[Flt.fin 1, Flt.fin 2, Flt.fin 3]] ++ [Flt.fin 0]))[i]?
          = some left ∧
        (LCM.stdSort (List.flatten [[Flt.fin 1, Flt.fin 2, Flt.fin 3]] ++ [Flt.fin 0]))[j]?
          = some right ∧
        LCM.selectThresholdMatrix (Flt.fin 0) [[Flt.fin 1, Flt.fin 2, Flt.fin 3]]
          (Flt.fin (9 / 10)) = some (left, right)) :=
  ⟨(C35_ranks_in_bounds (9 / 10) (by norm_num) (by norm_num)).1 3 (by decide),
   (C35_ranks_in_bounds (9 / 10) (by norm_num) (by norm_num)).2 (Flt.fin 0)
     [[Flt.fin 1, Flt.fin 2, Flt.fin 3]] (by decide)⟩

end had
